import Mathlib

/-!
# stajson: a shallow embedding of the value model, the encoders and the decoders

The development follows `stajson.h` and `stajson.cc`.

* A `char` is a byte, kept as a natural number below 256; a `std::string` is a
  list of bytes.  Character constants of the source appear as their ASCII code
  with the character in a comment.  Plain `char` is signed, as on x86 and x86-64.
* A `double` is an IEEE-754 binary64 datum given by its three fields; `printf` and
  `strtod` convert exactly and round to nearest, ties to even, as glibc does.
* `std::vector<JSON>` is a list; `std::map<std::string,JSON>` is an association
  list kept in strictly ascending key order by the operations that build it.
* A function that can throw returns a result type with one constructor per
  outcome; exceptions are told apart by their class (`runtime_error`,
  `json_type_error`, `std::invalid_argument`, `std::out_of_range`).  The loops of
  the decoders are recursions on a fuel counter; the entry points supply twice the
  length of the input plus two, which suffices for the buffered decoder
  (`json_decode_at_ne_outOfFuel`).  A function that calls itself without end runs
  out of every amount of fuel.  The decoders are given a call stack with room for
  every nested call; `decodeLoopS` and `json_decode_stack` are the buffered decoder
  on a stack with room for a given number of nested calls.
* The locale the C library converts wide characters in is a parameter of the
  decoders.
-/

namespace Stajson

/-! ## Bytes and strings -/

/-- The bytes of an ASCII text, used to write buffers down readably. -/
def ascii (s : String) : List Nat := s.toList.map Char.toNat

/-- The value of a `char` on a platform whose plain `char` is signed (x86, x86-64):
bytes 0x80..0xFF are the negative numbers -128..-1. -/
def charValue (b : Nat) : Int := if b < 128 then (b : Int) else (b : Int) - 256

/-- The cast `(unsigned char) c`. -/
def toUnsignedChar (c : Int) : Nat := (c % 256).toNat

/-- The cast `(unsigned int) c` of a `char`, a 32-bit unsigned integer. -/
def toUnsignedInt (c : Int) : Nat := (c % 4294967296).toNat

/-- Binary logarithm by repeated halving, `k` halvings at most. -/
def log2From : Nat → Nat → Nat
  | 0, _ => 0
  | k + 1, n => if n < 2 then 0 else log2From k (n / 2) + 1

/-- Position of the highest bit set in `n`: the `e` with `2 ^ e ≤ n < 2 ^ (e + 1)`, and 0
for `n = 0`. -/
def log2 (n : Nat) : Nat := log2From n n

/-- Lower-case hexadecimal digit as a byte. -/
def hexChar (d : Nat) : Nat := if d < 10 then 48 + d else 87 + d

/-- Hexadecimal digits of `n`, most significant first, at least `k + 1` positions being
looked at: the digits at positions `k .. 0`. -/
def hexDigitsFrom (n : Nat) : Nat → List Nat
  | 0 => [hexChar (n % 16)]
  | k + 1 => hexChar (n / 16 ^ (k + 1) % 16) :: hexDigitsFrom n k

/-- Number of hexadecimal digits of `n` (1 for 0). -/
def hexLen (n : Nat) : Nat := log2 n / 4 + 1

/-- Conversion of an unsigned integer in lower-case hexadecimal, zero padded on the left
to at least `w` digits: what `%.4x` (with `w = 4`) prints, and what an `ostream` with
flags `hex | right`, width `w` and fill `'0'` prints. -/
def fmtHex (w n : Nat) : List Nat := hexDigitsFrom n (max w (hexLen n) - 1)

/-! ## Doubles -/

/-- An IEEE-754 binary64 datum: sign bit, 11-bit biased exponent, 52-bit fraction. -/
structure Double where
  sign : Bool
  expo : Nat
  frac : Nat
deriving DecidableEq, Repr

namespace Double

def isNaN (d : Double) : Bool := d.expo = 2047 ∧ d.frac ≠ 0
def isInf (d : Double) : Bool := d.expo = 2047 ∧ d.frac = 0
def isZero (d : Double) : Bool := d.expo = 0 ∧ d.frac = 0
def isFinite (d : Double) : Bool := d.expo < 2047

/-- Integer significand of a finite double. -/
def sig (d : Double) : Nat := if d.expo = 0 then d.frac else 2 ^ 52 + d.frac

/-- Numerator of the magnitude of a finite double. -/
def num (d : Double) : Nat := d.sig * 2 ^ (max d.expo 1 - 1075)

/-- Denominator of the magnitude of a finite double: `|d| = num / den`. -/
def den (d : Double) : Nat := 2 ^ (1075 - max d.expo 1)

/-- The comparison `a == b` of two doubles: false when either is a NaN, true for two
zeros of any sign, otherwise equality of the data. -/
def eq (a b : Double) : Bool :=
  if a.isNaN || b.isNaN then false
  else if a.isZero && b.isZero then true
  else decide (a = b)

/-- The double holding the integer `n`, for `n < 2 ^ 53`. -/
def ofNat (n : Nat) : Double :=
  if n = 0 then ⟨false, 0, 0⟩
  else ⟨false, 1023 + log2 n, n * 2 ^ (52 - log2 n) - 2 ^ 52⟩

def nan : Double := ⟨false, 2047, 2 ^ 51⟩
def inf : Double := ⟨false, 2047, 0⟩

end Double

/-! ## Decimal conversions of the C library -/

/-- Round the rational `n / d` to the nearest integer, ties to even. -/
def roundHalfEven (n d : Nat) : Nat :=
  let q := n / d
  let r := n % d
  if 2 * r > d ∨ (2 * r = d ∧ q % 2 = 1) then q + 1 else q

/-- Whether `10 ^ x ≤ n / d`, for an integer `x`. -/
def pow10Le (x : Int) (n d : Nat) : Bool :=
  if 0 ≤ x then 10 ^ x.toNat * d ≤ n else d ≤ n * 10 ^ (-x).toNat

/-- First exponent `x` at or above `x0` (trying `k + 1` of them) with
`n / d < 10 ^ (x + 1)`. -/
def dexpFrom (n d : Nat) : Nat → Int → Int
  | 0, x => x
  | k + 1, x => if pow10Le (x + 1) n d then dexpFrom n d k (x + 1) else x

/-- Decimal exponent of a positive rational: the `x` with `10 ^ x ≤ n / d < 10 ^ (x + 1)`.
The search starts from an under-estimate obtained from the binary logarithms. -/
def dexp (n d : Nat) : Int :=
  dexpFrom n d 4 ((((log2 n : Int) - (log2 d : Int) - 1) * 30103) / 100000 - 1)

/-- The rational `n / d` scaled by `10 ^ (p - 1 - x)` and rounded to an integer. -/
def scaledDigits (p : Nat) (x : Int) (n d : Nat) : Nat :=
  if x ≤ (p : Int) - 1 then roundHalfEven (n * 10 ^ ((p : Int) - 1 - x).toNat) d
  else roundHalfEven n (d * 10 ^ (x - ((p : Int) - 1)).toNat)

/-- The `p` decimal digits of `m`, most significant first, as bytes. -/
def decDigits (m : Nat) : Nat → List Nat
  | 0 => []
  | k + 1 => (48 + m / 10 ^ k % 10) :: decDigits m k

/-- Decimal digits of `m` put in front of `acc`, with `k` divisions by ten at most. -/
def decNatFrom : Nat → Nat → List Nat → List Nat
  | 0, _, acc => acc
  | k + 1, m, acc =>
    if m < 10 then (48 + m) :: acc else decNatFrom k (m / 10) ((48 + m % 10) :: acc)

/-- Decimal digits of `m` without leading zeros (`0` gives one digit). -/
def decNat (m : Nat) : List Nat := decNatFrom (m + 1) m []

/-- Remove the zeros at the end of a digit string. -/
def stripZeros (l : List Nat) : List Nat := (l.reverse.dropWhile (· = 48)).reverse

/-- A decimal point followed by the fraction digits without their trailing zeros; nothing
when no digit remains. -/
def fracPart (l : List Nat) : List Nat :=
  if stripZeros l = [] then [] else 46 :: stripZeros l

/-- Exponent suffix of the `e` style: `e`, a sign, at least two digits. -/
def expPart (x : Int) : List Nat :=
  101 :: (if x < 0 then 45 else 43) ::
    (if x.natAbs < 10 then 48 :: decNat x.natAbs else decNat x.natAbs)

/-- The digits `m` (`p` of them) laid out for the decimal exponent `x`: style `f` when
`-4 ≤ x < p`, style `e` otherwise, trailing zeros of the fraction removed. -/
def layout (p : Nat) (x : Int) (m : Nat) : List Nat :=
  let ds := decDigits m p
  if -4 ≤ x ∧ x < (p : Int) then
    if 0 ≤ x then ds.take (x.toNat + 1) ++ fracPart (ds.drop (x.toNat + 1))
    else 48 :: 46 :: (List.replicate ((-x).toNat - 1) 48 ++ stripZeros ds)
  else ds.take 1 ++ fracPart (ds.drop 1) ++ expPart x

/-- The `%.{p}g` conversion of the magnitude `n / d > 0` (no `#` flag): `p` significant
digits after rounding, the decimal exponent being the one of the rounded value. -/
def fmtMag (p : Nat) (n d : Nat) : List Nat :=
  let x0 := dexp n d
  let m0 := scaledDigits p x0 n d
  if m0 = 10 ^ p then layout p (x0 + 1) (10 ^ (p - 1)) else layout p x0 m0

/-- The `%.{p}g` conversion of a double, for `p ≥ 1` (glibc `printf` in the default
rounding mode). -/
def fmt_g (p : Nat) (v : Double) : List Nat :=
  (if v.sign then [45] else []) ++
    (if v.isNaN then [110, 97, 110]           -- nan
     else if v.isInf then [105, 110, 102]     -- inf
     else if v.isZero then [48]               -- 0
     else fmtMag p v.num v.den)

/-- The text of `json_fmt("%.15g", v)`. -/
def fmt_15g (v : Double) : List Nat := fmt_g 15 v

/-- The `%d` conversion of `printf` when the argument passed is the 64-bit value `v` of a
`ptrdiff_t`, as in `json_fmt("%d: ...", pos-in.begin())` (x86-64): `%d` takes an `int`,
and prints the low 32 bits of `v` as one, so that values from `2 ^ 31` on are not printed
as they are. -/
def fmt_d (v : Nat) : List Nat :=
  let w := v % 2 ^ 32
  if w < 2 ^ 31 then decNat w else 45 :: decNat (2 ^ 32 - w)

/-- Whether `2 ^ x ≤ n / d`, for an integer `x`. -/
def pow2Le (x : Int) (n d : Nat) : Bool :=
  if 0 ≤ x then 2 ^ x.toNat * d ≤ n else d ≤ n * 2 ^ (-x).toNat

/-- The double nearest to the rational `± n / d` (ties to even; overflow gives an
infinity, underflow goes through the subnormal numbers to zero). -/
def roundToDouble (neg : Bool) (n d : Nat) : Double :=
  if n = 0 then ⟨neg, 0, 0⟩
  else
    let e0 : Int := (log2 n : Int) - (log2 d : Int)
    let e : Int := if pow2Le e0 n d then e0 else e0 - 1
    let q : Int := max (e - 52) (-1074)
    let m : Nat := if 0 ≤ q then roundHalfEven n (d * 2 ^ q.toNat)
                   else roundHalfEven (n * 2 ^ (-q).toNat) d
    let t : Nat := (q + 1074).toNat * 2 ^ 52 + m
    if 2047 ≤ t / 2 ^ 52 then ⟨neg, 2047, 0⟩ else ⟨neg, t / 2 ^ 52, t % 2 ^ 52⟩

/-- The character class `isspace` in the "C" locale. -/
def isspace (c : Nat) : Bool := c = 32 ∨ (9 ≤ c ∧ c ≤ 13)

def isDigit (c : Nat) : Bool := 48 ≤ c ∧ c ≤ 57

/-- Value of a string of decimal digits. -/
def digitsVal (l : List Nat) : Nat := l.foldl (fun a c => 10 * a + (c - 48)) 0

/-- An optional sign: whether it is a minus, and the number of bytes it takes. -/
def signOf (s : List Nat) : Bool × Nat :=
  match s with
  | 45 :: _ => (true, 1)     -- '-'
  | 43 :: _ => (false, 1)    -- '+'
  | _ => (false, 0)

/-- The exponent part `e[+-]digits` at the head of `s`: its value and its length; an
`e` that no digit follows is not part of the number. -/
def expOf (s : List Nat) : Int × Nat :=
  match s with
  | c :: r =>
    if c = 101 ∨ c = 69 then      -- 'e' 'E'
      let sg := signOf r
      let ds := (r.drop sg.2).takeWhile isDigit
      if ds = [] then (0, 0)
      else ((if sg.1 then -(digitsVal ds : Int) else (digitsVal ds : Int)), 1 + sg.2 + ds.length)
    else (0, 0)
  | [] => (0, 0)

/-- The decimal floating-point form at the head of `s` (after the sign): integer digits,
optional point and fraction digits, optional exponent.  Gives the magnitude as
`n / d` and the number of bytes of the form; `none` when there is no digit. -/
def decimalOf (s : List Nat) : Option (Nat × Nat × Nat) :=
  let ip := s.takeWhile isDigit
  let r1 := s.drop ip.length
  let hasPoint : Bool := r1.head? = some 46      -- '.'
  let fp := if hasPoint then (r1.drop 1).takeWhile isDigit else []
  if ip = [] ∧ fp = [] then none
  else
    let len1 := ip.length + (if hasPoint then 1 + fp.length else 0)
    let ex := expOf (s.drop len1)
    let e : Int := ex.1 - (fp.length : Int)
    let m := digitsVal (ip ++ fp)
    some (if 0 ≤ e then m * 10 ^ e.toNat else m, if 0 ≤ e then 1 else 10 ^ (-e).toNat,
          len1 + ex.2)

/-- Value of a hexadecimal digit of either case. -/
def hexVal (c : Nat) : Option Nat :=
  if 48 ≤ c ∧ c ≤ 57 then some (c - 48)
  else if 97 ≤ c ∧ c ≤ 102 then some (c - 87)
  else if 65 ≤ c ∧ c ≤ 70 then some (c - 55)
  else none

def isHexDigit (c : Nat) : Bool := (hexVal c).isSome

/-- Value of a string of hexadecimal digits. -/
def hexDigitsVal (l : List Nat) : Nat := l.foldl (fun a c => 16 * a + (hexVal c).getD 0) 0

/-- The binary exponent part `p[+-]digits` at the head of `s`: its value and its length. -/
def binExpOf (s : List Nat) : Int × Nat :=
  match s with
  | c :: r =>
    if c = 112 ∨ c = 80 then      -- 'p' 'P'
      let sg := signOf r
      let ds := (r.drop sg.2).takeWhile isDigit
      if ds = [] then (0, 0)
      else ((if sg.1 then -(digitsVal ds : Int) else (digitsVal ds : Int)), 1 + sg.2 + ds.length)
    else (0, 0)
  | [] => (0, 0)

/-- The hexadecimal floating-point form `0x h.h p±d` at the head of `s` (after the sign):
the magnitude as `n / d` and the number of bytes of the form; `none` when `0x` or a
hexadecimal digit after it is missing. -/
def hexFloatOf (s : List Nat) : Option (Nat × Nat × Nat) :=
  match s with
  | 48 :: x :: r =>
    if x = 120 ∨ x = 88 then     -- 'x' 'X'
      let ip := r.takeWhile isHexDigit
      let r1 := r.drop ip.length
      let hasPoint : Bool := r1.head? = some 46
      let fp := if hasPoint then (r1.drop 1).takeWhile isHexDigit else []
      if ip = [] ∧ fp = [] then none
      else
        let len1 := 2 + ip.length + (if hasPoint then 1 + fp.length else 0)
        let ex := binExpOf (s.drop len1)
        let e : Int := ex.1 - 4 * (fp.length : Int)
        let m := hexDigitsVal (ip ++ fp)
        some (if 0 ≤ e then m * 2 ^ e.toNat else m, if 0 ≤ e then 1 else 2 ^ (-e).toNat,
              len1 + ex.2)
    else none
  | _ => none

/-- Lower-case form of an ASCII letter. -/
def toLower (c : Nat) : Nat := if 65 ≤ c ∧ c ≤ 90 then c + 32 else c

/-- A character of an `n-char-sequence`: a digit, a letter or `_`. -/
def isNChar (c : Nat) : Bool := isDigit c ∨ (65 ≤ c ∧ c ≤ 90) ∨ (97 ≤ c ∧ c ≤ 122) ∨ c = 95

def isOctDigit (c : Nat) : Bool := 48 ≤ c ∧ c ≤ 55

/-- Value of a string of octal digits. -/
def octDigitsVal (l : List Nat) : Nat := l.foldl (fun a c => 8 * a + (c - 48)) 0

/-- The call `strtoull(str, &endp, 0)` that glibc's `strtod` makes on the
`n-char-sequence` `s` of `nan(n-char-sequence)`: the value converted, `ULLONG_MAX` at
most, when the conversion ends where the sequence ends, and `none` when it ends before.
The base is 16 after `0x` or `0X`, 8 after another `0`, and 10 otherwise; from the empty
sequence nothing is converted, the value is 0 and the end is that of the sequence. -/
def nanPayload (s : List Nat) : Option Nat :=
  match s with
  | [] => some 0
  | [48] => some 0
  | 48 :: x :: r =>
    if x = 120 ∨ x = 88 then      -- 'x' 'X'
      if r ≠ [] ∧ r.all isHexDigit then some (min (hexDigitsVal r) (2 ^ 64 - 1)) else none
    else if (x :: r).all isOctDigit then some (min (octDigitsVal (x :: r)) (2 ^ 64 - 1))
    else none
  | c :: r =>
    if (c :: r).all isDigit then some (min (digitsVal (c :: r)) (2 ^ 64 - 1)) else none

/-- The forms `inf`, `infinity`, `nan` and `nan(n-char-sequence)` (any case) at the head
of `s`, as glibc reads them.  After `nan`, a parenthesis that opens an `n-char-sequence`
and its closing parenthesis are part of the form, and when `strtoull` converts the whole
sequence the low 51 bits of the number are the payload of the quiet NaN returned; when
the closing parenthesis is missing the form is `nan` alone. -/
def specialOf (neg : Bool) (s : List Nat) : Option (Double × Nat) :=
  let l := s.map toLower
  if l.take 8 = [105, 110, 102, 105, 110, 105, 116, 121] then some (⟨neg, 2047, 0⟩, 8)
  else if l.take 3 = [105, 110, 102] then some (⟨neg, 2047, 0⟩, 3)
  else if l.take 3 = [110, 97, 110] then
    match s.drop 3 with
    | 40 :: r =>                                        -- '('
      let seq := r.takeWhile isNChar
      if (r.drop seq.length).head? = some 41 then       -- ')'
        some (⟨neg, 2047, 2 ^ 51 + (nanPayload seq).getD 0 % 2 ^ 51⟩, 3 + 1 + seq.length + 1)
      else some (⟨neg, 2047, 2 ^ 51⟩, 3)
    | _ => some (⟨neg, 2047, 2 ^ 51⟩, 3)
  else none

/-- The C library function `strtod` on a C string without NUL, in the "C" locale and
the default rounding mode: the converted value and the number of bytes consumed
(`endp - startp`; 0 when no conversion is performed).  Leading white space and a
sign are skipped; the hexadecimal form, the decimal form and the forms `inf`,
`infinity`, `nan` and `nan(n-char-sequence)` are recognised.  The result is correctly
rounded, as in glibc. -/
def strtod (s : List Nat) : Double × Nat :=
  let ws := (s.takeWhile isspace).length
  let s1 := s.drop ws
  let sg := signOf s1
  let s2 := s1.drop sg.2
  match (hexFloatOf s2).orElse (fun _ => decimalOf s2) with
  | some (n, d, len) => (roundToDouble sg.1 n d, ws + sg.2 + len)
  | none =>
    match specialOf sg.1 s2 with
    | some (v, len) => (v, ws + sg.2 + len)
    | none => (⟨false, 0, 0⟩, 0)

/-! ## The value model (`stajson.h`) -/

inductive JSONType where
  | JSON_NULL
  | JSON_BOOLEAN
  | JSON_NUMBER
  | JSON_STRING
  | JSON_ARRAY
  | JSON_OBJECT
deriving DecidableEq, Repr

/-- A `JSON` handle together with what it owns: the null pointer, or a `JSONBool`,
`JSONNumber`, `JSONString`, `JSONArray` (a `std::vector<JSON>`) or `JSONObject`
(a `std::map<std::string,JSON>`, listed in iteration order). -/
inductive JSON where
  | null
  | boolean (v : Bool)
  | number (v : Double)
  | string (v : List Nat)
  | array (v : List JSON)
  | object (v : List (List Nat × JSON))

/-- The entries of a `std::map<std::string,JSON>` in iteration order. -/
abbrev JSONObject := List (List Nat × JSON)

/-- The elements of a `std::vector<JSON>`. -/
abbrev JSONArray := List JSON

namespace JSON

def type : JSON → JSONType
  | null => .JSON_NULL
  | boolean _ => .JSON_BOOLEAN
  | number _ => .JSON_NUMBER
  | string _ => .JSON_STRING
  | array _ => .JSON_ARRAY
  | object _ => .JSON_OBJECT

end JSON

/-! ### Structural equality of values -/

mutual
/-- Structural equality test on values. -/
def JSON.beq : JSON → JSON → Bool
  | .null, .null => true
  | .boolean a, .boolean b => a == b
  | .number a, .number b => a == b
  | .string a, .string b => a == b
  | .array a, .array b => JSON.beqArray a b
  | .object a, .object b => JSON.beqObject a b
  | _, _ => false
def JSON.beqArray : List JSON → List JSON → Bool
  | [], [] => true
  | x :: xs, y :: ys => JSON.beq x y && JSON.beqArray xs ys
  | _, _ => false
def JSON.beqObject : List (List Nat × JSON) → List (List Nat × JSON) → Bool
  | [], [] => true
  | (k, x) :: xs, (l, y) :: ys => k == l && JSON.beq x y && JSON.beqObject xs ys
  | _, _ => false
end

/-- The comparison `a < b` of two `std::string`s: lexicographic on the bytes taken as
unsigned, a proper prefix being smaller. -/
def string_lt : List Nat → List Nat → Bool
  | [], [] => false
  | [], _ :: _ => true
  | _ :: _, [] => false
  | a :: as, b :: bs => a < b || (a = b && string_lt as bs)

/-! ### `operator==` -/

mutual
/-- The function `operator==(const JSON&, const JSON&)`. -/
def JSON.eq : JSON → JSON → Bool
  | .null, .null => true
  | .boolean a, .boolean b => a == b
  | .number a, .number b => Double.eq a b
  | .string a, .string b => a == b
  | .array a, .array b => JSON.eqArray a b
  | .object a, .object b => JSON.eqObject a b
  | _, _ => false
/-- The function `JSONArray::operator==`, equality of two `std::vector<JSON>`: same size
and equal elements. -/
def JSON.eqArray : List JSON → List JSON → Bool
  | [], [] => true
  | x :: xs, y :: ys => JSON.eq x y && JSON.eqArray xs ys
  | _, _ => false
/-- The function `JSONObject::operator==`, equality of two `std::map<std::string,JSON>`:
same size and pairwise equal keys and values in iteration order. -/
def JSON.eqObject : List (List Nat × JSON) → List (List Nat × JSON) → Bool
  | [], [] => true
  | (k, x) :: xs, (l, y) :: ys => k == l && JSON.eq x y && JSON.eqObject xs ys
  | _, _ => false
end

/-! ### `JSONObject::operator[]` -/

namespace JSONObject

/-- The map after `operator[](k)` has been evaluated: a missing key is added, mapped to
a default-constructed (null) `JSON`, at its place in the key order. -/
def touch (k : List Nat) : JSONObject → JSONObject
  | [] => [(k, JSON.null)]
  | (l, x) :: o =>
    if l = k then (l, x) :: o
    else if string_lt k l then (k, JSON.null) :: (l, x) :: o
    else (l, x) :: touch k o

/-- Assignment of `v` to the entry a reference to which `operator[](k)` returned. -/
def assign (k : List Nat) (v : JSON) : JSONObject → JSONObject
  | [] => []
  | (l, x) :: o => if l = k then (l, v) :: o else (l, x) :: assign k v o

/-- The statement `o[k] = v`. -/
def set (o : JSONObject) (k : List Nat) (v : JSON) : JSONObject :=
  assign k v (touch k o)

end JSONObject

/-- The object obtained from an empty `JSONObject` by the statements `o[k] = v` for the
pairs of `l` in turn. -/
def JSONObject.ofStores (l : List (List Nat × JSON)) : JSONObject :=
  l.foldl (fun o kv => JSONObject.set o kv.1 kv.2) []

/-- The entries are in strictly ascending order of key. -/
def JSONObject.sorted (o : JSONObject) : Prop :=
  o.Pairwise fun a b => string_lt a.1 b.1 = true

mutual
/-- Whether a NaN is stored in a Number somewhere in the value. -/
def JSON.hasNaN : JSON → Bool
  | .number v => v.isNaN
  | .array a => JSON.anyNaN a
  | .object o => JSON.anyNaNMember o
  | _ => false
def JSON.anyNaN : List JSON → Bool
  | [] => false
  | x :: xs => JSON.hasNaN x || JSON.anyNaN xs
def JSON.anyNaNMember : List (List Nat × JSON) → Bool
  | [] => false
  | (_, x) :: xs => JSON.hasNaN x || JSON.anyNaNMember xs
end

mutual
/-- Every `JSONObject` inside the value lists its entries in strictly ascending order of
key, the invariant of a `std::map`. -/
def JSON.wf : JSON → Prop
  | .array a => JSON.wfArray a
  | .object o => JSONObject.sorted o ∧ JSON.wfMember o
  | _ => True
def JSON.wfArray : List JSON → Prop
  | [] => True
  | x :: xs => JSON.wf x ∧ JSON.wfArray xs
def JSON.wfMember : List (List Nat × JSON) → Prop
  | [] => True
  | (_, x) :: xs => JSON.wf x ∧ JSON.wfMember xs
end

/-! ## Encoding to a `std::string` (`stajson.cc`) -/

/-- The function `json_encode(const JSONBool&, std::string&)`: the text appended. -/
def json_encode_bool (v : Bool) : List Nat :=
  if v then [116, 114, 117, 101] else [102, 97, 108, 115, 101]      -- true, false

/-- The function `json_encode(const JSONNumber&, std::string&)`: the text appended. -/
def json_encode_number (v : Double) : List Nat := fmt_15g v

/-- One iteration of the loop of `json_encode(const JSONString&, std::string&)`: the
text appended for the byte `c`. -/
def json_encode_char (c : Nat) : List Nat :=
  if c = 34 then [92, 34]            -- case '"':  \"
  else if c = 92 then [92, 92]       -- case '\\': \\
  else if c = 8 then [92, 98]        -- case '\b': \b
  else if c = 12 then [92, 102]      -- case '\f': \f
  else if c = 10 then [92, 110]      -- case '\n': \n
  else if c = 13 then [92, 114]      -- case '\r': \r
  else if c = 9 then [92, 116]       -- case '\t': \t
  else if charValue c < 32 then      -- s[i]<32
    [92, 117] ++ fmtHex 4 (toUnsignedChar (charValue c))    -- "\\u%.4x", (unsigned char)s[i]
  else [c]

/-- The function `json_encode(const JSONString&, std::string&)`: the text appended. -/
def json_encode_string (s : List Nat) : List Nat :=
  [34] ++ s.flatMap json_encode_char ++ [34]

mutual
/-- The function `json_encode(const JSON&, std::string&)`: the text appended. -/
def json_encode : JSON → List Nat
  | .null => [110, 117, 108, 108]                  -- null
  | .boolean v => json_encode_bool v
  | .number v => json_encode_number v
  | .string v => json_encode_string v
  | .array a => [91] ++ json_encode_elements true a ++ [93]       -- [ ... ]
  | .object o => [123] ++ json_encode_members true o ++ [125]     -- { ... }
/-- The loop of `json_encode(const JSONArray&, std::string&)`; `first` tells whether the
iterator is at `a.begin()`. -/
def json_encode_elements : Bool → List JSON → List Nat
  | _, [] => []
  | first, x :: xs =>
    (if first then [] else [44]) ++ json_encode x ++ json_encode_elements false xs
/-- The loop of `json_encode(const JSONObject&, std::string&)`; `first` tells whether the
iterator is at `o.begin()`. -/
def json_encode_members : Bool → List (List Nat × JSON) → List Nat
  | _, [] => []
  | first, (k, x) :: xs =>
    (if first then [] else [44]) ++ json_encode_string k ++ [58] ++ json_encode x
      ++ json_encode_members false xs
end

/-! ## Decoding from a `std::string` (`stajson.cc`) -/

/-- An exception leaving a function. -/
inductive Exn where
  /-- The exception `runtime_error(json_fmt("%d: ...", offset))` of the buffered decoder: the
  value of the offset `pos-in.begin()` handed to `json_fmt`, and the rest of the message.
  The text of the message is `Exn.what`: `json_fmt` prints the offset with `%d`. -/
  | syntaxAt (offset : Nat) (what : String)
  /-- The exception `runtime_error("...")` of the streamed decoder. -/
  | runtime (what : String)
  /-- The exception `json_type_error("...")`. -/
  | typeError (what : String)
  /-- The exception `std::invalid_argument(...)`, with the bytes of its message. -/
  | invalidArgument (what : List Nat)
  /-- The exception `std::out_of_range`, with the bytes of its message when the message is
  given in `stajson.h`, and `none` when the C++ library throws it (`std::vector::at`). -/
  | outOfRange (what : Option (List Nat))
deriving DecidableEq, Repr

/-- The text `what()` returns; `none` for the `std::out_of_range` of the C++ library, whose
text is not given in the sources.  In front of the message of a syntax error of the
buffered decoder stands what `%d` prints for the offset. -/
def Exn.what : Exn → Option (List Nat)
  | .syntaxAt offset w => some (fmt_d offset ++ ascii ": " ++ ascii w)
  | .runtime w => some (ascii w)
  | .typeError w => some (ascii w)
  | .invalidArgument w => some w
  | .outOfRange w => w

/-- What a call does: it returns, it throws, it reads outside the buffer it was given
(undefined behaviour), or the evaluation ran out of fuel (never the case for the
amounts of fuel the entry points of the decoders supply). -/
inductive Result (α : Type) where
  | ok (a : α)
  | throw (e : Exn)
  | undefined
  | outOfFuel
deriving DecidableEq

/-- The locale category `LC_CTYPE` in force: the "C" locale a program starts in, or a
UTF-8 locale selected with `setlocale`. -/
inductive Locale where
  | C
  | UTF8
deriving DecidableEq, Repr

/-- The call `wcstombs(mb, wc, 16)` of the C library for the wide string `wc` holding the
single wide character `hex` and then the terminator: `none` for the result
`(size_t)-1`, otherwise the bytes stored in `mb` before the terminator, whose count
is the result.  The wide character 0 is the terminator itself, so nothing is stored
for it. -/
def wcstombs (loc : Locale) (hex : Nat) : Option (List Nat) :=
  if hex = 0 then some []
  else if hex < 128 then some [hex]
  else match loc with
    | .C => none
    | .UTF8 =>
      if hex < 2048 then some [192 + hex / 64, 128 + hex % 64]
      else if 55296 ≤ hex ∧ hex < 57344 then none
      else if hex < 65536 then some [224 + hex / 4096, 128 + hex / 64 % 64, 128 + hex % 64]
      else if hex < 1114112 then
        some [240 + hex / 262144, 128 + hex / 4096 % 64, 128 + hex / 64 % 64, 128 + hex % 64]
      else none

/-- The values of `int state` the decoders use. -/
inductive State where
  | s0 | s4 | s5 | s6 | s7 | s8 | s9 | s10 | s11 | s12 | s14 | s15 | s17 | s18 | s19
  | s21 | s22 | s23 | s24
deriving DecidableEq, Repr

/-- The labels of the final `switch` that a `goto` jumps to. -/
inductive Label where
  | accept_null | accept_true | accept_false | accept_number | accept_string
  | accept_array | accept_object
deriving DecidableEq, Repr

/-- The local variables of the buffered `json_decode` (`pos` is kept apart). -/
structure Locals where
  state : State
  start : Nat
  str : List Nat
  array : JSONArray
  object : JSONObject
  key : JSON

/-- The local variables at the entry of `json_decode(in, start, out)`. -/
def Locals.init (start : Nat) : Locals :=
  { state := .s0, start := start, str := [], array := [], object := [], key := .null }

/-- What one pass through the body of the `for` loop ends with. -/
inductive Step where
  /-- The statement `break` out of the `switch`: the loop goes on with `++pos`. -/
  | next (pos : Nat) (l : Locals)
  /-- A `goto accept_...`. -/
  | goto (lbl : Label) (pos : Nat) (l : Locals)
  | throw (e : Exn)
  | undefined
  | outOfFuel

def isWs (c : Nat) : Bool := c = 32 ∨ c = 9 ∨ c = 13 ∨ c = 10     -- ' ' '\t' '\r' '\n'

def isDigit19 (c : Nat) : Bool := 49 ≤ c ∧ c ≤ 57                -- '1' .. '9'

/-- The test `in.end()-pos<n || strncmp(&*pos, lit, n)!=0` is false: the buffer holds the
literal `lit` at `pos`. -/
def litAt (inp : List Nat) (pos : Nat) (lit : List Nat) : Bool :=
  ¬ (inp.length - pos < lit.length) ∧ (inp.drop pos).take lit.length = lit

/-- The loop `for (i = 0 ; i < 4 ; ++i)` that reads the hexadecimal digits after `\u`,
with `n` iterations left: the values of `pos`, `hex` and `i` at the label `endhex`;
`none` when `*pos` is read at or beyond `in.end()`. -/
def hexLoop (inp : List Nat) : Nat → Nat → Nat → Nat → Option (Nat × Nat × Nat)
  | 0, pos, hex, i => some (pos, hex, i)
  | n + 1, pos, hex, i =>
    match inp[pos + 1]? with                          -- ++pos; ... switch (*pos)
    | none => none
    | some c =>
      match hexVal c with
      | some d => hexLoop inp n (pos + 1) (hex * 16 + d) (i + 1)
      | none => some (pos + 1, hex * 16, i)           -- hex *= 16; default: goto endhex

/-- The part of the final `switch` a `goto` label leads to, up to `return pos`. -/
def accept (inp : List Nat) (lbl : Label) (pos : Nat) (l : Locals) : Result (Nat × JSON) :=
  match lbl with
  | .accept_null => .ok (pos, .null)
  | .accept_true => .ok (pos, .boolean true)
  | .accept_false => .ok (pos, .boolean false)
  | .accept_number =>
    let s := (inp.drop l.start).take (pos - l.start)       -- in.substr(start-in.begin(),pos-start)
    if (strtod s).2 = 0 then .throw (.syntaxAt l.start "JSON number does not parse")
    else .ok (pos, .number (strtod s).1)
  | .accept_string => .ok (pos, .string l.str)
  | .accept_array => .ok (pos, .array l.array)
  | .accept_object => .ok (pos, .object l.object)

/-- The final `switch (state)` when the loop ends because `pos` reached `in.end()`. -/
def finish (inp : List Nat) (pos : Nat) (l : Locals) : Result (Nat × JSON) :=
  match l.state with
  | .s5 | .s6 | .s8 | .s11 => accept inp .accept_number pos l
  | _ => .throw (.syntaxAt pos "JSON invalid end of input")

/-- Continuation of a loop pass after a nested call `pos = json_decode(in, pos, x)-1` has
come back: `k p v` is the pass's end when the call returned `p` and stored `v` in `x`. -/
def afterCall (r : Result (Nat × JSON)) (k : Nat → JSON → Step) : Step :=
  match r with
  | .ok (p, v) => k p v
  | .throw e => .throw e
  | .undefined => .undefined
  | .outOfFuel => .outOfFuel

/-- The `case 'u'` of state 14 of the buffered decoder. -/
def stepU (loc : Locale) (inp : List Nat) (pos : Nat) (l : Locals) : Step :=
  if inp.length - pos < 4 then
    .throw (.syntaxAt pos "JSON syntax error: expected at least 4 characters after '\\u'")
  else
    match hexLoop inp 4 pos 0 0 with
    | none => .undefined
    | some (pos, hex, i) =>
      if i = 0 then .throw (.syntaxAt pos "JSON syntax error: no hex digits follow '\\u'")
      else
        match wcstombs loc hex with
        | none => .next pos { l with state := .s12 }
        | some mb => .next pos { l with str := l.str ++ mb, state := .s12 }

/-- One pass through the body of the `for` loop of the buffered
`json_decode(in, start, out)`, with `c = *pos`; `call p` is the nested call
`json_decode(in, p, x)`. -/
def step (loc : Locale) (inp : List Nat) (call : Nat → Result (Nat × JSON))
    (pos c : Nat) (l : Locals) : Step :=
  match l.state with
  | .s0 =>
    if isWs c then .next pos { l with start := l.start + 1 }
    else if c = 110 then         -- 'n'
      if litAt inp pos [110, 117, 108, 108] then .goto .accept_null (pos + 4) l
      else .throw (.syntaxAt pos "JSON syntax error: expected \"null\"")
    else if c = 102 then         -- 'f'
      if litAt inp pos [102, 97, 108, 115, 101] then .goto .accept_false (pos + 5) l
      else .throw (.syntaxAt pos "JSON syntax error: expected \"false\"")
    else if c = 116 then         -- 't'
      if litAt inp pos [116, 114, 117, 101] then .goto .accept_true (pos + 4) l
      else .throw (.syntaxAt pos "JSON syntax error: expected \"true\"")
    else if c = 45 then .next pos { l with state := .s4 }          -- '-'
    else if c = 48 then .next pos { l with state := .s6 }          -- '0'
    else if isDigit19 c then .next pos { l with state := .s5 }
    else if c = 34 then .next pos { l with str := [], state := .s12 }       -- '"'
    else if c = 91 then .next pos { l with array := [], state := .s15 }     -- '['
    else if c = 123 then .next pos { l with object := [], state := .s19 }   -- left brace
    else .throw (.syntaxAt pos "JSON syntax error: invalid token")
  | .s4 =>      -- after minus sign
    if isDigit19 c then .next pos { l with state := .s5 }
    else if c = 48 then .next pos { l with state := .s6 }
    else .throw (.syntaxAt pos "JSON syntax error: expected digit after minus sign")
  | .s5 =>      -- after first digit
    if isDigit c then .next pos l
    else if c = 46 then .next pos { l with state := .s7 }             -- '.'
    else if c = 69 ∨ c = 101 then .next pos { l with state := .s9 }   -- 'E' 'e'
    else .goto .accept_number pos l
  | .s6 =>      -- after zero first digit
    if c = 46 then .next pos { l with state := .s7 }
    else if c = 69 ∨ c = 101 then .next pos { l with state := .s9 }
    else .goto .accept_number pos l
  | .s7 =>      -- after decimal point
    if isDigit c then .next pos { l with state := .s8 }
    else .throw (.syntaxAt pos "JSON syntax error: expected digit after decimal point")
  | .s8 =>      -- after first decimal digit
    if isDigit c then .next pos l
    else if c = 69 ∨ c = 101 then .next pos { l with state := .s9 }
    else .goto .accept_number pos l
  | .s9 =>      -- after E
    if c = 43 ∨ c = 45 then .next pos { l with state := .s10 }        -- '+' '-'
    else if isDigit c then .next pos { l with state := .s11 }
    else .throw (.syntaxAt pos "JSON syntax error: expected digit after 'E'")
  | .s10 =>     -- after E+ or E-
    if isDigit c then .next pos { l with state := .s11 }
    else .throw (.syntaxAt pos "JSON syntax error: expected digit after 'E+' or 'E-'")
  | .s11 =>     -- after first exponent digit
    if isDigit c then .next pos l
    else .goto .accept_number pos l
  | .s12 =>     -- after opening quotes
    if c = 34 then .goto .accept_string (pos + 1) l                   -- '"'
    else if c = 92 then .next pos { l with state := .s14 }            -- '\\'
    else .next pos { l with str := l.str ++ [c] }
  | .s14 =>     -- after backslash
    if c = 34 ∨ c = 92 ∨ c = 47 then .next pos { l with str := l.str ++ [c], state := .s12 }
    else if c = 98 then .next pos { l with str := l.str ++ [8], state := .s12 }     -- 'b'
    else if c = 102 then .next pos { l with str := l.str ++ [12], state := .s12 }   -- 'f'
    else if c = 110 then .next pos { l with str := l.str ++ [10], state := .s12 }   -- 'n'
    else if c = 114 then .next pos { l with str := l.str ++ [13], state := .s12 }   -- 'r'
    else if c = 116 then .next pos { l with str := l.str ++ [9], state := .s12 }    -- 't'
    else if c = 117 then stepU loc inp pos l                                        -- 'u'
    else .throw (.syntaxAt pos "JSON syntax error: invalid backslash escape")
  | .s15 =>     -- after array start
    if isWs c then .next pos l
    else if c = 93 then .goto .accept_array (pos + 1) l               -- ']'
    else afterCall (call pos) fun p v =>
      .next (p - 1) { l with array := l.array ++ [v], state := .s17 }
  | .s17 =>     -- after array element
    if isWs c then .next pos l
    else if c = 44 then .next pos { l with state := .s18 }            -- ','
    else if c = 93 then .goto .accept_array (pos + 1) l
    else .throw (.syntaxAt pos
      "JSON syntax error: expected ',' or ']' after array element")
  | .s18 =>     -- after comma
    afterCall (call pos) fun p v =>
      .next (p - 1) { l with array := l.array ++ [v], state := .s17 }
  | .s19 =>     -- after object begin
    if isWs c then .next pos l
    else if c = 125 then .goto .accept_object (pos + 1) l             -- right brace
    else if c = 34 then
      afterCall (call pos) fun p v => .next (p - 1) { l with key := v, state := .s21 }
    else .throw (.syntaxAt pos
      "JSON syntax error: expected '\x7d' or '\"' after object start")
  | .s21 =>     -- after key
    if isWs c then .next pos l
    else if c = 58 then .next pos { l with state := .s22 }            -- ':'
    else .throw (.syntaxAt pos "JSON syntax error: expected ':' after object key")
  | .s22 =>
    match l.key with
    | .string k =>               -- (*object)[key.string()]
      afterCall (call pos) fun p v =>
        .next (p - 1) { l with object := JSONObject.set l.object k v, state := .s23 }
    | _ => .throw (.typeError "not a JSON string")
  | .s23 =>     -- after value
    if isWs c then .next pos l
    else if c = 44 then .next pos { l with state := .s24 }
    else if c = 125 then .goto .accept_object (pos + 1) l
    else .throw (.syntaxAt pos
      "JSON syntax error: expected ',' or '\x7d' after object key-value pair")
  | .s24 =>     -- after comma
    if isWs c then .next pos l
    else if c = 34 then
      afterCall (call pos) fun p v => .next (p - 1) { l with key := v, state := .s21 }
    else .throw (.syntaxAt pos "JSON syntax error: expected '\"' after comma in object")

/-- Whether the loop pass over the character `c` with the locals `l` makes the nested call
`json_decode(in, pos, x)`: for an array element (states 15 and 18), for an object key
(states 19 and 24, at a quote) or for a member value (state 22). -/
def callsAt (c : Nat) (l : Locals) : Bool :=
  match l.state with
  | .s15 => !isWs c && c != 93
  | .s18 => true
  | .s19 => !isWs c && c == 34
  | .s22 => match l.key with
    | .string _ => true
    | _ => false
  | .s24 => !isWs c && c == 34
  | _ => false

/-- The `for` loop of the buffered `json_decode(in, start, out)` from the test
`pos!=in.end()` on, followed by the final `switch`: the position returned and the
value stored in `out`.  Reading `*pos` with `pos` beyond `in.end()` is undefined.  The
call stack is taken to have room for every nested call; `decodeLoopS` is the loop on a
stack of a given size. -/
def decodeLoop (loc : Locale) (inp : List Nat) : Nat → Nat → Locals → Result (Nat × JSON)
  | 0, _, _ => .outOfFuel
  | fuel + 1, pos, l =>
    if pos = inp.length then finish inp pos l
    else
      match inp[pos]? with
      | none => .undefined
      | some c =>
        match step loc inp (fun p => decodeLoop loc inp fuel p (Locals.init p)) pos c l with
        | .next pos l => decodeLoop loc inp fuel (pos + 1) l
        | .goto lbl pos l => accept inp lbl pos l
        | .throw e => .throw e
        | .undefined => .undefined
        | .outOfFuel => .outOfFuel

/-- The function `json_decode(const std::string& in, std::string::const_iterator start,
JSON& out)`: the iterator returned (as an offset) and the value stored in `out`. -/
def json_decode_at (loc : Locale) (inp : List Nat) (start : Nat) : Result (Nat × JSON) :=
  decodeLoop loc inp (2 * (inp.length - start) + 2) start (Locals.init start)

/-- The loop of `json_decode(const std::string&, JSON&)` over what follows the value. -/
def trailing (inp : List Nat) : Nat → Nat → Option Exn
  | 0, _ => none
  | n + 1, p =>
    match inp[p]? with
    | none => none
    | some c => if isWs c then trailing inp n (p + 1)
                else some (.syntaxAt p "JSON syntax error")

/-- The function `void json_decode(const std::string& in, JSON& out)`: how the call ends,
and the content of `out` afterwards. -/
def json_decode_into (loc : Locale) (inp : List Nat) (out : JSON) : Result Unit × JSON :=
  match json_decode_at loc inp 0 with
  | .ok (p, v) =>
    match trailing inp (inp.length - p) p with
    | none => (.ok (), v)
    | some e => (.throw e, v)
  | .throw e => (.throw e, out)
  | .undefined => (.undefined, out)
  | .outOfFuel => (.outOfFuel, out)

/-- The function `JSON json_decode(const std::string& in)`. -/
def json_decode (loc : Locale) (inp : List Nat) : Result JSON :=
  match json_decode_into loc inp .null with
  | (.ok _, v) => .ok v
  | (.throw e, _) => .throw e
  | (.undefined, _) => .undefined
  | (.outOfFuel, _) => .outOfFuel

/-- The loop of the buffered `json_decode(in, start, out)` on a call stack that has room
for `frames` more frames of the function: each nested call `json_decode(in, pos, x)`
takes one frame for as long as it runs.  The result is `none` when a nested call finds
no room, and the program is killed (stack overflow); otherwise it is what the loop
does. -/
def decodeLoopS (loc : Locale) (inp : List Nat) :
    Nat → Nat → Nat → Locals → Option (Result (Nat × JSON))
  | _, 0, _, _ => some .outOfFuel
  | frames, fuel + 1, pos, l =>
    if pos = inp.length then some (finish inp pos l)
    else
      match inp[pos]? with
      | none => some .undefined
      | some c =>
        if callsAt c l then
          match frames with
          | 0 => none
          | k + 1 =>
            match decodeLoopS loc inp k fuel pos (Locals.init pos) with
            | none => none
            | some r =>
              match step loc inp (fun _ => r) pos c l with
              | .next pos l => decodeLoopS loc inp (k + 1) fuel (pos + 1) l
              | .goto lbl pos l => some (accept inp lbl pos l)
              | .throw e => some (.throw e)
              | .undefined => some .undefined
              | .outOfFuel => some .outOfFuel
        else
          match step loc inp (fun _ => .outOfFuel) pos c l with
          | .next pos l => decodeLoopS loc inp frames fuel (pos + 1) l
          | .goto lbl pos l => some (accept inp lbl pos l)
          | .throw e => some (.throw e)
          | .undefined => some .undefined
          | .outOfFuel => some .outOfFuel

/-- The function `JSON json_decode(const std::string& in)` on a call stack that has room
for `frames` nested calls of `json_decode(in, pos, x)` below the outermost one: `none`
when the stack overflows. -/
def json_decode_stack (loc : Locale) (frames : Nat) (inp : List Nat) : Option (Result JSON) :=
  match decodeLoopS loc inp frames (2 * (inp.length - 0) + 2) 0 (Locals.init 0) with
  | none => none
  | some (.ok (p, v)) =>
    match trailing inp (inp.length - p) p with
    | none => some (.ok v)
    | some e => some (.throw e)
  | some (.throw e) => some (.throw e)
  | some .undefined => some .undefined
  | some .outOfFuel => some .outOfFuel

/-! ## Encoding to a `std::ostream` (`stajson.cc`) -/

/-- An output stream: the characters written so far and the formatting state the
encoder touches. -/
structure OStream where
  text : List Nat
  /-- The flag `ios::hex` is set in `flags()`. -/
  hex : Bool
  /-- The flag `ios::left` is set in `flags()`. -/
  left : Bool
  width : Nat
  fill : Nat
  precision : Nat

namespace OStream

/-- A stream in the state `std::basic_ios::init` leaves it in, nothing written yet. -/
def fresh : OStream :=
  { text := [], hex := false, left := false, width := 0, fill := 32, precision := 6 }

/-- A formatted insertion of the characters `t`: they are padded with the fill character
to the field width, and the width is reset to 0. -/
def insert (o : OStream) (t : List Nat) : OStream :=
  let pad := List.replicate (o.width - t.length) o.fill
  { o with text := o.text ++ (if o.left then t ++ pad else pad ++ t), width := 0 }

/-- The insertion `out << n` of an `unsigned int`. -/
def insertUnsigned (o : OStream) (n : Nat) : OStream :=
  o.insert (if o.hex then fmtHex 1 n else decNat n)

/-- The insertion `out << v` of a `double` when neither `ios::fixed` nor
`ios::scientific` is set: the conversion `%.{precision}g`, a precision of 0 counting
as 1. -/
def insertDouble (o : OStream) (v : Double) : OStream :=
  o.insert (fmt_g (max o.precision 1) v)

end OStream

/-- The function `json_encode(const JSONBool&, ostream&)`. -/
def json_encode_bool_os (v : Bool) (out : OStream) : OStream :=
  out.insert (if v then [116, 114, 117, 101] else [102, 97, 108, 115, 101])

/-- The function `json_encode(const JSONNumber&, ostream&)`. -/
def json_encode_number_os (v : Double) (out : OStream) : OStream :=
  let out := { out with hex := false, left := false }      -- out.flags(ios::fmtflags())
  let out := { out with precision := 15 }                  -- out.precision(15)
  out.insertDouble v

/-- One iteration of the loop of `json_encode(const JSONString&, ostream&)`. -/
def json_encode_char_os (c : Nat) (out : OStream) : OStream :=
  if c = 34 then out.insert [92, 34]            -- case '"'
  else if c = 92 then out.insert [92, 92]       -- case '\\'
  else if c = 8 then out.insert [92, 98]        -- case '\b'
  else if c = 12 then out.insert [92, 102]      -- case '\f'
  else if c = 10 then out.insert [92, 110]      -- case '\n'
  else if c = 13 then out.insert [92, 114]      -- case '\r'
  else if c = 9 then out.insert [92, 116]       -- case '\t'
  else if charValue c < 32 then                 -- s[i]<32
    let out := { out with hex := true, left := false }     -- out.flags(ios::hex | ios::right)
    let out := { out with width := 4 }                     -- out.width(4)
    let out := { out with fill := 48 }                     -- out.fill('0')
    out.insertUnsigned (toUnsignedInt (charValue c))       -- out << (unsigned int)s[i]
  else out.insert [c]

/-- The function `json_encode(const JSONString&, ostream&)`. -/
def json_encode_string_os (s : List Nat) (out : OStream) : OStream :=
  (s.foldl (fun o c => json_encode_char_os c o) (out.insert [34])).insert [34]

mutual
/-- The function `json_encode(const JSON&, ostream&)`. -/
def json_encode_os : JSON → OStream → OStream
  | .null, out => out.insert [110, 117, 108, 108]
  | .boolean v, out => json_encode_bool_os v out
  | .number v, out => json_encode_number_os v out
  | .string v, out => json_encode_string_os v out
  | .array a, out => (json_encode_elements_os true a (out.insert [91])).insert [93]
  | .object o, out => (json_encode_members_os true o (out.insert [123])).insert [125]
/-- The loop of `json_encode(const JSONArray&, ostream&)`. -/
def json_encode_elements_os : Bool → List JSON → OStream → OStream
  | _, [], out => out
  | first, x :: xs, out =>
    json_encode_elements_os false xs
      (json_encode_os x (if first then out else out.insert [44]))
/-- The loop of `json_encode(const JSONObject&, ostream&)`. -/
def json_encode_members_os : Bool → List (List Nat × JSON) → OStream → OStream
  | _, [], out => out
  | first, (k, x) :: xs, out =>
    json_encode_members_os false xs
      (json_encode_os x
        ((json_encode_string_os k (if first then out else out.insert [44])).insert [58]))
end

/-! ## Decoding from a `std::istream` (`stajson.cc`) -/

/-- An input stream: the character sequence behind it, the read position, and whether
`good()` holds (no end-of-file or failure flag is set). -/
structure IStream where
  data : List Nat
  pos : Nat
  good : Bool
deriving DecidableEq, Repr

namespace IStream

/-- A stream about to deliver the characters `t`. -/
def ofText (t : List Nat) : IStream := { data := t, pos := 0, good := true }

/-- The call `in.get()`: the character read, if one is, and the stream afterwards.  At
the end of the sequence the end-of-file and failure flags are set. -/
def get (s : IStream) : Option Nat × IStream :=
  if s.good then
    match s.data[s.pos]? with
    | some c => (some c, { s with pos := s.pos + 1 })
    | none => (none, { s with good := false })
  else (none, s)

/-- The call `in.unget()`. -/
def unget (s : IStream) : IStream :=
  if s.good ∧ 0 < s.pos then { s with pos := s.pos - 1 } else { s with good := false }

/-- The characters not read yet. -/
def unread (s : IStream) : List Nat := s.data.drop s.pos

end IStream

/-- The local variables of the streamed `json_decode`. -/
structure SLocals where
  state : State
  str : List Nat
  array : JSONArray
  object : JSONObject
  key : JSON
  number : List Nat

def SLocals.init : SLocals :=
  { state := .s0, str := [], array := [], object := [], key := .null, number := [] }

/-- What one pass through the body of the `for` loop of the streamed decoder ends with,
and the stream at that point. -/
inductive SStep where
  | next (s : IStream) (l : SLocals)
  | goto (lbl : Label) (s : IStream) (l : SLocals)
  | throw (e : Exn) (s : IStream)
  | undefined (s : IStream)
  | outOfFuel

/-- The reads `c = in.get(); if (!in.good() || c!=...) throw ...` for the characters of
`lit` in turn: whether all of them matched, and the stream afterwards. -/
def expectLit : List Nat → IStream → Bool × IStream
  | [], s => (true, s)
  | ch :: lit, s =>
    match s.get with
    | (some c, s) => if c = ch then expectLit lit s else (false, s)
    | (none, s) => (false, s)

/-- The loop `for (i = 0 ; i < 4 ; ++i)` of the streamed decoder after `\u`, with `n`
iterations left: the stream, `hex` and `i` at the label `endhex`, or the stream at
the failed read. -/
def shexLoop : Nat → IStream → Nat → Nat → Except IStream (IStream × Nat × Nat)
  | 0, s, hex, i => .ok (s, hex, i)
  | n + 1, s, hex, i =>
    match s.get with
    | (none, s) => .error s
    | (some c, s) =>
      match hexVal c with
      | some d => shexLoop n s (hex * 16 + d) (i + 1)
      | none => .ok (s.unget, hex * 16, i)

/-- The part of the final `switch` of the streamed decoder a `goto` label leads to. -/
def saccept (lbl : Label) (s : IStream) (l : SLocals) : Result JSON × IStream :=
  match lbl with
  | .accept_null => (.ok .null, s)
  | .accept_true => (.ok (.boolean true), s)
  | .accept_false => (.ok (.boolean false), s)
  | .accept_number =>
    if (strtod l.number).2 = 0 then (.throw (.runtime "JSON number does not parse"), s)
    else (.ok (.number (strtod l.number).1), s)
  | .accept_string => (.ok (.string l.str), s)
  | .accept_array => (.ok (.array l.array), s)
  | .accept_object => (.ok (.object l.object), s)

/-- The final `switch (state)` of the streamed decoder when the loop ends because the
stream is no longer good. -/
def sfinish (s : IStream) (l : SLocals) : Result JSON × IStream :=
  match l.state with
  | .s5 | .s6 | .s8 | .s11 => saccept .accept_number s l
  | _ => (.throw (.runtime "JSON no token"), s)

/-- Continuation of a loop pass of the streamed decoder after a nested call
`json_decode(in, x)`. -/
def safterCall (r : Result JSON × IStream) (k : JSON → IStream → SStep) : SStep :=
  match r with
  | (.ok v, s) => k v s
  | (.throw e, s) => .throw e s
  | (.undefined, s) => .undefined s
  | (.outOfFuel, _) => .outOfFuel

/-- The `case 'u'` of state 14 of the streamed decoder. -/
def sstepU (loc : Locale) (s : IStream) (l : SLocals) : SStep :=
  match shexLoop 4 s 0 0 with
  | .error s =>
    .throw (.runtime "JSON syntax error: expected at least 4 characters after '\\u'") s
  | .ok (s, hex, i) =>
    if i = 0 then .throw (.runtime "JSON syntax error: no hex digits follow '\\u'") s
    else
      match wcstombs loc hex with
      | none => .next s { l with state := .s12 }
      | some mb => .next s { l with str := l.str ++ mb, state := .s12 }

/-- A key read by the streamed decoder: `if (key.type()!=JSON_STRING) throw ...`. -/
def skey (l : SLocals) (v : JSON) (s : IStream) : SStep :=
  if v.type ≠ .JSON_STRING then .throw (.runtime "JSON key not string") s
  else .next s { l with key := v, state := .s21 }

/-- One pass through the body of the `for` loop of `json_decode(std::istream&, JSON&)`,
the character `c` having been read; `call s` is the nested call
`json_decode(in, x)`. -/
def sstep (loc : Locale) (call : IStream → Result JSON × IStream)
    (s : IStream) (c : Nat) (l : SLocals) : SStep :=
  match l.state with
  | .s0 =>
    if isWs c then .next s l
    else if c = 110 then         -- 'n'
      match expectLit [117, 108, 108] s with
      | (true, s) => .goto .accept_null s l
      | (false, s) => .throw (.runtime "JSON syntax error: expected \"null\"") s
    else if c = 102 then         -- 'f'
      match expectLit [97, 108, 115, 101] s with
      | (true, s) => .goto .accept_false s l
      | (false, s) => .throw (.runtime "JSON syntax error: expected \"false\"") s
    else if c = 116 then         -- 't'
      match expectLit [114, 117, 101] s with
      | (true, s) => .goto .accept_true s l
      | (false, s) => .throw (.runtime "JSON syntax error: expected \"true\"") s
    else if c = 45 then .next s { l with number := l.number ++ [c], state := .s4 }
    else if c = 48 then .next s { l with number := l.number ++ [c], state := .s6 }
    else if isDigit19 c then .next s { l with number := l.number ++ [c], state := .s5 }
    else if c = 34 then .next s { l with str := [], state := .s12 }
    else if c = 91 then .next s { l with array := [], state := .s15 }
    else if c = 123 then .next s { l with object := [], state := .s19 }
    else .throw (.runtime "JSON syntax error: invalid token") s
  | .s4 =>
    if isDigit19 c then .next s { l with number := l.number ++ [c], state := .s5 }
    else if c = 48 then .next s { l with number := l.number ++ [c], state := .s6 }
    else .throw (.runtime "JSON syntax error: expected digit after minus sign") s
  | .s5 =>
    if isDigit c then .next s { l with number := l.number ++ [c] }
    else if c = 46 then .next s { l with number := l.number ++ [c], state := .s7 }
    else if c = 69 ∨ c = 101 then .next s { l with number := l.number ++ [c], state := .s9 }
    else .goto .accept_number s.unget l
  | .s6 =>
    if c = 46 then .next s { l with number := l.number ++ [c], state := .s7 }
    else if c = 69 ∨ c = 101 then .next s { l with number := l.number ++ [c], state := .s9 }
    else .goto .accept_number s.unget l
  | .s7 =>
    if isDigit c then .next s { l with number := l.number ++ [c], state := .s8 }
    else .throw (.runtime "JSON syntax error: expected digit after decimal point") s
  | .s8 =>
    if isDigit c then .next s { l with number := l.number ++ [c] }
    else if c = 69 ∨ c = 101 then .next s { l with number := l.number ++ [c], state := .s9 }
    else .goto .accept_number s.unget l
  | .s9 =>
    if c = 43 ∨ c = 45 then .next s { l with number := l.number ++ [c], state := .s10 }
    else if isDigit c then .next s { l with number := l.number ++ [c], state := .s11 }
    else .throw (.runtime "JSON syntax error: expected digit after 'E'") s
  | .s10 =>
    if isDigit c then .next s { l with number := l.number ++ [c], state := .s11 }
    else .throw (.runtime "JSON syntax error: expected digit after 'E+' or 'E-'") s
  | .s11 =>
    if isDigit c then .next s { l with number := l.number ++ [c] }
    else .goto .accept_number s.unget l
  | .s12 =>
    if c = 34 then .goto .accept_string s l
    else if c = 92 then .next s { l with state := .s14 }
    else .next s { l with str := l.str ++ [c] }
  | .s14 =>
    if c = 34 ∨ c = 92 ∨ c = 47 then .next s { l with str := l.str ++ [c], state := .s12 }
    else if c = 98 then .next s { l with str := l.str ++ [8], state := .s12 }
    else if c = 102 then .next s { l with str := l.str ++ [12], state := .s12 }
    else if c = 110 then .next s { l with str := l.str ++ [10], state := .s12 }
    else if c = 114 then .next s { l with str := l.str ++ [13], state := .s12 }
    else if c = 116 then .next s { l with str := l.str ++ [9], state := .s12 }
    else if c = 117 then sstepU loc s l
    else .throw (.runtime "JSON syntax error: invalid backslash escape") s
  | .s15 =>
    if isWs c then .next s l
    else if c = 93 then .goto .accept_array s l
    else safterCall (call s.unget) fun v s =>
      .next s { l with array := l.array ++ [v], state := .s17 }
  | .s17 =>
    if isWs c then .next s l
    else if c = 44 then
      safterCall (call s) fun v s => .next s { l with array := l.array ++ [v] }
    else if c = 93 then .goto .accept_array s l
    else .throw (.runtime "JSON syntax error: expected ',' or ']' after array element") s
  | .s18 => .next s l        -- no `case 18` in this function
  | .s19 =>
    if isWs c then .next s l
    else if c = 125 then .goto .accept_object s l
    else if c = 34 then safterCall (call s.unget) (skey l)
    else .throw (.runtime
      "JSON syntax error: expected '\x7d' or '\"' after object start") s
  | .s21 =>
    if isWs c then .next s l
    else if c = 58 then
      match l.key with
      | .string k =>
        safterCall (call s) fun v s =>
          .next s { l with object := JSONObject.set l.object k v, state := .s23 }
      | _ => .throw (.typeError "not a JSON string") s
    else .throw (.runtime "JSON syntax error: expected ':' after object key") s
  | .s22 => .next s l        -- no `case 22` in this function
  | .s23 =>
    if isWs c then .next s l
    else if c = 44 then .next s { l with state := .s24 }
    else if c = 125 then .goto .accept_object s l
    else .throw (.runtime
      "JSON syntax error: expected ',' or '\x7d' after object key-value pair") s
  | .s24 =>
    if isWs c then .next s l
    else if c = 34 then safterCall (call s.unget) (skey l)
    else .throw (.runtime "JSON syntax error: expected '\"' after comma in object") s

/-- The `for (char c = in.get() ; in.good() ; c = in.get())` loop of
`json_decode(std::istream&, JSON&)` followed by the final `switch`: how the call
ends, with the value stored in `out`, and the stream afterwards. -/
def sdecodeLoop (loc : Locale) : Nat → IStream → SLocals → Result JSON × IStream
  | 0, s, _ => (.outOfFuel, s)
  | fuel + 1, s, l =>
    match s.get with
    | (none, s) => sfinish s l
    | (some c, s) =>
      match sstep loc (fun s => sdecodeLoop loc fuel s SLocals.init) s c l with
      | .next s l => sdecodeLoop loc fuel s l
      | .goto lbl s l => saccept lbl s l
      | .throw e s => (.throw e, s)
      | .undefined s => (.undefined, s)
      | .outOfFuel => (.outOfFuel, s)

/-- The function `void json_decode(std::istream& in, JSON& out)`. -/
def json_decode_stream (loc : Locale) (s : IStream) : Result JSON × IStream :=
  sdecodeLoop loc (2 * (s.data.length - s.pos) + 2) s SLocals.init

/-! ## Accessors, conversions and comparisons (`stajson.h`) -/

namespace Double

/-- The magnitude of `a` is below that of `b`, for two doubles that are not NaNs: the
order of the exponent fields, then of the fraction fields. -/
def magLt (a b : Double) : Bool := a.expo < b.expo ∨ (a.expo = b.expo ∧ a.frac < b.frac)

/-- The comparison `a < b` of two doubles: false when either is a NaN and for two
zeros of any sign, otherwise the order of the values. -/
def lt (a b : Double) : Bool :=
  if a.isNaN || b.isNaN then false
  else if a.isZero && b.isZero then false
  else if a.sign then (if b.sign then magLt b a else true)
  else (if b.sign then false else magLt a b)

/-- The comparison `a <= b` of two doubles: false when either is a NaN. -/
def le (a b : Double) : Bool := lt a b || eq a b

end Double

namespace JSON

/-- The accessor `JSON::boolean()` (the name `boolean` is the constructor's here): the
value of the `JSONBool` the reference returned refers to. -/
def getBoolean (j : JSON) : Result Bool :=
  if j.type ≠ .JSON_BOOLEAN then .throw (.typeError "not a JSON boolean")
  else match j with
    | .boolean v => .ok v
    | _ => .undefined

/-- The accessor `JSON::number()`. -/
def getNumber (j : JSON) : Result Double :=
  if j.type ≠ .JSON_NUMBER then .throw (.typeError "not a JSON number")
  else match j with
    | .number v => .ok v
    | _ => .undefined

/-- The accessor `JSON::string()`. -/
def getString (j : JSON) : Result (List Nat) :=
  if j.type ≠ .JSON_STRING then .throw (.typeError "not a JSON string")
  else match j with
    | .string v => .ok v
    | _ => .undefined

/-- The accessor `JSON::array()`. -/
def getArray (j : JSON) : Result JSONArray :=
  if j.type ≠ .JSON_ARRAY then .throw (.typeError "not a JSON array")
  else match j with
    | .array v => .ok v
    | _ => .undefined

/-- The accessor `JSON::object()`. -/
def getObject (j : JSON) : Result JSONObject :=
  if j.type ≠ .JSON_OBJECT then .throw (.typeError "not a JSON object")
  else match j with
    | .object v => .ok v
    | _ => .undefined

end JSON

/-- The C string `s.c_str()` as a callee sees it: the bytes before the first NUL. -/
def c_str (s : List Nat) : List Nat := s.takeWhile fun c => c != 0

/-- The loop `while (*endp) \x7b if (!isspace(*endp)) throw ...; ++endp; \x7d` of
`json_strtod`: whether it reaches the terminator. -/
def onlySpace : List Nat → Bool
  | [] => true
  | c :: r => if !isspace c then false else onlySpace r

/-- The function `json_strtod(const char *str)`, on the bytes of the C string. -/
def json_strtod (str : List Nat) : Result Double :=
  if (strtod str).2 = 0 then
    .throw (.invalidArgument (ascii "invalid floating-point value: " ++ str))
  else if onlySpace (str.drop (strtod str).2) then .ok (strtod str).1
  else .throw (.invalidArgument (ascii "invalid floating-point value: " ++ str))

namespace JSON

/-- The conversion `JSON::operator bool`. -/
def toBool : JSON → Result Bool
  | .null => .ok false
  | .boolean v => .ok v
  | .number v => .ok (!Double.eq v ⟨false, 0, 0⟩)
  | .string v => .ok (v.length != 0)
  | .array _ => .throw (.typeError "JSON array cannot be converted to type bool")
  | .object _ => .throw (.typeError "JSON object cannot be converted to type bool")

/-- The conversion `JSON::operator double`; `0.0` is `⟨false, 0, 0⟩` and `1.0` is
`⟨false, 1023, 0⟩`. -/
def toDouble : JSON → Result Double
  | .null => .ok ⟨false, 0, 0⟩
  | .boolean v => .ok (if v then ⟨false, 1023, 0⟩ else ⟨false, 0, 0⟩)
  | .number v => .ok v
  | .string v => json_strtod (c_str v)
  | .array _ => .throw (.typeError "JSON array cannot be converted to type double")
  | .object _ => .throw (.typeError "JSON object cannot be converted to type double")

/-- The conversion `JSON::operator std::string`. -/
def toStdString : JSON → Result (List Nat)
  | .null => .throw (.typeError "JSON NULL cannot be converted to type string")
  | .boolean _ => .throw (.typeError "JSON boolean cannot be converted to type string")
  | .number v => .ok (fmt_15g v)
  | .string v => .ok v
  | .array _ => .throw (.typeError "JSON array cannot be converted to type string")
  | .object _ => .throw (.typeError "JSON object cannot be converted to type string")

/-- The function `operator!=(const JSON&, const JSON&)`. -/
def ne (a b : JSON) : Bool := !JSON.eq a b

end JSON

mutual
/-- The function `operator<(const JSON&, const JSON&)`. -/
def JSON.lt : JSON → JSON → Result Bool
  | .null, .null => .ok false
  | .boolean a, .boolean b => .ok (!a && b)
  | .number a, .number b => .ok (Double.lt a b)
  | .string a, .string b => .ok (string_lt a b)
  | .array a, .array b => JSON.ltArray a b
  | .object a, .object b => JSON.ltObject a b
  | _, _ => .throw (.typeError "incompatible JSONBase types in comparison")
/-- The function `operator>(const JSON& b, const JSON& a)`, which returns `a<b`: the
value `JSON.gt x y` is that of `y < x`.  It is defined along with `JSON.lt`, which
compares the elements of two containers in both directions. -/
def JSON.gt : JSON → JSON → Result Bool
  | .null, .null => .ok false
  | .boolean a, .boolean b => .ok (!b && a)
  | .number a, .number b => .ok (Double.lt b a)
  | .string a, .string b => .ok (string_lt b a)
  | .array a, .array b => JSON.gtArray a b
  | .object a, .object b => JSON.gtObject a b
  | _, _ => .throw (.typeError "incompatible JSONBase types in comparison")
/-- The function `JSONArray::operator<`, the comparison `v<x.v` of two
`std::vector<JSON>`: `std::lexicographical_compare`, which at each position asks
whether the left element is less, then whether the right one is. -/
def JSON.ltArray : List JSON → List JSON → Result Bool
  | [], [] => .ok false
  | [], _ :: _ => .ok true
  | _ :: _, [] => .ok false
  | x :: xs, y :: ys =>
    match JSON.lt x y with
    | .ok true => .ok true
    | .ok false =>
      match JSON.gt x y with
      | .ok true => .ok false
      | .ok false => JSON.ltArray xs ys
      | r => r
    | r => r
/-- The comparison `b < a` of two `std::vector<JSON>` `a` and `b`. -/
def JSON.gtArray : List JSON → List JSON → Result Bool
  | [], [] => .ok false
  | [], _ :: _ => .ok false
  | _ :: _, [] => .ok true
  | x :: xs, y :: ys =>
    match JSON.gt x y with
    | .ok true => .ok true
    | .ok false =>
      match JSON.lt x y with
      | .ok true => .ok false
      | .ok false => JSON.gtArray xs ys
      | r => r
    | r => r
/-- The function `JSONObject::operator<`, the comparison `v<x.v` of two
`std::map<std::string,JSON>`: `std::lexicographical_compare` over the entries, an
entry being less than another when its key is, or when the keys are equal and its
value is. -/
def JSON.ltObject : List (List Nat × JSON) → List (List Nat × JSON) → Result Bool
  | [], [] => .ok false
  | [], _ :: _ => .ok true
  | _ :: _, [] => .ok false
  | (k, x) :: xs, (l, y) :: ys =>
    if string_lt k l then .ok true
    else if string_lt l k then .ok false
    else
      match JSON.lt x y with
      | .ok true => .ok true
      | .ok false =>
        match JSON.gt x y with
        | .ok true => .ok false
        | .ok false => JSON.ltObject xs ys
        | r => r
      | r => r
/-- The comparison `b < a` of two `std::map<std::string,JSON>` `a` and `b`. -/
def JSON.gtObject : List (List Nat × JSON) → List (List Nat × JSON) → Result Bool
  | [], [] => .ok false
  | [], _ :: _ => .ok false
  | _ :: _, [] => .ok true
  | (k, x) :: xs, (l, y) :: ys =>
    if string_lt l k then .ok true
    else if string_lt k l then .ok false
    else
      match JSON.gt x y with
      | .ok true => .ok true
      | .ok false =>
        match JSON.lt x y with
        | .ok true => .ok false
        | .ok false => JSON.gtObject xs ys
        | r => r
      | r => r
end

/-- The negation `!(...)` of a comparison that may throw. -/
def Result.not : Result Bool → Result Bool
  | .ok b => .ok (!b)
  | r => r

/-- The function `operator<=(const JSON& a, const JSON& b)`, which returns `!(b<a)`. -/
def JSON.le (a b : JSON) : Result Bool := (JSON.lt b a).not

/-- The function `operator>=(const JSON& a, const JSON& b)`, which returns `!(a<b)`. -/
def JSON.ge (a b : JSON) : Result Bool := (JSON.lt a b).not

/-! ## Access to elements and members (`stajson.h`) -/

/-- The conversion of an `int` to `size_t`, a 64-bit unsigned integer. -/
def toSizeT (i : Int) : Nat := (i % 18446744073709551616).toNat

namespace JSONArray

/-- The function `JSONArray::at(size_type n)`, which is `v.at(n)` (`at` is a keyword
here, hence the name): the element the reference returned refers to; `std::vector::at`
throws `std::out_of_range` when `n` is not below the size. -/
def elemAt (a : JSONArray) (n : Nat) : Result JSON :=
  if a.length ≤ n then .throw (.outOfRange none)
  else match a[n]? with
    | some x => .ok x
    | none => .undefined

end JSONArray

namespace JSONObject

/-- The function `JSONObject::operator[](const key_type& k)`, which is `v[k]`: the value
of the entry the reference returned refers to, and the map afterwards. -/
def subscript (o : JSONObject) (k : List Nat) : JSON × JSONObject :=
  (((touch k o).lookup k).getD .null, touch k o)

/-- The function `JSONObject::has`: `v.find(s)!=v.end()`. -/
def has (o : JSONObject) (s : List Nat) : Bool := (o.lookup s).isSome

/-- The function `JSONObject::get(const key_type& s)`: the value of the entry found; the
message of the exception is made by `json_fmt` from the C strings of the two encodings. -/
def get (o : JSONObject) (s : List Nat) : Result JSON :=
  match o.lookup s with
  | none => .throw (.outOfRange (some (ascii "JSON object has no element "
      ++ c_str (json_encode (.string s)) ++ ascii ": " ++ c_str (json_encode (.object o)))))
  | some x => .ok x

/-- The function `JSONObject::lower_bound`, which is `v.lower_bound(k)`: the position, in
iteration order, of the first entry whose key is not less than `k` (the size when there
is none). -/
def lower_bound (o : JSONObject) (k : List Nat) : Nat :=
  (o.takeWhile fun e => string_lt e.1 k).length

/-- The function `JSONObject::upper_bound`, which is `v.upper_bound(k)`: the position of
the first entry whose key is greater than `k`. -/
def upper_bound (o : JSONObject) (k : List Nat) : Nat :=
  (o.takeWhile fun e => !string_lt k e.1).length

/-- The function `JSONObject::equal_range(const key_type& k)`, whose body is
`return equal_range(k);`: a call of the member function itself.  `fuel` bounds the number
of calls followed. -/
def equal_range : Nat → JSONObject → List Nat → Result (Nat × Nat)
  | 0, _, _ => .outOfFuel
  | fuel + 1, o, k => equal_range fuel o k

end JSONObject

namespace JSON

/-- The function `JSON::operator[](const std::string& s)`, which is `object()[s]`: the
value of the entry referred to, and what the handle owns afterwards. -/
def subscript (j : JSON) (s : List Nat) : Result JSON × JSON :=
  match j.getObject with
  | .ok o => (.ok (JSONObject.subscript o s).1, .object (JSONObject.subscript o s).2)
  | .throw e => (.throw e, j)
  | .undefined => (.undefined, j)
  | .outOfFuel => (.outOfFuel, j)

/-- The function `JSON::has(const std::string& s)`: `object().has(s)`. -/
def hasKey (j : JSON) (s : List Nat) : Result Bool :=
  match j.getObject with
  | .ok o => .ok (JSONObject.has o s)
  | .throw e => .throw e
  | .undefined => .undefined
  | .outOfFuel => .outOfFuel

/-- The function `JSON::get(const std::string& s)`: `object()`, then `find` and the
exception for a key that is not found. -/
def getKey (j : JSON) (s : List Nat) : Result JSON :=
  match j.getObject with
  | .ok o => JSONObject.get o s
  | .throw e => .throw e
  | .undefined => .undefined
  | .outOfFuel => .outOfFuel

/-- The function `JSON::has(size_t i)`: `array().size()>i`. -/
def hasAt (j : JSON) (i : Nat) : Result Bool :=
  match j.getArray with
  | .ok a => .ok (decide (a.length > i))
  | .throw e => .throw e
  | .undefined => .undefined
  | .outOfFuel => .outOfFuel

/-- The function `JSON::has(int i)`: `i>=0 && array().size()>(size_t)i`; for a negative
`i` the accessor `array()` is not called. -/
def hasIndex (j : JSON) (i : Int) : Result Bool :=
  if 0 ≤ i then hasAt j (toSizeT i) else .ok false

/-- The function `JSON::get(size_t i)`: `array().at(i)`. -/
def getAt (j : JSON) (i : Nat) : Result JSON :=
  match j.getArray with
  | .ok a => JSONArray.elemAt a i
  | .throw e => .throw e
  | .undefined => .undefined
  | .outOfFuel => .outOfFuel

/-- The function `JSON::get(int i)`: `array().at(i)`, the `int` being converted to
`size_t`. -/
def getIndex (j : JSON) (i : Int) : Result JSON := getAt j (toSizeT i)

end JSON

/-! ## Notions used in the statements -/

/-- Where a left-to-right scan of a JSON text stands: outside any string literal, inside
one, or inside one right after a backslash. -/
inductive Scan where
  | outside
  | inside
  | escaped
deriving DecidableEq, Repr

/-- Scan of a text from a given state: the state reached at its end, or `none` when a
white-space byte (space, tab, CR, LF) is met outside a string literal. -/
def scan : Scan → List Nat → Option Scan
  | st, [] => some st
  | .outside, c :: t =>
    if isWs c then none else if c = 34 then scan .inside t else scan .outside t
  | .inside, c :: t =>
    if c = 34 then scan .outside t else if c = 92 then scan .escaped t else scan .inside t
  | .escaped, _ :: t => scan .inside t

/-- A byte that is neither white space nor a quote nor a backslash. -/
def plain (c : Nat) : Prop := isWs c = false ∧ c ≠ 34 ∧ c ≠ 92

/-- The bytes a formatted number is made of: digits, signs, the point, `e`, and the
letters of `inf` and `nan`. -/
def numChar (c : Nat) : Prop :=
  (48 ≤ c ∧ c ≤ 57) ∨ c = 43 ∨ c = 45 ∨ c = 46 ∨ c = 101 ∨ c = 105 ∨ c = 110 ∨ c = 102 ∨ c = 97

/-- The containers under construction are well formed. -/
def Locals.inv (l : Locals) : Prop :=
  JSON.wfArray l.array ∧ JSONObject.sorted l.object ∧ JSON.wfMember l.object

/-- The containers a loop pass leaves under construction are well formed. -/
def Step.inv : Step → Prop
  | .next _ l => l.inv
  | .goto _ _ l => l.inv
  | _ => True

/-- The locals of the buffered decoder inside a string literal whose content so far is
`str`. -/
def Locals.inStr (l : Locals) (str : List Nat) : Locals :=
  { l with str := str, state := .s12 }

/-- The characters after a backslash that stand for one byte, with that byte. -/
def named : List (Nat × Nat) :=
  [(34, 34), (92, 92), (8, 98), (12, 102), (10, 110), (13, 114), (9, 116)]

/-- A byte for which both string encoders take the same branch with the same text: one
with a named escape, or one that is not below 32 as a `char`. -/
def sameBranch (c : Nat) : Prop :=
  c = 34 ∨ c = 92 ∨ c = 8 ∨ c = 12 ∨ c = 10 ∨ c = 13 ∨ c = 9 ∨ ¬ charValue c < 32

mutual
/-- Every String and every key inside the value is made of bytes on which the two
string encoders take the same branch. -/
def JSON.sameBranch : JSON → Prop
  | .string s => ∀ c ∈ s, Stajson.sameBranch c
  | .array a => JSON.sameBranchArray a
  | .object o => JSON.sameBranchMember o
  | _ => True
def JSON.sameBranchArray : List JSON → Prop
  | [] => True
  | x :: xs => JSON.sameBranch x ∧ JSON.sameBranchArray xs
def JSON.sameBranchMember : List (List Nat × JSON) → Prop
  | [] => True
  | (k, x) :: xs => (∀ c ∈ k, Stajson.sameBranch c) ∧ JSON.sameBranch x ∧ JSON.sameBranchMember xs
end

/-- What a loop pass at `pos` with the locals `l` can end with, as far as positions go:
the loop goes on at or after `pos` inside the buffer, and a value ends inside the buffer,
after `pos` when the pass is the first of its call. -/
def Step.bound (inp : List Nat) (pos : Nat) (l : Locals) : Step → Prop
  | .next p _ => pos ≤ p ∧ p < inp.length
  | .goto _ p _ => pos ≤ p ∧ p ≤ inp.length ∧ (l.state = .s0 → pos < p)
  | _ => True

/-- The loop of the buffered decoder with the fuel `json_decode_at` supplies at `pos`. -/
def decodeFrom (loc : Locale) (inp : List Nat) (pos : Nat) (l : Locals) : Result (Nat × JSON) :=
  decodeLoop loc inp (2 * (inp.length - pos) + 2) pos l

/-- While `json_decode(in, in.begin(), out)` decodes `inp`, the loop of that call or of a
call nested in it tests `pos` with the locals `l`. -/
inductive Reaches (loc : Locale) (inp : List Nat) : Nat → Locals → Prop where
  /-- The entry of the outermost call. -/
  | start : Reaches loc inp 0 (Locals.init 0)
  /-- A loop pass that ends with `break`, and the `++pos` after it. -/
  | pass {pos c p : Nat} {l l2 : Locals} : Reaches loc inp pos l → inp[pos]? = some c →
      step loc inp (json_decode_at loc inp) pos c l = .next p l2 → Reaches loc inp (p + 1) l2
  /-- The entry of a nested call. -/
  | call {pos c : Nat} {l : Locals} : Reaches loc inp pos l → inp[pos]? = some c →
      callsAt c l = true → Reaches loc inp pos (Locals.init pos)

/-- The states in which the decoder skips white space without any other effect. -/
def skipsWs (st : State) : Bool :=
  st = .s15 ∨ st = .s17 ∨ st = .s19 ∨ st = .s21 ∨ st = .s23 ∨ st = .s24

/-- What follows the digits `[0-9]+` at the head of `t`; `none` when `t` does not start
with a digit. -/
def afterDigits (t : List Nat) : Option (List Nat) :=
  match t with
  | c :: r => if isDigit c then some (r.dropWhile isDigit) else none
  | [] => none

/-- What follows an optional `-` at the head of `t`. -/
def afterMinus (t : List Nat) : List Nat :=
  match t with
  | c :: r => if c = 45 then r else t
  | [] => []

/-- What follows an optional `+` or `-` at the head of `t`. -/
def afterSign (t : List Nat) : List Nat :=
  match t with
  | c :: r => if c = 43 ∨ c = 45 then r else t
  | [] => []

/-- What follows the integer part `'0' | [1-9][0-9]*` at the head of `t`. -/
def afterInt (t : List Nat) : Option (List Nat) :=
  match t with
  | c :: r => if c = 48 then some r else if isDigit19 c then some (r.dropWhile isDigit) else none
  | [] => none

/-- What follows the optional fraction `'.' [0-9]+` at the head of `t`; `none` when a
point is not followed by a digit. -/
def afterFrac (t : List Nat) : Option (List Nat) :=
  match t with
  | c :: r => if c = 46 then afterDigits r else some t
  | [] => some []

/-- What follows the optional exponent `[eE][+-]?[0-9]+` at the head of `t`; `none` when
the letter is not followed by a digit, with or without a sign in between. -/
def afterExp (t : List Nat) : Option (List Nat) :=
  match t with
  | c :: r => if c = 69 ∨ c = 101 then afterDigits (afterSign r) else some t
  | [] => some []

/-- What follows, at the head of `t`, the longest text that the number grammar
`'-'? ('0' | [1-9][0-9]*) ('.' [0-9]+)? ([eE][+-]?[0-9]+)?` can be read as from left to
right; `none` when a part that was begun is not complete. -/
def afterNumber (t : List Nat) : Option (List Nat) :=
  ((afterInt (afterMinus t)).bind afterFrac).bind afterExp

/-- How the loop of the buffered decoder ends inside a number token that began at `start`
when `tail` is what follows the token: with the number converted from the characters up
to the tail, or with a syntax error when the token is not complete. -/
def numOutcome (inp : List Nat) (start : Nat) (res : Result (Nat × JSON)) :
    Option (List Nat) → Prop
  | none => ∃ off msg, res = .throw (.syntaxAt off msg)
  | some tail => ∃ p, p ≤ inp.length ∧ inp.drop p = tail ∧
      res = accept inp .accept_number p (Locals.init start)

/-- The characters `0`-`9`, `-`, `+`, `.`, `e` and `E`. -/
def numberByte (c : Nat) : Bool := isDigit c ∨ c = 45 ∨ c = 43 ∨ c = 46 ∨ c = 101 ∨ c = 69

/-- The number grammar of the specification,
`'-'? ('0' | [1-9][0-9]*) ('.' [0-9]+)? ([eE][+-]?[0-9]+)?`: the text is made of a sign
part, an integer part, a fraction part and an exponent part of these shapes. -/
def specNumber (t : List Nat) : Prop :=
  ∃ sg ip fp ep : List Nat, t = sg ++ (ip ++ (fp ++ ep)) ∧
    (sg = [] ∨ sg = [45]) ∧
    (ip = [48] ∨ ∃ d ds, ip = d :: ds ∧ isDigit19 d = true ∧ ∀ x ∈ ds, isDigit x = true) ∧
    (fp = [] ∨ ∃ d ds, fp = 46 :: d :: ds ∧ ∀ x ∈ d :: ds, isDigit x = true) ∧
    (ep = [] ∨ ∃ e s d ds, ep = e :: (s ++ d :: ds) ∧ (e = 69 ∨ e = 101) ∧
      (s = [] ∨ s = [43] ∨ s = [45]) ∧ ∀ x ∈ d :: ds, isDigit x = true)

/-- The UTF-8 encoding of a code point (RFC 3629). -/
def utf8Encoding (n : Nat) : List Nat :=
  if n < 128 then [n]
  else if n < 2048 then [192 + n / 64, 128 + n % 64]
  else if n < 65536 then [224 + n / 4096, 128 + n / 64 % 64, 128 + n % 64]
  else [240 + n / 262144, 128 + n / 4096 % 64, 128 + n / 64 % 64, 128 + n % 64]

/-- The number that four hexadecimal digits of the values `a`, `b`, `c`, `d` denote. -/
def codePoint (a b c d : Nat) : Nat := ((a * 16 + b) * 16 + c) * 16 + d

/-- What a loop pass inside a string literal ends with when it does not meet a quote: the
loop goes on inside the literal, or there is a syntax error or a read outside the
buffer. -/
def Step.inString (pos : Nat) : Step → Prop
  | .next p l => pos ≤ p ∧ (l.state = .s12 ∨ l.state = .s14)
  | .throw (.syntaxAt _ _) => True
  | .undefined => True
  | _ => False

/-- The locals of a call that reads the same characters `k` positions further on, in a
buffer with `k` more characters in front. -/
def Locals.shift (l : Locals) (k : Nat) : Locals := { l with start := l.start + k }

/-- The end of a loop pass `k` positions further on follows the end of the pass itself: the
second argument is the first one moved by `k`, when the first one goes on or accepts. -/
def Step.shifted (k : Nat) : Step → Step → Prop
  | .next p l, s => s = .next (p + k) (l.shift k)
  | .goto lbl p l, s => s = .goto lbl (p + k) (l.shift k)
  | _, _ => True

/-- A character that ends a number token: not a digit, not `.`, not `e` or `E`. -/
def endsNumber (c : Nat) : Bool := !isDigit c && c != 46 && c != 69 && c != 101

/-- The offset of a syntax error a loop pass at `pos` throws: `pos`, or the next position
when no hexadecimal digit follows `\u`; `r` is what the nested call made. -/
def Step.offsetAt (pos : Nat) (r : Result (Nat × JSON)) : Step → Prop
  | .throw (.syntaxAt off msg) =>
    off = pos ∨ (off = pos + 1 ∧ msg = "JSON syntax error: no hex digits follow '\\u'") ∨
      r = .throw (.syntaxAt off msg)
  | _ => True

/-- The states in which the end of the buffer, or a character that does not go on with the
number, ends a number token. -/
def numberEnd (st : State) : Bool :=
  match st with
  | .s5 | .s6 | .s8 | .s11 => true
  | _ => false

/-- A `goto` of a loop pass at `pos` with the locals `l`: to `accept_number` at `pos` itself
with the locals unchanged, from a state that ends a number, or to another label at a later
position. -/
def Step.gotoOk (pos : Nat) (l : Locals) : Step → Prop
  | .goto lbl p l2 =>
    (lbl = .accept_number ∧ p = pos ∧ l2 = l ∧ numberEnd l.state = true) ∨
      (lbl ≠ .accept_number ∧ pos < p)
  | _ => True

/-- Where the syntax error `e` of a call on `inp` is raised: by a loop pass, at any nesting
depth, that makes no nested call; at the end of the buffer; or by the conversion of a number
token. -/
def raisedAt (loc : Locale) (inp : List Nat) (e : Exn) : Prop :=
  (∃ pos c l, Reaches loc inp pos l ∧ inp[pos]? = some c ∧ callsAt c l = false ∧
    step loc inp (json_decode_at loc inp) pos c l = .throw e) ∨
  (∃ l, Reaches loc inp inp.length l ∧ e = .syntaxAt inp.length "JSON invalid end of input") ∨
  (∃ pos l, Reaches loc inp pos l ∧ e = .syntaxAt l.start "JSON number does not parse")

/-- What the offset `off` of a syntax error with the message `msg` of the top-level call on
`inp` is: the position `pos` of the loop pass, at any nesting depth, that threw it (for
`\u` with no hexadecimal digit after it, the position after the `u`); the length of the
buffer, which ended inside a value; the start of a number token; or the position of the
first character after the value that is not white space. -/
def errorSite (loc : Locale) (inp : List Nat) (off : Nat) (msg : String) : Prop :=
  (∃ pos c l, Reaches loc inp pos l ∧ inp[pos]? = some c ∧ callsAt c l = false ∧
    step loc inp (json_decode_at loc inp) pos c l = .throw (.syntaxAt off msg) ∧
    (off = pos ∨ (off = pos + 1 ∧ msg = "JSON syntax error: no hex digits follow '\\u'"))) ∨
  (off = inp.length ∧ msg = "JSON invalid end of input") ∨
  (msg = "JSON number does not parse" ∧ ∃ pos l, Reaches loc inp pos l ∧ off = l.start) ∨
  (msg = "JSON syntax error" ∧ off < inp.length ∧ ∃ e v, json_decode_at loc inp 0 = .ok (e, v) ∧
    off = e + ((inp.drop e).takeWhile isWs).length)

/-- The kind of the value a label of the final `switch` stores. -/
def Label.kind : Label → JSONType
  | .accept_null => .JSON_NULL
  | .accept_true => .JSON_BOOLEAN
  | .accept_false => .JSON_BOOLEAN
  | .accept_number => .JSON_NUMBER
  | .accept_string => .JSON_STRING
  | .accept_array => .JSON_ARRAY
  | .accept_object => .JSON_OBJECT

/-- The kind of the value being read in a state other than state 0. -/
def State.kind : State → JSONType
  | .s0 => .JSON_NULL
  | .s4 | .s5 | .s6 | .s7 | .s8 | .s9 | .s10 | .s11 => .JSON_NUMBER
  | .s12 | .s14 => .JSON_STRING
  | .s15 | .s17 | .s18 => .JSON_ARRAY
  | .s19 | .s21 | .s22 | .s23 | .s24 => .JSON_OBJECT

/-- A loop pass goes on with, or accepts, a value of the kind `k`. -/
def Step.kindOk (k : JSONType) : Step → Prop
  | .next _ l => l.state ≠ .s0 ∧ l.state.kind = k
  | .goto lbl _ _ => lbl.kind = k
  | _ => True

/-- The text of an object member: the text of the key, `:`, the text of the value. -/
def memberText (m : List Nat × List Nat) : List Nat := m.1 ++ 58 :: m.2

/-- The text of an object: the texts of the members separated by `,`, between braces. -/
def objectText (ms : List (List Nat × List Nat)) : List Nat :=
  123 :: (List.intercalate [44] (ms.map memberText) ++ [125])

/-- The text of an array: the texts of the elements separated by `,`, between brackets. -/
def arrayText (ts : List (List Nat)) : List Nat := 91 :: (List.intercalate [44] ts ++ [93])

/-- The second text is the first one with white space inserted (or, more generally, with
the white space changed) before or after the value, or before or after a `[`, `]`, `\x7b`,
`\x7d`, `,` or `:` that the decoder reads as such: white space put around the text (`pad`);
other white space around an accepted text, itself changed in this way (`around`); other white
space between the brackets or braces of an empty array or object; in an array or object
made of members that the decoder accepts, one element, one key or one member value changed
in this way; and so repeatedly (`trans`). -/
inductive Spaced (loc : Locale) : List Nat → List Nat → Prop
  | refl (t : List Nat) : Spaced loc t t
  | trans {a b c : List Nat} : Spaced loc a b → Spaced loc b c → Spaced loc a c
  | pad (t w1 w2 : List Nat) : (∀ x ∈ w1, isWs x = true) → (∀ x ∈ w2, isWs x = true) →
      Spaced loc t (w1 ++ (t ++ w2))
  | around (t t2 w1 w2 u1 u2 : List Nat) (v : JSON) :
      (∀ x ∈ w1, isWs x = true) → (∀ x ∈ w2, isWs x = true) →
      (∀ x ∈ u1, isWs x = true) → (∀ x ∈ u2, isWs x = true) →
      json_decode loc t = .ok v → Spaced loc t t2 →
      Spaced loc (w1 ++ (t ++ w2)) (u1 ++ (t2 ++ u2))
  | emptyArray (w1 w2 : List Nat) : (∀ x ∈ w1, isWs x = true) → (∀ x ∈ w2, isWs x = true) →
      Spaced loc (91 :: (w1 ++ [93])) (91 :: (w2 ++ [93]))
  | emptyObject (w1 w2 : List Nat) : (∀ x ∈ w1, isWs x = true) → (∀ x ∈ w2, isWs x = true) →
      Spaced loc (123 :: (w1 ++ [125])) (123 :: (w2 ++ [125]))
  | element (pre post : List (List Nat)) (vpre vpost : List JSON) (t t2 : List Nat) (v : JSON) :
      List.Forall₂ (fun t v => json_decode loc t = .ok v) pre vpre →
      List.Forall₂ (fun t v => json_decode loc t = .ok v) post vpost →
      json_decode loc t = .ok v → Spaced loc t t2 →
      Spaced loc (arrayText (pre ++ t :: post)) (arrayText (pre ++ t2 :: post))
  | key (pre post : List (List Nat × List Nat)) (kpre kpost : List (List Nat × JSON))
      (kt kt2 vt : List Nat) (k : List Nat) (v : JSON) :
      List.Forall₂ (fun m kv => json_decode loc m.1 = .ok (.string kv.1) ∧
        json_decode loc m.2 = .ok kv.2) pre kpre →
      List.Forall₂ (fun m kv => json_decode loc m.1 = .ok (.string kv.1) ∧
        json_decode loc m.2 = .ok kv.2) post kpost →
      json_decode loc kt = .ok (.string k) → json_decode loc vt = .ok v → Spaced loc kt kt2 →
      Spaced loc (objectText (pre ++ (kt, vt) :: post)) (objectText (pre ++ (kt2, vt) :: post))
  | value (pre post : List (List Nat × List Nat)) (kpre kpost : List (List Nat × JSON))
      (kt vt vt2 : List Nat) (k : List Nat) (v : JSON) :
      List.Forall₂ (fun m kv => json_decode loc m.1 = .ok (.string kv.1) ∧
        json_decode loc m.2 = .ok kv.2) pre kpre →
      List.Forall₂ (fun m kv => json_decode loc m.1 = .ok (.string kv.1) ∧
        json_decode loc m.2 = .ok kv.2) post kpost →
      json_decode loc kt = .ok (.string k) → json_decode loc vt = .ok v → Spaced loc vt vt2 →
      Spaced loc (objectText (pre ++ (kt, vt) :: post)) (objectText (pre ++ (kt, vt2) :: post))

/-- The end of a loop pass on a text alone (second argument) follows the end of the pass
`k` positions further on in a longer buffer (first argument), when that pass goes on or
accepts within the first `T` characters of the buffer: the first argument is the second one
moved by `k`. -/
def Step.unshifted (k T : Nat) : Step → Step → Prop
  | .next p2 l2, b => p2 + 1 ≤ T → (l2.state = .s12 → p2 + 2 ≤ T) →
      ∃ p l, b = .next p l ∧ p2 = p + k ∧ l2 = l.shift k
  | .goto lbl p2 l2, b => p2 ≤ T → ∃ p l, b = .goto lbl p l ∧ p2 = p + k ∧ l2 = l.shift k
  | _, _ => True

mutual
/-- Whether two values are of the same type and, when they are arrays or objects, their
elements or member values at equal positions are alike in turn. -/
def JSON.alike : JSON → JSON → Bool
  | .null, .null => true
  | .boolean _, .boolean _ => true
  | .number _, .number _ => true
  | .string _, .string _ => true
  | .array a, .array b => JSON.alikeArray a b
  | .object a, .object b => JSON.alikeObject a b
  | _, _ => false
def JSON.alikeArray : List JSON → List JSON → Bool
  | x :: xs, y :: ys => JSON.alike x y && JSON.alikeArray xs ys
  | _, _ => true
def JSON.alikeObject : List (List Nat × JSON) → List (List Nat × JSON) → Bool
  | (_, x) :: xs, (_, y) :: ys => JSON.alike x y && JSON.alikeObject xs ys
  | _, _ => true
end

/-- The comparison returns a boolean. -/
def returnsBool (r : Result Bool) : Prop := ∃ b, r = .ok b

/-- What `operator<` does on two `JSON`s: it returns, or it throws the one
`json_type_error` of `stajson.h` about a comparison. -/
def ltOutcome (r : Result Bool) : Prop :=
  returnsBool r ∨ r = .throw (.typeError "incompatible JSONBase types in comparison")

/-- The value made of `n + 1` arrays, each but the innermost holding the next as its one
element, the innermost empty. -/
def nest : Nat → JSON
  | 0 => .array []
  | n + 1 => .array [nest n]

/-- The text made of `n` characters `[` followed by `n` characters `]`. -/
def nestText (n : Nat) : List Nat := List.replicate n 91 ++ List.replicate n 93

/-- The key read for an object member is a String while the decoder is in the states after
it. -/
def Locals.keyOk (l : Locals) : Prop :=
  (l.state = .s21 ∨ l.state = .s22) → l.key.type = .JSON_STRING

/-- The locals a loop pass goes on with hold a String as the key. -/
def Step.keyOk : Step → Prop
  | .next _ l => l.keyOk
  | _ => True

/-- An exception a loop pass throws is a syntax error of the decoder. -/
def Step.syntaxOk : Step → Prop
  | .throw e => ∃ off msg, e = .syntaxAt off msg
  | _ => True

/-- A loop pass reads outside the buffer only if `P` holds. -/
def Step.definedOr (P : Prop) : Step → Prop
  | .undefined => P
  | _ => True

/-- The decoder is right after a backslash, at a `u` that three hexadecimal digits and
the end of the buffer follow. -/
def endsInHex (inp : List Nat) (pos : Nat) (l : Locals) : Prop :=
  l.state = .s14 ∧ ∃ a b d, inp.drop pos = [117, a, b, d] ∧ isHexDigit a = true ∧
    isHexDigit b = true ∧ isHexDigit d = true

/-- The double of sign `neg` and of the integer magnitude `n`, for `n < 2 ^ 53`. -/
def Double.ofInt (neg : Bool) (n : Nat) : Double :=
  ⟨neg, (Double.ofNat n).expo, (Double.ofNat n).frac⟩

/-- The number is an integer of magnitude below ten to the fifteenth, of either sign. -/
def Double.smallInt (d : Double) : Prop := ∃ N, N < 10 ^ 15 ∧ d = Double.ofInt d.sign N

/-- The bytes of the string are in the range 0x01 to 0x7F. -/
def plainString (s : List Nat) : Prop := ∀ c ∈ s, 0 < c ∧ c < 128

mutual
/-- Every String and every key of an object inside the value has its bytes in the range
0x01 to 0x7F, and every Number inside it is an integer of magnitude below ten to the
fifteenth. -/
def JSON.plain : JSON → Prop
  | .number d => Double.smallInt d
  | .string s => plainString s
  | .array a => JSON.plainArray a
  | .object o => JSON.plainMember o
  | _ => True
def JSON.plainArray : List JSON → Prop
  | [] => True
  | x :: xs => JSON.plain x ∧ JSON.plainArray xs
def JSON.plainMember : List (List Nat × JSON) → Prop
  | [] => True
  | (k, x) :: xs => plainString k ∧ JSON.plain x ∧ JSON.plainMember xs
end

/-- The locals a loop pass goes on with have the start of the token where it was, or one
position further on. -/
def Step.startOk (l : Locals) : Step → Prop
  | .next _ l2 => l2.start ≤ l.start + 1
  | _ => True

/-! ## Decidable equality of values -/

mutual
theorem JSON.beq_iff : ∀ a b : JSON, JSON.beq a b = true ↔ a = b
  | .null, b => by cases b <;> simp [JSON.beq]
  | .boolean _, b => by cases b <;> simp [JSON.beq]
  | .number _, b => by cases b <;> simp [JSON.beq]
  | .string _, b => by cases b <;> simp [JSON.beq]
  | .array x, b => by cases b <;> simp [JSON.beq, JSON.beqArray_iff x]
  | .object x, b => by cases b <;> simp [JSON.beq, JSON.beqObject_iff x]
theorem JSON.beqArray_iff : ∀ a b : List JSON, JSON.beqArray a b = true ↔ a = b
  | [], b => by cases b <;> simp [JSON.beqArray]
  | x :: xs, b => by
    cases b with
    | nil => simp [JSON.beqArray]
    | cons y ys => simp [JSON.beqArray, JSON.beq_iff x y, JSON.beqArray_iff xs ys]
theorem JSON.beqObject_iff :
    ∀ a b : List (List Nat × JSON), JSON.beqObject a b = true ↔ a = b
  | [], b => by cases b <;> simp [JSON.beqObject]
  | (k, x) :: xs, b => by
    cases b with
    | nil => simp [JSON.beqObject]
    | cons y ys =>
      obtain ⟨l, y⟩ := y
      simp [JSON.beqObject, JSON.beq_iff x y, JSON.beqObject_iff xs ys, and_assoc]
end

instance : DecidableEq JSON := fun a b => decidable_of_iff _ (JSON.beq_iff a b)

deriving instance DecidableEq for Locals

deriving instance DecidableEq for Step

/-! ## The conversions of the C library on known values -/

theorem strtod_known_values :
    strtod (ascii "0.1") = (⟨false, 1019, 0x999999999999A⟩, 3) ∧
    strtod (ascii "-3e2") = (⟨true, 1031, 0x2C00000000000⟩, 4) ∧
    strtod (ascii "1.7976931348623157e308") = (⟨false, 2046, 2 ^ 52 - 1⟩, 22) ∧
    strtod (ascii "5e-324") = (⟨false, 0, 1⟩, 6) ∧
    strtod (ascii "2.2250738585072011e-308") = (⟨false, 0, 2 ^ 52 - 1⟩, 23) ∧
    strtod (ascii "9007199254740993") = (⟨false, 1076, 0⟩, 16) ∧
    strtod (ascii " 12abc") = (⟨false, 1026, 2 ^ 51⟩, 3) ∧
    strtod (ascii "0x1p-2") = (⟨false, 1021, 0⟩, 6) ∧
    (strtod (ascii "abc")).2 = 0 := by
  decide!

theorem fmt_15g_known_values :
    fmt_15g ⟨false, 1019, 0x999999999999A⟩ = ascii "0.1" ∧
    fmt_15g ⟨true, 1031, 0x2C00000000000⟩ = ascii "-300" ∧
    fmt_15g ⟨false, 2046, 2 ^ 52 - 1⟩ = ascii "1.79769313486232e+308" ∧
    fmt_15g ⟨false, 0, 1⟩ = ascii "4.94065645841247e-324" ∧
    fmt_15g ⟨false, 1092, 0xB1AE4D6E2EF50⟩ = ascii "1e+21" ∧
    fmt_15g ⟨false, 1006, 0x4F8B588E368F1⟩ = ascii "1e-05" ∧
    fmt_15g ⟨false, 1009, 0xA36E2EB1C432D⟩ = ascii "0.0001" ∧
    fmt_15g ⟨false, 1072, 0xC6BF52633FFFF⟩ = ascii "1e+15" ∧
    fmt_15g ⟨false, 1029, 0xEDD2F1A9FBE77⟩ = ascii "123.456" ∧
    fmt_15g ⟨true, 0, 0⟩ = ascii "-0" := by
  decide!

/-! ## Properties of the encoders -/

theorem scan_append (st : Scan) (a b : List Nat) :
    scan st (a ++ b) = (scan st a).bind fun st => scan st b := by
  induction a generalizing st with
  | nil => cases st <;> simp [scan]
  | cons c t ih =>
    cases st
    · simp only [List.cons_append, scan]
      split
      · rfl
      · split <;> exact ih _
    · simp only [List.cons_append, scan]
      split
      · exact ih _
      · split <;> exact ih _
    · simp only [List.cons_append, scan]
      exact ih _

theorem scan_outside_plain (l : List Nat) (h : ∀ c ∈ l, plain c) :
    scan .outside l = some .outside := by
  induction l with
  | nil => rfl
  | cons c t ih =>
    have hc := h c (List.mem_cons_self _ _)
    simp only [scan, hc.1, hc.2.1, if_false, Bool.false_eq_true]
    exact ih fun x hx => h x (List.mem_cons_of_mem _ hx)

theorem scan_inside_plain (l : List Nat) (h : ∀ c ∈ l, c ≠ 34 ∧ c ≠ 92) :
    scan .inside l = some .inside := by
  induction l with
  | nil => rfl
  | cons c t ih =>
    have hc := h c (List.mem_cons_self _ _)
    simp only [scan, hc.1, hc.2, if_false]
    exact ih fun x hx => h x (List.mem_cons_of_mem _ hx)

theorem hexChar_range (d : Nat) (h : d < 16) :
    (48 ≤ hexChar d ∧ hexChar d ≤ 57) ∨ (97 ≤ hexChar d ∧ hexChar d ≤ 102) := by
  unfold hexChar
  split <;> omega

theorem mem_hexDigitsFrom (n k c : Nat) (h : c ∈ hexDigitsFrom n k) :
    (48 ≤ c ∧ c ≤ 57) ∨ (97 ≤ c ∧ c ≤ 102) := by
  induction k with
  | zero =>
    simp only [hexDigitsFrom, List.mem_singleton] at h
    subst h
    exact hexChar_range _ (Nat.mod_lt _ (by decide))
  | succ k ih =>
    simp only [hexDigitsFrom, List.mem_cons] at h
    rcases h with h | h
    · subst h
      exact hexChar_range _ (Nat.mod_lt _ (by decide))
    · exact ih h

theorem scan_inside_char (c : Nat) : scan .inside (json_encode_char c) = some .inside := by
  unfold json_encode_char
  split_ifs with h1 h2 h3 h4 h5 h6 h7 h8
  any_goals rfl
  · change scan .inside (92 :: 117 :: fmtHex 4 _) = _
    simp only [scan]
    apply scan_inside_plain
    intro x hx
    have := mem_hexDigitsFrom _ _ _ hx
    omega
  · simp [scan, h1, h2]

theorem scan_inside_chars (s : List Nat) :
    scan .inside (s.flatMap json_encode_char) = some .inside := by
  induction s with
  | nil => rfl
  | cons c t ih => simp [List.flatMap_cons, scan_append, scan_inside_char, ih]

theorem scan_string (s : List Nat) : scan .outside (json_encode_string s) = some .outside := by
  have h : scan .outside (34 :: (s.flatMap json_encode_char ++ [34])) = some .outside := by
    have hws : isWs 34 = false := by decide
    simp only [scan, hws, Bool.false_eq_true, if_false, if_true, scan_append,
      scan_inside_chars, Option.some_bind]
  simpa [json_encode_string] using h

theorem numChar_plain {c : Nat} (h : numChar c) : plain c := by
  unfold numChar at h
  unfold plain isWs
  refine ⟨?_, by omega, by omega⟩
  simp only [decide_eq_false_iff_not]
  omega

theorem mem_decDigits (m k c : Nat) (h : c ∈ decDigits m k) : 48 ≤ c ∧ c ≤ 57 := by
  induction k with
  | zero => simp [decDigits] at h
  | succ k ih =>
    simp only [decDigits, List.mem_cons] at h
    rcases h with h | h
    · have := Nat.mod_lt (m / 10 ^ k) (show 10 > 0 by decide)
      omega
    · exact ih h

theorem mem_stripZeros {l : List Nat} {c : Nat} (h : c ∈ stripZeros l) : c ∈ l := by
  unfold stripZeros at h
  rw [List.mem_reverse] at h
  exact List.mem_reverse.mp ((List.dropWhile_sublist _).subset h)

theorem mem_fracPart {l : List Nat} {c : Nat} (h : c ∈ fracPart l) : c = 46 ∨ c ∈ l := by
  unfold fracPart at h
  split at h
  · simp at h
  · rcases List.mem_cons.mp h with h | h
    · exact Or.inl h
    · exact Or.inr (mem_stripZeros h)

theorem mem_decNatFrom (k m : Nat) (acc : List Nat) (c : Nat)
    (h : c ∈ decNatFrom k m acc) : (48 ≤ c ∧ c ≤ 57) ∨ c ∈ acc := by
  induction k generalizing m acc with
  | zero => exact Or.inr h
  | succ k ih =>
    simp only [decNatFrom] at h
    split at h
    · rcases List.mem_cons.mp h with h | h
      · left; omega
      · exact Or.inr h
    · rcases ih _ _ h with h | h
      · exact Or.inl h
      · rcases List.mem_cons.mp h with h | h
        · have := Nat.mod_lt m (show 10 > 0 by decide)
          left; omega
        · exact Or.inr h

theorem mem_decNat (m c : Nat) (h : c ∈ decNat m) : 48 ≤ c ∧ c ≤ 57 := by
  rcases mem_decNatFrom _ _ _ _ h with h | h
  · exact h
  · simp at h

theorem mem_expPart (x : Int) (c : Nat) (h : c ∈ expPart x) : numChar c := by
  unfold expPart at h
  unfold numChar
  rcases List.mem_cons.mp h with h | h
  · omega
  rcases List.mem_cons.mp h with h | h
  · split at h <;> omega
  split at h
  · rcases List.mem_cons.mp h with h | h
    · omega
    · exact Or.inl (mem_decNat _ _ h)
  · exact Or.inl (mem_decNat _ _ h)

theorem mem_layout (p : Nat) (x : Int) (m c : Nat) (h : c ∈ layout p x m) : numChar c := by
  have digit : ∀ {m k x : Nat}, x ∈ decDigits m k → numChar x :=
    fun hx => Or.inl (mem_decDigits _ _ _ hx)
  have frac : ∀ {m k x j : Nat},
      x ∈ fracPart ((decDigits m k).drop j) → numChar x := by
    intro m k x j hx
    rcases mem_fracPart hx with hx | hx
    · unfold numChar; omega
    · exact digit (List.mem_of_mem_drop hx)
  unfold layout at h
  simp only at h
  split at h
  · split at h
    · rcases List.mem_append.mp h with h | h
      · exact digit (List.mem_of_mem_take h)
      · exact frac h
    · rcases List.mem_cons.mp h with h | h
      · unfold numChar; omega
      rcases List.mem_cons.mp h with h | h
      · unfold numChar; omega
      rcases List.mem_append.mp h with h | h
      · have := (List.mem_replicate.mp h).2
        unfold numChar; omega
      · exact digit (mem_stripZeros h)
  · rcases List.mem_append.mp h with h | h
    · rcases List.mem_append.mp h with h | h
      · exact digit (List.mem_of_mem_take h)
      · exact frac h
    · exact mem_expPart _ _ h

theorem mem_fmtMag (p n d c : Nat) (h : c ∈ fmtMag p n d) : numChar c := by
  unfold fmtMag at h
  simp only at h
  split at h <;> exact mem_layout _ _ _ _ h

theorem mem_fmt_g (p : Nat) (v : Double) (c : Nat) (h : c ∈ fmt_g p v) : numChar c := by
  unfold fmt_g at h
  rcases List.mem_append.mp h with h | h
  · split at h
    · simp only [List.mem_singleton] at h
      unfold numChar; omega
    · simp at h
  · split at h
    · simp only [List.mem_cons, List.mem_singleton, List.not_mem_nil, or_false] at h
      unfold numChar; omega
    · split at h
      · simp only [List.mem_cons, List.mem_singleton, List.not_mem_nil, or_false] at h
        unfold numChar; omega
      · split at h
        · simp only [List.mem_singleton] at h
          unfold numChar; omega
        · exact mem_fmtMag _ _ _ _ h

theorem scan_number (v : Double) : scan .outside (json_encode_number v) = some .outside :=
  scan_outside_plain _ fun c hc => numChar_plain (mem_fmt_g 15 v c hc)

theorem scan_bool (v : Bool) : scan .outside (json_encode_bool v) = some .outside := by
  cases v <;> rfl

theorem scan_sep (first : Bool) :
    scan .outside (if first = true then [] else [44]) = some .outside := by
  cases first <;> rfl

mutual
theorem scan_json_encode : ∀ v : JSON, scan .outside (json_encode v) = some .outside
  | .null => by rfl
  | .boolean v => by simpa [json_encode] using scan_bool v
  | .number v => by simpa [json_encode] using scan_number v
  | .string v => by simpa [json_encode] using scan_string v
  | .array a => by
    have h := scan_elements a true
    have h91 : scan .outside [91] = some .outside := by decide
    have h93 : scan .outside [93] = some .outside := by decide
    simp only [json_encode, scan_append, h, h91, h93, Option.some_bind]
  | .object o => by
    have h := scan_members o true
    have h123 : scan .outside [123] = some .outside := by decide
    have h125 : scan .outside [125] = some .outside := by decide
    simp only [json_encode, scan_append, h, h123, h125, Option.some_bind]
theorem scan_elements : ∀ (a : List JSON) (first : Bool),
    scan .outside (json_encode_elements first a) = some .outside
  | [], _ => by simp [json_encode_elements, scan]
  | x :: xs, first => by
    have h1 := scan_json_encode x
    have h2 := scan_elements xs false
    simp only [json_encode_elements, scan_append, scan_sep, h1, h2, Option.some_bind]
theorem scan_members : ∀ (o : List (List Nat × JSON)) (first : Bool),
    scan .outside (json_encode_members first o) = some .outside
  | [], _ => by simp [json_encode_members, scan]
  | (k, x) :: xs, first => by
    have h1 := scan_json_encode x
    have h2 := scan_members xs false
    have h3 := scan_string k
    have h58 : scan .outside [58] = some .outside := by decide
    simp only [json_encode_members, scan_append, scan_sep, h1, h2, h3, h58, Option.some_bind]
end

theorem intercalate_cons (sep x : List Nat) (xs : List (List Nat)) :
    List.intercalate sep (x :: xs) = x ++ (xs.map fun y => sep ++ y).flatten := by
  induction xs generalizing x with
  | nil => simp [List.intercalate]
  | cons y l ih =>
    have h := ih y
    simp only [List.intercalate, List.intersperse_cons₂, List.flatten_cons, List.map_cons] at h ⊢
    rw [h, List.append_assoc]

theorem json_encode_elements_false (a : List JSON) :
    json_encode_elements false a = (a.map fun x => [44] ++ json_encode x).flatten := by
  induction a with
  | nil => simp [json_encode_elements]
  | cons x xs ih => simp [json_encode_elements, ih]

theorem json_encode_elements_true (a : List JSON) :
    json_encode_elements true a = List.intercalate [44] (a.map json_encode) := by
  cases a with
  | nil => simp [json_encode_elements, List.intercalate]
  | cons x xs =>
    simp [json_encode_elements, json_encode_elements_false, intercalate_cons, List.map_map,
      Function.comp_def]

theorem json_encode_members_false (o : List (List Nat × JSON)) :
    json_encode_members false o
      = (o.map fun kv => [44] ++ (json_encode_string kv.1 ++ [58] ++ json_encode kv.2)).flatten := by
  induction o with
  | nil => simp [json_encode_members]
  | cons x xs ih =>
    obtain ⟨k, x⟩ := x
    simp [json_encode_members, ih]

theorem json_encode_members_true (o : List (List Nat × JSON)) :
    json_encode_members true o
      = List.intercalate [44]
          (o.map fun kv => json_encode_string kv.1 ++ [58] ++ json_encode kv.2) := by
  cases o with
  | nil => simp [json_encode_members, List.intercalate]
  | cons x xs =>
    obtain ⟨k, x⟩ := x
    simp [json_encode_members, json_encode_members_false, intercalate_cons, List.map_map,
      Function.comp_def]

/-! ## Properties of the value model -/

theorem string_lt_irrefl (a : List Nat) : string_lt a a = false := by
  induction a with
  | nil => rfl
  | cons x xs ih => simp [string_lt, ih]

theorem string_lt_trans : ∀ a b c : List Nat,
    string_lt a b = true → string_lt b c = true → string_lt a c = true
  | [], [], _ => by simp [string_lt]
  | [], _ :: _, [] => by simp [string_lt]
  | [], _ :: _, _ :: _ => by simp [string_lt]
  | _ :: _, [], _ => by simp [string_lt]
  | _ :: _, _ :: _, [] => by simp [string_lt]
  | x :: xs, y :: ys, z :: zs => by
    intro h1 h2
    simp only [string_lt, Bool.or_eq_true, decide_eq_true_eq, Bool.and_eq_true] at h1 h2 ⊢
    rcases h1 with h1 | ⟨h1, h1'⟩
    · rcases h2 with h2 | ⟨h2, _⟩
      · exact Or.inl (by omega)
      · exact Or.inl (by omega)
    · rcases h2 with h2 | ⟨h2, h2'⟩
      · exact Or.inl (by omega)
      · exact Or.inr ⟨by omega, string_lt_trans xs ys zs h1' h2'⟩

theorem string_lt_asymm (a b : List Nat) (h : string_lt a b = true) : string_lt b a = false := by
  by_contra h'
  have h2 : string_lt b a = true := by simpa using h'
  have := string_lt_trans a b a h h2
  rw [string_lt_irrefl] at this
  exact Bool.false_ne_true this

theorem string_lt_total : ∀ a b : List Nat,
    a ≠ b → string_lt a b = false → string_lt b a = true
  | [], [] => by simp
  | [], _ :: _ => by simp [string_lt]
  | _ :: _, [] => by simp [string_lt]
  | x :: xs, y :: ys => by
    intro hne h
    simp only [string_lt, Bool.or_eq_false_iff, decide_eq_false_iff_not, Bool.and_eq_false_imp,
      decide_eq_true_eq, Bool.or_eq_true, Bool.and_eq_true] at h ⊢
    by_cases hxy : x = y
    · subst hxy
      have hne' : xs ≠ ys := fun e => hne (by rw [e])
      exact Or.inr ⟨rfl, string_lt_total xs ys hne' (h.2 rfl)⟩
    · exact Or.inl (by omega)

namespace JSONObject

theorem mem_touch {k : List Nat} {o : JSONObject} {kv : List Nat × JSON}
    (h : kv ∈ touch k o) : kv = (k, JSON.null) ∨ kv ∈ o := by
  induction o with
  | nil => simpa [touch] using h
  | cons a t ih =>
    obtain ⟨l, x⟩ := a
    simp only [touch] at h
    split at h
    · exact Or.inr h
    · split at h
      · rcases List.mem_cons.mp h with h | h
        · exact Or.inl h
        · exact Or.inr h
      · rcases List.mem_cons.mp h with h | h
        · exact Or.inr (h ▸ List.mem_cons_self _ _)
        · rcases ih h with h | h
          · exact Or.inl h
          · exact Or.inr (List.mem_cons_of_mem _ h)

theorem touch_sorted (k : List Nat) {o : JSONObject} (h : sorted o) : sorted (touch k o) := by
  induction o with
  | nil => simp [touch, sorted]
  | cons a t ih =>
    obtain ⟨l, x⟩ := a
    have ht : sorted t := (List.pairwise_cons.mp h).2
    have hl := (List.pairwise_cons.mp h).1
    simp only [touch]
    split
    · exact h
    · rename_i hlk
      split
      · rename_i hlt
        refine List.pairwise_cons.mpr ⟨?_, h⟩
        intro b hb
        rcases List.mem_cons.mp hb with hb | hb
        · subst hb; exact hlt
        · exact string_lt_trans _ _ _ hlt (hl b hb)
      · rename_i hlt
        refine List.pairwise_cons.mpr ⟨?_, ih ht⟩
        intro b hb
        rcases mem_touch hb with hb | hb
        · subst hb
          exact string_lt_total k l (fun e => hlk e.symm) (by simpa using hlt)
        · exact hl b hb

theorem assign_keys (k : List Nat) (v : JSON) (o : JSONObject) :
    (assign k v o).map Prod.fst = o.map Prod.fst := by
  induction o with
  | nil => rfl
  | cons a t ih =>
    obtain ⟨l, x⟩ := a
    simp only [assign]
    split
    · simp
    · simp [ih]

theorem sorted_iff_keys (o : JSONObject) :
    sorted o ↔ (o.map Prod.fst).Pairwise fun a b => string_lt a b = true := by
  unfold sorted
  rw [List.pairwise_map]

theorem assign_sorted (k : List Nat) (v : JSON) {o : JSONObject} (h : sorted o) :
    sorted (assign k v o) := by
  rw [sorted_iff_keys] at h ⊢
  rwa [assign_keys]

theorem set_sorted (k : List Nat) (v : JSON) {o : JSONObject} (h : sorted o) :
    sorted (set o k v) :=
  assign_sorted k v (touch_sorted k h)

theorem ofStores_sorted_from (l : List (List Nat × JSON)) (acc : JSONObject) (h : sorted acc) :
    sorted (l.foldl (fun o kv => set o kv.1 kv.2) acc) := by
  induction l generalizing acc with
  | nil => exact h
  | cons a t ih => exact ih _ (set_sorted _ _ h)

theorem ofStores_sorted (l : List (List Nat × JSON)) : sorted (ofStores l) :=
  ofStores_sorted_from l [] List.Pairwise.nil

theorem set_perm (k : List Nat) (v : JSON) (o : JSONObject) (h : k ∉ o.map Prod.fst) :
    (set o k v).Perm ((k, v) :: o) := by
  induction o with
  | nil => simp [set, touch, assign]
  | cons a t ih =>
    obtain ⟨l, x⟩ := a
    have hlk : l ≠ k := fun e => h (by simp [e])
    have ht : k ∉ t.map Prod.fst := fun e => h (by simp [e])
    simp only [set, touch, if_neg hlk]
    split
    · simp [assign]
    · simp only [assign, if_neg hlk]
      exact ((ih ht).cons (l, x)).trans (List.Perm.swap _ _ _)

theorem ofStores_perm_from (l : List (List Nat × JSON)) (acc : JSONObject)
    (hn : (l.map Prod.fst).Nodup) (hd : ∀ k ∈ l.map Prod.fst, k ∉ acc.map Prod.fst) :
    (l.foldl (fun o kv => set o kv.1 kv.2) acc).Perm (l ++ acc) := by
  induction l generalizing acc with
  | nil => simp
  | cons a t ih =>
    simp only [List.map_cons, List.nodup_cons] at hn
    have ha : a.1 ∉ acc.map Prod.fst := hd _ (by simp)
    have hp := set_perm a.1 a.2 acc ha
    have hd' : ∀ k ∈ t.map Prod.fst, k ∉ (set acc a.1 a.2).map Prod.fst := by
      intro k hk hk'
      have := (hp.map Prod.fst).subset hk'
      rcases List.mem_cons.mp this with h | h
      · exact hn.1 (h ▸ hk)
      · exact hd k (by simp only [List.map_cons]; exact List.mem_cons_of_mem _ hk) h
    refine (ih _ hn.2 hd').trans ?_
    simp only [List.foldl_cons, List.cons_append]
    exact (List.Perm.append_left t hp).trans List.perm_middle

theorem ofStores_perm (l : List (List Nat × JSON)) (hn : (l.map Prod.fst).Nodup) :
    (ofStores l).Perm l := by
  simpa using ofStores_perm_from l [] hn (by simp)

theorem eq_of_perm_of_sorted {a b : JSONObject} (hp : a.Perm b) (ha : sorted a)
    (hb : sorted b) : a = b := by
  haveI : IsAntisymm (List Nat × JSON) fun a b => string_lt a.1 b.1 = true :=
    ⟨fun x y h1 h2 => by
      rw [string_lt_asymm _ _ h1] at h2
      exact absurd h2 Bool.false_ne_true⟩
  exact List.eq_of_perm_of_sorted hp ha hb

theorem ofStores_eq_of_perm {l₁ l₂ : List (List Nat × JSON)} (hp : l₁.Perm l₂)
    (hn : (l₁.map Prod.fst).Nodup) : ofStores l₁ = ofStores l₂ := by
  have hn₂ : (l₂.map Prod.fst).Nodup := (hp.map Prod.fst).nodup_iff.mp hn
  exact eq_of_perm_of_sorted
    (((ofStores_perm l₁ hn).trans hp).trans (ofStores_perm l₂ hn₂).symm)
    (ofStores_sorted l₁) (ofStores_sorted l₂)

end JSONObject

theorem Double.eq_same (a : Double) (h : a.isNaN = false) : Double.eq a a = true := by
  unfold Double.eq
  simp [h]

mutual
theorem JSON.eq_self : ∀ v : JSON, v.hasNaN = false → JSON.eq v v = true
  | .null, _ => by simp [JSON.eq]
  | .boolean _, _ => by simp [JSON.eq]
  | .number v, h => by
    simp only [JSON.hasNaN] at h
    simp [JSON.eq, Double.eq_same v h]
  | .string _, _ => by simp [JSON.eq]
  | .array a, h => by
    simp only [JSON.hasNaN] at h
    simp [JSON.eq, JSON.eqArray_self a h]
  | .object o, h => by
    simp only [JSON.hasNaN] at h
    simp [JSON.eq, JSON.eqObject_self o h]
theorem JSON.eqArray_self : ∀ a : List JSON, JSON.anyNaN a = false → JSON.eqArray a a = true
  | [], _ => by simp [JSON.eqArray]
  | x :: xs, h => by
    simp only [JSON.anyNaN, Bool.or_eq_false_iff] at h
    simp [JSON.eqArray, JSON.eq_self x h.1, JSON.eqArray_self xs h.2]
theorem JSON.eqObject_self : ∀ o : List (List Nat × JSON),
    JSON.anyNaNMember o = false → JSON.eqObject o o = true
  | [], _ => by simp [JSON.eqObject]
  | (k, x) :: xs, h => by
    simp only [JSON.anyNaNMember, Bool.or_eq_false_iff] at h
    simp [JSON.eqObject, JSON.eq_self x h.1, JSON.eqObject_self xs h.2]
end

theorem JSON.anyNaNMember_eq_false (o : List (List Nat × JSON))
    (h : ∀ kv ∈ o, kv.2.hasNaN = false) : JSON.anyNaNMember o = false := by
  induction o with
  | nil => rfl
  | cons a t ih =>
    obtain ⟨k, x⟩ := a
    simp only [JSON.anyNaNMember, Bool.or_eq_false_iff]
    exact ⟨h (k, x) (List.mem_cons_self _ _), ih fun kv hkv => h kv (List.mem_cons_of_mem _ hkv)⟩

/-! ## The buffered decoder builds well-formed values -/

theorem JSON.wfArray_iff (a : List JSON) : JSON.wfArray a ↔ ∀ x ∈ a, JSON.wf x := by
  induction a with
  | nil => simp [JSON.wfArray]
  | cons x xs ih => simp [JSON.wfArray, ih]

theorem JSON.wfMember_iff (o : List (List Nat × JSON)) :
    JSON.wfMember o ↔ ∀ kv ∈ o, JSON.wf kv.2 := by
  induction o with
  | nil => simp [JSON.wfMember]
  | cons x xs ih =>
    obtain ⟨k, x⟩ := x
    simp [JSON.wfMember, ih]

theorem JSONObject.mem_assign {k : List Nat} {v : JSON} {o : JSONObject}
    {kv : List Nat × JSON} (h : kv ∈ JSONObject.assign k v o) : kv = (k, v) ∨ kv ∈ o := by
  induction o with
  | nil => simp [JSONObject.assign] at h
  | cons a t ih =>
    obtain ⟨l, x⟩ := a
    simp only [JSONObject.assign] at h
    split at h
    · rename_i hlk
      rcases List.mem_cons.mp h with h | h
      · exact Or.inl (by rw [h, hlk])
      · exact Or.inr (List.mem_cons_of_mem _ h)
    · rcases List.mem_cons.mp h with h | h
      · exact Or.inr (h ▸ List.mem_cons_self _ _)
      · rcases ih h with h | h
        · exact Or.inl h
        · exact Or.inr (List.mem_cons_of_mem _ h)

theorem JSON.wfMember_set (o : JSONObject) (k : List Nat) (v : JSON)
    (ho : JSON.wfMember o) (hv : JSON.wf v) : JSON.wfMember (JSONObject.set o k v) := by
  rw [JSON.wfMember_iff] at ho ⊢
  intro kv hkv
  rcases JSONObject.mem_assign hkv with h | h
  · rw [h]; exact hv
  · rcases JSONObject.mem_touch h with h | h
    · rw [h]; simp [JSON.wf]
    · exact ho kv h

theorem Locals.inv_init (p : Nat) : (Locals.init p).inv := by
  simp [Locals.inv, Locals.init, JSON.wfArray, JSON.wfMember, JSONObject.sorted]

theorem Locals.inv_push {l : Locals} (h : l.inv) {v : JSON} (hv : v.wf) (st : State) :
    Locals.inv { l with array := l.array ++ [v], state := st } := by
  refine ⟨?_, h.2.1, h.2.2⟩
  rw [JSON.wfArray_iff]
  intro x hx
  rcases List.mem_append.mp hx with hx | hx
  · exact (JSON.wfArray_iff _).mp h.1 x hx
  · simp only [List.mem_singleton] at hx
    rw [hx]; exact hv

theorem Locals.inv_store {l : Locals} (h : l.inv) (k : List Nat) {v : JSON} (hv : v.wf)
    (st : State) :
    Locals.inv { l with object := JSONObject.set l.object k v, state := st } :=
  ⟨h.1, JSONObject.set_sorted k v h.2.1, JSON.wfMember_set _ k v h.2.2 hv⟩

theorem accept_wf (inp : List Nat) (lbl : Label) (pos : Nat) (l : Locals) (h : l.inv)
    {p : Nat} {v : JSON} (hr : accept inp lbl pos l = .ok (p, v)) : v.wf := by
  cases lbl <;> simp only [accept] at hr
  · cases hr; simp [JSON.wf]
  · cases hr; simp [JSON.wf]
  · cases hr; simp [JSON.wf]
  · split at hr
    · cases hr
    · cases hr; simp [JSON.wf]
  · cases hr; simp [JSON.wf]
  · cases hr; simpa [JSON.wf] using h.1
  · cases hr; simpa [JSON.wf] using h.2

theorem finish_wf (inp : List Nat) (pos : Nat) (l : Locals) (h : l.inv)
    {p : Nat} {v : JSON} (hr : finish inp pos l = .ok (p, v)) : v.wf := by
  unfold finish at hr
  split at hr
  all_goals first
    | exact accept_wf _ _ _ _ h hr
    | cases hr

theorem stepU_inv (loc : Locale) (inp : List Nat) (pos : Nat) (l : Locals) (h : l.inv) :
    (stepU loc inp pos l).inv := by
  unfold stepU
  split
  · trivial
  · split
    · trivial
    · split
      · trivial
      · split
        · exact h
        · exact h

theorem afterCall_inv (r : Result (Nat × JSON)) (k : Nat → JSON → Step)
    (hr : ∀ p v, r = .ok (p, v) → v.wf) (hk : ∀ p v, v.wf → (k p v).inv) :
    (afterCall r k).inv := by
  unfold afterCall
  split
  · exact hk _ _ (hr _ _ rfl)
  · trivial
  · trivial
  · trivial

theorem Step.inv_ite {c : Prop} [Decidable c] {a b : Step} (ha : a.inv) (hb : b.inv) :
    (if c then a else b).inv := by
  split <;> assumption

theorem step_inv (loc : Locale) (inp : List Nat) (call : Nat → Result (Nat × JSON))
    (hcall : ∀ q p v, call q = .ok (p, v) → v.wf) (pos c : Nat) (l : Locals) (h : l.inv) :
    (step loc inp call pos c l).inv := by
  have hpush : ∀ st, (afterCall (call pos) fun p v =>
      Step.next (p - 1) { l with array := l.array ++ [v], state := st }).inv :=
    fun st => afterCall_inv _ _ (hcall pos) fun _ _ hv => Locals.inv_push h hv st
  have hkey : ∀ st, (afterCall (call pos) fun p v =>
      Step.next (p - 1) { l with key := v, state := st }).inv :=
    fun st => afterCall_inv _ _ (hcall pos) fun _ _ _ => h
  have hempty : ∀ st, Locals.inv { l with array := [], state := st } :=
    fun _ => ⟨by simp [JSON.wfArray], h.2.1, h.2.2⟩
  have hempty2 : ∀ st, Locals.inv { l with object := [], state := st } :=
    fun _ => ⟨h.1, by simp [JSONObject.sorted], by simp [JSON.wfMember]⟩
  have hthrow : ∀ e, (Step.throw e).inv := fun _ => True.intro
  unfold step
  split
  all_goals repeat' with_reducible apply Step.inv_ite
  all_goals first
    | exact h
    | exact hthrow _
    | exact hpush _
    | exact hkey _
    | exact hempty _
    | exact hempty2 _
    | exact stepU_inv _ _ _ _ h
    | skip
  · split
    · exact afterCall_inv _ _ (hcall pos) fun _ _ hv => Locals.inv_store h _ hv _
    · exact hthrow _

theorem decodeLoop_wf (loc : Locale) (inp : List Nat) (fuel : Nat) :
    ∀ (pos : Nat) (l : Locals), l.inv → ∀ p v,
      decodeLoop loc inp fuel pos l = .ok (p, v) → v.wf := by
  induction fuel with
  | zero =>
    intro pos l _ p v hr
    simp [decodeLoop] at hr
  | succ fuel ih =>
    intro pos l h p v hr
    have hcall : ∀ q p v, decodeLoop loc inp fuel q (Locals.init q) = .ok (p, v) → v.wf :=
      fun q p v e => ih q _ (Locals.inv_init q) p v e
    have hs := fun c => step_inv loc inp
      (fun p => decodeLoop loc inp fuel p (Locals.init p)) hcall pos c l h
    simp only [decodeLoop] at hr
    split at hr
    · exact finish_wf _ _ _ h hr
    · split at hr
      · cases hr
      · rename_i c _
        have hc := hs c
        split at hr
        · rename_i heq
          rw [heq] at hc
          exact ih _ _ hc p v hr
        · rename_i heq
          rw [heq] at hc
          exact accept_wf _ _ _ _ hc hr
        · cases hr
        · cases hr
        · cases hr

theorem json_decode_wf (loc : Locale) (inp : List Nat) (v : JSON)
    (h : json_decode loc inp = .ok v) : v.wf := by
  unfold json_decode json_decode_into at h
  cases hd : json_decode_at loc inp 0 with
  | ok r =>
    obtain ⟨p, w⟩ := r
    rw [hd] at h
    simp only at h
    have hw : w.wf := decodeLoop_wf loc inp _ 0 _ (Locals.inv_init 0) p w hd
    cases ht : trailing inp (inp.length - p) p with
    | none => rw [ht] at h; cases h; exact hw
    | some e => rw [ht] at h; cases h
  | throw e => rw [hd] at h; cases h
  | undefined => rw [hd] at h; cases h
  | outOfFuel => rw [hd] at h; cases h

/-! ## Decoding an encoded String -/

theorem at_drop {inp : List Nat} {pos : Nat} {r : List Nat} (h : inp.drop pos = r) (k : Nat) :
    inp[pos + k]? = r[k]? := by
  rw [← h, List.getElem?_drop]

theorem length_of_drop {inp : List Nat} {pos : Nat} {r : List Nat} (h : inp.drop pos = r) :
    inp.length - pos = r.length := by
  rw [← h, List.length_drop]

theorem drop_add {inp : List Nat} {pos : Nat} {a r : List Nat} (h : inp.drop pos = a ++ r) :
    inp.drop (pos + a.length) = r := by
  rw [← List.drop_drop, h, List.drop_left]

theorem decodeLoop_at {loc : Locale} {inp : List Nat} {pos c : Nat} {r : List Nat}
    (h : inp.drop pos = c :: r) (fuel : Nat) (l : Locals) :
    decodeLoop loc inp (fuel + 1) pos l
      = match step loc inp (fun p => decodeLoop loc inp fuel p (Locals.init p)) pos c l with
        | .next pos l => decodeLoop loc inp fuel (pos + 1) l
        | .goto lbl pos l => accept inp lbl pos l
        | .throw e => .throw e
        | .undefined => .undefined
        | .outOfFuel => .outOfFuel := by
  have hlen := length_of_drop h
  have hc : inp[pos]? = some c := by simpa using at_drop h 0
  have hne : pos ≠ inp.length := by simp at hlen; omega
  rw [decodeLoop, if_neg hne, hc]

/-- One pass of the loop in state 12 over a byte that is neither a quote nor a backslash. -/
theorem decodeLoop_plain (loc : Locale) (inp : List Nat) (fuel pos c : Nat) (l : Locals)
    (str r : List Nat) (h : inp.drop pos = c :: r) (h1 : c ≠ 34) (h2 : c ≠ 92) :
    decodeLoop loc inp (fuel + 1) pos (l.inStr str)
      = decodeLoop loc inp fuel (pos + 1) (l.inStr (str ++ [c])) := by
  rw [decodeLoop_at h]
  simp only [step, Locals.inStr, h1, h2, if_false]

/-- Two passes of the loop over a two-character escape. -/
theorem decodeLoop_named (loc : Locale) (inp : List Nat) (fuel pos d x : Nat) (l : Locals)
    (str r : List Nat) (h : inp.drop pos = 92 :: x :: r) (hx : (d, x) ∈ named) :
    decodeLoop loc inp (fuel + 2) pos (l.inStr str)
      = decodeLoop loc inp fuel (pos + 2) (l.inStr (str ++ [d])) := by
  have h' : inp.drop (pos + 1) = x :: r := drop_add (a := [92]) h
  rw [decodeLoop_at h]
  simp only [step, Locals.inStr, if_true, if_false, show (92 : Nat) ≠ 34 by decide]
  rw [decodeLoop_at h']
  simp only [named, List.mem_cons, Prod.mk.injEq, List.mem_singleton, List.not_mem_nil,
    or_false] at hx
  rcases hx with ⟨rfl, rfl⟩ | ⟨rfl, rfl⟩ | ⟨rfl, rfl⟩ | ⟨rfl, rfl⟩ | ⟨rfl, rfl⟩ | ⟨rfl, rfl⟩ |
    ⟨rfl, rfl⟩ <;> simp [step]

theorem hexVal_hexChar (a : Nat) (h : a < 16) : hexVal (hexChar a) = some a := by
  interval_cases a <;> rfl

theorem wcstombs_ascii (loc : Locale) (c : Nat) (h0 : 0 < c) (h : c < 128) :
    wcstombs loc c = some [c] := by
  unfold wcstombs
  rw [if_neg (by omega), if_pos h]

/-- Two passes of the loop over an escape `\u00XX` of a byte `16 * a + b` of the ASCII
range other than 0. -/
theorem decodeLoop_escaped (loc : Locale) (inp : List Nat) (fuel pos a b : Nat) (l : Locals)
    (str r : List Nat)
    (h : inp.drop pos = 92 :: 117 :: 48 :: 48 :: hexChar a :: hexChar b :: r)
    (ha : a < 16) (hb : b < 16) (h0 : 0 < a * 16 + b) (h128 : a * 16 + b < 128) :
    decodeLoop loc inp (fuel + 2) pos (l.inStr str)
      = decodeLoop loc inp fuel (pos + 6) (l.inStr (str ++ [a * 16 + b])) := by
  have h' : inp.drop (pos + 1) = 117 :: 48 :: 48 :: hexChar a :: hexChar b :: r :=
    drop_add (a := [92]) h
  have hlen := length_of_drop h'
  have e1 : inp[pos + 1 + 1]? = some 48 := by simpa using at_drop h' 1
  have e2 : inp[pos + 1 + 1 + 1]? = some 48 := by simpa using at_drop h' 2
  have e3 : inp[pos + 1 + 1 + 1 + 1]? = some (hexChar a) := by simpa using at_drop h' 3
  have e4 : inp[pos + 1 + 1 + 1 + 1 + 1]? = some (hexChar b) := by simpa using at_drop h' 4
  have hz : hexVal 48 = some 0 := by decide
  have hloop : hexLoop inp 4 (pos + 1) 0 0 = some (pos + 5, a * 16 + b, 4) := by
    simp only [hexLoop, e1, e2, e3, e4, hz, hexVal_hexChar a ha, hexVal_hexChar b hb]
    simp
  rw [decodeLoop_at h]
  simp only [step, Locals.inStr, if_true, if_false, show (92 : Nat) ≠ 34 by decide]
  rw [decodeLoop_at h']
  have hnot : ¬ (inp.length - (pos + 1) < 4) := by
    simp only [List.length_cons] at hlen
    omega
  simp [step, stepU, hnot, hloop, wcstombs_ascii loc _ h0 h128]

theorem json_encode_char_control (c : Fin 32) (h : c.val ∉ [8, 12, 10, 13, 9]) :
    json_encode_char c.val = [92, 117, 48, 48, hexChar (c.val / 16), hexChar (c.val % 16)] := by
  revert c
  decide!

theorem json_encode_char_plain (c : Nat) (h1 : 32 ≤ c) (h2 : c < 128) (h3 : c ≠ 34)
    (h4 : c ≠ 92) : json_encode_char c = [c] := by
  have h5 : ¬ charValue c < 32 := by
    unfold charValue
    rw [if_pos h2]
    omega
  have : c ≠ 8 ∧ c ≠ 12 ∧ c ≠ 10 ∧ c ≠ 13 ∧ c ≠ 9 := by omega
  simp [json_encode_char, h3, h4, h5, this]

/-- The passes of the loop over the encoding of one byte of the ASCII range other than 0:
they use at most as much fuel as the encoding is long and append the byte. -/
theorem decodeLoop_char (loc : Locale) (inp : List Nat) (c : Nat) (h0 : 0 < c)
    (h128 : c < 128) (fuel pos : Nat) (l : Locals) (str r : List Nat)
    (h : inp.drop pos = json_encode_char c ++ r) (hf : (json_encode_char c).length ≤ fuel) :
    ∃ k, k ≤ (json_encode_char c).length ∧
      decodeLoop loc inp fuel pos (l.inStr str)
        = decodeLoop loc inp (fuel - k) (pos + (json_encode_char c).length)
            (l.inStr (str ++ [c])) := by
  by_cases hn : c = 34 ∨ c = 92 ∨ c = 8 ∨ c = 12 ∨ c = 10 ∨ c = 13 ∨ c = 9
  · have key : ∀ x, (c, x) ∈ named → json_encode_char c = [92, x] →
        ∃ k, k ≤ (json_encode_char c).length ∧
          decodeLoop loc inp fuel pos (l.inStr str)
            = decodeLoop loc inp (fuel - k) (pos + (json_encode_char c).length)
                (l.inStr (str ++ [c])) := by
      intro x hx he
      rw [he] at h hf ⊢
      simp only [List.length_cons, List.length_nil] at hf ⊢
      obtain ⟨f, rfl⟩ : ∃ f, fuel = f + 2 := ⟨fuel - 2, by omega⟩
      exact ⟨2, le_refl _, by simpa using decodeLoop_named loc inp f pos c x l str r h hx⟩
    rcases hn with rfl | rfl | rfl | rfl | rfl | rfl | rfl
    · exact key 34 (by decide) (by decide)
    · exact key 92 (by decide) (by decide)
    · exact key 98 (by decide) (by decide)
    · exact key 102 (by decide) (by decide)
    · exact key 110 (by decide) (by decide)
    · exact key 114 (by decide) (by decide)
    · exact key 116 (by decide) (by decide)
  · have hn' : c ≠ 34 ∧ c ≠ 92 ∧ c ≠ 8 ∧ c ≠ 12 ∧ c ≠ 10 ∧ c ≠ 13 ∧ c ≠ 9 := by omega
    by_cases h32 : c < 32
    · have he := json_encode_char_control ⟨c, h32⟩ (by simp; omega)
      simp only at he
      rw [he] at h hf ⊢
      simp only [List.length_cons, List.length_nil] at hf ⊢
      obtain ⟨f, rfl⟩ : ∃ f, fuel = f + 2 := ⟨fuel - 2, by omega⟩
      have hd : c / 16 * 16 + c % 16 = c := by omega
      have := decodeLoop_escaped loc inp f pos (c / 16) (c % 16) l str r h (by omega)
        (by omega) (by omega) (by omega)
      rw [hd] at this
      exact ⟨2, by omega, by simpa using this⟩
    · have he := json_encode_char_plain c (by omega) h128 hn'.1 hn'.2.1
      rw [he] at h hf ⊢
      simp only [List.length_cons, List.length_nil] at hf ⊢
      obtain ⟨f, rfl⟩ : ∃ f, fuel = f + 1 := ⟨fuel - 1, by omega⟩
      exact ⟨1, le_refl _, by
        simpa using decodeLoop_plain loc inp f pos c l str r h hn'.1 hn'.2.1⟩

/-- The loop of the buffered decoder, inside a string literal, over the encoded bytes of
`s` and the closing quote: it returns the position after the quote and the String made
of the content so far and `s`, when `s` holds bytes of the ASCII range other than 0. -/
theorem decodeLoop_string_body (loc : Locale) (inp : List Nat) (s : List Nat)
    (hs : ∀ c ∈ s, 0 < c ∧ c < 128) :
    ∀ (fuel pos : Nat) (l : Locals) (str r : List Nat),
      inp.drop pos = s.flatMap json_encode_char ++ 34 :: r →
      (s.flatMap json_encode_char).length + 1 ≤ fuel →
      decodeLoop loc inp fuel pos (l.inStr str)
        = .ok (pos + (s.flatMap json_encode_char).length + 1, .string (str ++ s)) := by
  induction s with
  | nil =>
    intro fuel pos l str r h hf
    obtain ⟨f, rfl⟩ : ∃ f, fuel = f + 1 := ⟨fuel - 1, by simp at hf; omega⟩
    simp only [List.flatMap_nil, List.nil_append] at h
    rw [decodeLoop_at h]
    simp [step, Locals.inStr, accept]
  | cons c t ih =>
    intro fuel pos l str r h hf
    have hc := hs c (List.mem_cons_self _ _)
    simp only [List.flatMap_cons, List.append_assoc, List.length_append] at h hf ⊢
    obtain ⟨k, hk, e⟩ := decodeLoop_char loc inp c hc.1 hc.2 fuel pos l str _ h (by omega)
    rw [e, ih (fun x hx => hs x (List.mem_cons_of_mem _ hx)) _ _ l _ r (drop_add h) (by omega)]
    simp only [List.append_assoc, List.singleton_append, Result.ok.injEq, Prod.mk.injEq,
      and_true]
    omega

/-- The buffered decoder gives back every String of bytes of the ASCII range other than 0
from its encoding. -/
theorem json_decode_encode_string (loc : Locale) (s : List Nat)
    (hs : ∀ c ∈ s, 0 < c ∧ c < 128) :
    json_decode loc (json_encode (.string s)) = .ok (.string s) := by
  have hinp : json_encode (.string s) = 34 :: (s.flatMap json_encode_char ++ [34]) := by
    simp [json_encode, json_encode_string]
  have hd0 : (json_encode (.string s)).drop 0 = 34 :: (s.flatMap json_encode_char ++ [34]) := by
    rw [List.drop_zero, hinp]
  have hd1 : (json_encode (.string s)).drop (0 + 1) = s.flatMap json_encode_char ++ 34 :: [] :=
    drop_add (a := [34]) hd0
  have hlen : (json_encode (.string s)).length = (s.flatMap json_encode_char).length + 2 := by
    rw [hinp]; simp
  have hat : json_decode_at loc (json_encode (.string s)) 0
      = .ok ((json_encode (.string s)).length, .string s) := by
    unfold json_decode_at
    rw [show 2 * ((json_encode (.string s)).length - 0) + 2
      = (2 * (json_encode (.string s)).length + 1) + 1 by omega, decodeLoop_at hd0]
    have hstep : step loc (json_encode (.string s))
        (fun p => decodeLoop loc (json_encode (.string s))
          (2 * (json_encode (.string s)).length + 1) p (Locals.init p)) 0 34 (Locals.init 0)
        = .next 0 ((Locals.init 0).inStr []) := by
      simp [step, Locals.init, Locals.inStr, isWs, isDigit19]
    rw [hstep]
    simp only
    rw [decodeLoop_string_body loc _ s hs _ _ _ _ [] hd1 (by omega)]
    simp [hlen]
    omega
  unfold json_decode json_decode_into
  rw [hat]
  simp [trailing]

/-! ## The two encoders on values without raw control characters -/

theorem OStream.insert_of_width (o : OStream) (t : List Nat) (h : o.width = 0) :
    (o.insert t).width = 0 ∧ (o.insert t).text = o.text ++ t := by
  unfold OStream.insert
  simp only [h, Nat.zero_sub, List.replicate_zero, List.append_nil, List.nil_append, ite_self,
    and_self]

theorem json_encode_char_os_eq (c : Nat) (hc : sameBranch c) (o : OStream) (h : o.width = 0) :
    (json_encode_char_os c o).width = 0 ∧
    (json_encode_char_os c o).text = o.text ++ json_encode_char c := by
  unfold json_encode_char_os json_encode_char
  split_ifs with h1 h2 h3 h4 h5 h6 h7 h8
  any_goals exact o.insert_of_width _ h
  exfalso
  unfold sameBranch at hc
  tauto

theorem json_encode_chars_os_eq (s : List Nat) (hs : ∀ c ∈ s, sameBranch c) (o : OStream)
    (h : o.width = 0) :
    (s.foldl (fun o c => json_encode_char_os c o) o).width = 0 ∧
    (s.foldl (fun o c => json_encode_char_os c o) o).text
      = o.text ++ s.flatMap json_encode_char := by
  induction s generalizing o with
  | nil => simp [h]
  | cons c t ih =>
    have h1 := json_encode_char_os_eq c (hs c (List.mem_cons_self _ _)) o h
    have h2 := ih (fun x hx => hs x (List.mem_cons_of_mem _ hx)) _ h1.1
    simp only [List.foldl_cons, List.flatMap_cons]
    exact ⟨h2.1, by rw [h2.2, h1.2, List.append_assoc]⟩

theorem json_encode_string_os_eq (s : List Nat) (hs : ∀ c ∈ s, sameBranch c) (o : OStream)
    (h : o.width = 0) :
    (json_encode_string_os s o).width = 0 ∧
    (json_encode_string_os s o).text = o.text ++ json_encode_string s := by
  unfold json_encode_string_os json_encode_string
  have h1 := o.insert_of_width [34] h
  have h2 := json_encode_chars_os_eq s hs _ h1.1
  have h3 := OStream.insert_of_width _ [34] h2.1
  exact ⟨h3.1, by rw [h3.2, h2.2, h1.2]; simp⟩

theorem json_encode_number_os_eq (v : Double) (o : OStream) (h : o.width = 0) :
    (json_encode_number_os v o).width = 0 ∧
    (json_encode_number_os v o).text = o.text ++ json_encode_number v := by
  unfold json_encode_number_os OStream.insertDouble
  exact OStream.insert_of_width _ _ h

theorem json_encode_bool_os_eq (v : Bool) (o : OStream) (h : o.width = 0) :
    (json_encode_bool_os v o).width = 0 ∧
    (json_encode_bool_os v o).text = o.text ++ json_encode_bool v := by
  unfold json_encode_bool_os json_encode_bool
  exact OStream.insert_of_width _ _ h

theorem OStream.sep_of_width (first : Bool) (o : OStream) (h : o.width = 0) :
    (if first = true then o else o.insert [44]).width = 0 ∧
    (if first = true then o else o.insert [44]).text
      = o.text ++ (if first = true then [] else [44]) := by
  cases first
  · simpa using o.insert_of_width [44] h
  · simp [h]

mutual
theorem json_encode_os_eq : ∀ (v : JSON), v.sameBranch → ∀ (o : OStream), o.width = 0 →
    (json_encode_os v o).width = 0 ∧ (json_encode_os v o).text = o.text ++ json_encode v
  | .null, _, o, h => by
    simpa [json_encode_os, json_encode] using o.insert_of_width [110, 117, 108, 108] h
  | .boolean v, _, o, h => by
    simpa [json_encode_os, json_encode] using json_encode_bool_os_eq v o h
  | .number v, _, o, h => by
    simpa [json_encode_os, json_encode] using json_encode_number_os_eq v o h
  | .string s, hs, o, h => by
    simp only [JSON.sameBranch] at hs
    simpa [json_encode_os, json_encode] using json_encode_string_os_eq s hs o h
  | .array a, hs, o, h => by
    simp only [JSON.sameBranch] at hs
    have h1 := o.insert_of_width [91] h
    have h2 := json_encode_elements_os_eq a true hs _ h1.1
    have h3 := OStream.insert_of_width _ [93] h2.1
    simp only [json_encode_os, json_encode]
    exact ⟨h3.1, by rw [h3.2, h2.2, h1.2]; simp⟩
  | .object m, hs, o, h => by
    simp only [JSON.sameBranch] at hs
    have h1 := o.insert_of_width [123] h
    have h2 := json_encode_members_os_eq m true hs _ h1.1
    have h3 := OStream.insert_of_width _ [125] h2.1
    simp only [json_encode_os, json_encode]
    exact ⟨h3.1, by rw [h3.2, h2.2, h1.2]; simp⟩
theorem json_encode_elements_os_eq : ∀ (a : List JSON) (first : Bool),
    JSON.sameBranchArray a → ∀ (o : OStream), o.width = 0 →
    (json_encode_elements_os first a o).width = 0 ∧
    (json_encode_elements_os first a o).text = o.text ++ json_encode_elements first a
  | [], _, _, o, h => by simp [json_encode_elements_os, json_encode_elements, h]
  | x :: xs, first, hs, o, h => by
    simp only [JSON.sameBranchArray] at hs
    have h1 := OStream.sep_of_width first o h
    have h2 := json_encode_os_eq x hs.1 _ h1.1
    have h3 := json_encode_elements_os_eq xs false hs.2 _ h2.1
    simp only [json_encode_elements_os, json_encode_elements]
    exact ⟨h3.1, by rw [h3.2, h2.2, h1.2]; simp⟩
theorem json_encode_members_os_eq : ∀ (m : List (List Nat × JSON)) (first : Bool),
    JSON.sameBranchMember m → ∀ (o : OStream), o.width = 0 →
    (json_encode_members_os first m o).width = 0 ∧
    (json_encode_members_os first m o).text = o.text ++ json_encode_members first m
  | [], _, _, o, h => by simp [json_encode_members_os, json_encode_members, h]
  | (k, x) :: xs, first, hs, o, h => by
    simp only [JSON.sameBranchMember] at hs
    have h1 := OStream.sep_of_width first o h
    have h2 := json_encode_string_os_eq k hs.1 _ h1.1
    have h3 := OStream.insert_of_width _ [58] h2.1
    have h4 := json_encode_os_eq x hs.2.1 _ h3.1
    have h5 := json_encode_members_os_eq xs false hs.2.2 _ h4.1
    simp only [json_encode_members_os, json_encode_members]
    exact ⟨h5.1, by rw [h5.2, h4.2, h3.2, h2.2, h1.2]; simp⟩
end

/-! ## Positions and fuel of the buffered decoder -/

theorem step_congr (loc : Locale) (inp : List Nat) (call call2 : Nat → Result (Nat × JSON))
    (pos c : Nat) (l : Locals) (h : call pos = call2 pos) :
    step loc inp call pos c l = step loc inp call2 pos c l := by
  simp only [step, h]

theorem accept_pos {inp : List Nat} {lbl : Label} {pos : Nat} {l : Locals} {p : Nat} {v : JSON}
    (h : accept inp lbl pos l = .ok (p, v)) : p = pos := by
  cases lbl <;> simp only [accept] at h
  case accept_number =>
    split at h
    · cases h
    · cases h; rfl
  all_goals (cases h; rfl)

theorem accept_ne_outOfFuel (inp : List Nat) (lbl : Label) (pos : Nat) (l : Locals) :
    accept inp lbl pos l ≠ .outOfFuel := by
  cases lbl <;> simp only [accept]
  case accept_number => split <;> exact fun h => by cases h
  all_goals exact fun h => by cases h

theorem finish_ne_outOfFuel (inp : List Nat) (pos : Nat) (l : Locals) :
    finish inp pos l ≠ .outOfFuel := by
  unfold finish
  split
  all_goals first
    | exact accept_ne_outOfFuel _ _ _ _
    | exact fun h => by cases h

theorem hexLoop_bound (inp : List Nat) :
    ∀ (n pos hex i : Nat) {p h j : Nat}, hexLoop inp n pos hex i = some (p, h, j) →
      pos ≤ p ∧ (0 < n → pos < p ∧ p < inp.length) := by
  intro n
  induction n with
  | zero =>
    intro pos hex i p h j e
    simp only [hexLoop, Option.some.injEq, Prod.mk.injEq] at e
    exact ⟨by omega, fun h0 => absurd h0 (by decide)⟩
  | succ n ih =>
    intro pos hex i p h j e
    simp only [hexLoop] at e
    cases hc : inp[pos + 1]? with
    | none => rw [hc] at e; cases e
    | some c =>
      have hlt : pos + 1 < inp.length := by
        by_contra hge
        rw [List.getElem?_eq_none (by omega)] at hc
        cases hc
      rw [hc] at e
      simp only at e
      cases hv : hexVal c with
      | none =>
        rw [hv] at e
        simp only [Option.some.injEq, Prod.mk.injEq] at e
        exact ⟨by omega, fun _ => ⟨by omega, by omega⟩⟩
      | some d =>
        rw [hv] at e
        simp only at e
        have := ih _ _ _ e
        by_cases hn : 0 < n
        · have := this.2 hn
          exact ⟨by omega, fun _ => ⟨by omega, by omega⟩⟩
        · have hn0 : n = 0 := by omega
          subst hn0
          simp only [hexLoop, Option.some.injEq, Prod.mk.injEq] at e
          exact ⟨by omega, fun _ => ⟨by omega, by omega⟩⟩

theorem stepU_bound (loc : Locale) (inp : List Nat) (pos : Nat) (l l0 : Locals) :
    (stepU loc inp pos l).bound inp pos l0 := by
  unfold stepU
  split
  · trivial
  · split
    · trivial
    · rename_i p hex i e
      have hb := (hexLoop_bound inp 4 pos 0 0 e).2 (by decide)
      split
      · trivial
      · split
        · exact ⟨by omega, hb.2⟩
        · exact ⟨by omega, hb.2⟩

theorem stepU_ne_outOfFuel (loc : Locale) (inp : List Nat) (pos : Nat) (l : Locals) :
    stepU loc inp pos l ≠ .outOfFuel := by
  unfold stepU
  split
  · exact fun h => by cases h
  · split
    · exact fun h => by cases h
    · split
      · exact fun h => by cases h
      · split <;> exact fun h => by cases h

theorem Step.bound_ite {inp : List Nat} {pos : Nat} {l : Locals} {c : Prop} [Decidable c]
    {a b : Step} (ha : c → a.bound inp pos l) (hb : ¬ c → b.bound inp pos l) :
    (if c then a else b).bound inp pos l := by
  split
  · exact ha ‹_›
  · exact hb ‹_›

theorem afterCall_bound {inp : List Nat} {pos : Nat} {l : Locals} (r : Result (Nat × JSON))
    (f : Nat → JSON → Locals) (hr : ∀ q v, r = .ok (q, v) → pos < q ∧ q ≤ inp.length) :
    (afterCall r fun p v => .next (p - 1) (f p v)).bound inp pos l := by
  unfold afterCall
  split
  · rename_i q v
    have := hr q v rfl
    exact ⟨by omega, by omega⟩
  · trivial
  · trivial
  · trivial

theorem litAt_length {inp : List Nat} {pos : Nat} {lit : List Nat}
    (h : litAt inp pos lit = true) : pos + lit.length ≤ inp.length ∨ lit.length = 0 := by
  unfold litAt at h
  simp only [Bool.decide_and, Bool.and_eq_true, decide_eq_true_eq, not_lt] at h
  omega

theorem step_bound (loc : Locale) (inp : List Nat) (call : Nat → Result (Nat × JSON))
    (pos c : Nat) (l : Locals) (hpos : pos < inp.length)
    (hcall : ∀ q v, call pos = .ok (q, v) → pos < q ∧ q ≤ inp.length) :
    (step loc inp call pos c l).bound inp pos l := by
  obtain ⟨st, start, str, arr, obj, key⟩ := l
  cases st
  all_goals simp only [step]
  all_goals repeat' first
    | intro _
    | with_reducible apply Step.bound_ite
  all_goals first
    | exact ⟨le_refl _, hpos⟩
    | trivial
    | exact stepU_bound _ _ _ _ _
    | exact afterCall_bound _ _ hcall
    | exact ⟨by omega, by omega, fun h => by cases h⟩
    | skip
  · rename_i h
    have := litAt_length h
    simp only [List.length_cons, List.length_nil] at this
    exact ⟨by omega, by omega, fun _ => by omega⟩
  · rename_i h
    have := litAt_length h
    simp only [List.length_cons, List.length_nil] at this
    exact ⟨by omega, by omega, fun _ => by omega⟩
  · rename_i h
    have := litAt_length h
    simp only [List.length_cons, List.length_nil] at this
    exact ⟨by omega, by omega, fun _ => by omega⟩
  · split
    · exact afterCall_bound _ _ hcall
    · trivial


theorem finish_bound {inp : List Nat} {pos : Nat} {l : Locals} {p : Nat} {v : JSON}
    (h : finish inp pos l = .ok (p, v)) : p = pos ∧ l.state ≠ .s0 := by
  unfold finish at h
  split at h
  all_goals first
    | exact ⟨accept_pos h, by simp [*]⟩
    | cases h

theorem decodeLoop_succ (loc : Locale) (inp : List Nat) (fuel pos : Nat) (l : Locals) :
    decodeLoop loc inp (fuel + 1) pos l
      = if pos = inp.length then finish inp pos l
        else match inp[pos]? with
          | none => .undefined
          | some c =>
            match step loc inp (fun p => decodeLoop loc inp fuel p (Locals.init p)) pos c l with
            | .next pos l => decodeLoop loc inp fuel (pos + 1) l
            | .goto lbl pos l => accept inp lbl pos l
            | .throw e => .throw e
            | .undefined => .undefined
            | .outOfFuel => .outOfFuel := by
  rfl

/-- The position a call of the buffered decoder returns lies inside the buffer, at or
after the position the loop stood at, and after it when the loop stood at its start. -/
theorem decodeLoop_bound (loc : Locale) (inp : List Nat) (fuel : Nat) :
    ∀ (pos : Nat) (l : Locals) (p : Nat) (v : JSON),
      decodeLoop loc inp fuel pos l = .ok (p, v) →
      pos ≤ p ∧ p ≤ inp.length ∧ (l.state = .s0 → pos < p) := by
  induction fuel with
  | zero =>
    intro pos l p v h
    simp [decodeLoop] at h
  | succ fuel ih =>
    intro pos l p v h
    rw [decodeLoop_succ] at h
    split at h
    · rename_i hlen
      have := finish_bound h
      exact ⟨by omega, by omega, fun hs => absurd hs this.2⟩
    · split at h
      · cases h
      · rename_i c hc
        have hpos : pos < inp.length := by
          by_contra hge
          rw [List.getElem?_eq_none (by omega)] at hc
          cases hc
        have hb := step_bound loc inp (fun p => decodeLoop loc inp fuel p (Locals.init p))
          pos c l hpos (fun q v e => by
            have := ih pos _ q v e
            exact ⟨this.2.2 rfl, this.2.1⟩)
        split at h
        · rename_i p1 l1 heq
          rw [heq] at hb
          have := ih _ _ _ _ h
          exact ⟨by have := hb.1; omega, this.2.1, fun _ => by have := hb.1; omega⟩
        · rename_i lbl p1 l1 heq
          rw [heq] at hb
          have := accept_pos h
          subst this
          exact hb
        · cases h
        · cases h
        · cases h

/-- A loop pass either does not depend on what the nested call does, or runs out of fuel
when the nested call does. -/
theorem step_outOfFuel (loc : Locale) (inp : List Nat) (pos c : Nat) (l : Locals) :
    step loc inp (fun _ => .outOfFuel) pos c l = .outOfFuel ∨
    ∀ call, step loc inp call pos c l = step loc inp (fun _ => .outOfFuel) pos c l := by
  obtain ⟨st, start, str, arr, obj, key⟩ := l
  cases st
  case s15 =>
    by_cases h1 : isWs c = true
    · exact Or.inr fun _ => by simp only [step, h1, if_true]
    · by_cases h2 : c = 93
      · exact Or.inr fun _ => by simp only [step, h1, h2, if_true, if_false]
      · exact Or.inl (by simp [step, h1, h2, afterCall])
  case s18 => exact Or.inl (by simp [step, afterCall])
  case s19 =>
    by_cases h1 : isWs c = true
    · exact Or.inr fun _ => by simp only [step, h1, if_true]
    · by_cases h2 : c = 125
      · exact Or.inr fun _ => by simp only [step, h1, h2, if_true, if_false]
      · by_cases h3 : c = 34
        · subst h3
          exact Or.inl (by simp [step, isWs, afterCall])
        · exact Or.inr fun _ => by simp only [step, h1, h2, h3, if_false]
  case s22 =>
    cases key
    case string k => exact Or.inl (by simp [step, afterCall])
    all_goals exact Or.inr fun _ => by simp only [step]
  case s24 =>
    by_cases h1 : isWs c = true
    · exact Or.inr fun _ => by simp only [step, h1, if_true]
    · by_cases h3 : c = 34
      · subst h3
        exact Or.inl (by simp [step, isWs, afterCall])
      · exact Or.inr fun _ => by simp only [step, h1, h3, if_false]
  all_goals exact Or.inr fun _ => rfl

theorem Step.ne_outOfFuel_ite {c : Prop} [Decidable c] {a b : Step}
    (ha : a ≠ .outOfFuel) (hb : b ≠ .outOfFuel) : (if c then a else b) ≠ .outOfFuel := by
  split <;> assumption

theorem afterCall_ne_outOfFuel {r : Result (Nat × JSON)} (f : Nat → JSON → Locals)
    (hr : r ≠ .outOfFuel) : (afterCall r fun p v => .next (p - 1) (f p v)) ≠ .outOfFuel := by
  unfold afterCall
  split
  · exact fun h => by cases h
  · exact fun h => by cases h
  · exact fun h => by cases h
  · exact absurd rfl hr

/-- A loop pass runs out of fuel only when its nested call does, and the first pass of a
call makes no nested call. -/
theorem step_ne_outOfFuel (loc : Locale) (inp : List Nat) (call : Nat → Result (Nat × JSON))
    (pos c : Nat) (l : Locals) (h : call pos ≠ .outOfFuel ∨ l.state = .s0) :
    step loc inp call pos c l ≠ .outOfFuel := by
  obtain ⟨st, start, str, arr, obj, key⟩ := l
  have hcall : st ≠ .s0 → call pos ≠ .outOfFuel := fun hs => h.resolve_right hs
  cases st
  all_goals simp only [step]
  all_goals repeat' with_reducible apply Step.ne_outOfFuel_ite
  all_goals first
    | exact fun h => by cases h
    | exact stepU_ne_outOfFuel _ _ _ _
    | exact afterCall_ne_outOfFuel _ (hcall (by decide))
    | skip
  · split
    · exact afterCall_ne_outOfFuel _ (hcall (by decide))
    · exact fun h => by cases h

/-- More fuel does not change what the loop does once it does not run out of fuel. -/
theorem decodeLoop_fuel_succ (loc : Locale) (inp : List Nat) (fuel : Nat) :
    ∀ (pos : Nat) (l : Locals), decodeLoop loc inp fuel pos l ≠ .outOfFuel →
      decodeLoop loc inp (fuel + 1) pos l = decodeLoop loc inp fuel pos l := by
  induction fuel with
  | zero =>
    intro pos l h
    simp [decodeLoop] at h
  | succ fuel ih =>
    intro pos l h
    rw [decodeLoop_succ loc inp (fuel + 1), decodeLoop_succ loc inp fuel]
    rw [decodeLoop_succ loc inp fuel] at h
    split
    · rfl
    · rename_i hlen
      rw [if_neg hlen] at h
      split
      · rfl
      · rename_i c hc
        rw [hc] at h
        simp only at h
        have hstep : step loc inp (fun p => decodeLoop loc inp (fuel + 1) p (Locals.init p)) pos c l
            = step loc inp (fun p => decodeLoop loc inp fuel p (Locals.init p)) pos c l := by
          by_cases hr : decodeLoop loc inp fuel pos (Locals.init pos) = .outOfFuel
          · rcases step_outOfFuel loc inp pos c l with ho | ho
            · exfalso
              rw [step_congr loc inp _ (fun _ => .outOfFuel) pos c l hr, ho] at h
              exact h rfl
            · rw [ho, ho fun p => decodeLoop loc inp fuel p (Locals.init p)]
          · exact step_congr loc inp _ _ pos c l (ih pos _ hr)
        rw [hstep]
        split
        · rename_i p1 l1 heq
          rw [heq] at h
          exact ih _ _ h
        · rfl
        · rfl
        · rfl
        · rfl

theorem decodeLoop_fuel_add (loc : Locale) (inp : List Nat) (fuel pos : Nat) (l : Locals)
    (h : decodeLoop loc inp fuel pos l ≠ .outOfFuel) (k : Nat) :
    decodeLoop loc inp (fuel + k) pos l = decodeLoop loc inp fuel pos l := by
  induction k with
  | zero => rfl
  | succ k ih =>
    rw [← Nat.add_assoc, decodeLoop_fuel_succ loc inp (fuel + k) pos l (by rw [ih]; exact h), ih]

/-- Fuel that suffices: twice the number of characters left, and one or two more. -/
theorem decodeLoop_ne_outOfFuel (loc : Locale) (inp : List Nat) (fuel : Nat) :
    ∀ (pos : Nat) (l : Locals),
      2 * (inp.length - pos) + (if l.state = .s0 then 1 else 2) ≤ fuel →
      decodeLoop loc inp fuel pos l ≠ .outOfFuel := by
  induction fuel with
  | zero =>
    intro pos l h
    split at h <;> omega
  | succ fuel ih =>
    intro pos l h
    rw [decodeLoop_succ]
    split
    · exact finish_ne_outOfFuel _ _ _
    · split
      · exact fun h => by cases h
      · rename_i hlen c hc
        have hpos : pos < inp.length := by
          by_contra hge
          rw [List.getElem?_eq_none (by omega)] at hc
          cases hc
        have hcall : decodeLoop loc inp fuel pos (Locals.init pos) ≠ .outOfFuel ∨ l.state = .s0 := by
          by_cases hs : l.state = .s0
          · exact Or.inr hs
          · rw [if_neg hs] at h
            exact Or.inl (ih pos _ (by simp only [Locals.init, if_true]; omega))
        have hne := step_ne_outOfFuel loc inp
          (fun p => decodeLoop loc inp fuel p (Locals.init p)) pos c l hcall
        have hb := step_bound loc inp (fun p => decodeLoop loc inp fuel p (Locals.init p))
          pos c l hpos (fun q v e => by
            have := decodeLoop_bound loc inp fuel pos _ q v e
            exact ⟨this.2.2 rfl, this.2.1⟩)
        split
        · rename_i p1 l1 heq
          rw [heq] at hb
          apply ih
          have := hb.1
          have := hb.2
          split at h <;> split <;> omega
        · exact accept_ne_outOfFuel _ _ _ _
        · exact fun h => by cases h
        · exact fun h => by cases h
        · rename_i heq
          exact absurd heq hne

theorem json_decode_at_ne_outOfFuel (loc : Locale) (inp : List Nat) (start : Nat) :
    json_decode_at loc inp start ≠ .outOfFuel :=
  decodeLoop_ne_outOfFuel loc inp _ start _ (by simp only [Locals.init, if_true]; omega)

theorem decodeFrom_ne_outOfFuel (loc : Locale) (inp : List Nat) (pos : Nat) (l : Locals) :
    decodeFrom loc inp pos l ≠ .outOfFuel :=
  decodeLoop_ne_outOfFuel loc inp _ pos l (by split <;> omega)

/-- With enough fuel the loop does what it does with the fuel `json_decode_at` supplies. -/
theorem decodeLoop_eq_decodeFrom (loc : Locale) (inp : List Nat) (fuel pos : Nat) (l : Locals)
    (h : 2 * (inp.length - pos) + (if l.state = .s0 then 1 else 2) ≤ fuel) :
    decodeLoop loc inp fuel pos l = decodeFrom loc inp pos l := by
  have h1 := decodeLoop_ne_outOfFuel loc inp fuel pos l h
  have h2 := decodeFrom_ne_outOfFuel loc inp pos l
  unfold decodeFrom at h2 ⊢
  rcases Nat.le_total fuel (2 * (inp.length - pos) + 2) with hle | hle
  · obtain ⟨k, hk⟩ := Nat.exists_eq_add_of_le hle
    rw [hk, decodeLoop_fuel_add loc inp fuel pos l h1 k]
  · obtain ⟨k, hk⟩ := Nat.exists_eq_add_of_le hle
    rw [hk, decodeLoop_fuel_add loc inp _ pos l h2 k]

theorem json_decode_at_eq (loc : Locale) (inp : List Nat) (start : Nat) :
    json_decode_at loc inp start = decodeFrom loc inp start (Locals.init start) := rfl

/-- One pass of the loop, whatever the fuel: the nested call is `json_decode_at`. -/
theorem decodeFrom_step (loc : Locale) (inp : List Nat) (pos c : Nat) (l : Locals)
    (hc : inp[pos]? = some c) :
    decodeFrom loc inp pos l
      = match step loc inp (json_decode_at loc inp) pos c l with
        | .next pos l => decodeFrom loc inp (pos + 1) l
        | .goto lbl pos l => accept inp lbl pos l
        | .throw e => .throw e
        | .undefined => .undefined
        | .outOfFuel => .outOfFuel := by
  have hpos : pos < inp.length := by
    by_contra hge
    rw [List.getElem?_eq_none (by omega)] at hc
    cases hc
  have hcall : decodeLoop loc inp (2 * (inp.length - pos) + 1) pos (Locals.init pos)
      = json_decode_at loc inp pos :=
    decodeLoop_eq_decodeFrom loc inp _ pos _ (by simp only [Locals.init, if_true]; omega)
  have hstep := step_congr loc inp
    (fun p => decodeLoop loc inp (2 * (inp.length - pos) + 1) p (Locals.init p))
    (json_decode_at loc inp) pos c l hcall
  have hb := step_bound loc inp (json_decode_at loc inp) pos c l hpos (fun q v e => by
    have := decodeLoop_bound loc inp _ pos _ q v e
    exact ⟨this.2.2 rfl, this.2.1⟩)
  conv_lhs => rw [decodeFrom, decodeLoop_succ, if_neg (by omega), hc]
  simp only
  rw [hstep]
  split
  · rename_i p1 l1 heq
    rw [heq] at hb
    exact decodeLoop_eq_decodeFrom loc inp _ _ _ (by have := hb.1; have := hb.2; split <;> omega)
  · rfl
  · rfl
  · rfl
  · rfl

theorem decodeFrom_end (loc : Locale) (inp : List Nat) (l : Locals) :
    decodeFrom loc inp inp.length l = finish inp inp.length l := by
  rw [decodeFrom, decodeLoop_succ, if_pos rfl]

/-! ## White space, literals and trailing content -/

theorem trailing_eq (inp : List Nat) :
    ∀ (r : List Nat) (p : Nat), inp.drop p = r →
      trailing inp r.length p
        = if ∀ c ∈ r, isWs c = true then none
          else some (.syntaxAt (p + (r.takeWhile isWs).length) "JSON syntax error") := by
  intro r
  induction r with
  | nil => intro p _; simp [trailing]
  | cons c t ih =>
    intro p h
    have hc : inp[p]? = some c := by simpa using at_drop h 0
    have ht : inp.drop (p + 1) = t := drop_add (a := [c]) h
    simp only [List.length_cons, trailing, hc]
    by_cases hw : isWs c = true
    · rw [if_pos hw, ih _ ht]
      simp only [List.mem_cons, forall_eq_or_imp, hw, true_and, List.takeWhile_cons_of_pos,
        List.length_cons]
      split
      · rfl
      · simp only [Option.some.injEq, Exn.syntaxAt.injEq, and_true]; omega
    · simp [hw]

/-- The white space the decoder skips in state 0. -/
theorem decodeLoop_ws (loc : Locale) (inp : List Nat) :
    ∀ (ws r : List Nat) (fuel pos : Nat) (l : Locals), inp.drop pos = ws ++ r →
      (∀ x ∈ ws, isWs x = true) → l.state = .s0 →
      decodeLoop loc inp (fuel + ws.length) pos l
        = decodeLoop loc inp fuel (pos + ws.length) { l with start := l.start + ws.length } := by
  intro ws
  induction ws with
  | nil => intro r fuel pos l _ _ _; simp
  | cons c t ih =>
    intro r fuel pos l h hws hl
    obtain ⟨st, start, str, arr, obj, key⟩ := l
    simp only at hl
    subst hl
    have hc := hws c (List.mem_cons_self _ _)
    rw [List.length_cons, ← Nat.add_assoc, decodeLoop_at h]
    have ht : inp.drop (pos + 1) = t ++ r := drop_add (a := [c]) h
    simp only [step, hc, if_true]
    rw [ih r fuel (pos + 1) _ ht (fun x hx => hws x (List.mem_cons_of_mem _ hx)) rfl]
    simp only [Nat.add_assoc, Nat.add_comm 1]


theorem litAt_cons {inp : List Nat} {pos c : Nat} {r : List Nat} (h : inp.drop pos = c :: r)
    (lit : List Nat) : litAt inp pos lit = decide ((c :: r).take lit.length = lit) := by
  unfold litAt
  rw [h, length_of_drop h]
  by_cases e : (c :: r).take lit.length = lit
  · have hle : lit.length ≤ (c :: r).length := by
      conv_lhs => rw [← e]
      rw [List.length_take]
      exact Nat.min_le_right _ _
    simp only [e, decide_True, Bool.and_true, decide_eq_true_eq]
    exact ⟨by omega, trivial⟩
  · simp [e]

/-! ## What the decoder does at a position it reaches -/

/-- A pass that makes the nested call goes on after it in state 17, 21 or 23. -/
theorem step_of_callsAt (loc : Locale) (inp : List Nat) (pos c : Nat) (l : Locals)
    (h : callsAt c l = true) :
    ∃ f : JSON → Locals, (∀ v, (f v).state = .s17 ∨ (f v).state = .s21 ∨ (f v).state = .s23) ∧
      ∀ call, step loc inp call pos c l = afterCall (call pos) fun p v => .next (p - 1) (f v) := by
  obtain ⟨st, start, str, arr, obj, key⟩ := l
  cases st <;> simp only [callsAt, Bool.and_eq_true, Bool.not_eq_true', bne_iff_ne, ne_eq,
    beq_iff_eq] at h
  all_goals try (exact absurd h (by decide))
  case s15 =>
    exact ⟨fun v => ⟨.s17, start, str, arr ++ [v], obj, key⟩, fun _ => Or.inl rfl,
      fun _ => by simp only [step, h.1, h.2]; rfl⟩
  case s18 =>
    exact ⟨fun v => ⟨.s17, start, str, arr ++ [v], obj, key⟩, fun _ => Or.inl rfl,
      fun _ => by simp only [step]⟩
  case s19 =>
    obtain ⟨h1, rfl⟩ := h
    exact ⟨fun v => ⟨.s21, start, str, arr, obj, v⟩, fun _ => Or.inr (Or.inl rfl),
      fun _ => by simp [step, h1]⟩
  case s22 =>
    cases key
    case string k =>
      exact ⟨fun v => ⟨.s23, start, str, arr, JSONObject.set obj k v, .string k⟩,
        fun _ => Or.inr (Or.inr rfl), fun _ => by simp only [step]⟩
    all_goals simp at h
  case s24 =>
    obtain ⟨h1, rfl⟩ := h
    exact ⟨fun v => ⟨.s21, start, str, arr, obj, v⟩, fun _ => Or.inr (Or.inl rfl),
      fun _ => by simp [step, h1]⟩

theorem json_decode_of_throw {loc : Locale} {inp : List Nat} {e : Exn}
    (h : json_decode_at loc inp 0 = .throw e) : json_decode loc inp = .throw e := by
  simp only [json_decode, json_decode_into, h]

theorem json_decode_of_undefined {loc : Locale} {inp : List Nat}
    (h : json_decode_at loc inp 0 = .undefined) : json_decode loc inp = .undefined := by
  simp only [json_decode, json_decode_into, h]

/-- An exception thrown at a position the decoder reaches leaves the outermost call. -/
theorem Reaches.throw {loc : Locale} {inp : List Nat} {pos : Nat} {l : Locals}
    (h : Reaches loc inp pos l) :
    ∀ e, decodeFrom loc inp pos l = .throw e → json_decode loc inp = .throw e := by
  induction h with
  | start => exact fun e h => json_decode_of_throw h
  | pass _ hc hs ih =>
    intro e h
    apply ih
    rw [decodeFrom_step loc inp _ _ _ hc, hs]
    exact h
  | @call pos c l _ hc hcall ih =>
    intro e h
    apply ih
    obtain ⟨f, _, hf⟩ := step_of_callsAt loc inp pos c l hcall
    rw [decodeFrom_step loc inp _ _ _ hc, hf, json_decode_at_eq, h]
    rfl

/-- Undefined behaviour at a position the decoder reaches is undefined behaviour of the
outermost call. -/
theorem Reaches.undefined {loc : Locale} {inp : List Nat} {pos : Nat} {l : Locals}
    (h : Reaches loc inp pos l) :
    decodeFrom loc inp pos l = .undefined → json_decode loc inp = .undefined := by
  induction h with
  | start => exact fun h => json_decode_of_undefined h
  | pass _ hc hs ih =>
    intro h
    apply ih
    rw [decodeFrom_step loc inp _ _ _ hc, hs]
    exact h
  | @call pos c l _ hc hcall ih =>
    intro h
    apply ih
    obtain ⟨f, _, hf⟩ := step_of_callsAt loc inp pos c l hcall
    rw [decodeFrom_step loc inp _ _ _ hc, hf, json_decode_at_eq, h]
    rfl

theorem getElem?_lt {inp : List Nat} {pos c : Nat} (hc : inp[pos]? = some c) :
    pos < inp.length := by
  by_contra hge
  rw [List.getElem?_eq_none (by omega)] at hc
  cases hc

/-- A value that ends right before a character that is neither white space nor one of
`,` `:` `]` and the right brace makes the outermost call throw a syntax error. -/
theorem Reaches.ok_before {loc : Locale} {inp : List Nat} {pos : Nat} {l : Locals}
    (h : Reaches loc inp pos l) :
    ∀ q v d, decodeFrom loc inp pos l = .ok (q, v) → inp[q]? = some d → isWs d = false →
      d ≠ 44 → d ≠ 58 → d ≠ 93 → d ≠ 125 →
      ∃ off msg, json_decode loc inp = .throw (.syntaxAt off msg) := by
  induction h with
  | start =>
    intro q v d h hd hw _ _ _ _
    have hq := getElem?_lt hd
    refine ⟨q, "JSON syntax error", ?_⟩
    rw [← json_decode_at_eq] at h
    obtain ⟨n, hn⟩ : ∃ n, inp.length - q = n + 1 := ⟨inp.length - q - 1, by omega⟩
    simp only [json_decode, json_decode_into, h, hn, trailing, hd, hw]
    rfl
  | pass _ hc hs ih =>
    intro q v d h
    apply ih
    rw [decodeFrom_step loc inp _ _ _ hc, hs]
    exact h
  | @call pos c l hr hc hcall _ =>
    intro q v d h hd hw h44 h58 h93 h125
    obtain ⟨f, hst, hf⟩ := step_of_callsAt loc inp pos c l hcall
    have hb := decodeLoop_bound loc inp _ pos _ q v (show decodeLoop loc inp _ pos _ = _ from h)
    have hq : q - 1 + 1 = q := by have := hb.2.2 rfl; omega
    have hrun : decodeFrom loc inp pos l = decodeFrom loc inp q (f v) := by
      rw [decodeFrom_step loc inp _ _ _ hc, hf, json_decode_at_eq, h]
      simp only [afterCall, hq]
    have hthrow : ∃ off msg, decodeFrom loc inp q (f v) = .throw (.syntaxAt off msg) := by
      rw [decodeFrom_step loc inp _ _ _ hd]
      have hst2 := hst v
      generalize f v = l2 at hst2 ⊢
      obtain ⟨st, start, str, arr, obj, key⟩ := l2
      simp only at hst2
      rcases hst2 with rfl | rfl | rfl
      · exact ⟨_, _, by simp only [step, hw, h44, h93, if_false, Bool.false_eq_true]; rfl⟩
      · exact ⟨_, _, by simp only [step, hw, h58, if_false, Bool.false_eq_true]; rfl⟩
      · exact ⟨_, _, by simp only [step, hw, h44, h125, if_false, Bool.false_eq_true]; rfl⟩
    obtain ⟨off, msg, ht⟩ := hthrow
    exact ⟨off, msg, hr.throw _ (by rw [hrun, ht])⟩

theorem decodeFrom_cons (loc : Locale) {inp : List Nat} {pos c : Nat} {r : List Nat}
    (h : inp.drop pos = c :: r) (l : Locals) :
    decodeFrom loc inp pos l
      = match step loc inp (json_decode_at loc inp) pos c l with
        | .next pos l => decodeFrom loc inp (pos + 1) l
        | .goto lbl pos l => accept inp lbl pos l
        | .throw e => .throw e
        | .undefined => .undefined
        | .outOfFuel => .outOfFuel :=
  decodeFrom_step loc inp pos c l (by simpa using at_drop h 0)

theorem decodeFrom_nil (loc : Locale) {inp : List Nat} {pos : Nat} (hp : pos ≤ inp.length)
    (h : inp.drop pos = []) (l : Locals) : decodeFrom loc inp pos l = finish inp pos l := by
  have := length_of_drop h
  simp only [List.length_nil] at this
  have hpos : pos = inp.length := by omega
  subst hpos
  exact decodeFrom_end loc inp l

/-- The white space skipped at the start of a value: `start` moves with `pos`. -/
theorem decodeFrom_ws (loc : Locale) (inp : List Nat) :
    ∀ (ws r : List Nat) (pos : Nat) (l : Locals), inp.drop pos = ws ++ r →
      (∀ x ∈ ws, isWs x = true) → l.state = .s0 →
      decodeFrom loc inp pos l
        = decodeFrom loc inp (pos + ws.length) { l with start := l.start + ws.length } := by
  intro ws
  induction ws with
  | nil => intro r pos l _ _ _; rfl
  | cons c t ih =>
    intro r pos l h hws hl
    obtain ⟨st, start, str, arr, obj, key⟩ := l
    simp only at hl
    subst hl
    have hc := hws c (List.mem_cons_self _ _)
    have ht : inp.drop (pos + 1) = t ++ r := drop_add (a := [c]) h
    rw [decodeFrom_cons loc h]
    simp only [step, hc, if_true]
    rw [ih r (pos + 1) _ ht (fun x hx => hws x (List.mem_cons_of_mem _ hx)) rfl]
    simp only [List.length_cons, Nat.add_assoc, Nat.add_comm 1]

theorem decodeFrom_skip (loc : Locale) (inp : List Nat) :
    ∀ (ws r : List Nat) (pos : Nat) (l : Locals), inp.drop pos = ws ++ r →
      (∀ x ∈ ws, isWs x = true) → skipsWs l.state = true →
      decodeFrom loc inp pos l = decodeFrom loc inp (pos + ws.length) l := by
  intro ws
  induction ws with
  | nil => intro r pos l _ _ _; rfl
  | cons c t ih =>
    intro r pos l h hws hl
    have hc := hws c (List.mem_cons_self _ _)
    have ht : inp.drop (pos + 1) = t ++ r := drop_add (a := [c]) h
    have hstep : step loc inp (json_decode_at loc inp) pos c l = .next pos l := by
      obtain ⟨st, start, str, arr, obj, key⟩ := l
      cases st <;> first
        | (simp [skipsWs] at hl; done)
        | simp only [step, hc, if_true]
    rw [decodeFrom_cons loc h, hstep]
    simp only
    rw [ih r (pos + 1) l ht (fun x hx => hws x (List.mem_cons_of_mem _ hx)) hl]
    simp only [List.length_cons, Nat.add_assoc, Nat.add_comm 1]

/-- Where a value is expected, the end of the input or one of `]` and the right brace
after white space is a syntax error. -/
theorem json_decode_at_no_value (loc : Locale) (inp ws rest : List Nat) (pos : Nat)
    (hd : inp.drop pos = ws ++ rest) (hp : pos ≤ inp.length) (hws : ∀ x ∈ ws, isWs x = true)
    (hrest : rest = [] ∨ ∃ c r, rest = c :: r ∧ (c = 93 ∨ c = 125)) :
    ∃ off msg, json_decode_at loc inp pos = .throw (.syntaxAt off msg) := by
  rw [json_decode_at_eq, decodeFrom_ws loc inp ws rest pos _ hd hws rfl]
  have hd2 : inp.drop (pos + ws.length) = rest := drop_add hd
  rcases hrest with rfl | ⟨c, r, rfl, hc⟩
  · have hlen := length_of_drop hd
    rw [decodeFrom_nil loc (by simp at hlen; omega) hd2]
    exact ⟨_, _, rfl⟩
  · rw [decodeFrom_cons loc hd2]
    rcases hc with rfl | rfl
    · exact ⟨pos + ws.length, "JSON syntax error: invalid token",
        by simp [step, Locals.init, isWs, isDigit19]⟩
    · exact ⟨pos + ws.length, "JSON syntax error: invalid token",
        by simp [step, Locals.init, isWs, isDigit19]⟩

/-! ## The number grammar -/

theorem accept_number_eq (inp : List Nat) (p : Nat) (l : Locals) :
    accept inp .accept_number p l = accept inp .accept_number p (Locals.init l.start) := rfl

theorem drop_le_length {inp : List Nat} {pos c : Nat} {r : List Nat}
    (h : inp.drop pos = c :: r) : pos < inp.length := by
  have := length_of_drop h
  simp only [List.length_cons] at this
  omega

/-- The digits the decoder reads in state 5, 8 or 11. -/
theorem decodeFrom_digits (loc : Locale) (inp : List Nat) :
    ∀ (r : List Nat) (pos : Nat) (l : Locals), inp.drop pos = r → pos ≤ inp.length →
      (l.state = .s5 ∨ l.state = .s8 ∨ l.state = .s11) →
      ∃ p, p ≤ inp.length ∧ inp.drop p = r.dropWhile isDigit ∧
        decodeFrom loc inp pos l = decodeFrom loc inp p l := by
  intro r
  induction r with
  | nil => exact fun pos l h hp _ => ⟨pos, hp, by simpa using h, rfl⟩
  | cons c t ih =>
    intro pos l h hp hl
    by_cases hc : isDigit c = true
    · have ht : inp.drop (pos + 1) = t := drop_add (a := [c]) h
      obtain ⟨p, hp1, hp2, hp3⟩ := ih (pos + 1) l ht (drop_le_length h) hl
      refine ⟨p, hp1, by simpa [List.dropWhile_cons, hc] using hp2, ?_⟩
      rw [decodeFrom_cons loc h, ← hp3]
      obtain ⟨st, start, str, arr, obj, key⟩ := l
      rcases hl with hl | hl | hl <;> simp only at hl <;> subst hl <;>
        simp only [step, hc, if_true]
    · exact ⟨pos, hp, by simpa [List.dropWhile_cons, hc] using h, rfl⟩

theorem numOutcome_accept (inp : List Nat) (start p : Nat) (l : Locals) (tail : List Nat)
    (hp : p ≤ inp.length) (hd : inp.drop p = tail) (hl : l.start = start) :
    numOutcome inp start (accept inp .accept_number p l) (some tail) :=
  ⟨p, hp, hd, by rw [accept_number_eq, hl]⟩

/-- The end of a number token in a state in which the token is complete. -/
theorem decodeFrom_number_end (loc : Locale) (inp : List Nat) (pos : Nat) (l : Locals)
    (r : List Nat) (h : inp.drop pos = r) (hp : pos ≤ inp.length)
    (hl : l.state = .s5 ∨ l.state = .s6 ∨ l.state = .s8 ∨ l.state = .s11)
    (hr : ∀ c ∈ r.head?, (l.state = .s6 ∨ isDigit c = false) ∧
      (l.state = .s11 ∨ (c ≠ 69 ∧ c ≠ 101)) ∧
      (l.state = .s8 ∨ l.state = .s11 ∨ c ≠ 46)) :
    decodeFrom loc inp pos l = accept inp .accept_number pos l := by
  cases r with
  | nil =>
    rw [decodeFrom_nil loc hp h]
    obtain ⟨st, start, str, arr, obj, key⟩ := l
    rcases hl with hl | hl | hl | hl <;> simp only at hl <;> subst hl <;> rfl
  | cons c t =>
    obtain ⟨h1, h2, h3⟩ := hr c (by simp)
    rw [decodeFrom_cons loc h]
    obtain ⟨st, start, str, arr, obj, key⟩ := l
    rcases hl with hl | hl | hl | hl <;> simp only at hl <;> subst hl
    · have h1 := h1.resolve_left (by simp)
      have h2 := h2.resolve_left (by simp)
      have h3 := (h3.resolve_left (by simp)).resolve_left (by simp)
      simp only [step, h1, h2.1, h2.2, h3, or_self, if_false, Bool.false_eq_true]
    · have h2 := h2.resolve_left (by simp)
      have h3 := (h3.resolve_left (by simp)).resolve_left (by simp)
      simp only [step, h2.1, h2.2, h3, or_self, if_false]
    · have h1 := h1.resolve_left (by simp)
      have h2 := h2.resolve_left (by simp)
      simp only [step, h1, h2.1, h2.2, or_self, if_false, Bool.false_eq_true]
    · have h1 := h1.resolve_left (by simp)
      simp only [step, h1, if_false, Bool.false_eq_true]

theorem head_dropWhile_isDigit (r : List Nat) :
    ∀ c ∈ (r.dropWhile isDigit).head?, isDigit c = false := by
  intro c hc
  induction r with
  | nil => simp at hc
  | cons a t ih =>
    by_cases ha : isDigit a = true
    · rw [List.dropWhile_cons_of_pos ha] at hc
      exact ih hc
    · rw [List.dropWhile_cons_of_neg ha] at hc
      simp only [List.head?_cons, Option.mem_def, Option.some.injEq] at hc
      subst hc
      simpa using ha

/-- State 11, after the first digit of the exponent. -/
theorem decodeFrom_s11 (loc : Locale) (inp : List Nat) (pos : Nat) (l : Locals) (r : List Nat)
    (h : inp.drop pos = r) (hp : pos ≤ inp.length) (hl : l.state = .s11) :
    numOutcome inp l.start (decodeFrom loc inp pos l) (some (r.dropWhile isDigit)) := by
  obtain ⟨p, hp1, hp2, hp3⟩ := decodeFrom_digits loc inp r pos l h hp (Or.inr (Or.inr hl))
  rw [hp3, decodeFrom_number_end loc inp p l _ hp2 hp1 (Or.inr (Or.inr (Or.inr hl)))
    (fun c hc => ⟨Or.inr (head_dropWhile_isDigit r c hc), Or.inl hl, Or.inr (Or.inl hl)⟩)]
  exact numOutcome_accept inp _ p l _ hp1 hp2 rfl

/-- State 10, after the sign of the exponent. -/
theorem decodeFrom_s10 (loc : Locale) (inp : List Nat) (pos : Nat) (l : Locals) (r : List Nat)
    (h : inp.drop pos = r) (hp : pos ≤ inp.length) (hl : l.state = .s10) :
    numOutcome inp l.start (decodeFrom loc inp pos l) (afterDigits r) := by
  obtain ⟨st, start, str, arr, obj, key⟩ := l
  simp only at hl
  subst hl
  cases r with
  | nil =>
    rw [decodeFrom_nil loc hp h]
    exact ⟨_, _, rfl⟩
  | cons c t =>
    have ht : inp.drop (pos + 1) = t := drop_add (a := [c]) h
    rw [decodeFrom_cons loc h]
    by_cases hc : isDigit c = true
    · simp only [step, hc, if_true, afterDigits]
      exact decodeFrom_s11 loc inp (pos + 1) _ t ht (drop_le_length h) rfl
    · simp only [step, hc, if_false, afterDigits]
      exact ⟨_, _, rfl⟩

/-- State 9, after the letter of the exponent. -/
theorem decodeFrom_s9 (loc : Locale) (inp : List Nat) (pos : Nat) (l : Locals) (r : List Nat)
    (h : inp.drop pos = r) (hp : pos ≤ inp.length) (hl : l.state = .s9) :
    numOutcome inp l.start (decodeFrom loc inp pos l) (afterDigits (afterSign r)) := by
  obtain ⟨st, start, str, arr, obj, key⟩ := l
  simp only at hl
  subst hl
  cases r with
  | nil =>
    rw [decodeFrom_nil loc hp h]
    exact ⟨_, _, rfl⟩
  | cons c t =>
    have ht : inp.drop (pos + 1) = t := drop_add (a := [c]) h
    rw [decodeFrom_cons loc h]
    by_cases hs : c = 43 ∨ c = 45
    · simp only [step, hs, if_true, afterSign]
      exact decodeFrom_s10 loc inp (pos + 1) _ t ht (drop_le_length h) rfl
    · simp only [step, hs, if_false, afterSign]
      by_cases hc : isDigit c = true
      · simp only [hc, if_true, afterDigits]
        exact decodeFrom_s11 loc inp (pos + 1) _ t ht (drop_le_length h) rfl
      · simp only [hc, if_false, afterDigits]
        exact ⟨_, _, rfl⟩

/-- The optional exponent, read where the integer part or the fraction ends. -/
theorem decodeFrom_exp (loc : Locale) (inp : List Nat) (pos : Nat) (l : Locals) (r : List Nat)
    (h : inp.drop pos = r) (hp : pos ≤ inp.length)
    (hl : l.state = .s5 ∨ l.state = .s6 ∨ l.state = .s8)
    (hr : ∀ c ∈ r.head?, (l.state = .s6 ∨ isDigit c = false) ∧ (l.state = .s8 ∨ c ≠ 46)) :
    numOutcome inp l.start (decodeFrom loc inp pos l) (afterExp r) := by
  have hl4 : l.state = .s5 ∨ l.state = .s6 ∨ l.state = .s8 ∨ l.state = .s11 := by
    rcases hl with h | h | h
    · exact Or.inl h
    · exact Or.inr (Or.inl h)
    · exact Or.inr (Or.inr (Or.inl h))
  cases r with
  | nil =>
    rw [decodeFrom_number_end loc inp pos l [] h hp hl4 (by simp)]
    exact numOutcome_accept inp _ pos l _ hp h rfl
  | cons c t =>
    by_cases he : c = 69 ∨ c = 101
    · have ht : inp.drop (pos + 1) = t := drop_add (a := [c]) h
      have hc := hr c (by simp)
      have hrun : decodeFrom loc inp pos l
          = decodeFrom loc inp (pos + 1) { l with state := .s9 } := by
        rw [decodeFrom_cons loc h]
        have h46 : c ≠ 46 := by omega
        have hd : isDigit c = false := by
          rcases he with rfl | rfl <;> decide
        obtain ⟨st, start, str, arr, obj, key⟩ := l
        rcases hl with hl | hl | hl <;> simp only at hl <;> subst hl <;>
          simp only [step, hd, h46, he, if_true, if_false, Bool.false_eq_true]
      rw [hrun]
      simp only [afterExp, he, if_true]
      exact decodeFrom_s9 loc inp (pos + 1) _ t ht (drop_le_length h) rfl
    · have hc := hr c (by simp)
      rw [decodeFrom_number_end loc inp pos l _ h hp hl4 (fun x hx => by
        simp only [List.head?_cons, Option.mem_def, Option.some.injEq] at hx
        subst hx
        refine ⟨hc.1, Or.inr ⟨fun e => he (Or.inl e), fun e => he (Or.inr e)⟩, ?_⟩
        rcases hc.2 with h8 | h46
        · exact Or.inl h8
        · exact Or.inr (Or.inr h46))]
      simp only [afterExp, he, if_false]
      exact numOutcome_accept inp _ pos l _ hp h rfl

/-- State 8, after the first digit of the fraction. -/
theorem decodeFrom_s8 (loc : Locale) (inp : List Nat) (pos : Nat) (l : Locals) (r : List Nat)
    (h : inp.drop pos = r) (hp : pos ≤ inp.length) (hl : l.state = .s8) :
    numOutcome inp l.start (decodeFrom loc inp pos l) (afterExp (r.dropWhile isDigit)) := by
  obtain ⟨p, hp1, hp2, hp3⟩ := decodeFrom_digits loc inp r pos l h hp (Or.inr (Or.inl hl))
  rw [hp3]
  exact decodeFrom_exp loc inp p l _ hp2 hp1 (Or.inr (Or.inr hl))
    (fun c hc => ⟨Or.inr (head_dropWhile_isDigit r c hc), Or.inl hl⟩)

/-- State 7, after the decimal point. -/
theorem decodeFrom_s7 (loc : Locale) (inp : List Nat) (pos : Nat) (l : Locals) (r : List Nat)
    (h : inp.drop pos = r) (hp : pos ≤ inp.length) (hl : l.state = .s7) :
    numOutcome inp l.start (decodeFrom loc inp pos l) ((afterDigits r).bind afterExp) := by
  obtain ⟨st, start, str, arr, obj, key⟩ := l
  simp only at hl
  subst hl
  cases r with
  | nil =>
    rw [decodeFrom_nil loc hp h]
    exact ⟨_, _, rfl⟩
  | cons c t =>
    have ht : inp.drop (pos + 1) = t := drop_add (a := [c]) h
    rw [decodeFrom_cons loc h]
    by_cases hc : isDigit c = true
    · simp only [step, hc, if_true, afterDigits, Option.some_bind]
      exact decodeFrom_s8 loc inp (pos + 1) _ t ht (drop_le_length h) rfl
    · simp only [step, hc, if_false, afterDigits, Option.none_bind]
      exact ⟨_, _, rfl⟩

/-- The optional fraction and exponent, read where the integer part ends. -/
theorem decodeFrom_frac (loc : Locale) (inp : List Nat) (pos : Nat) (l : Locals) (r : List Nat)
    (h : inp.drop pos = r) (hp : pos ≤ inp.length) (hl : l.state = .s5 ∨ l.state = .s6)
    (hr : ∀ c ∈ r.head?, l.state = .s6 ∨ isDigit c = false) :
    numOutcome inp l.start (decodeFrom loc inp pos l) ((afterFrac r).bind afterExp) := by
  have hl3 : l.state = .s5 ∨ l.state = .s6 ∨ l.state = .s8 := by
    rcases hl with h | h
    · exact Or.inl h
    · exact Or.inr (Or.inl h)
  cases r with
  | nil =>
    simp only [afterFrac, Option.some_bind]
    exact decodeFrom_exp loc inp pos l [] h hp hl3 (by simp)
  | cons c t =>
    by_cases h46 : c = 46
    · subst h46
      have ht : inp.drop (pos + 1) = t := drop_add (a := [46]) h
      have hrun : decodeFrom loc inp pos l
          = decodeFrom loc inp (pos + 1) { l with state := .s7 } := by
        rw [decodeFrom_cons loc h]
        obtain ⟨st, start, str, arr, obj, key⟩ := l
        rcases hl with hl | hl <;> simp only at hl <;> subst hl <;> simp [step, isDigit]
      rw [hrun]
      simp only [afterFrac, if_true]
      exact decodeFrom_s7 loc inp (pos + 1) _ t ht (drop_le_length h) rfl
    · simp only [afterFrac, h46, if_false, Option.some_bind]
      exact decodeFrom_exp loc inp pos l _ h hp hl3 (fun x hx => by
        simp only [List.head?_cons, Option.mem_def, Option.some.injEq] at hx
        subst hx
        exact ⟨hr c (by simp), Or.inr h46⟩)

/-- State 5, after the first digit of an integer part that does not begin with `0`. -/
theorem decodeFrom_s5 (loc : Locale) (inp : List Nat) (pos : Nat) (l : Locals) (r : List Nat)
    (h : inp.drop pos = r) (hp : pos ≤ inp.length) (hl : l.state = .s5) :
    numOutcome inp l.start (decodeFrom loc inp pos l)
      ((afterFrac (r.dropWhile isDigit)).bind afterExp) := by
  obtain ⟨p, hp1, hp2, hp3⟩ := decodeFrom_digits loc inp r pos l h hp (Or.inl hl)
  rw [hp3]
  exact decodeFrom_frac loc inp p l _ hp2 hp1 (Or.inl hl)
    (fun c hc => Or.inr (head_dropWhile_isDigit r c hc))

/-- The integer part, the fraction and the exponent, read at the start of a value or after
its minus sign. -/
theorem decodeFrom_int (loc : Locale) (inp : List Nat) (pos : Nat) (l : Locals) (r : List Nat)
    (h : inp.drop pos = r) (hp : pos ≤ inp.length)
    (hl : l.state = .s4 ∨ (l.state = .s0 ∧ ∃ c ∈ r.head?, isDigit c = true)) :
    numOutcome inp l.start (decodeFrom loc inp pos l)
      (((afterInt r).bind afterFrac).bind afterExp) := by
  cases r with
  | nil =>
    rcases hl with hl | ⟨_, c, hc, _⟩
    · rw [decodeFrom_nil loc hp h]
      obtain ⟨st, start, str, arr, obj, key⟩ := l
      simp only at hl
      subst hl
      exact ⟨_, _, rfl⟩
    · simp at hc
  | cons c t =>
    have ht : inp.drop (pos + 1) = t := drop_add (a := [c]) h
    have hp1 := drop_le_length h
    by_cases h48 : c = 48
    · subst h48
      have hrun : decodeFrom loc inp pos l
          = decodeFrom loc inp (pos + 1) { l with state := .s6 } := by
        rw [decodeFrom_cons loc h]
        obtain ⟨st, start, str, arr, obj, key⟩ := l
        rcases hl with hl | ⟨hl, _⟩ <;> simp only at hl <;> subst hl <;>
          simp [step, isDigit19, isWs]
      rw [hrun]
      simp only [afterInt, if_true, Option.some_bind]
      exact decodeFrom_frac loc inp (pos + 1) _ t ht hp1 (Or.inr rfl) (fun _ _ => Or.inl rfl)
    · by_cases h19 : isDigit19 c = true
      · have hrun : decodeFrom loc inp pos l
            = decodeFrom loc inp (pos + 1) { l with state := .s5 } := by
          rw [decodeFrom_cons loc h]
          have hn : isWs c = false ∧ c ≠ 110 ∧ c ≠ 102 ∧ c ≠ 116 ∧ c ≠ 45 := by
            simp only [isDigit19, Bool.decide_and, Bool.and_eq_true, decide_eq_true_eq] at h19
            simp only [isWs, Bool.decide_or, Bool.or_eq_false_iff, decide_eq_false_iff_not]
            omega
          obtain ⟨st, start, str, arr, obj, key⟩ := l
          rcases hl with hl | ⟨hl, _⟩ <;> simp only at hl <;> subst hl <;>
            simp only [step, h19, h48, hn.1, hn.2.1, hn.2.2.1, hn.2.2.2.1, hn.2.2.2.2,
              if_true, if_false, Bool.false_eq_true]
        rw [hrun]
        simp only [afterInt, h48, h19, if_true, if_false, Option.some_bind]
        exact decodeFrom_s5 loc inp (pos + 1) _ t ht hp1 rfl
      · simp only [afterInt, h48, h19, if_false, Option.none_bind, Bool.false_eq_true]
        rcases hl with hl | ⟨_, x, hx, hd⟩
        · rw [decodeFrom_cons loc h]
          obtain ⟨st, start, str, arr, obj, key⟩ := l
          simp only at hl
          subst hl
          simp only [step, h48, h19, if_false, Bool.false_eq_true]
          exact ⟨_, _, rfl⟩
        · exfalso
          simp only [List.head?_cons, Option.mem_def, Option.some.injEq] at hx
          subst hx
          simp only [isDigit, isDigit19, Bool.decide_and, Bool.and_eq_true,
            decide_eq_true_eq] at hd h19
          omega

/-- A number token at the start of a value. -/
theorem decodeFrom_number (loc : Locale) (inp : List Nat) (pos : Nat) (l : Locals)
    (r : List Nat) (h : inp.drop pos = r) (hp : pos ≤ inp.length) (hl : l.state = .s0)
    (hr : ∀ c ∈ r.head?, numberByte c = true) :
    numOutcome inp l.start (decodeFrom loc inp pos l) (afterNumber r) := by
  cases r with
  | nil =>
    rw [decodeFrom_nil loc hp h]
    obtain ⟨st, start, str, arr, obj, key⟩ := l
    simp only at hl
    subst hl
    exact ⟨_, _, rfl⟩
  | cons c t =>
    have ht : inp.drop (pos + 1) = t := drop_add (a := [c]) h
    have hp1 := drop_le_length h
    by_cases h45 : c = 45
    · subst h45
      have hrun : decodeFrom loc inp pos l
          = decodeFrom loc inp (pos + 1) { l with state := .s4 } := by
        rw [decodeFrom_cons loc h]
        obtain ⟨st, start, str, arr, obj, key⟩ := l
        simp only at hl
        subst hl
        simp [step, isWs]
      rw [hrun]
      simp only [afterNumber, afterMinus, if_true]
      exact decodeFrom_int loc inp (pos + 1) _ t ht hp1 (Or.inl rfl)
    · simp only [afterNumber, afterMinus, h45, if_false]
      by_cases hd : isDigit c = true
      · exact decodeFrom_int loc inp pos l _ h hp (Or.inr ⟨hl, c, by simp, hd⟩)
      · have hc := hr c (by simp)
        have hn : isWs c = false ∧ c ≠ 110 ∧ c ≠ 102 ∧ c ≠ 116 ∧ c ≠ 48 ∧ isDigit19 c = false ∧
            c ≠ 34 ∧ c ≠ 91 ∧ c ≠ 123 := by
          simp only [numberByte, isDigit, Bool.decide_and, Bool.decide_or, Bool.or_eq_true,
            Bool.and_eq_true, decide_eq_true_eq] at hc hd
          simp only [isWs, isDigit19, Bool.decide_or, Bool.or_eq_false_iff,
            decide_eq_false_iff_not, Bool.decide_and, Bool.and_eq_false_imp, decide_eq_true_eq]
          omega
        rw [decodeFrom_cons loc h]
        obtain ⟨st, start, str, arr, obj, key⟩ := l
        simp only at hl
        subst hl
        simp only [step, h45, hn.1, hn.2.1, hn.2.2.1, hn.2.2.2.1, hn.2.2.2.2.1, hn.2.2.2.2.2.1,
          hn.2.2.2.2.2.2.1, hn.2.2.2.2.2.2.2.1, hn.2.2.2.2.2.2.2.2, if_false,
          Bool.false_eq_true, afterInt, Option.none_bind]
        exact ⟨_, _, rfl⟩

theorem dropWhile_isDigit_append (ds r : List Nat) (hds : ∀ x ∈ ds, isDigit x = true)
    (hr : ∀ c ∈ r.head?, isDigit c = false) : (ds ++ r).dropWhile isDigit = r := by
  induction ds with
  | nil =>
    cases r with
    | nil => rfl
    | cons c t => simp [List.dropWhile_cons, hr c (by simp)]
  | cons d t ih =>
    simp only [List.cons_append, List.dropWhile_cons, hds d (List.mem_cons_self _ _), if_true]
    exact ih fun x hx => hds x (List.mem_cons_of_mem _ hx)

theorem takeWhile_isDigit_append (ds r : List Nat) (hds : ∀ x ∈ ds, isDigit x = true)
    (hr : ∀ c ∈ r.head?, isDigit c = false) : (ds ++ r).takeWhile isDigit = ds := by
  induction ds with
  | nil =>
    cases r with
    | nil => rfl
    | cons c t => simp [List.takeWhile_cons, hr c (by simp)]
  | cons d t ih =>
    simp only [List.cons_append, List.takeWhile_cons, hds d (List.mem_cons_self _ _), if_true]
    rw [ih fun x hx => hds x (List.mem_cons_of_mem _ hx)]

theorem afterDigits_eq {t r : List Nat} (h : afterDigits t = some r) :
    ∃ d ds, t = d :: ds ++ r ∧ (∀ x ∈ d :: ds, isDigit x = true) ∧
      ∀ c ∈ r.head?, isDigit c = false := by
  cases t with
  | nil => simp [afterDigits] at h
  | cons c u =>
    simp only [afterDigits] at h
    split at h
    · rename_i hc
      simp only [Option.some.injEq] at h
      subst h
      refine ⟨c, u.takeWhile isDigit, by simp [List.takeWhile_append_dropWhile], ?_,
        head_dropWhile_isDigit u⟩
      intro x hx
      rcases List.mem_cons.mp hx with rfl | hx
      · exact hc
      · exact List.mem_takeWhile_imp hx
    · cases h

theorem afterDigits_append (d : Nat) (ds r : List Nat) (hds : ∀ x ∈ d :: ds, isDigit x = true)
    (hr : ∀ c ∈ r.head?, isDigit c = false) : afterDigits (d :: ds ++ r) = some r := by
  simp only [List.cons_append, afterDigits, hds d (List.mem_cons_self _ _), if_true]
  rw [dropWhile_isDigit_append ds r (fun x hx => hds x (List.mem_cons_of_mem _ hx)) hr]

theorem isDigit_of_isDigit19 {d : Nat} (h : isDigit19 d = true) : isDigit d = true ∧ d ≠ 48 := by
  simp only [isDigit19, isDigit, Bool.decide_and, Bool.and_eq_true, decide_eq_true_eq] at h ⊢
  omega

theorem afterInt_eq {u v : List Nat} (h : afterInt u = some v) :
    ∃ ip, u = ip ++ v ∧
      (ip = [48] ∨ ∃ d ds, ip = d :: ds ∧ isDigit19 d = true ∧ ∀ x ∈ ds, isDigit x = true) ∧
      (ip = [48] ∨ ∀ c ∈ v.head?, isDigit c = false) := by
  cases u with
  | nil => simp [afterInt] at h
  | cons c r =>
    simp only [afterInt] at h
    split at h
    · rename_i h48
      simp only [Option.some.injEq] at h
      subst h h48
      exact ⟨[48], rfl, Or.inl rfl, Or.inl rfl⟩
    · split at h
      · rename_i h19
        simp only [Option.some.injEq] at h
        subst h
        exact ⟨c :: r.takeWhile isDigit, by simp [List.takeWhile_append_dropWhile],
          Or.inr ⟨c, _, rfl, h19, fun x hx => List.mem_takeWhile_imp hx⟩,
          Or.inr (head_dropWhile_isDigit r)⟩
      · cases h

theorem afterFrac_eq {v w : List Nat} (h : afterFrac v = some w) :
    ∃ fp, v = fp ++ w ∧
      (fp = [] ∨ ∃ d ds, fp = 46 :: d :: ds ∧ ∀ x ∈ d :: ds, isDigit x = true) := by
  cases v with
  | nil =>
    simp only [afterFrac, Option.some.injEq] at h
    subst h
    exact ⟨[], rfl, Or.inl rfl⟩
  | cons c r =>
    simp only [afterFrac] at h
    split at h
    · rename_i h46
      subst h46
      obtain ⟨d, ds, hr, hds, _⟩ := afterDigits_eq h
      exact ⟨46 :: d :: ds, by rw [hr]; rfl, Or.inr ⟨d, ds, rfl, hds⟩⟩
    · simp only [Option.some.injEq] at h
      subst h
      exact ⟨[], rfl, Or.inl rfl⟩

theorem afterSign_eq (r : List Nat) :
    ∃ s, r = s ++ afterSign r ∧ (s = [] ∨ s = [43] ∨ s = [45]) := by
  cases r with
  | nil => exact ⟨[], rfl, Or.inl rfl⟩
  | cons c t =>
    simp only [afterSign]
    split
    · rename_i hc
      rcases hc with rfl | rfl
      · exact ⟨[43], rfl, Or.inr (Or.inl rfl)⟩
      · exact ⟨[45], rfl, Or.inr (Or.inr rfl)⟩
    · exact ⟨[], rfl, Or.inl rfl⟩

theorem afterExp_eq {w x : List Nat} (h : afterExp w = some x) :
    ∃ ep, w = ep ++ x ∧
      (ep = [] ∨ ∃ e s d ds, ep = e :: (s ++ d :: ds) ∧ (e = 69 ∨ e = 101) ∧
        (s = [] ∨ s = [43] ∨ s = [45]) ∧ ∀ x ∈ d :: ds, isDigit x = true) := by
  cases w with
  | nil =>
    simp only [afterExp, Option.some.injEq] at h
    subst h
    exact ⟨[], rfl, Or.inl rfl⟩
  | cons c r =>
    simp only [afterExp] at h
    split at h
    · rename_i he
      obtain ⟨d, ds, hr, hds, _⟩ := afterDigits_eq h
      obtain ⟨s, hs, hs2⟩ := afterSign_eq r
      refine ⟨c :: (s ++ d :: ds), ?_, Or.inr ⟨c, s, d, ds, rfl, he, hs2, hds⟩⟩
      rw [hr] at hs
      rw [hs]
      simp
    · simp only [Option.some.injEq] at h
      subst h
      exact ⟨[], rfl, Or.inl rfl⟩

theorem afterMinus_eq (t : List Nat) :
    ∃ sg, t = sg ++ afterMinus t ∧ (sg = [] ∨ sg = [45]) := by
  cases t with
  | nil => exact ⟨[], rfl, Or.inl rfl⟩
  | cons c r =>
    simp only [afterMinus]
    split
    · rename_i hc
      subst hc
      exact ⟨[45], rfl, Or.inr rfl⟩
    · exact ⟨[], rfl, Or.inl rfl⟩

/-- Reading the grammar from left to right decides it. -/
theorem specNumber_iff (t : List Nat) : specNumber t ↔ afterNumber t = some [] := by
  constructor
  · rintro ⟨sg, ip, fp, ep, rfl, hsg, hip, hfp, hep⟩
    have hep_head : ∀ c ∈ ep.head?, isDigit c = false ∧ c ≠ 46 := by
      intro c hc
      rcases hep with rfl | ⟨e, s, d, ds, rfl, he, _, _⟩
      · simp at hc
      · simp only [List.head?_cons, Option.mem_def, Option.some.injEq] at hc
        subst hc
        rcases he with rfl | rfl <;> exact ⟨by decide, by decide⟩
    have hv_head : ∀ c ∈ (fp ++ ep).head?, isDigit c = false := by
      intro c hc
      rcases hfp with rfl | ⟨d, ds, rfl, _⟩
      · exact (hep_head c hc).1
      · simp only [List.cons_append, List.head?_cons, Option.mem_def, Option.some.injEq] at hc
        subst hc
        decide
    have hip_head : ∃ c r, ip ++ (fp ++ ep) = c :: r ∧ isDigit c = true := by
      rcases hip with rfl | ⟨d, ds, rfl, hd, _⟩
      · exact ⟨48, _, rfl, by decide⟩
      · exact ⟨d, _, rfl, (isDigit_of_isDigit19 hd).1⟩
    have h1 : afterMinus (sg ++ (ip ++ (fp ++ ep))) = ip ++ (fp ++ ep) := by
      obtain ⟨c, r, hcr, hc⟩ := hip_head
      rcases hsg with rfl | rfl
      · rw [List.nil_append, hcr]
        have : c ≠ 45 := by
          rintro rfl
          exact absurd hc (by decide)
        simp only [afterMinus, this, if_false]
      · simp only [List.singleton_append, afterMinus, if_true]
    have h2 : afterInt (ip ++ (fp ++ ep)) = some (fp ++ ep) := by
      rcases hip with rfl | ⟨d, ds, rfl, hd, hds⟩
      · simp only [List.singleton_append, afterInt, if_true]
      · simp only [List.cons_append, afterInt, (isDigit_of_isDigit19 hd).2, hd, if_true,
          if_false]
        rw [dropWhile_isDigit_append ds _ hds hv_head]
    have h3 : afterFrac (fp ++ ep) = some ep := by
      rcases hfp with rfl | ⟨d, ds, rfl, hds⟩
      · cases ep with
        | nil => rfl
        | cons c r =>
          simp only [List.nil_append, afterFrac, (hep_head c (by simp)).2, if_false]
      · simp only [List.cons_append, afterFrac, if_true]
        exact afterDigits_append d ds ep hds fun c hc => (hep_head c hc).1
    have h4 : afterExp ep = some [] := by
      rcases hep with rfl | ⟨e, s, d, ds, rfl, he, hs, hds⟩
      · rfl
      · simp only [afterExp, he, if_true]
        have hsgn : afterSign (s ++ d :: ds) = d :: ds := by
          have hd := hds d (List.mem_cons_self _ _)
          rcases hs with rfl | rfl | rfl
          · have : ¬ (d = 43 ∨ d = 45) := by
              rintro (rfl | rfl) <;> exact absurd hd (by decide)
            simp only [List.nil_append, afterSign, this, if_false]
          · simp [afterSign]
          · simp [afterSign]
        rw [hsgn]
        simpa using afterDigits_append d ds [] hds (by simp)
    simp only [afterNumber, h1, h2, h3, h4, Option.some_bind]
  · intro h
    simp only [afterNumber] at h
    obtain ⟨sg, hsg, hsg2⟩ := afterMinus_eq t
    cases h1 : afterInt (afterMinus t) with
    | none => rw [h1] at h; cases h
    | some v =>
      rw [h1] at h
      simp only [Option.some_bind] at h
      cases h2 : afterFrac v with
      | none => rw [h2] at h; cases h
      | some w =>
        rw [h2] at h
        simp only [Option.some_bind] at h
        obtain ⟨ip, hip, hip2, _⟩ := afterInt_eq h1
        obtain ⟨fp, hfp, hfp2⟩ := afterFrac_eq h2
        obtain ⟨ep, hep, hep2⟩ := afterExp_eq h
        refine ⟨sg, ip, fp, ep, ?_, hsg2, hip2, hfp2, hep2⟩
        rw [List.append_nil] at hep
        rw [← hep, ← hfp, ← hip]
        exact hsg

theorem signOf_digits (s d : Nat) (ds : List Nat) (hs : s = 43 ∨ s = 45)
    (hd : isDigit d = true) :
    (signOf (d :: ds)).2 = 0 ∧ (signOf (s :: d :: ds)).2 = 1 := by
  have h1 : d ≠ 45 ∧ d ≠ 43 := by
    simp only [isDigit, Bool.decide_and, Bool.and_eq_true, decide_eq_true_eq] at hd
    omega
  constructor
  · unfold signOf
    split
    · rename_i h; cases h; exact absurd rfl h1.1
    · rename_i h; cases h; exact absurd rfl h1.2
    · rfl
  · rcases hs with rfl | rfl <;> rfl

/-- The exponent part of the grammar is what `strtod` reads as an exponent. -/
theorem expOf_length (ep : List Nat)
    (hep : ep = [] ∨ ∃ e s d ds, ep = e :: (s ++ d :: ds) ∧ (e = 69 ∨ e = 101) ∧
      (s = [] ∨ s = [43] ∨ s = [45]) ∧ ∀ x ∈ d :: ds, isDigit x = true) :
    (expOf ep).2 = ep.length := by
  rcases hep with rfl | ⟨e, s, d, ds, rfl, he, hs, hds⟩
  · rfl
  · have he2 : e = 101 ∨ e = 69 := he.symm
    have hd := hds d (List.mem_cons_self _ _)
    have htw : (d :: ds).takeWhile isDigit = d :: ds := by
      simpa using takeWhile_isDigit_append (d :: ds) [] hds (by simp)
    simp only [expOf, he2, if_true]
    rcases hs with rfl | rfl | rfl
    · simp only [List.nil_append, (signOf_digits 43 d ds (Or.inl rfl) hd).1, List.drop_zero, htw]
      simp
      omega
    · have := (signOf_digits 43 d ds (Or.inl rfl) hd).2
      simp only [List.singleton_append, this, List.drop_succ_cons, List.drop_zero, htw]
      simp
      omega
    · have := (signOf_digits 45 d ds (Or.inr rfl) hd).2
      simp only [List.singleton_append, this, List.drop_succ_cons, List.drop_zero, htw]
      simp
      omega

/-- The unsigned part of a text of the grammar is a decimal form for `strtod`, as a
whole. -/
theorem decimalOf_length (ip fp ep : List Nat)
    (hip : ip = [48] ∨ ∃ d ds, ip = d :: ds ∧ isDigit19 d = true ∧ ∀ x ∈ ds, isDigit x = true)
    (hfp : fp = [] ∨ ∃ d ds, fp = 46 :: d :: ds ∧ ∀ x ∈ d :: ds, isDigit x = true)
    (hep : ep = [] ∨ ∃ e s d ds, ep = e :: (s ++ d :: ds) ∧ (e = 69 ∨ e = 101) ∧
      (s = [] ∨ s = [43] ∨ s = [45]) ∧ ∀ x ∈ d :: ds, isDigit x = true) :
    (decimalOf (ip ++ (fp ++ ep))).map (fun x => x.2.2) = some (ip ++ (fp ++ ep)).length := by
  have hep_head : ∀ c ∈ ep.head?, isDigit c = false ∧ c ≠ 46 := by
    intro c hc
    rcases hep with rfl | ⟨e, s, d, ds, rfl, he, _, _⟩
    · simp at hc
    · simp only [List.head?_cons, Option.mem_def, Option.some.injEq] at hc
      subst hc
      rcases he with rfl | rfl <;> exact ⟨by decide, by decide⟩
  have hv_head : ∀ c ∈ (fp ++ ep).head?, isDigit c = false := by
    intro c hc
    rcases hfp with rfl | ⟨d, ds, rfl, _⟩
    · exact (hep_head c hc).1
    · simp only [List.cons_append, List.head?_cons, Option.mem_def, Option.some.injEq] at hc
      subst hc
      decide
  have hipd : ∀ x ∈ ip, isDigit x = true := by
    rcases hip with rfl | ⟨d, ds, rfl, hd, hds⟩
    · simp [isDigit]
    · intro x hx
      rcases List.mem_cons.mp hx with rfl | hx
      · exact (isDigit_of_isDigit19 hd).1
      · exact hds x hx
  have hipne : ip ≠ [] := by
    rcases hip with rfl | ⟨d, ds, rfl, _⟩ <;> simp
  have h1 : (ip ++ (fp ++ ep)).takeWhile isDigit = ip :=
    takeWhile_isDigit_append ip _ hipd hv_head
  have hex := expOf_length ep hep
  unfold decimalOf
  simp only [h1, List.drop_left]
  rcases hfp with rfl | ⟨d, ds, rfl, hds⟩
  · have hp : (ep.head? = some 46) = False := by
      cases ep with
      | nil => simp
      | cons c r => simpa using (hep_head c (by simp)).2
    simp only [List.nil_append, hp, decide_False, Bool.false_eq_true, if_false, hipne, false_and,
      Nat.add_zero, List.drop_left, hex, Option.map_some', List.length_append]
  · have h2 : (d :: (ds ++ ep)).takeWhile isDigit = d :: ds :=
      takeWhile_isDigit_append (d :: ds) ep hds fun c hc => (hep_head c hc).1
    have hdrop : (ip ++ 46 :: d :: (ds ++ ep)).drop (ip.length + (1 + (ds.length + 1))) = ep := by
      rw [← List.drop_drop, List.drop_left, show 1 + (ds.length + 1) = (46 :: d :: ds).length by
        simp; omega]
      exact List.drop_left (46 :: d :: ds) ep
    simp only [List.cons_append, List.head?_cons, decide_True, if_true, List.drop_succ_cons,
      List.drop_zero, hipne, false_and, if_false, h2, List.length_cons, hdrop, hex,
      Option.map_some', List.length_append]
    simp only [Option.some.injEq]
    omega

/-- The function `strtod` converts the whole of a text of the grammar. -/
theorem strtod_length (t : List Nat) (h : specNumber t) : (strtod t).2 = t.length := by
  obtain ⟨sg, ip, fp, ep, rfl, hsg, hip, hfp, hep⟩ := h
  obtain ⟨n, d, hdec⟩ : ∃ n d, decimalOf (ip ++ (fp ++ ep))
      = some (n, d, (ip ++ (fp ++ ep)).length) := by
    have := decimalOf_length ip fp ep hip hfp hep
    cases hd : decimalOf (ip ++ (fp ++ ep)) with
    | none => rw [hd] at this; cases this
    | some x =>
      obtain ⟨n, d, k⟩ := x
      rw [hd] at this
      simp only [Option.map_some', Option.some.injEq] at this
      exact ⟨n, d, by rw [this]⟩
  obtain ⟨c, r, hcr, hc, hx⟩ : ∃ c r, ip ++ (fp ++ ep) = c :: r ∧ isDigit c = true ∧
      (c = 48 → ∀ x ∈ r.head?, x ≠ 120 ∧ x ≠ 88) := by
    rcases hip with rfl | ⟨d, ds, rfl, hd, _⟩
    · refine ⟨48, fp ++ ep, rfl, by decide, fun _ x hx => ?_⟩
      rcases hfp with rfl | ⟨d, ds, rfl, _⟩
      · rcases hep with rfl | ⟨e, s, d, ds, rfl, he, _, _⟩
        · simp at hx
        · simp only [List.nil_append, List.head?_cons, Option.mem_def, Option.some.injEq] at hx
          omega
      · simp only [List.cons_append, List.head?_cons, Option.mem_def, Option.some.injEq] at hx
        omega
    · exact ⟨d, _, rfl, (isDigit_of_isDigit19 hd).1, fun h => absurd h (isDigit_of_isDigit19 hd).2⟩
  have hcn : isspace c = false ∧ c ≠ 45 ∧ c ≠ 43 := by
    simp only [isDigit, Bool.decide_and, Bool.and_eq_true, decide_eq_true_eq] at hc
    simp only [isspace, Bool.decide_or, Bool.decide_and, Bool.or_eq_false_iff,
      decide_eq_false_iff_not, Bool.and_eq_false_imp, decide_eq_true_eq]
    omega
  have hhex : hexFloatOf (c :: r) = none := by
    unfold hexFloatOf
    split
    · rename_i x r2 heq
      cases heq
      have := hx rfl x (by simp)
      simp [this.1, this.2]
    · rfl
  rw [hcr] at hdec ⊢
  have hsign0 : signOf (c :: r) = (false, 0) := by
    unfold signOf
    split
    · rename_i h; cases h; exact absurd rfl hcn.2.1
    · rename_i h; cases h; exact absurd rfl hcn.2.2
    · rfl
  rcases hsg with rfl | rfl
  · simp only [List.nil_append, strtod, List.takeWhile_cons, hcn.1, Bool.false_eq_true, if_false,
      List.length_nil, List.drop_zero, hsign0, hhex, Option.orElse, hdec]
    simp
  · have hws : isspace 45 = false := by decide
    have hsign : signOf (45 :: c :: r) = (true, 1) := rfl
    simp only [List.singleton_append, strtod, List.takeWhile_cons, hws, Bool.false_eq_true,
      if_false, List.length_nil, List.drop_zero, hsign, List.drop_succ_cons, hhex,
      Option.orElse, hdec]
    simp
    omega

theorem isWs_of_numberByte {c : Nat} (h : numberByte c = true) : isWs c = false := by
  simp only [numberByte, isDigit, Bool.decide_and, Bool.decide_or, Bool.or_eq_true,
    Bool.and_eq_true, decide_eq_true_eq] at h
  simp only [isWs, Bool.decide_or, Bool.or_eq_false_iff, decide_eq_false_iff_not]
  omega

/-! ## Escapes with four hexadecimal digits -/

/-- The passes of the loop over the encoded bytes of `s`, inside a string literal. -/
theorem decodeFrom_chars (loc : Locale) (inp : List Nat) (s : List Nat)
    (hs : ∀ c ∈ s, 0 < c ∧ c < 128) :
    ∀ (pos : Nat) (l : Locals) (str r : List Nat),
      inp.drop pos = s.flatMap json_encode_char ++ r →
      decodeFrom loc inp pos (l.inStr str)
        = decodeFrom loc inp (pos + (s.flatMap json_encode_char).length) (l.inStr (str ++ s)) := by
  induction s with
  | nil => intro pos l str r _; simp
  | cons c t ih =>
    intro pos l str r h
    have hc := hs c (List.mem_cons_self _ _)
    simp only [List.flatMap_cons, List.append_assoc, List.length_append] at h ⊢
    have hlen := length_of_drop h
    simp only [List.length_append] at hlen
    obtain ⟨k, hk, e⟩ := decodeLoop_char loc inp c hc.1 hc.2 (2 * (inp.length - pos) + 2) pos l
      str _ h (by omega)
    have e1 : decodeFrom loc inp pos (l.inStr str)
        = decodeFrom loc inp (pos + (json_encode_char c).length) (l.inStr (str ++ [c])) := by
      conv_lhs => rw [decodeFrom, e]
      exact decodeLoop_eq_decodeFrom loc inp _ _ _ (by simp only [Locals.inStr]; split <;> omega)
    rw [e1, ih (fun x hx => hs x (List.mem_cons_of_mem _ hx)) _ l _ r (drop_add h)]
    simp only [List.append_assoc, List.singleton_append, Nat.add_assoc]

/-- The two passes of the loop over an escape `\uXXXX` with four hexadecimal digits, inside
a string literal: what `wcstombs` makes of the code point is appended, and nothing when it
fails. -/
theorem decodeFrom_unicode (loc : Locale) (inp : List Nat) (pos a b c d va vb vc vd : Nat)
    (l : Locals) (str r : List Nat)
    (h : inp.drop pos = 92 :: 117 :: a :: b :: c :: d :: r)
    (ha : hexVal a = some va) (hb : hexVal b = some vb) (hc : hexVal c = some vc)
    (hd : hexVal d = some vd) :
    decodeFrom loc inp pos (l.inStr str)
      = decodeFrom loc inp (pos + 6)
          (l.inStr (str ++ (wcstombs loc (codePoint va vb vc vd)).getD [])) := by
  have h2 : inp.drop (pos + 1) = 117 :: a :: b :: c :: d :: r := drop_add (a := [92]) h
  have hlen := length_of_drop h2
  have e1 : inp[pos + 1 + 1]? = some a := by simpa using at_drop h2 1
  have e2 : inp[pos + 1 + 1 + 1]? = some b := by simpa using at_drop h2 2
  have e3 : inp[pos + 1 + 1 + 1 + 1]? = some c := by simpa using at_drop h2 3
  have e4 : inp[pos + 1 + 1 + 1 + 1 + 1]? = some d := by simpa using at_drop h2 4
  have hloop : hexLoop inp 4 (pos + 1) 0 0 = some (pos + 5, codePoint va vb vc vd, 4) := by
    simp only [hexLoop, e1, e2, e3, e4, ha, hb, hc, hd, codePoint]
    simp
  have hnot : ¬ (inp.length - (pos + 1) < 4) := by
    simp only [List.length_cons] at hlen
    omega
  rw [decodeFrom_cons loc h]
  simp only [step, Locals.inStr, if_true, if_false, show (92 : Nat) ≠ 34 by decide]
  rw [decodeFrom_cons loc h2]
  simp only [step, stepU, hnot, hloop, if_false, show (117 : Nat) ≠ 34 by decide,
    show (117 : Nat) ≠ 92 by decide, show (117 : Nat) ≠ 47 by decide,
    show (117 : Nat) ≠ 98 by decide, show (117 : Nat) ≠ 102 by decide,
    show (117 : Nat) ≠ 110 by decide, show (117 : Nat) ≠ 114 by decide,
    show (117 : Nat) ≠ 116 by decide, or_self, if_true, show (4 : Nat) ≠ 0 by decide]
  cases wcstombs loc (codePoint va vb vc vd) <;> simp

/-- What the buffered decoder makes of a string literal with one escape `\uXXXX` between
two runs of encoded bytes. -/
theorem json_decode_unicode (loc : Locale) (s1 s2 : List Nat) (a b c d va vb vc vd : Nat)
    (hs1 : ∀ x ∈ s1, 0 < x ∧ x < 128) (hs2 : ∀ x ∈ s2, 0 < x ∧ x < 128)
    (ha : hexVal a = some va) (hb : hexVal b = some vb) (hc : hexVal c = some vc)
    (hd : hexVal d = some vd) :
    json_decode loc (34 :: (s1.flatMap json_encode_char ++
        92 :: 117 :: a :: b :: c :: d :: (s2.flatMap json_encode_char ++ [34])))
      = .ok (.string (s1 ++ (wcstombs loc (codePoint va vb vc vd)).getD [] ++ s2)) := by
  generalize hinp : 34 :: (s1.flatMap json_encode_char ++
    92 :: 117 :: a :: b :: c :: d :: (s2.flatMap json_encode_char ++ [34])) = inp
  have hd0 : inp.drop 0 = 34 :: (s1.flatMap json_encode_char ++
      92 :: 117 :: a :: b :: c :: d :: (s2.flatMap json_encode_char ++ [34])) := by
    rw [List.drop_zero, hinp]
  have hd1 : inp.drop (0 + 1) = s1.flatMap json_encode_char ++
      92 :: 117 :: a :: b :: c :: d :: (s2.flatMap json_encode_char ++ [34]) :=
    drop_add (a := [34]) hd0
  have hd2 : inp.drop (0 + 1 + (s1.flatMap json_encode_char).length)
      = 92 :: 117 :: a :: b :: c :: d :: (s2.flatMap json_encode_char ++ [34]) := drop_add hd1
  have hd3 : inp.drop (0 + 1 + (s1.flatMap json_encode_char).length + 6)
      = s2.flatMap json_encode_char ++ [34] := drop_add (a := [92, 117, a, b, c, d]) hd2
  have hlen : inp.length = (s1.flatMap json_encode_char).length
      + (s2.flatMap json_encode_char).length + 8 := by
    rw [← hinp]
    simp
    omega
  have hat : json_decode_at loc inp 0 = .ok (inp.length,
      .string (s1 ++ (wcstombs loc (codePoint va vb vc vd)).getD [] ++ s2)) := by
    rw [json_decode_at_eq, decodeFrom_cons loc hd0]
    have hstep : step loc inp (json_decode_at loc inp) 0 34 (Locals.init 0)
        = .next 0 ((Locals.init 0).inStr []) := by
      simp [step, Locals.init, Locals.inStr, isWs, isDigit19]
    rw [hstep]
    simp only
    rw [decodeFrom_chars loc inp s1 hs1 _ _ _ _ hd1,
      decodeFrom_unicode loc inp _ a b c d va vb vc vd _ _ _ hd2 ha hb hc hd, decodeFrom,
      decodeLoop_string_body loc inp s2 hs2 _ _ _ _ [] hd3 (by omega)]
    simp only [List.nil_append, List.length_cons, List.length_nil, Result.ok.injEq,
      Prod.mk.injEq, and_true]
    omega
  unfold json_decode json_decode_into
  rw [hat]
  simp [trailing]

theorem hexVal_lt {c v : Nat} (h : hexVal c = some v) : v < 16 := by
  unfold hexVal at h
  split at h
  · cases h; omega
  · split at h
    · cases h; omega
    · split at h
      · cases h; omega
      · cases h

theorem codePoint_lt {a b c d va vb vc vd : Nat} (ha : hexVal a = some va)
    (hb : hexVal b = some vb) (hc : hexVal c = some vc) (hd : hexVal d = some vd) :
    codePoint va vb vc vd < 65536 := by
  have := hexVal_lt ha
  have := hexVal_lt hb
  have := hexVal_lt hc
  have := hexVal_lt hd
  unfold codePoint
  omega

/-- In a UTF-8 locale `wcstombs` gives the UTF-8 encoding of a code point of the basic
plane other than 0 and the surrogates. -/
theorem wcstombs_utf8 (n : Nat) (h0 : n ≠ 0) (hs : ¬ (55296 ≤ n ∧ n < 57344)) (hn : n < 65536) :
    wcstombs .UTF8 n = some (utf8Encoding n) := by
  unfold wcstombs utf8Encoding
  rw [if_neg h0]
  by_cases h1 : n < 128
  · rw [if_pos h1, if_pos h1]
  · rw [if_neg h1, if_neg h1]
    simp only
    by_cases h2 : n < 2048
    · rw [if_pos h2, if_pos h2]
    · rw [if_neg h2, if_neg h2, if_neg hs, if_pos hn, if_pos hn]

/-! ## String literals without a closing quote -/

theorem decodeFrom_beyond (loc : Locale) (inp : List Nat) (pos : Nat) (l : Locals)
    (h : inp.length < pos) : decodeFrom loc inp pos l = .undefined := by
  rw [decodeFrom, decodeLoop_succ, if_neg (by omega), List.getElem?_eq_none (by omega)]

theorem Step.inString_ite {pos : Nat} {c : Prop} [Decidable c] {a b : Step}
    (ha : a.inString pos) (hb : b.inString pos) : (if c then a else b).inString pos := by
  split <;> assumption

theorem stepU_inString (loc : Locale) (inp : List Nat) (pos : Nat) (l : Locals) :
    (stepU loc inp pos l).inString pos := by
  unfold stepU
  split
  · trivial
  · split
    · trivial
    · rename_i p hex i e
      have hb := (hexLoop_bound inp 4 pos 0 0 e).1
      split
      · trivial
      · split
        · exact ⟨hb, Or.inl rfl⟩
        · exact ⟨hb, Or.inl rfl⟩

theorem step_inString (loc : Locale) (inp : List Nat) (call : Nat → Result (Nat × JSON))
    (pos c : Nat) (l : Locals) (hl : l.state = .s12 ∨ l.state = .s14) (hc : c ≠ 34) :
    (step loc inp call pos c l).inString pos := by
  obtain ⟨st, start, str, arr, obj, key⟩ := l
  rcases hl with hl | hl <;> simp only at hl <;> subst hl <;> simp only [step, hc, if_false]
  all_goals repeat' with_reducible apply Step.inString_ite
  all_goals first
    | exact ⟨le_refl _, Or.inl rfl⟩
    | exact ⟨le_refl _, Or.inr rfl⟩
    | exact stepU_inString _ _ _ _
    | trivial

/-- Inside a string literal that no quote closes, the loop ends with a syntax error or
with a read outside the buffer. -/
theorem decodeFrom_unterminated (loc : Locale) (inp : List Nat) :
    ∀ (n pos : Nat) (l : Locals), inp.length - pos ≤ n → (l.state = .s12 ∨ l.state = .s14) →
      (∀ c ∈ inp.drop pos, c ≠ 34) →
      (∃ off msg, decodeFrom loc inp pos l = .throw (.syntaxAt off msg)) ∨
        decodeFrom loc inp pos l = .undefined := by
  intro n
  induction n with
  | zero =>
    intro pos l hn hl _
    rcases Nat.lt_or_ge inp.length pos with hlt | hge
    · exact Or.inr (decodeFrom_beyond loc inp pos l hlt)
    · have hpos : pos = inp.length := by omega
      subst hpos
      rw [decodeFrom_end]
      obtain ⟨st, start, str, arr, obj, key⟩ := l
      rcases hl with hl | hl <;> simp only at hl <;> subst hl <;> exact Or.inl ⟨_, _, rfl⟩
  | succ n ih =>
    intro pos l hn hl hq
    cases hd : inp.drop pos with
    | nil =>
      rcases Nat.lt_or_ge inp.length pos with hlt | hge
      · exact Or.inr (decodeFrom_beyond loc inp pos l hlt)
      · rw [decodeFrom_nil loc hge hd]
        obtain ⟨st, start, str, arr, obj, key⟩ := l
        rcases hl with hl | hl <;> simp only at hl <;> subst hl <;> exact Or.inl ⟨_, _, rfl⟩
    | cons c r =>
      have hc : c ≠ 34 := hq c (by rw [hd]; exact List.mem_cons_self _ _)
      have hlt := drop_le_length hd
      have hs := step_inString loc inp (json_decode_at loc inp) pos c l hl hc
      rw [decodeFrom_cons loc hd]
      cases hstep : step loc inp (json_decode_at loc inp) pos c l with
      | next p l2 =>
        rw [hstep] at hs
        apply ih (p + 1) l2 (by have := hs.1; omega) hs.2
        intro x hx
        apply hq x
        have : inp.drop (p + 1) = (inp.drop pos).drop (p + 1 - pos) := by
          rw [List.drop_drop]
          congr 1
          have := hs.1
          omega
        rw [this] at hx
        exact List.mem_of_mem_drop hx
      | goto lbl p l2 => rw [hstep] at hs; exact absurd hs id
      | throw e =>
        rw [hstep] at hs
        cases e with
        | syntaxAt off msg => exact Or.inl ⟨off, msg, rfl⟩
        | runtime w => exact absurd hs id
        | typeError w => exact absurd hs id
        | invalidArgument w => exact absurd hs id
        | outOfRange w => exact absurd hs id
      | undefined => exact Or.inr rfl
      | outOfFuel => rw [hstep] at hs; exact absurd hs id

/-! ## A text decoded inside a longer buffer -/

theorem getElem?_shift (pre t post : List Nat) (i : Nat) {c : Nat} (h : t[i]? = some c) :
    (pre ++ (t ++ post))[i + pre.length]? = some c := by
  have hi : i < t.length := getElem?_lt h
  rw [List.getElem?_append_right (by omega), Nat.add_sub_cancel, List.getElem?_append_left hi, h]

theorem drop_shift (pre t post : List Nat) (i : Nat) (hi : i ≤ t.length) :
    (pre ++ (t ++ post)).drop (i + pre.length) = t.drop i ++ post := by
  rw [Nat.add_comm, List.drop_append, List.drop_append_of_le_length hi]

theorem litAt_shift (pre t post : List Nat) (pos : Nat) (lit : List Nat) (hl : lit ≠ [])
    (h : litAt t pos lit = true) : litAt (pre ++ (t ++ post)) (pos + pre.length) lit = true := by
  have hlen := litAt_length h
  have hne : lit.length ≠ 0 := fun e => hl (List.length_eq_zero.mp e)
  have hle : pos + lit.length ≤ t.length := by omega
  unfold litAt at h ⊢
  simp only [Bool.decide_and, Bool.and_eq_true, decide_eq_true_eq, not_lt] at h ⊢
  refine ⟨by simp only [List.length_append]; omega, ?_⟩
  rw [drop_shift pre t post pos (by omega), List.take_append_of_le_length (by
    rw [List.length_drop]; omega)]
  exact h.2

theorem hexLoop_shift (pre t post : List Nat) :
    ∀ (n pos hex i : Nat) {p h j : Nat}, hexLoop t n pos hex i = some (p, h, j) →
      hexLoop (pre ++ (t ++ post)) n (pos + pre.length) hex i = some (p + pre.length, h, j) := by
  intro n
  induction n with
  | zero =>
    intro pos hex i p h j e
    simp only [hexLoop, Option.some.injEq, Prod.mk.injEq] at e ⊢
    omega
  | succ n ih =>
    intro pos hex i p h j e
    simp only [hexLoop] at e ⊢
    cases hc : t[pos + 1]? with
    | none => rw [hc] at e; cases e
    | some c =>
      rw [hc] at e
      have := getElem?_shift pre t post (pos + 1) hc
      rw [show pos + pre.length + 1 = pos + 1 + pre.length by omega, this]
      simp only at e ⊢
      cases hv : hexVal c with
      | none =>
        rw [hv] at e
        simp only [Option.some.injEq, Prod.mk.injEq] at e ⊢
        omega
      | some d =>
        rw [hv] at e
        simp only at e ⊢
        exact ih _ _ _ e

theorem Step.shifted_ite {k : Nat} {c : Prop} [Decidable c] {a b a2 b2 : Step}
    (ha : Step.shifted k a a2) (hb : Step.shifted k b b2) :
    Step.shifted k (if c then a else b) (if c then a2 else b2) := by
  split <;> assumption

theorem Step.shifted_lit {k : Nat} {c c2 : Prop} [Decidable c] [Decidable c2] {a a2 b2 : Step}
    {e : Exn} (hc : c → c2) (ha : Step.shifted k a a2) :
    Step.shifted k (if c then a else .throw e) (if c2 then a2 else b2) := by
  by_cases h : c
  · rw [if_pos h, if_pos (hc h)]
    exact ha
  · rw [if_neg h]
    trivial

theorem stepU_shift (loc : Locale) (pre t post : List Nat) (pos : Nat) (l : Locals) :
    Step.shifted pre.length (stepU loc t pos l)
      (stepU loc (pre ++ (t ++ post)) (pos + pre.length) (l.shift pre.length)) := by
  unfold stepU
  by_cases h4 : t.length - pos < 4
  · rw [if_pos h4]
    trivial
  · rw [if_neg h4, if_neg (by simp only [List.length_append]; omega)]
    cases hl : hexLoop t 4 pos 0 0 with
    | none => trivial
    | some x =>
      obtain ⟨p, hex, i⟩ := x
      rw [hexLoop_shift pre t post 4 pos 0 0 hl]
      simp only
      by_cases hi : i = 0
      · rw [if_pos hi]
        trivial
      · rw [if_neg hi, if_neg hi]
        cases wcstombs loc hex <;> rfl

theorem afterCall_shift {k pos : Nat} {r r2 : Result (Nat × JSON)} (f : JSON → Locals)
    (hr : ∀ q v, r = .ok (q, v) → pos < q ∧ r2 = .ok (q + k, v)) :
    Step.shifted k (afterCall r fun p v => .next (p - 1) (f v))
      (afterCall r2 fun p v => .next (p - 1) ((f v).shift k)) := by
  cases r with
  | ok x =>
    obtain ⟨q, v⟩ := x
    obtain ⟨hq, rfl⟩ := hr q v rfl
    simp only [afterCall, Step.shifted, Step.next.injEq, and_true]
    omega
  | throw e => trivial
  | undefined => trivial
  | outOfFuel => trivial

/-- A loop pass on the same character, `k` positions further on in the longer buffer. -/
theorem step_shift (loc : Locale) (pre t post : List Nat)
    (call call2 : Nat → Result (Nat × JSON)) (pos c : Nat) (l : Locals)
    (hcall : ∀ q v, call pos = .ok (q, v) →
      pos < q ∧ call2 (pos + pre.length) = .ok (q + pre.length, v)) :
    Step.shifted pre.length (step loc t call pos c l)
      (step loc (pre ++ (t ++ post)) call2 (pos + pre.length) c (l.shift pre.length)) := by
  obtain ⟨st, start, str, arr, obj, key⟩ := l
  cases st
  all_goals simp only [step, Locals.shift]
  all_goals repeat' first
    | with_reducible apply Step.shifted_ite
    | with_reducible apply Step.shifted_lit (litAt_shift pre t post pos _ (by simp))
  all_goals first
    | trivial
    | exact stepU_shift loc pre t post pos _
    | exact afterCall_shift _ hcall
    | (simp only [Step.shifted, Locals.shift, Step.next.injEq, Step.goto.injEq,
        Locals.mk.injEq, true_and, and_true]; omega)
    | skip
  · split
    · exact afterCall_shift _ hcall
    · trivial


theorem accept_shift (pre t post : List Nat) (lbl : Label) (p : Nat) (l : Locals) (e : Nat)
    (v : JSON) (hp : p ≤ t.length) (h : accept t lbl p l = .ok (e, v)) :
    accept (pre ++ (t ++ post)) lbl (p + pre.length) (l.shift pre.length)
      = .ok (e + pre.length, v) := by
  cases lbl
  case accept_number =>
    have hspan : ((pre ++ (t ++ post)).drop (l.start + pre.length)).take
        (p + pre.length - (l.start + pre.length)) = (t.drop l.start).take (p - l.start) := by
      rw [show p + pre.length - (l.start + pre.length) = p - l.start by omega]
      rcases Nat.lt_or_ge p l.start with hlt | hge
      · rw [show p - l.start = 0 by omega, List.take_zero, List.take_zero]
      · rw [drop_shift pre t post l.start (by omega), List.take_append_of_le_length (by
          rw [List.length_drop]; omega)]
    simp only [accept, Locals.shift, hspan] at h ⊢
    split at h
    · cases h
    · rename_i hne
      simp only [Result.ok.injEq, Prod.mk.injEq] at h
      rw [if_neg hne, ← h.1, ← h.2]
  all_goals
    simp only [accept, Locals.shift, Result.ok.injEq, Prod.mk.injEq] at h ⊢
    exact ⟨by omega, h.2⟩

/-- The loop decodes a text inside a longer buffer as it decodes the text alone, when the
character after the text, if any, ends a number token. -/
theorem decodeLoop_shift (loc : Locale) (pre t post : List Nat)
    (hpost : ∀ c ∈ post.head?, endsNumber c = true) (fuel : Nat) :
    ∀ (pos : Nat) (l : Locals) (e : Nat) (v : JSON),
      decodeLoop loc t fuel pos l = .ok (e, v) →
      decodeLoop loc (pre ++ (t ++ post)) fuel (pos + pre.length) (l.shift pre.length)
        = .ok (e + pre.length, v) := by
  induction fuel with
  | zero =>
    intro pos l e v h
    simp [decodeLoop] at h
  | succ fuel ih =>
    intro pos l e v h
    rw [decodeLoop_succ] at h ⊢
    by_cases hend : pos = t.length
    · rw [if_pos hend] at h
      subst hend
      obtain ⟨st, start, str, arr, obj, key⟩ := l
      have hst : st = .s5 ∨ st = .s6 ∨ st = .s8 ∨ st = .s11 := by
        cases st <;> simp only [finish] at h <;> first
          | cases h
          | simp
      have hacc : accept t .accept_number t.length ⟨st, start, str, arr, obj, key⟩
          = .ok (e, v) := by
        rcases hst with rfl | rfl | rfl | rfl <;> exact h
      have hres := accept_shift pre t post .accept_number t.length _ e v (le_refl _) hacc
      cases post with
      | nil =>
        rw [if_pos (by simp only [List.length_append, List.length_nil]; omega)]
        rcases hst with rfl | rfl | rfl | rfl <;> exact hres
      | cons c r =>
        have hc : (pre ++ (t ++ c :: r))[t.length + pre.length]? = some c := by
          rw [List.getElem?_append_right (by omega), Nat.add_sub_cancel,
            List.getElem?_append_right (le_refl _), Nat.sub_self]
          simp
        rw [if_neg (by simp only [List.length_append, List.length_cons]; omega), hc]
        simp only
        have hcn := hpost c (by simp)
        simp only [endsNumber, Bool.and_eq_true, Bool.not_eq_true', bne_iff_ne, ne_eq] at hcn
        rcases hst with rfl | rfl | rfl | rfl <;>
          simp only [step, Locals.shift, hcn.1.1.1, hcn.1.1.2, hcn.1.2, hcn.2, or_self, if_false,
            Bool.false_eq_true] <;> exact hres
    · rw [if_neg hend] at h
      cases hc : t[pos]? with
      | none => rw [hc] at h; cases h
      | some c =>
        have hpos := getElem?_lt hc
        rw [hc] at h
        rw [if_neg (by simp only [List.length_append]; omega), getElem?_shift pre t post pos hc]
        simp only at h ⊢
        have hs := step_shift loc pre t post
          (fun p => decodeLoop loc t fuel p (Locals.init p))
          (fun p => decodeLoop loc (pre ++ (t ++ post)) fuel p (Locals.init p)) pos c l
          (fun q v hq => ⟨(decodeLoop_bound loc t fuel pos _ q v hq).2.2 rfl,
            ih pos _ q v hq⟩)
        have hb := step_bound loc t (fun p => decodeLoop loc t fuel p (Locals.init p)) pos c l
          hpos (fun q v hq => by
            have := decodeLoop_bound loc t fuel pos _ q v hq
            exact ⟨this.2.2 rfl, this.2.1⟩)
        cases hstep : step loc t (fun p => decodeLoop loc t fuel p (Locals.init p)) pos c l with
        | next p l2 =>
          rw [hstep] at h hs
          rw [hs]
          simp only at h ⊢
          rw [show p + pre.length + 1 = p + 1 + pre.length by omega]
          exact ih _ _ _ _ h
        | goto lbl p l2 =>
          rw [hstep] at h hs hb
          rw [hs]
          simp only at h ⊢
          exact accept_shift pre t post lbl p l2 e v hb.2.1 h
        | throw x => rw [hstep] at h; cases h
        | undefined => rw [hstep] at h; cases h
        | outOfFuel => rw [hstep] at h; cases h

/-- The function `json_decode(in, start, out)` decodes a text inside a longer buffer as it
decodes the text alone, when the character after the text, if any, ends a number token. -/
theorem json_decode_at_shift (loc : Locale) (pre t post : List Nat)
    (hpost : ∀ c ∈ post.head?, endsNumber c = true) (q e : Nat) (v : JSON)
    (h : json_decode_at loc t q = .ok (e, v)) :
    json_decode_at loc (pre ++ (t ++ post)) (q + pre.length) = .ok (e + pre.length, v) := by
  have h1 := decodeLoop_shift loc pre t post hpost _ q _ e v h
  have hq := (decodeLoop_bound loc t _ q _ e v h).2.1
  have hq2 := (decodeLoop_bound loc t _ q _ e v h).1
  have hne : decodeLoop loc (pre ++ (t ++ post)) (2 * (t.length - q) + 2) (q + pre.length)
      ((Locals.init q).shift pre.length) ≠ .outOfFuel := by
    rw [h1]
    exact fun x => by cases x
  have h2 := decodeLoop_fuel_add loc (pre ++ (t ++ post)) _ _ _ hne (2 * post.length)
  rw [h1] at h2
  rw [← h2]
  unfold json_decode_at
  congr 1
  simp only [List.length_append]
  omega

/-! ## Arrays of decoded texts -/

/-- A text the top-level decoder accepts: the value ends inside the text and only white
space follows it. -/
theorem json_decode_ok {loc : Locale} {t : List Nat} {v : JSON}
    (h : json_decode loc t = .ok v) :
    ∃ e, json_decode_at loc t 0 = .ok (e, v) ∧ e ≤ t.length ∧ ∀ c ∈ t.drop e, isWs c = true := by
  unfold json_decode json_decode_into at h
  cases hd : json_decode_at loc t 0 with
  | ok x =>
    obtain ⟨e, w⟩ := x
    rw [hd] at h
    simp only at h
    have hb := (decodeLoop_bound loc t _ 0 _ e w hd).2.1
    have ht := trailing_eq t (t.drop e) e rfl
    rw [List.length_drop] at ht
    rw [ht] at h
    by_cases hws : ∀ c ∈ t.drop e, isWs c = true
    · rw [if_pos hws] at h
      simp only [Result.ok.injEq] at h
      subst h
      exact ⟨e, rfl, hb, hws⟩
    · rw [if_neg hws] at h
      cases h
  | throw e => rw [hd] at h; cases h
  | undefined => rw [hd] at h; cases h
  | outOfFuel => rw [hd] at h; cases h

theorem drop_takeWhile_length (p : Nat → Bool) (t : List Nat) :
    t.drop (t.takeWhile p).length = t.dropWhile p := by
  induction t with
  | nil => rfl
  | cons a r ih =>
    by_cases h : p a = true
    · simp [List.takeWhile_cons, List.dropWhile_cons, h, ih]
    · simp [List.takeWhile_cons, List.dropWhile_cons, h]

/-- A text the positional decoder accepts has a first character that is not white space,
that is not `]`, and at which the decoder can be started as well. -/
theorem json_decode_at_first {loc : Locale} {t : List Nat} {e : Nat} {v : JSON}
    (h : json_decode_at loc t 0 = .ok (e, v)) :
    ∃ ws c r, t = ws ++ c :: r ∧ (∀ x ∈ ws, isWs x = true) ∧ isWs c = false ∧ c ≠ 93 ∧
      json_decode_at loc t ws.length = .ok (e, v) := by
  have hsplit := (List.takeWhile_append_dropWhile isWs t).symm
  have hws : ∀ x ∈ t.takeWhile isWs, isWs x = true := fun x hx => List.mem_takeWhile_imp hx
  have hrun := decodeFrom_ws loc t (t.takeWhile isWs) (t.dropWhile isWs) 0 (Locals.init 0)
    (by rw [List.drop_zero]; exact hsplit) hws rfl
  have hinit : ({ Locals.init 0 with start := (Locals.init 0).start + (t.takeWhile isWs).length }
      : Locals) = Locals.init (t.takeWhile isWs).length := by
    simp [Locals.init]
  rw [← json_decode_at_eq, h, hinit, Nat.zero_add, ← json_decode_at_eq] at hrun
  have hd : t.drop (t.takeWhile isWs).length = t.dropWhile isWs :=
    drop_takeWhile_length isWs t
  cases hdw : t.dropWhile isWs with
  | nil =>
    exfalso
    rw [hdw] at hd
    have hlen : (t.takeWhile isWs).length ≤ t.length := by
      have := congrArg List.length hsplit
      rw [List.length_append] at this
      omega
    rw [json_decode_at_eq, decodeFrom_nil loc hlen hd] at hrun
    cases hrun
  | cons c r =>
    rw [hdw] at hd hsplit
    have hc : isWs c = false := by
      have := List.head_dropWhile_not isWs t (by rw [hdw]; simp)
      simpa [hdw] using this
    refine ⟨_, c, r, hsplit, hws, hc, ?_, hrun.symm⟩
    rintro rfl
    rw [json_decode_at_eq, decodeFrom_cons loc hd] at hrun
    simp [step, Locals.init, isWs, isDigit19] at hrun

/-- An array element: the pass that makes the nested call for a text the top-level decoder
accepts, and the passes over the white space after the value. -/
theorem decodeFrom_element (loc : Locale) (inp t rest : List Nat) (p c : Nat) (v : JSON)
    (l : Locals) (hv : json_decode loc t = .ok v) (hd : inp.drop p = t ++ c :: rest)
    (hc : c = 44 ∨ c = 93) (hl : l.state = .s15 ∨ l.state = .s18) :
    decodeFrom loc inp p l
      = decodeFrom loc inp (p + t.length) { l with array := l.array ++ [v], state := .s17 } := by
  obtain ⟨e, hat, he, hws⟩ := json_decode_ok hv
  obtain ⟨ws, c1, r1, ht, hws1, hc1, hc93, hat1⟩ := json_decode_at_first hat
  have hplen : p ≤ inp.length := by
    by_contra hgt
    rw [List.drop_eq_nil_of_le (by omega)] at hd
    cases t <;> cases hd
  have hpre : (inp.take p).length = p := by
    rw [List.length_take]
    omega
  have hinp : inp = inp.take p ++ (t ++ c :: rest) := by
    rw [← hd, List.take_append_drop]
  have hpost : ∀ x ∈ (c :: rest).head?, endsNumber x = true := by
    intro x hx
    simp only [List.head?_cons, Option.mem_def, Option.some.injEq] at hx
    subst hx
    rcases hc with rfl | rfl <;> decide
  have hshift : ∀ q, json_decode_at loc t q = .ok (e, v) →
      json_decode_at loc inp (q + p) = .ok (e + p, v) := by
    intro q hq
    have := json_decode_at_shift loc (inp.take p) t (c :: rest) hpost q e v hq
    rwa [← hinp, hpre] at this
  have hepos : 0 < e := (decodeLoop_bound loc t _ 0 _ e v hat).2.2 rfl
  have hafter : inp.drop (e + p) = t.drop e ++ c :: rest := by
    have := drop_shift (inp.take p) t (c :: rest) e he
    rwa [← hinp, hpre] at this
  have hskip : decodeFrom loc inp (e + p) { l with array := l.array ++ [v], state := .s17 }
      = decodeFrom loc inp (p + t.length) { l with array := l.array ++ [v], state := .s17 } := by
    rw [decodeFrom_skip loc inp (t.drop e) (c :: rest) (e + p)
      { l with array := l.array ++ [v], state := .s17 } hafter hws rfl, List.length_drop]
    congr 1
    omega
  rw [← hskip]
  obtain ⟨st, start, str, arr, obj, key⟩ := l
  rcases hl with hl | hl <;> simp only at hl <;> subst hl
  · have hd1 : inp.drop p = ws ++ (c1 :: r1 ++ c :: rest) := by
      rw [hd, ht]
      simp
    have hd2 : inp.drop (p + ws.length) = c1 :: (r1 ++ c :: rest) := drop_add hd1
    rw [decodeFrom_skip loc inp ws _ p ⟨.s15, start, str, arr, obj, key⟩ hd1 hws1 rfl,
      decodeFrom_cons loc hd2]
    have hcall := hshift ws.length hat1
    rw [Nat.add_comm] at hcall
    simp only [step, hc1, hc93, hcall, afterCall, if_false, Bool.false_eq_true]
    rw [show e + p - 1 + 1 = e + p by omega]
  · have hd1 : inp.drop p = c1 :: (r1 ++ c :: rest) ∨ ∃ w wr, inp.drop p = w :: wr := by
      rw [hd, ht]
      cases ws with
      | nil => exact Or.inl (by simp)
      | cons w wr => exact Or.inr ⟨w, _, rfl⟩
    obtain ⟨w, wr, hd2⟩ : ∃ w wr, inp.drop p = w :: wr := by
      rcases hd1 with h | h
      · exact ⟨_, _, h⟩
      · exact h
    rw [decodeFrom_cons loc hd2]
    have hcall := hshift 0 hat
    rw [Nat.zero_add] at hcall
    simp only [step, hcall, afterCall]
    rw [show e + p - 1 + 1 = e + p by omega]

/-- The loop after an array element, over the remaining elements and the closing bracket
that ends the buffer. -/
theorem decodeFrom_elements (loc : Locale) (inp : List Nat) (ts : List (List Nat))
    (vs : List JSON) (h : List.Forall₂ (fun t v => json_decode loc t = .ok v) ts vs) :
    ∀ (p : Nat) (l : Locals), l.state = .s17 →
      inp.drop p = ts.flatMap (fun t => 44 :: t) ++ [93] →
      decodeFrom loc inp p l = .ok (inp.length, .array (l.array ++ vs)) := by
  induction h with
  | nil =>
    intro p l hl hd
    have hd1 : inp.drop p = [93] := hd
    have hlen := length_of_drop hd1
    have hp := drop_le_length hd1
    simp only [List.length_cons, List.length_nil] at hlen
    rw [decodeFrom_cons loc hd1]
    obtain ⟨st, start, str, arr, obj, key⟩ := l
    simp only at hl
    subst hl
    simp only [step, isWs, accept]
    simp
    omega
  | @cons t v ts vs hv _ ih =>
    intro p l hl hd
    have hd1 : inp.drop p = 44 :: (t ++ (ts.flatMap (fun t => 44 :: t) ++ [93])) := by
      rw [hd]
      simp
    have hd2 : inp.drop (p + 1) = t ++ (ts.flatMap (fun t => 44 :: t) ++ [93]) :=
      drop_add (a := [44]) hd1
    obtain ⟨c, rest, hrest, hc⟩ : ∃ c rest, ts.flatMap (fun t => 44 :: t) ++ [93] = c :: rest ∧
        (c = 44 ∨ c = 93) := by
      cases ts with
      | nil => exact ⟨93, [], rfl, Or.inr rfl⟩
      | cons a r => exact ⟨44, _, rfl, Or.inl rfl⟩
    rw [hrest] at hd2
    have hd3 : inp.drop (p + 1 + t.length) = ts.flatMap (fun t => 44 :: t) ++ [93] := by
      rw [hrest]
      exact drop_add hd2
    rw [decodeFrom_cons loc hd1]
    obtain ⟨st, start, str, arr, obj, key⟩ := l
    simp only at hl
    subst hl
    simp only [step, show isWs 44 = false by decide, if_true, if_false, Bool.false_eq_true]
    rw [decodeFrom_element loc inp t rest (p + 1) c v _ hv hd2 hc (Or.inr rfl),
      ih (p + 1 + t.length) _ rfl hd3]
    simp

theorem intercalate_comma (t : List Nat) (ts : List (List Nat)) :
    List.intercalate [44] (t :: ts) = t ++ ts.flatMap (fun x => 44 :: x) := by
  induction ts generalizing t with
  | nil => simp [List.intercalate]
  | cons a r ih =>
    have := ih a
    simp only [List.intercalate, List.intersperse_cons_cons, List.flatten_cons,
      List.singleton_append, List.flatMap_cons, List.cons_append] at this ⊢
    rw [this]
    rfl

/-- The text made of `[`, accepted texts separated by `,`, and `]` is decoded to the Array of
their values. -/
theorem json_decode_array (loc : Locale) (ts : List (List Nat)) (vs : List JSON)
    (h : List.Forall₂ (fun t v => json_decode loc t = .ok v) ts vs) :
    json_decode loc (91 :: (List.intercalate [44] ts ++ [93])) = .ok (.array vs) := by
  generalize hinp : 91 :: (List.intercalate [44] ts ++ [93]) = inp
  have hd0 : inp.drop 0 = 91 :: (List.intercalate [44] ts ++ [93]) := by
    rw [List.drop_zero, hinp]
  have hd1 : inp.drop (0 + 1) = List.intercalate [44] ts ++ [93] := drop_add (a := [91]) hd0
  have hstep : step loc inp (json_decode_at loc inp) 0 91 (Locals.init 0)
      = .next 0 { Locals.init 0 with array := [], state := .s15 } := by
    simp [step, Locals.init, isWs, isDigit19]
  have hat : json_decode_at loc inp 0 = .ok (inp.length, .array vs) := by
    rw [json_decode_at_eq, decodeFrom_cons loc hd0, hstep]
    simp only
    cases h with
    | nil =>
      have hd2 : inp.drop (0 + 1) = [93] := hd1
      have hlen := length_of_drop hd2
      have hp := drop_le_length hd2
      simp only [List.length_cons, List.length_nil] at hlen
      rw [decodeFrom_cons loc hd2]
      simp only [step, Locals.init, isWs, accept]
      simp
      omega
    | @cons t v ts vs hv hrest =>
      rw [intercalate_comma] at hd1
      obtain ⟨c, rest, hcr, hc⟩ : ∃ c rest, ts.flatMap (fun t => 44 :: t) ++ [93] = c :: rest ∧
          (c = 44 ∨ c = 93) := by
        cases ts with
        | nil => exact ⟨93, [], rfl, Or.inr rfl⟩
        | cons a r => exact ⟨44, _, rfl, Or.inl rfl⟩
      have hd2 : inp.drop (0 + 1) = t ++ c :: rest := by
        rw [hd1, List.append_assoc, hcr]
      have hd3 : inp.drop (0 + 1 + t.length) = ts.flatMap (fun t => 44 :: t) ++ [93] := by
        rw [hcr]
        exact drop_add hd2
      rw [decodeFrom_element loc inp t rest (0 + 1) c v _ hv hd2 hc (Or.inl rfl),
        decodeFrom_elements loc inp ts vs hrest _ _ rfl hd3]
      simp
  unfold json_decode json_decode_into
  rw [hat]
  simp [trailing]

/-! ## Positions reached in four small texts -/

theorem reaches_after_element :
    Reaches .C (ascii "[1,]") 2 ⟨.s17, 0, [], [.number ⟨false, 1023, 0⟩], [], .null⟩ :=
  @Reaches.pass .C (ascii "[1,]") 1 49 1 ⟨.s15, 0, [], [], [], .null⟩ _
    (@Reaches.pass .C (ascii "[1,]") 0 91 0 (Locals.init 0) _ Reaches.start (by decide)
      (by decide!))
    (by decide) (by decide!)

theorem reaches_first_element : Reaches .C (ascii "[01]") 1 (Locals.init 1) :=
  @Reaches.call .C (ascii "[01]") 1 48 ⟨.s15, 0, [], [], [], .null⟩
    (@Reaches.pass .C (ascii "[01]") 0 91 0 (Locals.init 0) _ Reaches.start (by decide)
      (by decide!))
    (by decide) (by decide)

theorem reaches_after_brace :
    Reaches .C (ascii "\x7ba:1\x7d") 1 ⟨.s19, 0, [], [], [], .null⟩ :=
  @Reaches.pass .C (ascii "\x7ba:1\x7d") 0 123 0 (Locals.init 0) _ Reaches.start (by decide)
    (by decide!)

theorem reaches_after_backslash :
    Reaches .C (ascii "\"\\uxyzw\"") 2 ⟨.s14, 0, [], [], [], .null⟩ :=
  @Reaches.pass .C (ascii "\"\\uxyzw\"") 1 92 1 ⟨.s12, 0, [], [], [], .null⟩ _
    (@Reaches.pass .C (ascii "\"\\uxyzw\"") 0 34 0 (Locals.init 0) _ Reaches.start (by decide)
      (by decide!))
    (by decide) (by decide!)

/-! ## Accessors, conversions and comparisons of values -/

theorem Double.eq_zero (d : Double) : Double.eq d ⟨false, 0, 0⟩ = d.isZero := by
  obtain ⟨s, e, f⟩ := d
  simp only [Double.eq, Double.isNaN, Double.isZero]
  by_cases he : e = 0 <;> by_cases hf : f = 0 <;> simp [he, hf]

/-- Two strings are ordered one way or the other, or are the same. -/
theorem string_not_lt : ∀ x y : List Nat, (!string_lt y x) = (string_lt x y || x == y)
  | [], [] => by simp [string_lt]
  | [], _ :: _ => by simp [string_lt]
  | _ :: _, [] => by simp [string_lt]
  | a :: x, b :: y => by
    have ih := string_not_lt x y
    simp only [string_lt, List.cons_beq_cons] 
    rcases Nat.lt_trichotomy a b with h | h | h
    · have h1 : ¬ b < a := by omega
      have h2 : b ≠ a := by omega
      simp [h, h1, h2]
    · subst h
      simp only [Nat.lt_irrefl, decide_False, Bool.false_or, decide_True, Bool.true_and, beq_self_eq_true]
      exact ih
    · have h1 : ¬ a < b := by omega
      have h2 : b ≠ a := by omega
      have h3 : a ≠ b := by omega
      simp [h, h1, h2, h3]

/-- For two doubles neither of which is a NaN, `!(b < a)` is `a <= b`. -/
theorem Double.not_lt (a b : Double) (ha : a.isNaN = false) (hb : b.isNaN = false) :
    (!Double.lt b a) = Double.le a b := by
  simp only [Double.le, Double.lt, Double.eq, ha, hb, Bool.or_self, Bool.false_eq_true, if_false]
  by_cases hz : (a.isZero && b.isZero) = true
  · have hz2 : (b.isZero && a.isZero) = true := by rw [Bool.and_comm]; exact hz
    simp [hz, hz2]
  · have hz2 : ¬ (b.isZero && a.isZero) = true := by rw [Bool.and_comm]; exact hz
    simp only [hz, hz2, if_false]
    obtain ⟨sa, ea, fa⟩ := a
    obtain ⟨sb, eb, fb⟩ := b
    cases sa <;> cases sb <;>
      simp only [if_true, if_false, Bool.false_eq_true, Double.mk.injEq, true_and, false_and,
        reduceCtorEq, decide_False, Bool.or_false, Bool.not_true, Bool.not_false,
        Bool.or_true, Bool.true_or] <;>
      apply Bool.eq_iff_iff.mpr <;>
      simp only [Double.magLt, Bool.not_eq_true', decide_eq_false_iff_not, Bool.or_eq_true,
        decide_eq_true_eq] <;>
      omega

mutual
theorem JSON.gt_lt : ∀ a b : JSON, JSON.gt a b = JSON.lt b a ∧ JSON.lt a b = JSON.gt b a
  | .null, b => by cases b <;> simp [JSON.gt, JSON.lt]
  | .boolean _, b => by cases b <;> simp [JSON.gt, JSON.lt]
  | .number _, b => by cases b <;> simp [JSON.gt, JSON.lt]
  | .string _, b => by cases b <;> simp [JSON.gt, JSON.lt]
  | .array a, b => by
    cases b <;> simp only [JSON.gt, JSON.lt, and_self]
    exact JSON.gtArray_ltArray a _
  | .object a, b => by
    cases b <;> simp only [JSON.gt, JSON.lt, and_self]
    exact JSON.gtObject_ltObject a _
theorem JSON.gtArray_ltArray : ∀ a b : List JSON,
    JSON.gtArray a b = JSON.ltArray b a ∧ JSON.ltArray a b = JSON.gtArray b a
  | [], [] => by simp [JSON.gtArray, JSON.ltArray]
  | [], _ :: _ => by simp [JSON.gtArray, JSON.ltArray]
  | _ :: _, [] => by simp [JSON.gtArray, JSON.ltArray]
  | x :: xs, y :: ys => by
    simp only [JSON.gtArray, JSON.ltArray]
    rw [(JSON.gt_lt x y).1, (JSON.gtArray_ltArray xs ys).1, (JSON.gt_lt x y).2,
      (JSON.gtArray_ltArray xs ys).2]
    exact ⟨rfl, rfl⟩
theorem JSON.gtObject_ltObject : ∀ a b : List (List Nat × JSON),
    JSON.gtObject a b = JSON.ltObject b a ∧ JSON.ltObject a b = JSON.gtObject b a
  | [], [] => by simp [JSON.gtObject, JSON.ltObject]
  | [], _ :: _ => by simp [JSON.gtObject, JSON.ltObject]
  | _ :: _, [] => by simp [JSON.gtObject, JSON.ltObject]
  | (k, x) :: xs, (l, y) :: ys => by
    simp only [JSON.gtObject, JSON.ltObject]
    rw [(JSON.gt_lt x y).1, (JSON.gtObject_ltObject xs ys).1, (JSON.gt_lt x y).2,
      (JSON.gtObject_ltObject xs ys).2]
    exact ⟨rfl, rfl⟩
end

/-- The function `operator>` returns what `operator<` does on the operands exchanged. -/
theorem JSON.gt_eq_lt (a b : JSON) : JSON.gt a b = JSON.lt b a := (JSON.gt_lt a b).1

/-! ## The offset carried by a syntax error -/

theorem hexLoop_count (inp : List Nat) :
    ∀ (n pos hex i : Nat) {p h j : Nat}, hexLoop inp n pos hex i = some (p, h, j) →
      i ≤ j ∧ (j = i → 0 < n → p = pos + 1) := by
  intro n
  induction n with
  | zero =>
    intro pos hex i p h j e
    simp only [hexLoop, Option.some.injEq, Prod.mk.injEq] at e
    exact ⟨by omega, fun _ h0 => absurd h0 (by decide)⟩
  | succ n ih =>
    intro pos hex i p h j e
    simp only [hexLoop] at e
    cases hc : inp[pos + 1]? with
    | none => rw [hc] at e; cases e
    | some c =>
      rw [hc] at e
      simp only at e
      cases hv : hexVal c with
      | none =>
        rw [hv] at e
        simp only [Option.some.injEq, Prod.mk.injEq] at e
        exact ⟨by omega, fun _ _ => by omega⟩
      | some d =>
        rw [hv] at e
        have := (ih _ _ _ e).1
        exact ⟨by omega, fun hj _ => by omega⟩

theorem Step.offsetAt_ite {pos : Nat} {r : Result (Nat × JSON)} {c : Prop} [Decidable c]
    {a b : Step} (ha : a.offsetAt pos r) (hb : b.offsetAt pos r) :
    (if c then a else b).offsetAt pos r := by
  split <;> assumption

theorem stepU_offsetAt (loc : Locale) (inp : List Nat) (pos : Nat) (l : Locals)
    (r : Result (Nat × JSON)) : (stepU loc inp pos l).offsetAt pos r := by
  unfold stepU
  split
  · exact Or.inl rfl
  · split
    · trivial
    · rename_i p hex i e
      split
      · rename_i hi
        subst hi
        have := (hexLoop_count inp 4 pos 0 0 e).2 rfl (by decide)
        exact Or.inr (Or.inl ⟨this, rfl⟩)
      · split <;> trivial

theorem afterCall_offsetAt {pos : Nat} (r : Result (Nat × JSON)) (f : Nat → JSON → Locals) :
    (afterCall r fun p v => .next (p - 1) (f p v)).offsetAt pos r := by
  unfold afterCall
  split
  · trivial
  · rename_i e
    cases e with
    | syntaxAt off msg => exact Or.inr (Or.inr rfl)
    | runtime w => trivial
    | typeError w => trivial
    | invalidArgument w => trivial
    | outOfRange w => trivial
  · trivial
  · trivial

/-- A syntax error thrown by a loop pass carries the position of the pass, or the next one
when no hexadecimal digit follows `\u`, unless it is that of the nested call. -/
theorem step_offsetAt (loc : Locale) (inp : List Nat) (call : Nat → Result (Nat × JSON))
    (pos c : Nat) (l : Locals) : (step loc inp call pos c l).offsetAt pos (call pos) := by
  obtain ⟨st, start, str, arr, obj, key⟩ := l
  cases st
  all_goals simp only [step]
  all_goals repeat' with_reducible apply Step.offsetAt_ite
  all_goals first
    | trivial
    | exact Or.inl rfl
    | exact stepU_offsetAt _ _ _ _ _
    | exact afterCall_offsetAt _ _
    | skip
  · split
    · exact afterCall_offsetAt _ _
    · trivial

/-- A loop pass that makes no nested call does not depend on what such a call would do. -/
theorem step_of_not_callsAt (loc : Locale) (inp : List Nat)
    (call call2 : Nat → Result (Nat × JSON)) (pos c : Nat) (l : Locals)
    (h : callsAt c l = false) :
    step loc inp call pos c l = step loc inp call2 pos c l := by
  obtain ⟨st, start, str, arr, obj, key⟩ := l
  cases st <;> simp only [step]
  case s15 =>
    simp only [callsAt, Bool.and_eq_false_iff, Bool.not_eq_false', bne_eq_false_iff_eq] at h
    rcases h with h | h
    · rw [if_pos h, if_pos h]
    · subst h
      simp [isWs]
  case s18 => simp [callsAt] at h
  case s19 =>
    simp only [callsAt, Bool.and_eq_false_iff, Bool.not_eq_false', beq_eq_false_iff_ne] at h
    rcases h with h | h
    · rw [if_pos h, if_pos h]
    · simp only [h, if_false]
  case s22 =>
    cases key <;> simp [callsAt] at h ⊢
  case s24 =>
    simp only [callsAt, Bool.and_eq_false_iff, Bool.not_eq_false', beq_eq_false_iff_ne] at h
    rcases h with h | h
    · rw [if_pos h, if_pos h]
    · simp only [h, if_false]

/-- The offset of a syntax error thrown by a loop pass that makes no nested call. -/
theorem step_throw_offset {loc : Locale} {inp : List Nat} {call : Nat → Result (Nat × JSON)}
    {pos c : Nat} {l : Locals} {off : Nat} {msg : String} (hcall : callsAt c l = false)
    (hs : step loc inp call pos c l = .throw (.syntaxAt off msg)) :
    off = pos ∨ (off = pos + 1 ∧ msg = "JSON syntax error: no hex digits follow '\\u'") := by
  rw [step_of_not_callsAt loc inp call (fun _ => .undefined) pos c l hcall] at hs
  have h := step_offsetAt loc inp (fun _ => .undefined) pos c l
  rw [hs] at h
  rcases h with h | h | h
  · exact Or.inl h
  · exact Or.inr h
  · cases h

theorem Step.gotoOk_ite {pos : Nat} {l : Locals} {c : Prop} [Decidable c]
    {a b : Step} (ha : a.gotoOk pos l) (hb : b.gotoOk pos l) :
    (if c then a else b).gotoOk pos l := by
  split <;> assumption

theorem stepU_gotoOk (loc : Locale) (inp : List Nat) (pos : Nat) (l l0 : Locals) :
    (stepU loc inp pos l).gotoOk pos l0 := by
  unfold stepU
  split
  · trivial
  · split
    · trivial
    · split
      · trivial
      · split <;> trivial

theorem afterCall_gotoOk {pos : Nat} {l : Locals} (r : Result (Nat × JSON))
    (f : Nat → JSON → Locals) :
    (afterCall r fun p v => .next (p - 1) (f p v)).gotoOk pos l := by
  unfold afterCall
  split <;> trivial

/-- The `goto`s of a loop pass. -/
theorem step_gotoOk (loc : Locale) (inp : List Nat) (call : Nat → Result (Nat × JSON))
    (pos c : Nat) (l : Locals) : (step loc inp call pos c l).gotoOk pos l := by
  obtain ⟨st, start, str, arr, obj, key⟩ := l
  cases st
  all_goals simp only [step]
  all_goals repeat' with_reducible apply Step.gotoOk_ite
  all_goals first
    | trivial
    | exact stepU_gotoOk _ _ _ _ _
    | exact afterCall_gotoOk _ _
    | exact Or.inl ⟨rfl, rfl, rfl, rfl⟩
    | exact Or.inr ⟨by decide, by omega⟩
    | skip
  · split
    · exact afterCall_gotoOk _ _
    · trivial

theorem accept_throw {inp : List Nat} {lbl : Label} {pos : Nat} {l : Locals} {e : Exn}
    (h : accept inp lbl pos l = .throw e) :
    lbl = .accept_number ∧ e = .syntaxAt l.start "JSON number does not parse" := by
  cases lbl
  case accept_number =>
    simp only [accept] at h
    by_cases h0 : (strtod ((inp.drop l.start).take (pos - l.start))).2 = 0
    · rw [if_pos h0] at h
      simp only [Result.throw.injEq] at h
      exact ⟨rfl, h.symm⟩
    · rw [if_neg h0] at h
      cases h
  all_goals (simp only [accept] at h; cases h)

theorem finish_throw {inp : List Nat} {pos : Nat} {l : Locals} {e : Exn}
    (h : finish inp pos l = .throw e) :
    e = .syntaxAt pos "JSON invalid end of input" ∨
      e = .syntaxAt l.start "JSON number does not parse" := by
  unfold finish at h
  split at h
  all_goals first
    | exact Or.inr (accept_throw h).2
    | (simp only [Result.throw.injEq] at h; exact Or.inl h.symm)

/-- Every exception of the loop started at a position the decoder reaches is raised at a
position it reaches. -/
theorem Reaches.raisedAt {loc : Locale} {inp : List Nat} {e : Exn} (n : Nat) :
    ∀ (pos : Nat) (l : Locals),
      2 * (inp.length - pos) + (if l.state = .s0 then 1 else 2) ≤ n →
      Reaches loc inp pos l → decodeFrom loc inp pos l = .throw e → raisedAt loc inp e := by
  induction n with
  | zero =>
    intro pos l hn
    split at hn <;> omega
  | succ n ih =>
    intro pos l hn hr h
    by_cases hend : pos = inp.length
    · subst hend
      rw [decodeFrom_end] at h
      rcases finish_throw h with h | h
      · exact Or.inr (Or.inl ⟨l, hr, h⟩)
      · exact Or.inr (Or.inr ⟨_, l, hr, h⟩)
    · cases hc : inp[pos]? with
      | none =>
        rw [decodeFrom, decodeLoop_succ, if_neg hend, hc] at h
        cases h
      | some c =>
        have hpos := getElem?_lt hc
        rw [decodeFrom_step loc inp pos c l hc] at h
        by_cases hcall : callsAt c l = true
        · obtain ⟨f, hf, hstep⟩ := step_of_callsAt loc inp pos c l hcall
          have hl0 : l.state ≠ .s0 := by
            intro h0
            simp [callsAt, h0] at hcall
          rw [hstep] at h
          cases hat : json_decode_at loc inp pos with
          | ok x =>
            obtain ⟨q, v⟩ := x
            have hb := decodeLoop_bound loc inp _ pos _ q v hat
            have hq := hb.2.2 rfl
            rw [hat] at h
            simp only [afterCall] at h
            have hr2 : Reaches loc inp (q - 1 + 1) (f v) :=
              Reaches.pass hr hc (by rw [hstep, hat]; rfl)
            refine ih (q - 1 + 1) (f v) ?_ hr2 h
            have := hb.2.1
            rw [if_neg hl0] at hn
            split <;> omega
          | throw e2 =>
            rw [hat] at h
            simp only [afterCall, Result.throw.injEq] at h
            subst h
            refine ih pos (Locals.init pos) ?_ (Reaches.call hr hc hcall) hat
            rw [if_neg hl0] at hn
            simp only [Locals.init, if_true]
            omega
          | undefined => rw [hat] at h; cases h
          | outOfFuel => rw [hat] at h; cases h
        · have hcall2 : callsAt c l = false := by simpa using hcall
          have hb := step_bound loc inp (json_decode_at loc inp) pos c l hpos (fun q v hq => by
            have := decodeLoop_bound loc inp _ pos _ q v hq
            exact ⟨this.2.2 rfl, this.2.1⟩)
          have hg := step_gotoOk loc inp (json_decode_at loc inp) pos c l
          cases hstep : step loc inp (json_decode_at loc inp) pos c l with
          | next p l2 =>
            rw [hstep] at h hb
            simp only at h
            refine ih (p + 1) l2 ?_ (Reaches.pass hr hc hstep) h
            have := hb.1
            have := hb.2
            split <;> split at hn <;> omega
          | goto lbl p l2 =>
            rw [hstep] at h hg
            simp only at h
            obtain ⟨hlbl, he⟩ := accept_throw h
            rcases hg with hg | hg
            · obtain ⟨_, _, hl2, _⟩ := hg
              subst hl2
              exact Or.inr (Or.inr ⟨pos, l2, hr, he⟩)
            · exact absurd hlbl hg.1
          | throw e2 =>
            rw [hstep] at h
            simp only [Result.throw.injEq] at h
            subst h
            exact Or.inl ⟨pos, c, l, hr, hc, hcall2, hstep⟩
          | undefined => rw [hstep] at h; cases h
          | outOfFuel => rw [hstep] at h; cases h

/-! ## The kind of the value a state leads to -/

theorem Step.kindOk_ite {k : JSONType} {c : Prop} [Decidable c] {a b : Step}
    (ha : c → a.kindOk k) (hb : ¬ c → b.kindOk k) : (if c then a else b).kindOk k := by
  split
  · exact ha ‹_›
  · exact hb ‹_›

theorem stepU_kindOk (loc : Locale) (inp : List Nat) (pos : Nat) (l : Locals) :
    (stepU loc inp pos l).kindOk .JSON_STRING := by
  unfold stepU
  split
  · trivial
  · split
    · trivial
    · split
      · trivial
      · split <;> exact ⟨by simp, rfl⟩

theorem afterCall_kindOk {k : JSONType} (r : Result (Nat × JSON)) (f : Nat → JSON → Locals)
    (hf : ∀ p v, (f p v).state ≠ .s0 ∧ (f p v).state.kind = k) :
    (afterCall r fun p v => .next (p - 1) (f p v)).kindOk k := by
  unfold afterCall
  split
  · exact hf _ _
  · trivial
  · trivial
  · trivial

/-- In a state other than state 0 a loop pass keeps to the kind of the value being read. -/
theorem step_kindOk (loc : Locale) (inp : List Nat) (call : Nat → Result (Nat × JSON))
    (pos c : Nat) (l : Locals) (hl : l.state ≠ .s0) :
    (step loc inp call pos c l).kindOk l.state.kind := by
  obtain ⟨st, start, str, arr, obj, key⟩ := l
  cases st
  case s0 => exact absurd rfl hl
  all_goals simp only [step]
  all_goals repeat' first
    | intro _
    | with_reducible apply Step.kindOk_ite
  all_goals first
    | trivial
    | exact ⟨by simp, rfl⟩
    | rfl
    | exact stepU_kindOk _ _ _ _
    | exact afterCall_kindOk _ _ (fun _ _ => ⟨by simp, rfl⟩)
    | skip
  · split
    · exact afterCall_kindOk _ _ (fun _ _ => ⟨by simp, rfl⟩)
    · trivial

theorem accept_kind {inp : List Nat} {lbl : Label} {pos : Nat} {l : Locals} {p : Nat} {v : JSON}
    (h : accept inp lbl pos l = .ok (p, v)) : v.type = lbl.kind := by
  cases lbl
  case accept_number =>
    simp only [accept] at h
    by_cases h0 : (strtod ((inp.drop l.start).take (pos - l.start))).2 = 0
    · rw [if_pos h0] at h
      cases h
    · rw [if_neg h0] at h
      simp only [Result.ok.injEq, Prod.mk.injEq] at h
      rw [← h.2]
      rfl
  all_goals (simp only [accept, Result.ok.injEq, Prod.mk.injEq] at h; rw [← h.2]; rfl)

/-- The value the loop returns from a state other than state 0 has the kind of the state. -/
theorem decodeLoop_kind (loc : Locale) (inp : List Nat) (fuel : Nat) :
    ∀ (pos : Nat) (l : Locals) (p : Nat) (v : JSON), l.state ≠ .s0 →
      decodeLoop loc inp fuel pos l = .ok (p, v) → v.type = l.state.kind := by
  induction fuel with
  | zero =>
    intro pos l p v _ h
    simp [decodeLoop] at h
  | succ fuel ih =>
    intro pos l p v hl h
    rw [decodeLoop_succ] at h
    by_cases hend : pos = inp.length
    · rw [if_pos hend] at h
      unfold finish at h
      split at h
      all_goals first
        | (rename_i hs; rw [hs]; exact accept_kind h)
        | cases h
    · rw [if_neg hend] at h
      cases hc : inp[pos]? with
      | none => rw [hc] at h; cases h
      | some c =>
        rw [hc] at h
        simp only at h
        have hk := step_kindOk loc inp (fun p => decodeLoop loc inp fuel p (Locals.init p))
          pos c l hl
        cases hs : step loc inp (fun p => decodeLoop loc inp fuel p (Locals.init p)) pos c l with
        | next q l2 =>
          rw [hs] at h hk
          have := ih _ _ _ _ hk.1 h
          rw [this, hk.2]
        | goto lbl q l2 =>
          rw [hs] at h hk
          rw [accept_kind h]
          exact hk
        | throw e => rw [hs] at h; cases h
        | undefined => rw [hs] at h; cases h
        | outOfFuel => rw [hs] at h; cases h

/-- A value that starts with a character other than `"` is not a String. -/
theorem step_first_kindOk (loc : Locale) (inp : List Nat) (call : Nat → Result (Nat × JSON))
    (pos c : Nat) (l : Locals) (hl : l.state = .s0) (hw : isWs c = false) :
    ∃ k, (c = 34 ↔ k = .JSON_STRING) ∧ (step loc inp call pos c l).kindOk k := by
  obtain ⟨st, start, str, arr, obj, key⟩ := l
  simp only at hl
  subst hl
  simp only [step, hw, Bool.false_eq_true, if_false]
  by_cases h34 : c = 34
  · subst h34
    exact ⟨.JSON_STRING, by simp, by simp [isDigit19, Step.kindOk, State.kind]⟩
  · by_cases h1 : c = 110
    · exact ⟨.JSON_NULL, by simp [h34], by
        rw [if_pos h1]; split <;> first | rfl | trivial⟩
    by_cases h2 : c = 102
    · exact ⟨.JSON_BOOLEAN, by simp [h34], by
        rw [if_neg h1, if_pos h2]; split <;> first | rfl | trivial⟩
    by_cases h3 : c = 116
    · exact ⟨.JSON_BOOLEAN, by simp [h34], by
        rw [if_neg h1, if_neg h2, if_pos h3]; split <;> first | rfl | trivial⟩
    by_cases h4 : c = 91
    · subst h4
      exact ⟨.JSON_ARRAY, by simp, by simp [isDigit19, Step.kindOk, State.kind]⟩
    by_cases h5 : c = 123
    · subst h5
      exact ⟨.JSON_OBJECT, by simp, by simp [isDigit19, Step.kindOk, State.kind]⟩
    refine ⟨.JSON_NUMBER, by simp [h34], ?_⟩
    rw [if_neg h1, if_neg h2, if_neg h3]
    repeat' first
      | intro _
      | with_reducible apply Step.kindOk_ite
    all_goals first
      | trivial
      | exact ⟨by simp, rfl⟩

/-- A text decoded to a String starts, after white space, with `"`. -/
theorem json_decode_at_string {loc : Locale} {inp : List Nat} {q e c : Nat} {k : List Nat}
    (h : json_decode_at loc inp q = .ok (e, .string k)) (hc : inp[q]? = some c)
    (hw : isWs c = false) : c = 34 := by
  rw [json_decode_at_eq, decodeFrom_step loc inp q c _ hc] at h
  obtain ⟨K, hK, hk⟩ := step_first_kindOk loc inp (json_decode_at loc inp) q c (Locals.init q)
    rfl hw
  cases hs : step loc inp (json_decode_at loc inp) q c (Locals.init q) with
  | next p l2 =>
    rw [hs] at h hk
    have := decodeLoop_kind loc inp _ _ _ _ _ hk.1 h
    rw [hk.2] at this
    exact hK.2 this.symm
  | goto lbl p l2 =>
    rw [hs] at h hk
    have := accept_kind h
    rw [hk] at this
    exact hK.2 this.symm
  | throw e => rw [hs] at h; cases h
  | undefined => rw [hs] at h; cases h
  | outOfFuel => rw [hs] at h; cases h

/-! ## Objects of decoded texts -/

/-- A text that the decoder accepts from `q` on is decoded alike where it stands in a
buffer, before a character that ends a number. -/
theorem json_decode_at_inside {loc : Locale} {inp t rest : List Nat} {p c q e : Nat} {v : JSON}
    (hat : json_decode_at loc t q = .ok (e, v)) (hd : inp.drop p = t ++ c :: rest)
    (hc : endsNumber c = true) : json_decode_at loc inp (q + p) = .ok (e + p, v) := by
  have hplen : p ≤ inp.length := by
    by_contra hgt
    rw [List.drop_eq_nil_of_le (by omega)] at hd
    cases t <;> cases hd
  have hpre : (inp.take p).length = p := by
    rw [List.length_take]
    omega
  have hinp : inp = inp.take p ++ (t ++ c :: rest) := by
    rw [← hd, List.take_append_drop]
  have hpost : ∀ x ∈ (c :: rest).head?, endsNumber x = true := by
    intro x hx
    simp only [List.head?_cons, Option.mem_def, Option.some.injEq] at hx
    subst hx
    exact hc
  have := json_decode_at_shift loc (inp.take p) t (c :: rest) hpost q e v hat
  rwa [← hinp, hpre] at this

/-- The loop over one member of an object: the key, the colon and the value. -/
theorem decodeFrom_member (loc : Locale) (inp kt vt rest : List Nat) (p c : Nat)
    (k : List Nat) (v : JSON) (l : Locals) (hk : json_decode loc kt = .ok (.string k))
    (hv : json_decode loc vt = .ok v) (hd : inp.drop p = kt ++ 58 :: (vt ++ c :: rest))
    (hc : c = 44 ∨ c = 125) (hl : l.state = .s19 ∨ l.state = .s24) :
    decodeFrom loc inp p l
      = decodeFrom loc inp (p + kt.length + 1 + vt.length)
          { l with key := .string k, object := JSONObject.set l.object k v, state := .s23 } := by
  obtain ⟨e1, hat1, he1, hws1⟩ := json_decode_ok hk
  obtain ⟨ws, c1, r1, ht, hwsA, hc1, _, hatA⟩ := json_decode_at_first hat1
  obtain ⟨e2, hat2, he2, hws2⟩ := json_decode_ok hv
  have hc34 : c1 = 34 := json_decode_at_string hatA
    (by rw [ht, List.getElem?_append_right (Nat.le_refl _), Nat.sub_self]; simp) hc1
  subst hc34
  have he1pos : ws.length < e1 := (decodeLoop_bound loc kt _ _ _ e1 _ hatA).2.2 rfl
  have he2pos : 0 < e2 := (decodeLoop_bound loc vt _ 0 _ e2 v hat2).2.2 rfl
  have hkey := json_decode_at_inside hatA hd (by decide)
  have hdA : inp.drop p = ws ++ (34 :: (r1 ++ 58 :: (vt ++ c :: rest))) := by
    rw [hd, ht]
    simp
  have hdB : inp.drop (p + ws.length) = 34 :: (r1 ++ 58 :: (vt ++ c :: rest)) := drop_add hdA
  have hdC : inp.drop (e1 + p) = kt.drop e1 ++ 58 :: (vt ++ c :: rest) := by
    have hplen : p ≤ inp.length := by
      by_contra hgt
      rw [List.drop_eq_nil_of_le (by omega)] at hd
      cases kt <;> cases hd
    have := drop_shift (inp.take p) kt (58 :: (vt ++ c :: rest)) e1 he1
    rwa [← hd, List.take_append_drop, List.length_take, Nat.min_eq_left hplen] at this
  have hdD : inp.drop (p + kt.length) = 58 :: (vt ++ c :: rest) := drop_add hd
  have hdE : inp.drop (p + kt.length + 1) = vt ++ c :: rest := drop_add (a := [58]) hdD
  have hdF : inp.drop (e2 + (p + kt.length + 1)) = vt.drop e2 ++ c :: rest := by
    have hplen : p + kt.length + 1 ≤ inp.length := by
      by_contra hgt
      rw [List.drop_eq_nil_of_le (by omega)] at hdE
      cases vt <;> cases hdE
    have := drop_shift (inp.take (p + kt.length + 1)) vt (c :: rest) e2 he2
    rwa [← hdE, List.take_append_drop, List.length_take, Nat.min_eq_left hplen] at this
  have hval := json_decode_at_inside hat2 hdE (by rcases hc with rfl | rfl <;> decide)
  rw [Nat.zero_add] at hval
  obtain ⟨w, wr, hdE2⟩ : ∃ w wr, inp.drop (p + kt.length + 1) = w :: wr := by
    rw [hdE]
    cases vt with
    | nil => exact ⟨c, rest, rfl⟩
    | cons a r => exact ⟨a, _, rfl⟩
  obtain ⟨st, start, str, arr, obj, key⟩ := l
  have hfirst : decodeFrom loc inp p ⟨st, start, str, arr, obj, key⟩
      = decodeFrom loc inp (e1 + p) ⟨.s21, start, str, arr, obj, .string k⟩ := by
    rw [Nat.add_comm] at hkey
    rcases hl with hl | hl <;> simp only at hl <;> subst hl
    · rw [decodeFrom_skip loc inp ws _ p ⟨.s19, start, str, arr, obj, key⟩ hdA hwsA rfl,
        decodeFrom_cons loc hdB]
      simp only [step, show isWs 34 = false by decide, hkey, afterCall, if_false, if_true,
        Bool.false_eq_true, show (34 : Nat) ≠ 125 by decide]
      rw [show e1 + p - 1 + 1 = e1 + p by omega]
    · rw [decodeFrom_skip loc inp ws _ p ⟨.s24, start, str, arr, obj, key⟩ hdA hwsA rfl,
        decodeFrom_cons loc hdB]
      simp only [step, show isWs 34 = false by decide, hkey, afterCall, if_false, if_true,
        Bool.false_eq_true]
      rw [show e1 + p - 1 + 1 = e1 + p by omega]
  rw [hfirst, decodeFrom_skip loc inp (kt.drop e1) _ (e1 + p)
    ⟨.s21, start, str, arr, obj, .string k⟩ hdC hws1 rfl, List.length_drop,
    show e1 + p + (kt.length - e1) = p + kt.length by omega, decodeFrom_cons loc hdD]
  simp only [step, show isWs 58 = false by decide, if_false, if_true, Bool.false_eq_true]
  rw [decodeFrom_cons loc hdE2]
  simp only [step, hval, afterCall]
  rw [show e2 + (p + kt.length + 1) - 1 + 1 = e2 + (p + kt.length + 1) by omega,
    decodeFrom_skip loc inp (vt.drop e2) _ (e2 + (p + kt.length + 1))
      ⟨.s23, start, str, arr, JSONObject.set obj k v, .string k⟩ hdF hws2 rfl, List.length_drop,
    show e2 + (p + kt.length + 1) + (vt.length - e2) = p + kt.length + 1 + vt.length by omega]

/-- The loop after an object member, over the remaining members and the closing brace that
ends the buffer. -/
theorem decodeFrom_members (loc : Locale) (inp : List Nat) (ms : List (List Nat × List Nat))
    (kvs : List (List Nat × JSON))
    (h : List.Forall₂ (fun m kv => json_decode loc m.1 = .ok (.string kv.1) ∧
      json_decode loc m.2 = .ok kv.2) ms kvs) :
    ∀ (p : Nat) (l : Locals), l.state = .s23 →
      inp.drop p = ms.flatMap (fun m => 44 :: memberText m) ++ [125] →
      decodeFrom loc inp p l
        = .ok (inp.length, .object (kvs.foldl (fun o kv => JSONObject.set o kv.1 kv.2) l.object)) := by
  induction h with
  | nil =>
    intro p l hl hd
    have hd1 : inp.drop p = [125] := hd
    have hlen := length_of_drop hd1
    have hp := drop_le_length hd1
    simp only [List.length_cons, List.length_nil] at hlen
    rw [decodeFrom_cons loc hd1]
    obtain ⟨st, start, str, arr, obj, key⟩ := l
    simp only at hl
    subst hl
    simp only [step, isWs, accept]
    simp
    omega
  | @cons m kv ms kvs hm _ ih =>
    intro p l hl hd
    obtain ⟨kt, vt⟩ := m
    obtain ⟨k, v⟩ := kv
    simp only at hm
    have hd1 : inp.drop p
        = 44 :: (kt ++ 58 :: (vt ++ (ms.flatMap (fun m => 44 :: memberText m) ++ [125]))) := by
      rw [hd]
      simp [memberText]
    have hd2 : inp.drop (p + 1)
        = kt ++ 58 :: (vt ++ (ms.flatMap (fun m => 44 :: memberText m) ++ [125])) :=
      drop_add (a := [44]) hd1
    obtain ⟨c, rest, hrest, hc⟩ : ∃ c rest,
        ms.flatMap (fun m => 44 :: memberText m) ++ [125] = c :: rest ∧ (c = 44 ∨ c = 125) := by
      cases ms with
      | nil => exact ⟨125, [], rfl, Or.inr rfl⟩
      | cons a r => exact ⟨44, _, rfl, Or.inl rfl⟩
    rw [hrest] at hd2
    have hd3 : inp.drop (p + 1 + kt.length + 1 + vt.length)
        = ms.flatMap (fun m => 44 :: memberText m) ++ [125] := by
      rw [hrest]
      have h1 : inp.drop (p + 1 + kt.length) = 58 :: (vt ++ c :: rest) := drop_add hd2
      have h2 : inp.drop (p + 1 + kt.length + 1) = vt ++ c :: rest := drop_add (a := [58]) h1
      exact drop_add h2
    rw [decodeFrom_cons loc hd1]
    obtain ⟨st, start, str, arr, obj, key⟩ := l
    simp only at hl
    subst hl
    simp only [step, show isWs 44 = false by decide, if_true, if_false, Bool.false_eq_true]
    rw [decodeFrom_member loc inp kt vt rest (p + 1) c k v _ hm.1 hm.2 hd2 hc (Or.inr rfl),
      ih (p + 1 + kt.length + 1 + vt.length) _ rfl hd3]
    simp

/-- The text made of `\x7b`, the texts of members separated by `,`, and `\x7d` is decoded to
the object that results from storing the members' values under their keys in turn. -/
theorem json_decode_object (loc : Locale) (ms : List (List Nat × List Nat))
    (kvs : List (List Nat × JSON))
    (h : List.Forall₂ (fun m kv => json_decode loc m.1 = .ok (.string kv.1) ∧
      json_decode loc m.2 = .ok kv.2) ms kvs) :
    json_decode loc (123 :: (List.intercalate [44] (ms.map memberText) ++ [125]))
      = .ok (.object (JSONObject.ofStores kvs)) := by
  generalize hinp : 123 :: (List.intercalate [44] (ms.map memberText) ++ [125]) = inp
  have hd0 : inp.drop 0 = 123 :: (List.intercalate [44] (ms.map memberText) ++ [125]) := by
    rw [List.drop_zero, hinp]
  have hd1 : inp.drop (0 + 1) = List.intercalate [44] (ms.map memberText) ++ [125] :=
    drop_add (a := [123]) hd0
  have hstep : step loc inp (json_decode_at loc inp) 0 123 (Locals.init 0)
      = .next 0 { Locals.init 0 with object := [], state := .s19 } := by
    simp [step, Locals.init, isWs, isDigit19]
  have hat : json_decode_at loc inp 0 = .ok (inp.length, .object (JSONObject.ofStores kvs)) := by
    rw [json_decode_at_eq, decodeFrom_cons loc hd0, hstep]
    simp only
    cases h with
    | nil =>
      have hd2 : inp.drop (0 + 1) = [125] := hd1
      have hlen := length_of_drop hd2
      have hp := drop_le_length hd2
      simp only [List.length_cons, List.length_nil] at hlen
      rw [decodeFrom_cons loc hd2]
      simp only [step, Locals.init, isWs, accept]
      simp [JSONObject.ofStores]
      omega
    | @cons m kv ms kvs hm hrest =>
      obtain ⟨kt, vt⟩ := m
      obtain ⟨k, v⟩ := kv
      simp only at hm
      rw [List.map_cons, intercalate_comma] at hd1
      have hfm : (ms.map memberText).flatMap (fun x => 44 :: x)
          = ms.flatMap (fun m => 44 :: memberText m) := by
        rw [List.flatMap_map]
      rw [hfm] at hd1
      obtain ⟨c, rest, hcr, hc⟩ : ∃ c rest,
          ms.flatMap (fun m => 44 :: memberText m) ++ [125] = c :: rest ∧ (c = 44 ∨ c = 125) := by
        cases ms with
        | nil => exact ⟨125, [], rfl, Or.inr rfl⟩
        | cons a r => exact ⟨44, _, rfl, Or.inl rfl⟩
      have hd2 : inp.drop (0 + 1) = kt ++ 58 :: (vt ++ c :: rest) := by
        rw [hd1, ← hcr]
        simp [memberText]
      have hd3 : inp.drop (0 + 1 + kt.length + 1 + vt.length)
          = ms.flatMap (fun m => 44 :: memberText m) ++ [125] := by
        rw [hcr]
        have h1 : inp.drop (0 + 1 + kt.length) = 58 :: (vt ++ c :: rest) := drop_add hd2
        have h2 : inp.drop (0 + 1 + kt.length + 1) = vt ++ c :: rest := drop_add (a := [58]) h1
        exact drop_add h2
      rw [decodeFrom_member loc inp kt vt rest (0 + 1) c k v _ hm.1 hm.2 hd2 hc (Or.inl rfl),
        decodeFrom_members loc inp ms kvs hrest _ _ rfl hd3]
      simp [JSONObject.ofStores, Locals.init]
  unfold json_decode json_decode_into
  rw [hat]
  simp [trailing]

/-! ## The value stored under a key -/

/-- After `o[k] = v` the first entry with the key `k` holds `v`, and looking up another key
finds what it found before. -/
theorem JSONObject.lookup_set (o : JSONObject) (k : List Nat) (v : JSON) (k2 : List Nat) :
    (JSONObject.set o k v).lookup k2 = if k2 = k then some v else o.lookup k2 := by
  have hbeq : ∀ a b : List Nat, (a == b) = decide (a = b) := by
    intro a b
    by_cases h : a = b
    · simp [h]
    · simp [h]
  induction o with
  | nil =>
    simp only [JSONObject.set, JSONObject.touch, JSONObject.assign, if_true, List.lookup_cons,
      hbeq, List.lookup_nil]
    by_cases h : k2 = k <;> simp [h]
  | cons a t ih =>
    obtain ⟨l, x⟩ := a
    simp only [JSONObject.set, JSONObject.touch] at ih ⊢
    by_cases hlk : l = k
    · subst hlk
      simp only [if_true, JSONObject.assign, List.lookup_cons, hbeq]
      by_cases h : k2 = l <;> simp [h]
    · rw [if_neg hlk]
      by_cases hlt : string_lt k l = true
      · rw [if_pos hlt]
        simp only [JSONObject.assign, if_true, List.lookup_cons, hbeq]
        by_cases h : k2 = k <;> simp [h]
      · rw [if_neg hlt]
        simp only [JSONObject.assign, if_neg hlk, List.lookup_cons, ih, hbeq]
        by_cases h : k2 = k
        · have h2 : ¬ k = l := fun e => hlk e.symm
          simp [h, h2]
        · simp [h]

theorem JSONObject.lookup_foldl_set (kvs : List (List Nat × JSON)) :
    ∀ (acc : JSONObject) (k : List Nat),
      (kvs.foldl (fun o kv => JSONObject.set o kv.1 kv.2) acc).lookup k
        = (kvs.reverse.lookup k).or (acc.lookup k) := by
  induction kvs with
  | nil => intro acc k; simp
  | cons kv r ih =>
    intro acc k
    obtain ⟨l, x⟩ := kv
    rw [List.foldl_cons, ih, JSONObject.lookup_set, List.reverse_cons, List.lookup_append]
    by_cases h : k = l
    · subst h
      simp only [if_true, List.lookup, beq_self_eq_true]
      cases List.lookup k r.reverse <;> rfl
    · have hb : (k == l) = false := by simpa using h
      simp [h, List.lookup, hb]

/-- Looking a key up in the object built by the stores `kvs` finds the value of the last
store under the key. -/
theorem JSONObject.lookup_ofStores (kvs : List (List Nat × JSON)) (k : List Nat) :
    (JSONObject.ofStores kvs).lookup k = kvs.reverse.lookup k := by
  rw [JSONObject.ofStores, JSONObject.lookup_foldl_set]
  simp

/-- In a `JSONObject` the entry found under a key is the only one with that key. -/
theorem JSONObject.filter_of_lookup {o : JSONObject} (ho : JSONObject.sorted o) {k : List Nat}
    {v : JSON} (h : o.lookup k = some v) : o.filter (fun e => e.1 = k) = [(k, v)] := by
  induction o with
  | nil => simp at h
  | cons a t ih =>
    obtain ⟨l, x⟩ := a
    have hp := List.pairwise_cons.mp ho
    rw [List.lookup_cons] at h
    by_cases hk : k = l
    · subst hk
      simp only [beq_self_eq_true] at h
      have hx : x = v := by simpa using h
      subst hx
      have hnone : t.filter (fun e => e.1 = k) = [] := by
        rw [List.filter_eq_nil_iff]
        intro e he
        have hlt := hp.1 e he
        simp only [decide_eq_true_eq]
        intro heq
        rw [← heq, string_lt_irrefl] at hlt
        exact Bool.false_ne_true hlt
      simp [List.filter_cons, hnone]
    · have hb : (k == l) = false := by simpa using hk
      rw [hb] at h
      have hlk : ¬ l = k := fun e => hk e.symm
      simp only [List.filter_cons, hlk, decide_False, Bool.false_eq_true, if_false]
      exact ih hp.2 h

/-! ## White space around the tokens -/

theorem endsNumber_of_isWs {c : Nat} (h : isWs c = true) : endsNumber c = true := by
  simp only [isWs, Bool.decide_or, Bool.or_eq_true, decide_eq_true_eq] at h
  rcases h with h | h | h | h <;> subst h <;> decide

/-- White space before and after a text that the decoder accepts. -/
theorem json_decode_pad {loc : Locale} {t : List Nat} {v : JSON} (w1 w2 : List Nat)
    (h : json_decode loc t = .ok v) (h1 : ∀ x ∈ w1, isWs x = true)
    (h2 : ∀ x ∈ w2, isWs x = true) : json_decode loc (w1 ++ (t ++ w2)) = .ok v := by
  obtain ⟨e, hat, he, hws⟩ := json_decode_ok h
  have hpost : ∀ c ∈ w2.head?, endsNumber c = true := by
    intro c hc
    cases w2 with
    | nil => simp at hc
    | cons a r =>
      simp only [List.head?_cons, Option.mem_def, Option.some.injEq] at hc
      subst hc
      exact endsNumber_of_isWs (h2 _ (List.mem_cons_self _ _))
  have hshift := json_decode_at_shift loc w1 t w2 hpost 0 e v hat
  rw [Nat.zero_add] at hshift
  have hrun := decodeFrom_ws loc (w1 ++ (t ++ w2)) w1 (t ++ w2) 0 (Locals.init 0)
    (by rw [List.drop_zero]) h1 rfl
  have hinit : ({ Locals.init 0 with start := (Locals.init 0).start + w1.length } : Locals)
      = Locals.init w1.length := by
    simp [Locals.init]
  rw [hinit, Nat.zero_add, ← json_decode_at_eq, ← json_decode_at_eq, hshift] at hrun
  have hd := drop_shift w1 t w2 e he
  have ht := trailing_eq (w1 ++ (t ++ w2)) _ (e + w1.length) hd
  have hall : ∀ c ∈ t.drop e ++ w2, isWs c = true := by
    intro c hc
    rcases List.mem_append.mp hc with hc | hc
    · exact hws c hc
    · exact h2 c hc
  rw [if_pos hall] at ht
  have hlen : (t.drop e ++ w2).length = (w1 ++ (t ++ w2)).length - (e + w1.length) := by
    simp only [List.length_append, List.length_drop]
    omega
  rw [hlen] at ht
  simp only [json_decode, json_decode_into, hrun, ht]

/-- The brackets of an empty array, or the braces of an empty object, with white space
between them. -/
theorem json_decode_empty (loc : Locale) (w : List Nat) (hw : ∀ x ∈ w, isWs x = true) :
    json_decode loc (91 :: (w ++ [93])) = .ok (.array []) ∧
    json_decode loc (123 :: (w ++ [125])) = .ok (.object []) := by
  constructor
  · generalize hinp : 91 :: (w ++ [93]) = inp
    have hd0 : inp.drop 0 = 91 :: (w ++ [93]) := by rw [List.drop_zero, hinp]
    have hd1 : inp.drop (0 + 1) = w ++ [93] := drop_add (a := [91]) hd0
    have hd2 : inp.drop (0 + 1 + w.length) = [93] := drop_add hd1
    have hlen := length_of_drop hd2
    have hp := drop_le_length hd2
    simp only [List.length_cons, List.length_nil] at hlen
    have hstep : step loc inp (json_decode_at loc inp) 0 91 (Locals.init 0)
        = .next 0 { Locals.init 0 with array := [], state := .s15 } := by
      simp [step, Locals.init, isWs, isDigit19]
    have hat : json_decode_at loc inp 0 = .ok (inp.length, .array []) := by
      rw [json_decode_at_eq, decodeFrom_cons loc hd0, hstep]
      simp only
      rw [decodeFrom_skip loc inp w [93] (0 + 1) { Locals.init 0 with array := [], state := .s15 }
        hd1 hw rfl, decodeFrom_cons loc hd2]
      simp only [step, Locals.init, isWs, accept]
      simp
      omega
    unfold json_decode json_decode_into
    rw [hat]
    simp [trailing]
  · generalize hinp : 123 :: (w ++ [125]) = inp
    have hd0 : inp.drop 0 = 123 :: (w ++ [125]) := by rw [List.drop_zero, hinp]
    have hd1 : inp.drop (0 + 1) = w ++ [125] := drop_add (a := [123]) hd0
    have hd2 : inp.drop (0 + 1 + w.length) = [125] := drop_add hd1
    have hlen := length_of_drop hd2
    have hp := drop_le_length hd2
    simp only [List.length_cons, List.length_nil] at hlen
    have hstep : step loc inp (json_decode_at loc inp) 0 123 (Locals.init 0)
        = .next 0 { Locals.init 0 with object := [], state := .s19 } := by
      simp [step, Locals.init, isWs, isDigit19]
    have hat : json_decode_at loc inp 0 = .ok (inp.length, .object []) := by
      rw [json_decode_at_eq, decodeFrom_cons loc hd0, hstep]
      simp only
      rw [decodeFrom_skip loc inp w [125] (0 + 1) { Locals.init 0 with object := [], state := .s19 }
        hd1 hw rfl, decodeFrom_cons loc hd2]
      simp only [step, Locals.init, isWs, accept]
      simp
      omega
    unfold json_decode json_decode_into
    rw [hat]
    simp [trailing]

theorem forall₂_append {α β : Type} {R : α → β → Prop} {a1 a2 : List α} {b1 b2 : List β}
    (h1 : List.Forall₂ R a1 b1) (h2 : List.Forall₂ R a2 b2) :
    List.Forall₂ R (a1 ++ a2) (b1 ++ b2) := by
  induction h1 with
  | nil => exact h2
  | cons h _ ih => exact .cons h ih

/-- White space inserted, or changed, where the grammar allows it changes neither that the
text is accepted nor the value. -/
theorem Spaced.json_decode {loc : Locale} {t t2 : List Nat} (h : Spaced loc t t2) :
    ∀ v, Stajson.json_decode loc t = .ok v → Stajson.json_decode loc t2 = .ok v := by
  induction h with
  | refl t => exact fun v hv => hv
  | trans _ _ ih1 ih2 => exact fun v hv => ih2 v (ih1 v hv)
  | pad t w1 w2 h1 h2 => exact fun v hv => json_decode_pad w1 w2 hv h1 h2
  | around t t2 w1 w2 u1 u2 w h1 h2 h3 h4 ht _ ih =>
    intro v hv
    rw [json_decode_pad w1 w2 ht h1 h2] at hv
    rw [← hv]
    exact json_decode_pad u1 u2 (ih w ht) h3 h4
  | emptyArray w1 w2 h1 h2 =>
    intro v hv
    rw [(json_decode_empty loc w1 h1).1] at hv
    rw [← hv]
    exact (json_decode_empty loc w2 h2).1
  | emptyObject w1 w2 h1 h2 =>
    intro v hv
    rw [(json_decode_empty loc w1 h1).2] at hv
    rw [← hv]
    exact (json_decode_empty loc w2 h2).2
  | element pre post vpre vpost t t2 w hpre hpost ht _ ih =>
    intro v hv
    have h1 := json_decode_array loc _ _ (forall₂_append hpre (.cons ht hpost))
    have h2 := json_decode_array loc _ _ (forall₂_append hpre (.cons (ih w ht) hpost))
    unfold arrayText at hv ⊢
    rw [h1] at hv
    rw [h2, ← hv]
  | key pre post kpre kpost kt kt2 vt k w hpre hpost hk hw _ ih =>
    intro v hv
    have h1 := json_decode_object loc _ _
      (forall₂_append hpre (List.Forall₂.cons (a := (kt, vt)) (b := (k, w)) ⟨hk, hw⟩ hpost))
    have h2 := json_decode_object loc _ _
      (forall₂_append hpre (List.Forall₂.cons (a := (kt2, vt)) (b := (k, w)) ⟨ih _ hk, hw⟩ hpost))
    unfold objectText at hv ⊢
    rw [h1] at hv
    rw [h2, ← hv]
  | value pre post kpre kpost kt vt vt2 k w hpre hpost hk hw _ ih =>
    intro v hv
    have h1 := json_decode_object loc _ _
      (forall₂_append hpre (List.Forall₂.cons (a := (kt, vt)) (b := (k, w)) ⟨hk, hw⟩ hpost))
    have h2 := json_decode_object loc _ _
      (forall₂_append hpre (List.Forall₂.cons (a := (kt, vt2)) (b := (k, w)) ⟨hk, ih _ hw⟩ hpost))
    unfold objectText at hv ⊢
    rw [h1] at hv
    rw [h2, ← hv]

/-! ## A value decoded from the characters it spans -/

theorem getElem?_unshift (pre t post : List Nat) (i : Nat) (hi : i < t.length) :
    (pre ++ (t ++ post))[i + pre.length]? = t[i]? := by
  rw [List.getElem?_append_right (by omega), Nat.add_sub_cancel, List.getElem?_append_left hi]

theorem litAt_unshift (pre t post : List Nat) (pos : Nat) (lit : List Nat)
    (h : litAt (pre ++ (t ++ post)) (pos + pre.length) lit = true)
    (hle : pos + lit.length ≤ t.length) : litAt t pos lit = true := by
  unfold litAt at h ⊢
  simp only [Bool.decide_and, Bool.and_eq_true, decide_eq_true_eq, not_lt] at h ⊢
  refine ⟨by omega, ?_⟩
  have := h.2
  rwa [drop_shift pre t post pos (by omega), List.take_append_of_le_length (by
    rw [List.length_drop]; omega)] at this

theorem hexLoop_unshift (pre t post : List Nat) :
    ∀ (n pos hex i : Nat) {p h j : Nat},
      hexLoop (pre ++ (t ++ post)) n (pos + pre.length) hex i = some (p, h, j) →
      p < pre.length + t.length → pos ≤ t.length →
      hexLoop t n pos hex i = some (p - pre.length, h, j) ∧ pre.length ≤ p := by
  intro n
  induction n with
  | zero =>
    intro pos hex i p h j e _ _
    simp only [hexLoop, Option.some.injEq, Prod.mk.injEq] at e ⊢
    omega
  | succ n ih =>
    intro pos hex i p h j e hp hpos
    have hb := (hexLoop_bound _ (n + 1) _ hex i e).2 (Nat.succ_pos n)
    have hlt : pos + 1 < t.length := by omega
    simp only [hexLoop] at e ⊢
    rw [show pos + pre.length + 1 = pos + 1 + pre.length by omega,
      getElem?_unshift pre t post (pos + 1) hlt] at e
    cases hc : t[pos + 1]? with
    | none => rw [hc] at e; cases e
    | some c =>
      rw [hc] at e
      simp only at e ⊢
      cases hv : hexVal c with
      | none =>
        rw [hv] at e
        simp only [Option.some.injEq, Prod.mk.injEq] at e ⊢
        omega
      | some d =>
        rw [hv] at e
        simp only at e ⊢
        exact ih _ _ _ e hp (by omega)

theorem hexLoop_two (inp : List Nat) (n pos hex i : Nat) {p h j : Nat}
    (e : hexLoop inp (n + 2) pos hex i = some (p, h, j)) (hj : j ≠ i) : pos + 2 ≤ p := by
  simp only [hexLoop] at e
  cases hc : inp[pos + 1]? with
  | none => rw [hc] at e; cases e
  | some c =>
    rw [hc] at e
    simp only at e
    cases hv : hexVal c with
    | none =>
      rw [hv] at e
      simp only [Option.some.injEq, Prod.mk.injEq] at e
      omega
    | some d =>
      rw [hv] at e
      have := (hexLoop_bound inp (n + 1) (pos + 1) _ _ e).2 (Nat.succ_pos n)
      omega

theorem Step.unshifted_ite {k T : Nat} {c : Prop} [Decidable c] {a b a2 b2 : Step}
    (ha : Step.unshifted k T a2 a) (hb : Step.unshifted k T b2 b) :
    Step.unshifted k T (if c then a2 else b2) (if c then a else b) := by
  split <;> assumption

theorem Step.unshifted_lit {k T : Nat} {c c2 : Prop} [Decidable c] [Decidable c2] {lbl : Label}
    {p p2 : Nat} {l l2 : Locals} {e e2 : Exn} (hp : p2 = p + k) (hl : l2 = l.shift k)
    (hc : c2 → p2 ≤ T → c) :
    Step.unshifted k T (if c2 then .goto lbl p2 l2 else .throw e2)
      (if c then .goto lbl p l else .throw e) := by
  by_cases h : c2
  · rw [if_pos h]
    intro hT
    rw [if_pos (hc h hT)]
    exact ⟨p, l, rfl, hp, hl⟩
  · rw [if_neg h]
    trivial

theorem stepU_unshift (loc : Locale) (pre t post : List Nat) (pos : Nat) (l l2 : Locals)
    (hl2 : l2 = l.shift pre.length) (hpos : pos ≤ t.length) :
    Step.unshifted pre.length (pre.length + t.length)
      (stepU loc (pre ++ (t ++ post)) (pos + pre.length) l2) (stepU loc t pos l) := by
  subst hl2
  unfold stepU
  by_cases h4 : (pre ++ (t ++ post)).length - (pos + pre.length) < 4
  · rw [if_pos h4]
    trivial
  · rw [if_neg h4]
    cases hl : hexLoop (pre ++ (t ++ post)) 4 (pos + pre.length) 0 0 with
    | none => trivial
    | some x =>
      obtain ⟨p, hex, i⟩ := x
      simp only
      by_cases hi : i = 0
      · rw [if_pos hi]
        trivial
      · rw [if_neg hi]
        have h2 := hexLoop_two _ 2 _ 0 0 hl hi
        have key : p + 2 ≤ pre.length + t.length →
            stepU loc t pos l = (match wcstombs loc hex with
              | none => .next (p - pre.length) { l with state := .s12 }
              | some mb => .next (p - pre.length) { l with str := l.str ++ mb, state := .s12 }) ∧
            pre.length ≤ p := by
          intro hT
          have hu := hexLoop_unshift pre t post 4 pos 0 0 hl (by omega) hpos
          unfold stepU
          rw [if_neg (by omega), hu.1]
          simp only [if_neg hi]
          refine ⟨?_, hu.2⟩
          first | rfl | trivial
        unfold stepU at key
        cases hw : wcstombs loc hex with
        | none =>
          rw [hw] at key
          intro _ hT
          obtain ⟨hk, hle⟩ := key (hT rfl)
          exact ⟨_, _, hk, by omega, rfl⟩
        | some mb =>
          rw [hw] at key
          intro _ hT
          obtain ⟨hk, hle⟩ := key (hT rfl)
          exact ⟨_, _, hk, by omega, rfl⟩

theorem afterCall_unshift {k T pos : Nat} {r r2 : Result (Nat × JSON)} (f f2 : JSON → Locals)
    (hf : ∀ v, f2 v = (f v).shift k)
    (hr : ∀ q v, r2 = .ok (q, v) → q ≤ T → pos + k < q ∧ r = .ok (q - k, v)) :
    Step.unshifted k T (afterCall r2 fun p v => .next (p - 1) (f2 v))
      (afterCall r fun p v => .next (p - 1) (f v)) := by
  cases r2 with
  | ok x =>
    obtain ⟨q, v⟩ := x
    intro hT _
    obtain ⟨hq, rfl⟩ := hr q v rfl (by omega)
    exact ⟨_, _, rfl, by omega, hf v⟩
  | throw e => trivial
  | undefined => trivial
  | outOfFuel => trivial

/-- A loop pass in a longer buffer that goes on or accepts within the text. -/
theorem step_unshift (loc : Locale) (pre t post : List Nat)
    (call call2 : Nat → Result (Nat × JSON)) (pos c : Nat) (l : Locals) (hpos : pos ≤ t.length)
    (hcall : ∀ q v, call2 (pos + pre.length) = .ok (q, v) → q ≤ pre.length + t.length →
      pos + pre.length < q ∧ call pos = .ok (q - pre.length, v)) :
    Step.unshifted pre.length (pre.length + t.length)
      (step loc (pre ++ (t ++ post)) call2 (pos + pre.length) c (l.shift pre.length))
      (step loc t call pos c l) := by
  obtain ⟨st, start, str, arr, obj, key⟩ := l
  cases st
  all_goals simp only [step, Locals.shift]
  all_goals repeat' first
    | with_reducible apply Step.unshifted_ite
    | with_reducible apply Step.unshifted_lit
  all_goals first
    | trivial
    | rfl
    | omega
    | exact fun h hT => litAt_unshift pre t post pos _ h (by
        simp only [List.length_cons, List.length_nil]; omega)
    | exact stepU_unshift loc pre t post pos _ _ rfl hpos
    | exact afterCall_unshift _ _ (fun _ => rfl) hcall
    | exact fun _ _ => ⟨_, _, rfl, rfl, rfl⟩
    | exact fun _ => ⟨_, _, rfl, rfl, rfl⟩
    | exact fun _ => ⟨_, _, rfl, by omega, rfl⟩
    | (intro _ _; refine ⟨_, _, rfl, rfl, ?_⟩;
       simp only [Locals.shift, Locals.mk.injEq, true_and, and_true]; omega)
    | skip
  · split
    · exact afterCall_unshift _ _ (fun _ => rfl) hcall
    · trivial

theorem accept_unshift (pre t post : List Nat) (lbl : Label) (p : Nat) (l : Locals) (e : Nat)
    (v : JSON) (hp : p ≤ t.length)
    (h : accept (pre ++ (t ++ post)) lbl (p + pre.length) (l.shift pre.length) = .ok (e, v)) :
    accept t lbl p l = .ok (e - pre.length, v) := by
  cases lbl
  case accept_number =>
    have hspan : ((pre ++ (t ++ post)).drop (l.start + pre.length)).take
        (p + pre.length - (l.start + pre.length)) = (t.drop l.start).take (p - l.start) := by
      rw [show p + pre.length - (l.start + pre.length) = p - l.start by omega]
      rcases Nat.lt_or_ge p l.start with hlt | hge
      · rw [show p - l.start = 0 by omega, List.take_zero, List.take_zero]
      · rw [drop_shift pre t post l.start (by omega), List.take_append_of_le_length (by
          rw [List.length_drop]; omega)]
    simp only [accept, Locals.shift, hspan] at h ⊢
    split at h
    · cases h
    · rename_i hne
      simp only [Result.ok.injEq, Prod.mk.injEq] at h
      rw [if_neg hne, ← h.1, ← h.2, Nat.add_sub_cancel]
  all_goals
    simp only [accept, Locals.shift, Result.ok.injEq, Prod.mk.injEq] at h ⊢
    exact ⟨by omega, h.2⟩

/-- The loop returns a position after the one it starts at, unless it starts in a state in
which a number may end. -/
theorem decodeLoop_progress (loc : Locale) (inp : List Nat) (fuel pos : Nat) (l : Locals)
    (p : Nat) (v : JSON) (h : decodeLoop loc inp fuel pos l = .ok (p, v))
    (hl : numberEnd l.state = false) : pos < p := by
  cases fuel with
  | zero => simp [decodeLoop] at h
  | succ fuel =>
    rw [decodeLoop_succ] at h
    by_cases hend : pos = inp.length
    · rw [if_pos hend] at h
      obtain ⟨st, start, str, arr, obj, key⟩ := l
      cases st <;> simp only [finish] at h <;> first
        | cases h
        | simp [numberEnd] at hl
    · rw [if_neg hend] at h
      cases hc : inp[pos]? with
      | none => rw [hc] at h; cases h
      | some c =>
        have hpos := getElem?_lt hc
        rw [hc] at h
        simp only at h
        have hb := step_bound loc inp (fun p => decodeLoop loc inp fuel p (Locals.init p)) pos c l
          hpos (fun q v hq => by
            have := decodeLoop_bound loc inp fuel pos _ q v hq
            exact ⟨this.2.2 rfl, this.2.1⟩)
        have hg := step_gotoOk loc inp (fun p => decodeLoop loc inp fuel p (Locals.init p))
          pos c l
        cases hstep : step loc inp (fun p => decodeLoop loc inp fuel p (Locals.init p)) pos c l with
        | next q l2 =>
          rw [hstep] at h hb
          have := (decodeLoop_bound loc inp fuel _ _ p v h).1
          have := hb.1
          omega
        | goto lbl q l2 =>
          rw [hstep] at h hg
          have hq := accept_pos h
          rcases hg with hg | hg
          · rw [hg.2.2.2] at hl
            cases hl
          · omega
        | throw x => rw [hstep] at h; cases h
        | undefined => rw [hstep] at h; cases h
        | outOfFuel => rw [hstep] at h; cases h

/-- What the loop returns in a buffer is what it returns, `pre.length` positions earlier, in
the part `t` of the buffer alone, when the position returned lies within `t`: the loop
reads nothing before the position it starts at and depends on nothing after the one it
returns. -/
theorem decodeLoop_unshift (loc : Locale) (pre t post : List Nat) (fuel : Nat) :
    ∀ (pos : Nat) (l : Locals) (e : Nat) (v : JSON),
      decodeLoop loc (pre ++ (t ++ post)) fuel (pos + pre.length) (l.shift pre.length)
        = .ok (e, v) →
      e ≤ pre.length + t.length → pos ≤ t.length →
      decodeLoop loc t fuel pos l = .ok (e - pre.length, v) := by
  induction fuel with
  | zero =>
    intro pos l e v h
    simp [decodeLoop] at h
  | succ fuel ih =>
    intro pos l e v h hT hpos
    have hbound := decodeLoop_bound loc _ _ _ _ e v h
    have hcallb : ∀ q w, decodeLoop loc (pre ++ (t ++ post)) fuel (pos + pre.length)
        (Locals.init (pos + pre.length)) = .ok (q, w) →
        pos + pre.length < q ∧ q ≤ (pre ++ (t ++ post)).length := by
      intro q w hq
      have := decodeLoop_bound loc _ fuel _ _ q w hq
      exact ⟨this.2.2 rfl, this.2.1⟩
    rw [decodeLoop_succ] at h ⊢
    by_cases hend : pos = t.length
    · rw [if_pos hend]
      have he : e = pos + pre.length := by omega
      have hacc : accept (pre ++ (t ++ post)) .accept_number (pos + pre.length)
          (l.shift pre.length) = .ok (e, v) ∧ numberEnd l.state = true := by
        by_cases hlen : pos + pre.length = (pre ++ (t ++ post)).length
        · rw [if_pos hlen] at h
          obtain ⟨st, start, str, arr, obj, key⟩ := l
          cases st <;> simp only [finish, Locals.shift] at h <;> first
            | cases h
            | exact ⟨h, rfl⟩
        · rw [if_neg hlen] at h
          cases hc : (pre ++ (t ++ post))[pos + pre.length]? with
          | none => rw [hc] at h; cases h
          | some c =>
            have hlt := getElem?_lt hc
            rw [hc] at h
            simp only at h
            have hb := step_bound loc _ (fun p => decodeLoop loc (pre ++ (t ++ post)) fuel p
              (Locals.init p)) (pos + pre.length) c (l.shift pre.length) hlt hcallb
            have hg := step_gotoOk loc (pre ++ (t ++ post)) (fun p => decodeLoop loc
              (pre ++ (t ++ post)) fuel p (Locals.init p)) (pos + pre.length) c
              (l.shift pre.length)
            cases hstep : step loc (pre ++ (t ++ post)) (fun p => decodeLoop loc
              (pre ++ (t ++ post)) fuel p (Locals.init p)) (pos + pre.length) c
              (l.shift pre.length) with
            | next q l2 =>
              rw [hstep] at h hb
              have := (decodeLoop_bound loc _ fuel _ _ e v h).1
              have := hb.1
              omega
            | goto lbl q l2 =>
              rw [hstep] at h hg
              have hq := accept_pos h
              rcases hg with hg | hg
              · obtain ⟨h1, h2, h3, h4⟩ := hg
                subst h1 h2 h3
                exact ⟨h, h4⟩
              · omega
            | throw x => rw [hstep] at h; cases h
            | undefined => rw [hstep] at h; cases h
            | outOfFuel => rw [hstep] at h; cases h
      have hres := accept_unshift pre t post .accept_number pos l e v hpos hacc.1
      obtain ⟨st, start, str, arr, obj, key⟩ := l
      have hst := hacc.2
      cases st <;> simp only [numberEnd] at hst <;> first
        | exact hres
        | cases hst
    · have hlt : pos < t.length := by omega
      rw [if_neg hend]
      rw [if_neg (by simp only [List.length_append]; omega),
        getElem?_unshift pre t post pos hlt] at h
      cases hc : t[pos]? with
      | none =>
        rw [List.getElem?_eq_none_iff] at hc
        omega
      | some c =>
        rw [hc] at h
        simp only at h ⊢
        have hs := step_unshift loc pre t post
          (fun p => decodeLoop loc t fuel p (Locals.init p))
          (fun p => decodeLoop loc (pre ++ (t ++ post)) fuel p (Locals.init p)) pos c l hpos
          (fun q w hq hqT => ⟨(hcallb q w hq).1, ih pos (Locals.init pos) q w hq hqT hpos⟩)
        cases hstep : step loc (pre ++ (t ++ post)) (fun p => decodeLoop loc
          (pre ++ (t ++ post)) fuel p (Locals.init p)) (pos + pre.length) c
          (l.shift pre.length) with
        | next q l2 =>
          rw [hstep] at h hs
          simp only at h
          have hq := (decodeLoop_bound loc _ fuel _ _ e v h).1
          obtain ⟨p, l3, hb, hp, hl3⟩ := hs (by omega) (fun h12 => by
            have := decodeLoop_progress loc _ fuel _ _ e v h (by rw [h12]; rfl)
            omega)
          rw [hb]
          simp only
          subst hp hl3
          rw [show p + pre.length + 1 = p + 1 + pre.length by omega] at h
          exact ih _ _ _ _ h hT (by omega)
        | goto lbl q l2 =>
          rw [hstep] at h hs
          simp only at h
          have hq := accept_pos h
          obtain ⟨p, l3, hb, hp, hl3⟩ := hs (by omega)
          rw [hb]
          simp only
          subst hp hl3
          exact accept_unshift pre t post lbl p l3 e v (by omega) h
        | throw x => rw [hstep] at h; cases h
        | undefined => rw [hstep] at h; cases h
        | outOfFuel => rw [hstep] at h; cases h

/-- The value decoded from `start` on is the value decoded from the characters it spans,
taken alone. -/
theorem json_decode_at_span {loc : Locale} {inp : List Nat} {start e : Nat} {v : JSON}
    (h : json_decode_at loc inp start = .ok (e, v)) :
    json_decode_at loc ((inp.drop start).take (e - start)) 0 = .ok (e - start, v) := by
  have hb := decodeLoop_bound loc inp _ start _ e v h
  have hse : start < e := hb.2.2 rfl
  have hel := hb.2.1
  have hpre : (inp.take start).length = start := by
    rw [List.length_take]
    omega
  have htl : ((inp.drop start).take (e - start)).length = e - start := by
    rw [List.length_take, List.length_drop]
    omega
  have hinp : inp = inp.take start ++ ((inp.drop start).take (e - start) ++ inp.drop e) := by
    have h1 : inp.drop e = (inp.drop start).drop (e - start) := by
      rw [List.drop_drop]
      congr 1
      omega
    rw [h1, List.take_append_drop, List.take_append_drop]
  have h2 : decodeLoop loc (inp.take start ++ ((inp.drop start).take (e - start) ++ inp.drop e))
      (2 * (inp.length - start) + 2) (0 + (inp.take start).length)
      ((Locals.init 0).shift (inp.take start).length) = .ok (e, v) := by
    have hinit : (Locals.init 0).shift start = Locals.init start := by
      simp [Locals.init, Locals.shift]
    rw [← hinp, hpre, Nat.zero_add, hinit]
    exact h
  have h3 := decodeLoop_unshift loc _ _ _ _ 0 (Locals.init 0) e v h2
    (by rw [hpre, htl]; omega) (Nat.zero_le _)
  rw [hpre] at h3
  rw [json_decode_at_eq, ← decodeLoop_eq_decodeFrom loc _ (2 * (inp.length - start) + 2) 0
    (Locals.init 0) (by rw [htl]; simp only [Locals.init, if_true]; omega)]
  exact h3

/-! ## Access to the members of an object and to the elements of an array -/

theorem beq_bytes (a b : List Nat) : (a == b) = decide (a = b) := by
  by_cases h : a = b
  · simp [h]
  · simp [h]

theorem JSONObject.lookup_eq_none {o : JSONObject} {k : List Nat} :
    o.lookup k = none ↔ k ∉ o.map Prod.fst := by
  induction o with
  | nil => simp
  | cons a t ih =>
    obtain ⟨l, x⟩ := a
    rw [List.lookup_cons, beq_bytes]
    by_cases h : k = l
    · simp [h]
    · simp [h, ih]

/-- In a map without the key `k`, `operator[](k)` adds one entry, and nothing else
changes. -/
theorem JSONObject.touch_absent (o : JSONObject) (k : List Nat) (h : o.lookup k = none) :
    (JSONObject.touch k o).Perm ((k, JSON.null) :: o)
      ∧ o.Sublist (JSONObject.touch k o)
      ∧ (JSONObject.touch k o).lookup k = some JSON.null := by
  induction o with
  | nil => simp [JSONObject.touch]
  | cons a t ih =>
    obtain ⟨l, x⟩ := a
    rw [List.lookup_cons, beq_bytes] at h
    have hkl : ¬ k = l := by
      intro e
      simp [e] at h
    have hlk : ¬ l = k := fun e => hkl e.symm
    simp only [hkl, decide_False] at h
    obtain ⟨h1, h2, h3⟩ := ih h
    simp only [JSONObject.touch, if_neg hlk]
    split
    · refine ⟨List.Perm.refl _, List.sublist_cons_self _ _, ?_⟩
      simp [List.lookup_cons]
    · refine ⟨(h1.cons (l, x)).trans (List.Perm.swap _ _ _), h2.cons₂ _, ?_⟩
      rw [List.lookup_cons, beq_bytes]
      simp only [hkl, decide_False]
      exact h3

/-- In a map with the key `k`, `operator[](k)` changes nothing. -/
theorem JSONObject.touch_present {o : JSONObject} (ho : JSONObject.sorted o) {k : List Nat}
    {v : JSON} (h : o.lookup k = some v) : JSONObject.touch k o = o := by
  induction o with
  | nil => simp at h
  | cons a t ih =>
    obtain ⟨l, x⟩ := a
    have hp := List.pairwise_cons.mp ho
    simp only [JSONObject.touch]
    by_cases hlk : l = k
    · rw [if_pos hlk]
    · rw [if_neg hlk]
      have hkl : ¬ k = l := fun e => hlk e.symm
      rw [List.lookup_cons, beq_bytes] at h
      simp only [hkl, decide_False] at h
      have hmem : k ∈ t.map Prod.fst := by
        by_contra hn
        rw [JSONObject.lookup_eq_none.mpr hn] at h
        exact absurd h (by simp)
      obtain ⟨e, he, hek⟩ := List.mem_map.mp hmem
      have hlt : string_lt l k = true := hek ▸ hp.1 e he
      rw [if_neg (by rw [string_lt_asymm _ _ hlt]; simp), ih hp.2 h]

theorem JSONObject.has_iff (o : JSONObject) (k : List Nat) :
    JSONObject.has o k = true ↔ ∃ v, JSONObject.get o k = .ok v := by
  unfold JSONObject.has JSONObject.get
  cases o.lookup k <;> simp

/-! ## The outcome of a comparison -/

theorem returnsBool_ok (b : Bool) : returnsBool (.ok b) := ⟨b, rfl⟩

theorem ltOutcome_step {p q r : Result Bool} :
    ltOutcome p → ltOutcome q → ltOutcome r →
    ltOutcome (match p with
      | .ok true => .ok true
      | .ok false =>
        match q with
        | .ok true => .ok false
        | .ok false => r
        | s => s
      | s => s) := by
  intro hp hq hr
  rcases hp with ⟨b, rfl⟩ | rfl
  · cases b
    · rcases hq with ⟨c, rfl⟩ | rfl
      · cases c
        · exact hr
        · exact Or.inl ⟨_, rfl⟩
      · exact Or.inr rfl
    · exact Or.inl ⟨_, rfl⟩
  · exact Or.inr rfl

theorem ok_step {p q r : Result Bool} :
    returnsBool p → returnsBool q → returnsBool r →
    returnsBool (match p with
      | .ok true => .ok true
      | .ok false =>
        match q with
        | .ok true => .ok false
        | .ok false => r
        | s => s
      | s => s) := by
  intro hp hq hr
  obtain ⟨b, rfl⟩ := hp
  obtain ⟨c, rfl⟩ := hq
  cases b
  · cases c
    · exact hr
    · exact ⟨_, rfl⟩
  · exact ⟨_, rfl⟩

mutual
theorem JSON.lt_outcome : ∀ a b : JSON, ltOutcome (JSON.lt a b) ∧ ltOutcome (JSON.gt a b)
  | .null, b => by cases b <;> simp [JSON.gt, JSON.lt, ltOutcome, returnsBool_ok]
  | .boolean _, b => by cases b <;> simp [JSON.gt, JSON.lt, ltOutcome, returnsBool_ok]
  | .number _, b => by cases b <;> simp [JSON.gt, JSON.lt, ltOutcome, returnsBool_ok]
  | .string _, b => by cases b <;> simp [JSON.gt, JSON.lt, ltOutcome, returnsBool_ok]
  | .array a, b => by
    cases b <;> simp only [JSON.gt, JSON.lt] <;>
      first | exact JSON.ltArray_outcome a _ | exact ⟨Or.inr rfl, Or.inr rfl⟩
  | .object a, b => by
    cases b <;> simp only [JSON.gt, JSON.lt] <;>
      first | exact JSON.ltObject_outcome a _ | exact ⟨Or.inr rfl, Or.inr rfl⟩
theorem JSON.ltArray_outcome : ∀ a b : List JSON,
    ltOutcome (JSON.ltArray a b) ∧ ltOutcome (JSON.gtArray a b)
  | [], [] => by simp [JSON.gtArray, JSON.ltArray, ltOutcome, returnsBool_ok]
  | [], _ :: _ => by simp [JSON.gtArray, JSON.ltArray, ltOutcome, returnsBool_ok]
  | _ :: _, [] => by simp [JSON.gtArray, JSON.ltArray, ltOutcome, returnsBool_ok]
  | x :: xs, y :: ys => by
    simp only [JSON.gtArray, JSON.ltArray]
    exact ⟨ltOutcome_step (JSON.lt_outcome x y).1 (JSON.lt_outcome x y).2
        (JSON.ltArray_outcome xs ys).1,
      ltOutcome_step (JSON.lt_outcome x y).2 (JSON.lt_outcome x y).1
        (JSON.ltArray_outcome xs ys).2⟩
theorem JSON.ltObject_outcome : ∀ a b : List (List Nat × JSON),
    ltOutcome (JSON.ltObject a b) ∧ ltOutcome (JSON.gtObject a b)
  | [], [] => by simp [JSON.gtObject, JSON.ltObject, ltOutcome, returnsBool_ok]
  | [], _ :: _ => by simp [JSON.gtObject, JSON.ltObject, ltOutcome, returnsBool_ok]
  | _ :: _, [] => by simp [JSON.gtObject, JSON.ltObject, ltOutcome, returnsBool_ok]
  | (k, x) :: xs, (l, y) :: ys => by
    simp only [JSON.gtObject, JSON.ltObject]
    refine ⟨?_, ?_⟩
    · split
      · exact Or.inl ⟨_, rfl⟩
      · split
        · exact Or.inl ⟨_, rfl⟩
        · exact ltOutcome_step (JSON.lt_outcome x y).1 (JSON.lt_outcome x y).2
            (JSON.ltObject_outcome xs ys).1
    · split
      · exact Or.inl ⟨_, rfl⟩
      · split
        · exact Or.inl ⟨_, rfl⟩
        · exact ltOutcome_step (JSON.lt_outcome x y).2 (JSON.lt_outcome x y).1
            (JSON.ltObject_outcome xs ys).2
end

mutual
theorem JSON.lt_alike : ∀ a b : JSON, JSON.alike a b = true →
    returnsBool (JSON.lt a b) ∧ returnsBool (JSON.gt a b)
  | .null, b => by cases b <;> simp [JSON.gt, JSON.lt, JSON.alike, returnsBool_ok]
  | .boolean _, b => by cases b <;> simp [JSON.gt, JSON.lt, JSON.alike, returnsBool_ok]
  | .number _, b => by cases b <;> simp [JSON.gt, JSON.lt, JSON.alike, returnsBool_ok]
  | .string _, b => by cases b <;> simp [JSON.gt, JSON.lt, JSON.alike, returnsBool_ok]
  | .array a, b => by
    cases b <;> simp only [JSON.gt, JSON.lt, JSON.alike] <;>
      first | exact JSON.ltArray_alike a _ | exact fun h => absurd h (by decide)
  | .object a, b => by
    cases b <;> simp only [JSON.gt, JSON.lt, JSON.alike] <;>
      first | exact JSON.ltObject_alike a _ | exact fun h => absurd h (by decide)
theorem JSON.ltArray_alike : ∀ a b : List JSON, JSON.alikeArray a b = true →
    returnsBool (JSON.ltArray a b) ∧ returnsBool (JSON.gtArray a b)
  | [], [] => by simp [JSON.gtArray, JSON.ltArray, returnsBool_ok]
  | [], _ :: _ => by simp [JSON.gtArray, JSON.ltArray, returnsBool_ok]
  | _ :: _, [] => by simp [JSON.gtArray, JSON.ltArray, returnsBool_ok]
  | x :: xs, y :: ys => by
    intro h
    simp only [JSON.alikeArray, Bool.and_eq_true] at h
    simp only [JSON.gtArray, JSON.ltArray]
    exact ⟨ok_step (JSON.lt_alike x y h.1).1 (JSON.lt_alike x y h.1).2
        (JSON.ltArray_alike xs ys h.2).1,
      ok_step (JSON.lt_alike x y h.1).2 (JSON.lt_alike x y h.1).1
        (JSON.ltArray_alike xs ys h.2).2⟩
theorem JSON.ltObject_alike : ∀ a b : List (List Nat × JSON), JSON.alikeObject a b = true →
    returnsBool (JSON.ltObject a b) ∧ returnsBool (JSON.gtObject a b)
  | [], [] => by simp [JSON.gtObject, JSON.ltObject, returnsBool_ok]
  | [], _ :: _ => by simp [JSON.gtObject, JSON.ltObject, returnsBool_ok]
  | _ :: _, [] => by simp [JSON.gtObject, JSON.ltObject, returnsBool_ok]
  | (k, x) :: xs, (l, y) :: ys => by
    intro h
    simp only [JSON.alikeObject, Bool.and_eq_true] at h
    simp only [JSON.gtObject, JSON.ltObject]
    refine ⟨?_, ?_⟩
    · split
      · exact ⟨_, rfl⟩
      · split
        · exact ⟨_, rfl⟩
        · exact ok_step (JSON.lt_alike x y h.1).1 (JSON.lt_alike x y h.1).2
            (JSON.ltObject_alike xs ys h.2).1
    · split
      · exact ⟨_, rfl⟩
      · split
        · exact ⟨_, rfl⟩
        · exact ok_step (JSON.lt_alike x y h.1).2 (JSON.lt_alike x y h.1).1
            (JSON.ltObject_alike xs ys h.2).2
end

theorem JSON.lt_of_type_ne {a b : JSON} (h : a.type ≠ b.type) :
    JSON.lt a b = .throw (.typeError "incompatible JSONBase types in comparison") := by
  cases a <;> cases b <;> first | exact absurd rfl h | simp only [JSON.lt]

theorem nestText_succ (n : Nat) : nestText (n + 1) = 91 :: (nestText n ++ [93]) := by
  unfold nestText
  rw [List.replicate_succ, List.replicate_succ', List.cons_append, List.append_assoc]

/-! ## Positions outside the buffer, and the exceptions thrown -/

theorem Reaches.le {loc : Locale} {inp : List Nat} {pos : Nat} {l : Locals}
    (h : Reaches loc inp pos l) : pos ≤ inp.length := by
  induction h with
  | start => exact Nat.zero_le _
  | @pass pos c p l l2 hr hc hs ih =>
    have hpos := getElem?_lt hc
    have hb := step_bound loc inp (json_decode_at loc inp) pos c l hpos (fun q v hq => by
      have := decodeLoop_bound loc inp _ pos _ q v hq
      exact ⟨this.2.2 rfl, this.2.1⟩)
    rw [hs] at hb
    exact hb.2
  | call _ _ _ ih => exact ih

/-- A call at a quote that returns has read a String. -/
theorem json_decode_at_quote {loc : Locale} {inp : List Nat} {q e : Nat} {v : JSON}
    (h : json_decode_at loc inp q = .ok (e, v)) (hc : inp[q]? = some 34) :
    v.type = .JSON_STRING := by
  rw [json_decode_at_eq, decodeFrom_step loc inp q 34 _ hc] at h
  have hs : step loc inp (json_decode_at loc inp) q 34 (Locals.init q)
      = .next q { Locals.init q with str := [], state := .s12 } := by
    simp [step, Locals.init, isWs, isDigit19]
  rw [hs] at h
  exact decodeLoop_kind loc inp _ _ _ _ _ (by simp) h

theorem Step.keyOk_ite {c : Prop} [Decidable c] {a b : Step} (ha : c → a.keyOk)
    (hb : ¬ c → b.keyOk) : (if c then a else b).keyOk := by
  split
  · exact ha ‹_›
  · exact hb ‹_›

theorem Locals.keyOk_of_state {l : Locals} (h1 : l.state ≠ .s21) (h2 : l.state ≠ .s22) :
    l.keyOk := by
  intro h
  rcases h with h | h
  · exact absurd h h1
  · exact absurd h h2

theorem stepU_keyOk (loc : Locale) (inp : List Nat) (pos : Nat) (l : Locals) :
    (stepU loc inp pos l).keyOk := by
  unfold stepU
  split
  · trivial
  · split
    · trivial
    · split
      · trivial
      · split <;> (refine Locals.keyOk_of_state ?_ ?_ <;> simp)

theorem afterCall_keyOk (r : Result (Nat × JSON)) (f : Nat → JSON → Locals)
    (hf : ∀ p v, r = .ok (p, v) → (f p v).keyOk) :
    (afterCall r fun p v => .next (p - 1) (f p v)).keyOk := by
  unfold afterCall
  split
  · exact hf _ _ rfl
  · trivial
  · trivial
  · trivial

/-- A loop pass keeps a String as the key. -/
theorem step_keyOk (loc : Locale) (inp : List Nat) (call : Nat → Result (Nat × JSON))
    (pos c : Nat) (l : Locals) (hl : l.keyOk)
    (hcall : c = 34 → ∀ q v, call pos = .ok (q, v) → v.type = .JSON_STRING) :
    (step loc inp call pos c l).keyOk := by
  obtain ⟨st, start, str, arr, obj, key⟩ := l
  cases st
  all_goals simp only [step]
  all_goals repeat' first
    | with_reducible intro _
    | with_reducible apply Step.keyOk_ite
  all_goals first
    | trivial
    | exact stepU_keyOk _ _ _ _
    | exact fun _ => hl (Or.inl rfl)
    | (exact Locals.keyOk_of_state (fun h => State.noConfusion h) (fun h => State.noConfusion h))
    | (apply afterCall_keyOk; intro p v hq; exact Locals.keyOk_of_state (fun h => State.noConfusion h) (fun h => State.noConfusion h))
    | (apply afterCall_keyOk; intro p v hq _; exact hcall (by assumption) p v hq)
    | skip
  · split
    · apply afterCall_keyOk
      intro p v hq
      refine Locals.keyOk_of_state ?_ ?_ <;> simp
    · trivial

theorem Reaches.keyOk {loc : Locale} {inp : List Nat} {pos : Nat} {l : Locals}
    (h : Reaches loc inp pos l) : l.keyOk := by
  induction h with
  | start => exact fun h => by rcases h with h | h <;> cases h
  | @pass pos c p l l2 hr hc hs ih =>
    have := step_keyOk loc inp (json_decode_at loc inp) pos c l ih
      (fun h34 q v hq => json_decode_at_quote hq (h34 ▸ hc))
    rw [hs] at this
    exact this
  | call _ _ _ ih => exact fun h => by rcases h with h | h <;> cases h

theorem Step.syntaxOk_ite {c : Prop} [Decidable c] {a b : Step} (ha : a.syntaxOk)
    (hb : b.syntaxOk) : (if c then a else b).syntaxOk := by
  split <;> assumption

theorem stepU_syntaxOk (loc : Locale) (inp : List Nat) (pos : Nat) (l : Locals) :
    (stepU loc inp pos l).syntaxOk := by
  unfold stepU
  split
  · exact ⟨_, _, rfl⟩
  · split
    · trivial
    · split
      · exact ⟨_, _, rfl⟩
      · split <;> trivial

theorem afterCall_syntaxOk (r : Result (Nat × JSON)) (k : Nat → JSON → Step)
    (hr : ∀ e, r ≠ .throw e) (hk : ∀ p v, (k p v).syntaxOk) : (afterCall r k).syntaxOk := by
  unfold afterCall
  split
  · exact hk _ _
  · exact absurd rfl (hr _)
  · trivial
  · trivial

/-- A loop pass with a String as the key throws nothing but syntax errors, apart from what
a nested call throws. -/
theorem step_syntaxOk (loc : Locale) (inp : List Nat) (call : Nat → Result (Nat × JSON))
    (pos c : Nat) (l : Locals) (hl : l.keyOk) (hcall : ∀ e, call pos ≠ .throw e) :
    (step loc inp call pos c l).syntaxOk := by
  obtain ⟨st, start, str, arr, obj, key⟩ := l
  cases st
  all_goals simp only [step]
  all_goals repeat' with_reducible apply Step.syntaxOk_ite
  all_goals first
    | trivial
    | exact ⟨_, _, rfl⟩
    | exact stepU_syntaxOk _ _ _ _
    | exact afterCall_syntaxOk _ _ hcall (fun _ _ => trivial)
    | skip
  · have hk := hl (Or.inr rfl)
    cases key <;> first
      | exact afterCall_syntaxOk _ _ hcall (fun _ _ => trivial)
      | simp [JSON.type] at hk

theorem Step.definedOr_ite {P : Prop} {c : Prop} [Decidable c] {a b : Step}
    (ha : c → a.definedOr P) (hb : ¬ c → b.definedOr P) : (if c then a else b).definedOr P := by
  split
  · exact ha ‹_›
  · exact hb ‹_›

theorem Step.definedOr_of {P : Prop} {s : Step} (h : s = .undefined → P) : s.definedOr P := by
  cases s <;> first | trivial | exact h rfl

theorem afterCall_definedOr {P : Prop} (r : Result (Nat × JSON)) (k : Nat → JSON → Step)
    (hr : r = .undefined → P) (hk : ∀ p v, (k p v).definedOr P) :
    (afterCall r k).definedOr P := by
  unfold afterCall
  split
  · exact hk _ _
  · trivial
  · exact hr rfl
  · trivial

/-- A loop pass reads outside the buffer only in the `case 'u'` of state 14, unless a
nested call does. -/
theorem step_definedOr (loc : Locale) (inp : List Nat) (call : Nat → Result (Nat × JSON))
    (pos c : Nat) (l : Locals) (P : Prop)
    (h1 : l.state = .s14 → c = 117 → stepU loc inp pos l = .undefined → P)
    (h2 : call pos = .undefined → P) :
    (step loc inp call pos c l).definedOr P := by
  obtain ⟨st, start, str, arr, obj, key⟩ := l
  cases st
  all_goals simp only [step]
  all_goals repeat' first
    | with_reducible intro _
    | with_reducible apply Step.definedOr_ite
  all_goals first
    | trivial
    | exact Step.definedOr_of (fun h => h1 rfl (by assumption) h)
    | exact afterCall_definedOr _ _ h2 (fun _ _ => trivial)
    | skip
  · split
    · exact afterCall_definedOr _ _ h2 (fun _ _ => trivial)
    · trivial

theorem getElem?_some_of_lt {inp : List Nat} {i : Nat} (h : i < inp.length) :
    ∃ a, inp[i]? = some a := ⟨inp[i], List.getElem?_eq_getElem h⟩

/-- The `case 'u'` reads outside the buffer exactly when three hexadecimal digits and the
end of the buffer follow the `u`. -/
theorem stepU_undefined_iff (loc : Locale) (inp : List Nat) (pos c : Nat) (l : Locals)
    (hc : inp[pos]? = some c) :
    stepU loc inp pos l = .undefined ↔
      ∃ a b d, inp.drop pos = [c, a, b, d] ∧ isHexDigit a = true ∧ isHexDigit b = true ∧
        isHexDigit d = true := by
  constructor
  · intro h
    unfold stepU at h
    by_cases hlen : inp.length - pos < 4
    · rw [if_pos hlen] at h
      cases h
    · rw [if_neg hlen] at h
      obtain ⟨a, ha⟩ := @getElem?_some_of_lt inp (pos + 1) (by omega)
      obtain ⟨b, hb⟩ := @getElem?_some_of_lt inp (pos + 1 + 1) (by omega)
      obtain ⟨d, hd⟩ := @getElem?_some_of_lt inp (pos + 1 + 1 + 1) (by omega)
      have hnone : hexLoop inp 4 pos 0 0 = none := by
        cases hx : hexLoop inp 4 pos 0 0 with
        | none => rfl
        | some x =>
          obtain ⟨p, hex, i⟩ := x
          rw [hx] at h
          simp only at h
          split at h
          · cases h
          · split at h <;> cases h
      simp only [hexLoop, ha, hb, hd] at hnone
      cases hva : hexVal a with
      | none => rw [hva] at hnone; cases hnone
      | some va =>
        rw [hva] at hnone
        simp only at hnone
        cases hvb : hexVal b with
        | none => rw [hvb] at hnone; cases hnone
        | some vb =>
          rw [hvb] at hnone
          simp only at hnone
          cases hvd : hexVal d with
          | none => rw [hvd] at hnone; cases hnone
          | some vd =>
            rw [hvd] at hnone
            simp only at hnone
            cases he : inp[pos + 1 + 1 + 1 + 1]? with
            | some e =>
              rw [he] at hnone
              simp only at hnone
              split at hnone <;> cases hnone
            | none =>
              have hl : inp.length ≤ pos + 1 + 1 + 1 + 1 := by
                by_contra hlt
                obtain ⟨e, he2⟩ := @getElem?_some_of_lt inp (pos + 1 + 1 + 1 + 1) (by omega)
                rw [he] at he2
                cases he2
              refine ⟨a, b, d, ?_, by simp [isHexDigit, hva], by simp [isHexDigit, hvb],
                by simp [isHexDigit, hvd]⟩
              apply List.ext_getElem?
              intro n
              rw [List.getElem?_drop]
              match n with
              | 0 => simpa using hc
              | 1 => simpa using ha
              | 2 => simpa using hb
              | 3 => simpa using hd
              | k + 4 =>
                rw [List.getElem?_eq_none (by omega)]
                simp
  · rintro ⟨a, b, d, hdrop, ha, hb, hd⟩
    have hlen := length_of_drop hdrop
    have h1 : inp[pos + 1]? = some a := by simpa using at_drop hdrop 1
    have h2 : inp[pos + 1 + 1]? = some b := by simpa using at_drop hdrop 2
    have h3 : inp[pos + 1 + 1 + 1]? = some d := by simpa using at_drop hdrop 3
    have h4 : inp[pos + 1 + 1 + 1 + 1]? = none := by simpa using at_drop hdrop 4
    obtain ⟨va, hva⟩ := Option.isSome_iff_exists.mp ha
    obtain ⟨vb, hvb⟩ := Option.isSome_iff_exists.mp hb
    obtain ⟨vd, hvd⟩ := Option.isSome_iff_exists.mp hd
    simp only [List.length_cons, List.length_nil] at hlen
    unfold stepU
    rw [if_neg (by omega)]
    simp only [hexLoop, h1, h2, h3, h4, hva, hvb, hvd]

theorem accept_ne_undefined (inp : List Nat) (lbl : Label) (pos : Nat) (l : Locals) :
    accept inp lbl pos l ≠ .undefined := by
  cases lbl
  case accept_number =>
    simp only [accept]
    split <;> exact fun h => by cases h
  all_goals exact fun h => by cases h

theorem finish_ne_undefined (inp : List Nat) (pos : Nat) (l : Locals) :
    finish inp pos l ≠ .undefined := by
  unfold finish
  split
  all_goals first
    | exact accept_ne_undefined _ _ _ _
    | exact fun h => by cases h

/-- The decoder reads outside the buffer only from a position it reaches right after a
backslash, at a `u` that three hexadecimal digits and the end of the buffer follow. -/
theorem Reaches.undefinedAt {loc : Locale} {inp : List Nat} (n : Nat) :
    ∀ (pos : Nat) (l : Locals),
      2 * (inp.length - pos) + (if l.state = .s0 then 1 else 2) ≤ n →
      Reaches loc inp pos l → decodeFrom loc inp pos l = .undefined →
      ∃ p l2, Reaches loc inp p l2 ∧ endsInHex inp p l2 := by
  induction n with
  | zero =>
    intro pos l hn
    split at hn <;> omega
  | succ n ih =>
    intro pos l hn hr h
    by_cases hend : pos = inp.length
    · subst hend
      rw [decodeFrom_end] at h
      exact absurd h (finish_ne_undefined _ _ _)
    · have hle := hr.le
      obtain ⟨c, hc⟩ := @getElem?_some_of_lt inp pos (by omega)
      have hpos := getElem?_lt hc
      rw [decodeFrom_step loc inp pos c l hc] at h
      by_cases hcall : callsAt c l = true
      · obtain ⟨f, hf, hstep⟩ := step_of_callsAt loc inp pos c l hcall
        have hl0 : l.state ≠ .s0 := by
          intro h0
          simp [callsAt, h0] at hcall
        rw [hstep] at h
        cases hat : json_decode_at loc inp pos with
        | ok x =>
          obtain ⟨q, v⟩ := x
          have hb := decodeLoop_bound loc inp _ pos _ q v hat
          have hq := hb.2.2 rfl
          rw [hat] at h
          simp only [afterCall] at h
          have hr2 : Reaches loc inp (q - 1 + 1) (f v) :=
            Reaches.pass hr hc (by rw [hstep, hat]; rfl)
          refine ih (q - 1 + 1) (f v) ?_ hr2 h
          have := hb.2.1
          rw [if_neg hl0] at hn
          split <;> omega
        | throw e2 => rw [hat] at h; cases h
        | undefined =>
          refine ih pos (Locals.init pos) ?_ (Reaches.call hr hc hcall) hat
          rw [if_neg hl0] at hn
          simp only [Locals.init, if_true]
          omega
        | outOfFuel => rw [hat] at h; cases h
      · have hcall2 : callsAt c l = false := by simpa using hcall
        have hb := step_bound loc inp (json_decode_at loc inp) pos c l hpos (fun q v hq => by
          have := decodeLoop_bound loc inp _ pos _ q v hq
          exact ⟨this.2.2 rfl, this.2.1⟩)
        cases hstep : step loc inp (json_decode_at loc inp) pos c l with
        | next p l2 =>
          rw [hstep] at h hb
          simp only at h
          refine ih (p + 1) l2 ?_ (Reaches.pass hr hc hstep) h
          have := hb.1
          have := hb.2
          split <;> split at hn <;> omega
        | goto lbl p l2 =>
          rw [hstep] at h
          exact absurd h (accept_ne_undefined _ _ _ _)
        | throw e2 => rw [hstep] at h; cases h
        | undefined =>
          rw [step_of_not_callsAt loc inp _ (fun _ => .outOfFuel) pos c l hcall2] at hstep
          have hd := step_definedOr loc inp (fun _ => .outOfFuel) pos c l
            (l.state = .s14 ∧ c = 117 ∧ stepU loc inp pos l = .undefined)
            (fun a b d => ⟨a, b, d⟩) (fun e => by cases e)
          rw [hstep] at hd
          obtain ⟨hs, h117, hu⟩ := hd
          subst h117
          exact ⟨pos, l, hr, hs, (stepU_undefined_iff loc inp pos 117 l hc).mp hu⟩
        | outOfFuel => rw [hstep] at h; cases h

theorem json_decode_cases (loc : Locale) (inp : List Nat) :
    json_decode loc inp
      = match json_decode_at loc inp 0 with
        | .ok (p, v) =>
          match trailing inp (inp.length - p) p with
          | none => .ok v
          | some e => .throw e
        | .throw e => .throw e
        | .undefined => .undefined
        | .outOfFuel => .outOfFuel := by
  unfold json_decode json_decode_into
  cases json_decode_at loc inp 0 with
  | ok x =>
    obtain ⟨p, v⟩ := x
    simp only
    cases trailing inp (inp.length - p) p <;> rfl
  | throw e => rfl
  | undefined => rfl
  | outOfFuel => rfl

/-- The top-level decoder reads outside the buffer exactly when it reaches, right after a
backslash, a `u` that three hexadecimal digits and the end of the buffer follow. -/
theorem json_decode_undefined_iff (loc : Locale) (inp : List Nat) :
    json_decode loc inp = .undefined ↔ ∃ pos l, Reaches loc inp pos l ∧ endsInHex inp pos l := by
  constructor
  · intro h
    have hat : json_decode_at loc inp 0 = .undefined := by
      rw [json_decode_cases] at h
      cases hd : json_decode_at loc inp 0 with
      | ok x =>
        obtain ⟨e, v⟩ := x
        rw [hd] at h
        simp only at h
        cases ht : trailing inp (inp.length - e) e <;> rw [ht] at h <;> cases h
      | throw e => rw [hd] at h; cases h
      | undefined => rfl
      | outOfFuel => rw [hd] at h; cases h
    rw [json_decode_at_eq] at hat
    exact Reaches.undefinedAt _ 0 (Locals.init 0) (Nat.le_refl _) Reaches.start hat
  · rintro ⟨pos, l, hr, hs, a, b, d, hdrop, ha, hb, hd⟩
    apply hr.undefined
    have hc : inp[pos]? = some 117 := by simpa using at_drop hdrop 0
    rw [decodeFrom_step loc inp pos 117 l hc]
    have hu := (stepU_undefined_iff loc inp pos 117 l hc).mpr ⟨a, b, d, hdrop, ha, hb, hd⟩
    obtain ⟨st, start, str, arr, obj, key⟩ := l
    simp only at hs
    subst hs
    have hstep : step loc inp (json_decode_at loc inp) pos 117 ⟨.s14, start, str, arr, obj, key⟩
        = stepU loc inp pos ⟨.s14, start, str, arr, obj, key⟩ := by
      simp [step]
    rw [hstep, hu]

/-- An exception that leaves the top-level decoder is a syntax error. -/
theorem json_decode_throw_syntax {loc : Locale} {inp : List Nat} {e : Exn}
    (h : json_decode loc inp = .throw e) : ∃ off msg, e = .syntaxAt off msg := by
  rw [json_decode_cases] at h
  cases hat : json_decode_at loc inp 0 with
  | ok x =>
    obtain ⟨q, v⟩ := x
    rw [hat] at h
    simp only at h
    have ht := trailing_eq inp (inp.drop q) q rfl
    rw [List.length_drop] at ht
    rw [ht] at h
    by_cases hws : ∀ c ∈ inp.drop q, isWs c = true
    · rw [if_pos hws] at h
      cases h
    · rw [if_neg hws] at h
      simp only [Result.throw.injEq] at h
      exact ⟨_, _, h.symm⟩
  | throw e2 =>
    rw [hat] at h
    simp only [Result.throw.injEq] at h
    subst h
    rw [json_decode_at_eq] at hat
    rcases Reaches.raisedAt _ 0 (Locals.init 0) (Nat.le_refl _) Reaches.start hat with
      h | h | h
    · obtain ⟨pos, c, l, hr, hc, hcall, hs⟩ := h
      rw [step_of_not_callsAt loc inp _ (fun _ => .outOfFuel) pos c l hcall] at hs
      have := step_syntaxOk loc inp (fun _ => .outOfFuel) pos c l hr.keyOk
        (fun e he => by cases he)
      rw [hs] at this
      exact this
    · obtain ⟨l, _, he⟩ := h
      exact ⟨_, _, he⟩
    · obtain ⟨pos, l, hr, he⟩ := h
      exact ⟨_, _, he⟩
  | undefined => rw [hat] at h; cases h
  | outOfFuel => rw [hat] at h; cases h

theorem json_decode_ne_outOfFuel (loc : Locale) (inp : List Nat) :
    json_decode loc inp ≠ .outOfFuel := by
  rw [json_decode_cases]
  cases hat : json_decode_at loc inp 0 with
  | ok x =>
    obtain ⟨q, v⟩ := x
    simp only
    cases trailing inp (inp.length - q) q <;> exact fun h => by cases h
  | throw e => exact fun h => by cases h
  | undefined => exact fun h => by cases h
  | outOfFuel => exact absurd hat (json_decode_at_ne_outOfFuel loc inp 0)

/-! ## Integers below ten to the fifteenth as numbers -/

theorem log2From_eq (k : Nat) : ∀ n, n ≤ k → log2From k n = Nat.log 2 n := by
  induction k with
  | zero =>
    intro n h
    have : n = 0 := by omega
    subst this
    simp [log2From]
  | succ k ih =>
    intro n h
    simp only [log2From]
    split
    · rename_i h2
      rw [Nat.log_of_lt h2]
    · rename_i h2
      have hlog := @Nat.log_of_one_lt_of_le 2 n (by decide) (by omega)
      rw [ih (n / 2) (by omega), hlog]

theorem log2_eq (n : Nat) : log2 n = Nat.log 2 n := log2From_eq n n (Nat.le_refl n)

theorem log2_spec {n : Nat} (h : 0 < n) : 2 ^ log2 n ≤ n ∧ n < 2 ^ (log2 n + 1) := by
  rw [log2_eq]
  exact ⟨Nat.pow_log_le_self 2 (by omega), Nat.lt_pow_succ_log_self (by decide) n⟩

theorem log2_unique {n e : Nat} (h1 : 2 ^ e ≤ n) (h2 : n < 2 ^ (e + 1)) : log2 n = e := by
  rw [log2_eq]
  exact Nat.log_eq_of_pow_le_of_lt_pow h1 h2

theorem log2_shift {n : Nat} (h : 0 < n) (k : Nat) : log2 (n * 2 ^ k) = log2 n + k := by
  obtain ⟨h1, h2⟩ := log2_spec h
  apply log2_unique
  · rw [Nat.pow_add]
    exact Nat.mul_le_mul_right _ h1
  · rw [show log2 n + k + 1 = (log2 n + 1) + k by omega, Nat.pow_add]
    exact Nat.mul_lt_mul_of_pos_right h2 (by positivity)

theorem log2_pow (k : Nat) : log2 (2 ^ k) = k :=
  log2_unique (Nat.le_refl _) (Nat.pow_lt_pow_right (by decide) (by omega))

theorem roundHalfEven_exact (m d : Nat) (hd : 0 < d) : roundHalfEven (m * d) d = m := by
  unfold roundHalfEven
  simp only [Nat.mul_mod_left, Nat.mul_zero]
  rw [if_neg (by omega), Nat.mul_div_cancel _ hd]

theorem pow10Le_scaled (x : Int) (N D : Nat) (hD : 0 < D) (hN : 0 < N) :
    pow10Le x (N * D) D = decide (x < 0 ∨ 10 ^ x.toNat ≤ N) := by
  unfold pow10Le
  by_cases hx : 0 ≤ x
  · rw [if_pos hx]
    have : ¬ x < 0 := by omega
    simp only [this, false_or]
    congr 1
    exact propext ⟨fun h => Nat.le_of_mul_le_mul_right h hD, fun h => Nat.mul_le_mul_right _ h⟩
  · rw [if_neg hx]
    have hlt : x < 0 := by omega
    simp only [hlt, true_or, decide_True, decide_eq_true_eq]
    calc D = 1 * D * 1 := by omega
      _ ≤ N * D * 10 ^ (-x).toNat :=
        Nat.mul_le_mul (Nat.mul_le_mul_right _ hN) (Nat.one_le_pow _ _ (by decide))

theorem dexpFrom_eq (n d : Nat) (x : Int)
    (hlow : ∀ y : Int, y ≤ x → pow10Le y n d = true) (hhigh : pow10Le (x + 1) n d = false) :
    ∀ (k : Nat) (x0 : Int), x0 ≤ x → x ≤ x0 + k → dexpFrom n d k x0 = x := by
  intro k
  induction k with
  | zero =>
    intro x0 h1 h2
    simp only [dexpFrom]
    omega
  | succ k ih =>
    intro x0 h1 h2
    simp only [dexpFrom]
    by_cases hx : x0 = x
    · subst hx
      rw [hhigh]
      simp
    · rw [hlow (x0 + 1) (by omega), if_pos rfl]
      exact ih (x0 + 1) (by omega) (by push_cast at h2 ⊢; omega)

theorem dexp_start (e x N : Nat) (h2 : 2 ^ e ≤ N) (h2' : N < 2 ^ (e + 1)) (h10 : 10 ^ x ≤ N)
    (h10' : N < 10 ^ (x + 1)) (hN : N < 10 ^ 15) :
    (((e : Int) - 1) * 30103) / 100000 - 1 ≤ (x : Int)
      ∧ (x : Int) ≤ (((e : Int) - 1) * 30103) / 100000 - 1 + 4 := by
  have he : e < 50 := by
    by_contra hge
    have : 2 ^ 50 ≤ 2 ^ e := Nat.pow_le_pow_right (by decide) (by omega)
    omega
  have hx : x < 15 := by
    by_contra hge
    have : 10 ^ 15 ≤ 10 ^ x := Nat.pow_le_pow_right (by decide) (by omega)
    omega
  interval_cases e <;> interval_cases x <;> omega

theorem length_decDigits (m k : Nat) : (decDigits m k).length = k := by
  induction k with
  | zero => rfl
  | succ k ih => simp [decDigits, ih]

theorem decDigits_zeros (m j : Nat) :
    ∀ i, i ≤ j → decDigits (m * 10 ^ j) i = List.replicate i 48 := by
  intro i
  induction i with
  | zero => intro _; rfl
  | succ i ih =>
    intro h
    simp only [decDigits, List.replicate_succ, ih (by omega)]
    have hj : 10 ^ j = 10 ^ i * 10 ^ (j - i - 1 + 1) := by
      rw [← Nat.pow_add]
      congr 1
      omega
    have : m * 10 ^ j / 10 ^ i % 10 = 0 := by
      rw [hj, ← Nat.mul_assoc, Nat.mul_comm m, Nat.mul_assoc,
        Nat.mul_div_cancel_left _ (by positivity), Nat.pow_succ, ← Nat.mul_assoc]
      exact Nat.mul_mod_left _ _
    rw [this]

theorem decDigits_shift (m j : Nat) :
    ∀ k, decDigits (m * 10 ^ j) (k + j) = decDigits m k ++ List.replicate j 48 := by
  intro k
  induction k with
  | zero => simpa [decDigits] using decDigits_zeros m j j (Nat.le_refl j)
  | succ k ih =>
    rw [show k + 1 + j = (k + j) + 1 by omega]
    simp only [decDigits, ih, List.cons_append]
    congr 2
    rw [Nat.pow_add, Nat.mul_div_mul_right _ _ (by positivity)]

theorem stripZeros_zeros (j : Nat) : stripZeros (List.replicate j 48) = [] := by
  unfold stripZeros
  rw [List.reverse_replicate]
  have : (List.replicate j 48).dropWhile (fun x => decide (x = 48)) = [] := by
    induction j with
    | zero => rfl
    | succ j ih => simp [List.replicate_succ, List.dropWhile_cons, ih]
  rw [this]
  rfl

theorem digitsVal_decDigits (m k : Nat) : digitsVal (decDigits m k) = m % 10 ^ k := by
  have h : ∀ (k acc : Nat),
      (decDigits m k).foldl (fun a c => 10 * a + (c - 48)) acc = acc * 10 ^ k + m % 10 ^ k := by
    intro k
    induction k with
    | zero =>
      intro acc
      simp [decDigits, Nat.mod_one]
    | succ k ih =>
      intro acc
      simp only [decDigits, List.foldl_cons, ih]
      rw [Nat.mod_pow_succ, Nat.add_sub_cancel_left]
      ring
  simpa using h k 0

/-- The first of the digits of `m`, when there are as many as `m` has, is not a zero. -/
theorem decDigits_head (m x : Nat) (h1 : 10 ^ x ≤ m) (h2 : m < 10 ^ (x + 1)) :
    ∃ d, decDigits m (x + 1) = d :: decDigits m x ∧ isDigit19 d = true := by
  refine ⟨48 + m / 10 ^ x % 10, rfl, ?_⟩
  have hq1 : 1 ≤ m / 10 ^ x := (Nat.le_div_iff_mul_le (by positivity)).mpr (by omega)
  have hq2 : m / 10 ^ x < 10 := by
    rw [Nat.div_lt_iff_lt_mul (by positivity)]
    rw [Nat.pow_succ] at h2
    omega
  rw [Nat.mod_eq_of_lt hq2]
  simp only [isDigit19, Bool.decide_and, Bool.and_eq_true, decide_eq_true_eq]
  omega

/-- The decimal exponent of a positive integer below ten to the fifteenth. -/
theorem exists_dexp (N : Nat) (h0 : 0 < N) (hN : N < 10 ^ 15) :
    ∃ x, x < 15 ∧ 10 ^ x ≤ N ∧ N < 10 ^ (x + 1) := by
  refine ⟨Nat.log 10 N, ?_, Nat.pow_log_le_self 10 (by omega),
    Nat.lt_pow_succ_log_self (by decide) N⟩
  exact Nat.log_lt_of_lt_pow (by omega) hN

theorem dexp_scaled (N D k x : Nat) (hD : D = 2 ^ k) (h10 : 10 ^ x ≤ N)
    (h10' : N < 10 ^ (x + 1)) (hN : N < 10 ^ 15) : dexp (N * D) D = (x : Int) := by
  have h0 : 0 < N := Nat.lt_of_lt_of_le (by positivity) h10
  have hDpos : 0 < D := by rw [hD]; positivity
  obtain ⟨h2, h2'⟩ := log2_spec h0
  have hst := dexp_start (log2 N) x N h2 h2' h10 h10' hN
  unfold dexp
  have hl1 : log2 (N * D) = log2 N + k := by rw [hD]; exact log2_shift h0 k
  have hl2 : log2 D = k := by rw [hD]; exact log2_pow k
  rw [hl1, hl2]
  have he : ((log2 N + k : Nat) : Int) - (k : Int) - 1 = (log2 N : Int) - 1 := by
    push_cast
    omega
  rw [he]
  apply dexpFrom_eq
  · intro y hy
    rw [pow10Le_scaled y N D hDpos h0]
    simp only [decide_eq_true_eq]
    by_cases hy0 : y < 0
    · exact Or.inl hy0
    · refine Or.inr (Nat.le_trans (Nat.pow_le_pow_right (by decide) ?_) h10)
      omega
  · rw [pow10Le_scaled _ N D hDpos h0]
    simp only [decide_eq_false_iff_not, not_or, not_lt, not_le]
    refine ⟨by omega, ?_⟩
    have : ((x : Int) + 1).toNat = x + 1 := by omega
    rw [this]
    exact h10'
  · exact hst.1
  · exact hst.2

/-- The `%.15g` conversion of the exact quotient `N`, an integer below ten to the fifteenth:
its decimal digits. -/
theorem fmtMag_int (N D k x : Nat) (hD : D = 2 ^ k) (h10 : 10 ^ x ≤ N)
    (h10' : N < 10 ^ (x + 1)) (hN : N < 10 ^ 15) :
    fmtMag 15 (N * D) D = decDigits N (x + 1) := by
  have hDpos : 0 < D := by rw [hD]; positivity
  have hx : x < 15 := by
    by_contra hge
    have : 10 ^ 15 ≤ 10 ^ x := Nat.pow_le_pow_right (by decide) (by omega)
    omega
  unfold fmtMag
  simp only [dexp_scaled N D k x hD h10 h10' hN]
  have hs : scaledDigits 15 (x : Int) (N * D) D = N * 10 ^ (14 - x) := by
    unfold scaledDigits
    rw [if_pos (by omega)]
    have : (((15 : Nat) : Int) - 1 - (x : Int)).toNat = 14 - x := by omega
    rw [this, Nat.mul_right_comm]
    exact roundHalfEven_exact _ _ hDpos
  rw [hs]
  have hlt : N * 10 ^ (14 - x) < 10 ^ 15 := by
    calc N * 10 ^ (14 - x) < 10 ^ (x + 1) * 10 ^ (14 - x) :=
          Nat.mul_lt_mul_of_pos_right h10' (by positivity)
      _ = 10 ^ 15 := by rw [← Nat.pow_add]; congr 1; omega
  rw [if_neg (by omega)]
  unfold layout
  simp only
  rw [if_pos (by omega), if_pos (by omega)]
  have hd : decDigits (N * 10 ^ (14 - x)) 15
      = decDigits N (x + 1) ++ List.replicate (14 - x) 48 := by
    have := decDigits_shift N (14 - x) (x + 1)
    rwa [show x + 1 + (14 - x) = 15 by omega] at this
  have ht : ((x : Int)).toNat + 1 = x + 1 := by omega
  rw [hd, ht, List.take_left' (length_decDigits _ _), List.drop_left' (length_decDigits _ _)]
  unfold fracPart
  rw [if_pos (stripZeros_zeros _), List.append_nil]

theorem decimalOf_digits (ds : List Nat) (hne : ds ≠ []) (hds : ∀ x ∈ ds, isDigit x = true) :
    decimalOf ds = some (digitsVal ds, 1, ds.length) := by
  have h1 : ds.takeWhile isDigit = ds := by
    simpa using takeWhile_isDigit_append ds [] hds (by simp)
  unfold decimalOf
  simp only [h1, List.drop_length, List.head?_nil, hne, false_and, if_false]
  simp [expOf]

theorem strtod_digits (s : Bool) (c : Nat) (r : List Nat)
    (hds : ∀ x ∈ c :: r, isDigit x = true) :
    (strtod ((if s then [45] else []) ++ c :: r)).1
      = roundToDouble s (digitsVal (c :: r)) 1 := by
  have hc := hds c (List.mem_cons_self _ _)
  have hcn : isspace c = false ∧ c ≠ 45 ∧ c ≠ 43 := by
    simp only [isDigit, Bool.decide_and, Bool.and_eq_true, decide_eq_true_eq] at hc
    simp only [isspace, Bool.decide_or, Bool.decide_and, Bool.or_eq_false_iff,
      decide_eq_false_iff_not, Bool.and_eq_false_imp, decide_eq_true_eq]
    omega
  have hhex : hexFloatOf (c :: r) = none := by
    unfold hexFloatOf
    split
    · rename_i x r2 heq
      cases heq
      have hx := hds x (by simp)
      simp only [isDigit, Bool.decide_and, Bool.and_eq_true, decide_eq_true_eq] at hx
      have h1 : ¬ (x = 120 ∨ x = 88) := by omega
      simp [h1]
    · rfl
  have hdec := decimalOf_digits (c :: r) (by simp) hds
  have hsign0 : signOf (c :: r) = (false, 0) := by
    unfold signOf
    split
    · rename_i h; cases h; exact absurd rfl hcn.2.1
    · rename_i h; cases h; exact absurd rfl hcn.2.2
    · rfl
  cases s
  · simp only [Bool.false_eq_true, if_false, List.nil_append, strtod, List.takeWhile_cons,
      hcn.1, List.length_nil, List.drop_zero, hsign0, hhex, Option.orElse, hdec]
  · have hws : isspace 45 = false := by decide
    have hsign : signOf (45 :: c :: r) = (true, 1) := rfl
    simp only [if_true, List.singleton_append, strtod, List.takeWhile_cons, hws,
      Bool.false_eq_true, if_false, List.length_nil, List.drop_zero, hsign,
      List.drop_succ_cons, hhex, Option.orElse, hdec]

theorem roundToDouble_int (s : Bool) (N : Nat) (hN : N < 2 ^ 52) :
    roundToDouble s N 1 = Double.ofInt s N := by
  unfold roundToDouble Double.ofInt Double.ofNat
  by_cases h0 : N = 0
  · simp [h0]
  · rw [if_neg h0, if_neg h0]
    have hpos : 0 < N := by omega
    obtain ⟨h1, h2⟩ := log2_spec hpos
    have he : log2 N < 52 := by
      by_contra hge
      have : 2 ^ 52 ≤ 2 ^ log2 N := Nat.pow_le_pow_right (by decide) (by omega)
      omega
    have hl1 : log2 1 = 0 := by decide
    have hp : pow2Le ((log2 N : Int) - (0 : Nat)) N 1 = true := by
      unfold pow2Le
      rw [if_pos (by omega)]
      have : ((log2 N : Int) - ((0 : Nat) : Int)).toNat = log2 N := by omega
      rw [this]
      simpa using h1
    simp only [hl1, hp, if_true]
    have hq : max ((log2 N : Int) - ((0 : Nat) : Int) - 52) (-1074) = (log2 N : Int) - 52 := by
      omega
    rw [hq]
    simp only [if_neg (show ¬ (0 ≤ (log2 N : Int) - 52) by omega)]
    have hn : (-((log2 N : Int) - 52)).toNat = 52 - log2 N := by omega
    have hr : roundHalfEven (N * 2 ^ (52 - log2 N)) 1 = N * 2 ^ (52 - log2 N) := by
      have := roundHalfEven_exact (N * 2 ^ (52 - log2 N)) 1 (by decide)
      rwa [Nat.mul_one] at this
    have ht : ((log2 N : Int) - 52 + 1074).toNat = log2 N + 1022 := by omega
    rw [hn, hr, ht]
    have hlo : 2 ^ 52 ≤ N * 2 ^ (52 - log2 N) := by
      calc 2 ^ 52 = 2 ^ log2 N * 2 ^ (52 - log2 N) := by
            rw [← Nat.pow_add]; congr 1; omega
        _ ≤ N * 2 ^ (52 - log2 N) := Nat.mul_le_mul_right _ h1
    have hhi : N * 2 ^ (52 - log2 N) < 2 ^ 53 := by
      calc N * 2 ^ (52 - log2 N) < 2 ^ (log2 N + 1) * 2 ^ (52 - log2 N) :=
            Nat.mul_lt_mul_of_pos_right h2 (by positivity)
        _ = 2 ^ 53 := by rw [← Nat.pow_add]; congr 1; omega
    generalize N * 2 ^ (52 - log2 N) = m at hlo hhi
    have hdiv : ((log2 N + 1022) * 2 ^ 52 + m) / 2 ^ 52 = log2 N + 1023 := by
      norm_num at hlo hhi ⊢
      omega
    have hmod : ((log2 N + 1022) * 2 ^ 52 + m) % 2 ^ 52 = m - 2 ^ 52 := by
      norm_num at hlo hhi ⊢
      omega
    rw [hdiv, hmod, if_neg (show ¬ (2047 ≤ log2 N + 1023) by omega)]
    congr 1
    omega

/-- The double of a positive integer below `2 ^ 52` is a normal number whose magnitude is
the integer. -/
theorem Double.ofInt_pos (s : Bool) (N : Nat) (h0 : 0 < N) (hN : N < 2 ^ 52) :
    (Double.ofInt s N).isNaN = false ∧ (Double.ofInt s N).isInf = false
      ∧ (Double.ofInt s N).isZero = false
      ∧ (Double.ofInt s N).num = N * 2 ^ (52 - log2 N)
      ∧ (Double.ofInt s N).den = 2 ^ (52 - log2 N) := by
  obtain ⟨h1, h2⟩ := log2_spec h0
  have he : log2 N < 52 := by
    by_contra hge
    have : 2 ^ 52 ≤ 2 ^ log2 N := Nat.pow_le_pow_right (by decide) (by omega)
    omega
  have hlo : 2 ^ 52 ≤ N * 2 ^ (52 - log2 N) := by
    calc 2 ^ 52 = 2 ^ log2 N * 2 ^ (52 - log2 N) := by
          rw [← Nat.pow_add]; congr 1; omega
      _ ≤ N * 2 ^ (52 - log2 N) := Nat.mul_le_mul_right _ h1
  have hof : Double.ofInt s N = ⟨s, 1023 + log2 N, N * 2 ^ (52 - log2 N) - 2 ^ 52⟩ := by
    unfold Double.ofInt Double.ofNat
    rw [if_neg (by omega)]
  rw [hof]
  refine ⟨?_, ?_, ?_, ?_, ?_⟩
  · simp only [Double.isNaN, Bool.decide_and, Bool.and_eq_false_imp, decide_eq_true_eq]
    omega
  · simp only [Double.isInf, Bool.decide_and, Bool.and_eq_false_imp, decide_eq_true_eq]
    omega
  · simp only [Double.isZero, Bool.decide_and, Bool.and_eq_false_imp, decide_eq_true_eq]
    omega
  · simp only [Double.num, Double.sig]
    rw [if_neg (by omega), show max (1023 + log2 N) 1 - 1075 = 0 by omega, Nat.pow_zero,
      Nat.mul_one]
    omega
  · simp only [Double.den]
    congr 1
    omega

/-- The text `json_encode` makes of an integer below ten to the fifteenth: a `-` for a
negative number, then the decimal digits of the magnitude. -/
theorem fmt_15g_int (s : Bool) (N : Nat) (hN : N < 10 ^ 15) :
    ∃ x, N < 10 ^ (x + 1) ∧ (x = 0 ∨ 10 ^ x ≤ N) ∧
      fmt_15g (Double.ofInt s N) = (if s then [45] else []) ++ decDigits N (x + 1) := by
  by_cases h0 : N = 0
  · subst h0
    refine ⟨0, by decide, Or.inl rfl, ?_⟩
    cases s <;> decide
  · have hpos : 0 < N := by omega
    have h52 : N < 2 ^ 52 := by
      have : (10 : Nat) ^ 15 < 2 ^ 52 := by norm_num
      omega
    obtain ⟨x, _, hx1, hx2⟩ := exists_dexp N hpos hN
    obtain ⟨hnan, hinf, hzero, hnum, hden⟩ := Double.ofInt_pos s N hpos h52
    refine ⟨x, hx2, Or.inr hx1, ?_⟩
    unfold fmt_15g fmt_g
    rw [hnan, hinf, hzero, hnum, hden]
    simp only [Bool.false_eq_true, if_false]
    rw [fmtMag_int N _ (52 - log2 N) x rfl hx1 hx2 hN]
    rfl

/-- A text of the number grammar is decoded to the Number that `strtod` converts from it. -/
theorem json_decode_specNumber (loc : Locale) (t : List Nat) (hs : specNumber t) :
    json_decode loc t = .ok (.number (strtod t).1) := by
  have hhead : ∀ c ∈ t.head?, numberByte c = true := by
    obtain ⟨sg, ip, fp, ep, rfl, hsg, hip, _, _⟩ := hs
    intro c hc
    rcases hsg with rfl | rfl
    · rcases hip with rfl | ⟨d, ds, rfl, hd, _⟩
      · simp only [List.nil_append, List.singleton_append, List.head?_cons, Option.mem_def,
          Option.some.injEq] at hc
        subst hc
        decide
      · simp only [List.nil_append, List.cons_append, List.head?_cons, Option.mem_def,
          Option.some.injEq] at hc
        subst hc
        have := (isDigit_of_isDigit19 hd).1
        simp [numberByte, this]
    · simp only [List.singleton_append, List.head?_cons, Option.mem_def,
        Option.some.injEq] at hc
      subst hc
      decide
  have hout := decodeFrom_number loc t 0 (Locals.init 0) t (List.drop_zero t) (Nat.zero_le _) rfl
    hhead
  rw [← json_decode_at_eq] at hout
  have hlen := strtod_length t hs
  have hne : t.length ≠ 0 := by
    obtain ⟨sg, ip, fp, ep, rfl, _, hip, _, _⟩ := hs
    rcases hip with rfl | ⟨d, ds, rfl, _⟩ <;> simp
  rw [(specNumber_iff t).mp hs] at hout
  obtain ⟨p, hp, hd, hres⟩ := hout
  have hpl : p = t.length := by
    have := length_of_drop hd
    simp only [List.length_nil] at this
    omega
  subst hpl
  simp only [json_decode, json_decode_into, hres, accept, Locals.init, List.drop_zero,
    Nat.sub_zero, List.take_length, hlen, hne, if_false, Nat.sub_self, trailing]

/-- The decoder gives back every integer below ten to the fifteenth from its encoding. -/
theorem json_decode_encode_int (loc : Locale) (s : Bool) (N : Nat) (hN : N < 10 ^ 15) :
    json_decode loc (json_encode (.number (Double.ofInt s N)))
      = .ok (.number (Double.ofInt s N)) := by
  obtain ⟨x, hx2, hx1, hfmt⟩ := fmt_15g_int s N hN
  have h52 : N < 2 ^ 52 := by
    have : (10 : Nat) ^ 15 < 2 ^ 52 := by norm_num
    omega
  have henc : json_encode (.number (Double.ofInt s N))
      = (if s then [45] else []) ++ decDigits N (x + 1) := by
    simp only [json_encode, json_encode_number, hfmt]
  have hdig : ∀ c ∈ decDigits N (x + 1), isDigit c = true := by
    intro c hc
    have := mem_decDigits _ _ _ hc
    simp only [isDigit, Bool.decide_and, Bool.and_eq_true, decide_eq_true_eq]
    exact this
  have hspec : specNumber ((if s then [45] else []) ++ decDigits N (x + 1)) := by
    refine ⟨if s then [45] else [], decDigits N (x + 1), [], [], by simp, ?_, ?_, Or.inl rfl,
      Or.inl rfl⟩
    · cases s
      · exact Or.inl rfl
      · exact Or.inr rfl
    · rcases hx1 with rfl | hx1
      · by_cases h0 : N = 0
        · subst h0
          exact Or.inl rfl
        · obtain ⟨d, hd, h19⟩ := decDigits_head N 0 (by simp; omega) hx2
          exact Or.inr ⟨d, _, hd, h19, fun y hy => by simp [decDigits] at hy⟩
      · obtain ⟨d, hd, h19⟩ := decDigits_head N x hx1 hx2
        refine Or.inr ⟨d, _, hd, h19, fun y hy => ?_⟩
        have := mem_decDigits _ _ _ hy
        simp only [isDigit, Bool.decide_and, Bool.and_eq_true, decide_eq_true_eq]
        exact this
  rw [henc, json_decode_specNumber loc _ hspec]
  have hval : (strtod ((if s then [45] else []) ++ decDigits N (x + 1))).1
      = roundToDouble s N 1 := by
    have hcons : decDigits N (x + 1) = (48 + N / 10 ^ x % 10) :: decDigits N x := rfl
    have := strtod_digits s (48 + N / 10 ^ x % 10) (decDigits N x) (by rw [← hcons]; exact hdig)
    rw [← hcons, digitsVal_decDigits, Nat.mod_eq_of_lt hx2] at this
    exact this
  rw [hval, roundToDouble_int s N h52]

/-! ## Decoding an encoded value -/

theorem JSONObject.sorted_nodup {o : JSONObject} (h : JSONObject.sorted o) :
    (o.map Prod.fst).Nodup := by
  rw [JSONObject.sorted_iff_keys] at h
  exact h.imp fun hlt heq => by
    rw [heq, string_lt_irrefl] at hlt
    exact Bool.false_ne_true hlt

/-- Storing the entries of a map, in their order, into an empty map gives the map. -/
theorem JSONObject.ofStores_self {o : JSONObject} (h : JSONObject.sorted o) :
    JSONObject.ofStores o = o :=
  JSONObject.eq_of_perm_of_sorted (JSONObject.ofStores_perm o (JSONObject.sorted_nodup h))
    (JSONObject.ofStores_sorted o) h

theorem json_encode_array_eq (a : List JSON) :
    json_encode (.array a) = 91 :: (List.intercalate [44] (a.map json_encode) ++ [93]) := by
  simp only [json_encode, json_encode_elements_true, List.singleton_append, List.cons_append,
    List.nil_append]

theorem json_encode_object_eq (o : List (List Nat × JSON)) :
    json_encode (.object o)
      = 123 :: (List.intercalate [44]
          ((o.map fun kv => (json_encode_string kv.1, json_encode kv.2)).map memberText)
          ++ [125]) := by
  have hm : (o.map fun kv => (json_encode_string kv.1, json_encode kv.2)).map memberText
      = o.map fun kv => json_encode_string kv.1 ++ [58] ++ json_encode kv.2 := by
    rw [List.map_map]
    apply List.map_congr_left
    intro kv _
    simp [memberText]
  rw [hm]
  simp only [json_encode, json_encode_members_true, List.singleton_append, List.cons_append,
    List.nil_append]

mutual
/-- The buffered decoder gives back a value from its encoding when the objects inside it
are maps and the Strings, keys and Numbers are as `JSON.plain` says. -/
theorem json_decode_encode_plain (loc : Locale) :
    ∀ v : JSON, v.wf → v.plain → json_decode loc (json_encode v) = .ok v
  | .null, _, _ => by cases loc <;> decide!
  | .boolean b, _, _ => by cases loc <;> cases b <;> decide!
  | .number d, _, hp => by
    obtain ⟨N, hN, hd⟩ := hp
    rw [hd]
    exact json_decode_encode_int loc _ N hN
  | .string s, _, hp => json_decode_encode_string loc s hp
  | .array a, hw, hp => by
    rw [json_encode_array_eq]
    exact json_decode_array loc _ _ (json_decode_encode_plainArray loc a hw hp)
  | .object o, hw, hp => by
    rw [json_encode_object_eq]
    have h := json_decode_object loc _ _ (json_decode_encode_plainMember loc o hw.2 hp)
    rw [JSONObject.ofStores_self hw.1] at h
    exact h
theorem json_decode_encode_plainArray (loc : Locale) :
    ∀ a : List JSON, JSON.wfArray a → JSON.plainArray a →
      List.Forall₂ (fun t x => json_decode loc t = .ok x) (a.map json_encode) a
  | [], _, _ => List.Forall₂.nil
  | x :: xs, hw, hp =>
    List.Forall₂.cons (json_decode_encode_plain loc x hw.1 hp.1)
      (json_decode_encode_plainArray loc xs hw.2 hp.2)
theorem json_decode_encode_plainMember (loc : Locale) :
    ∀ o : List (List Nat × JSON), JSON.wfMember o → JSON.plainMember o →
      List.Forall₂ (fun m kv => json_decode loc m.1 = .ok (.string kv.1) ∧
          json_decode loc m.2 = .ok kv.2)
        (o.map fun kv => (json_encode_string kv.1, json_encode kv.2)) o
  | [], _, _ => List.Forall₂.nil
  | (k, x) :: xs, hw, hp =>
    List.Forall₂.cons ⟨json_decode_encode_string loc k hp.1,
        json_decode_encode_plain loc x hw.1 hp.2.1⟩
      (json_decode_encode_plainMember loc xs hw.2 hp.2.2)
end

theorem Double.smallInt_not_nan {d : Double} (h : Double.smallInt d) : d.isNaN = false := by
  obtain ⟨N, hN, hd⟩ := h
  rw [hd]
  by_cases h0 : N = 0
  · subst h0
    simp [Double.ofInt, Double.ofNat, Double.isNaN]
  · have h52 : N < 2 ^ 52 := by
      have : (10 : Nat) ^ 15 < 2 ^ 52 := by norm_num
      omega
    exact (Double.ofInt_pos _ N (by omega) h52).1

mutual
theorem JSON.plain_hasNaN : ∀ v : JSON, v.plain → v.hasNaN = false
  | .null, _ => rfl
  | .boolean _, _ => rfl
  | .number d, h => by
    simp only [JSON.hasNaN]
    exact Double.smallInt_not_nan h
  | .string _, _ => rfl
  | .array a, h => by
    simp only [JSON.hasNaN]
    exact JSON.plainArray_anyNaN a h
  | .object o, h => by
    simp only [JSON.hasNaN]
    exact JSON.plainMember_anyNaN o h
theorem JSON.plainArray_anyNaN : ∀ a : List JSON, JSON.plainArray a → JSON.anyNaN a = false
  | [], _ => rfl
  | x :: xs, h => by
    simp only [JSON.anyNaN, JSON.plain_hasNaN x h.1, JSON.plainArray_anyNaN xs h.2,
      Bool.or_self]
theorem JSON.plainMember_anyNaN : ∀ o : List (List Nat × JSON), JSON.plainMember o →
    JSON.anyNaNMember o = false
  | [], _ => rfl
  | (k, x) :: xs, h => by
    simp only [JSON.anyNaNMember, JSON.plain_hasNaN x h.2.1, JSON.plainMember_anyNaN xs h.2.2,
      Bool.or_self]
end

/-! ## The offset printed in front of a syntax error -/

theorem Step.startOk_ite {l : Locals} {c : Prop} [Decidable c] {a b : Step}
    (ha : a.startOk l) (hb : b.startOk l) : (if c then a else b).startOk l := by
  split <;> assumption

theorem stepU_startOk (loc : Locale) (inp : List Nat) (pos : Nat) (l : Locals) :
    (stepU loc inp pos l).startOk l := by
  unfold stepU
  split
  · trivial
  · split
    · trivial
    · split
      · trivial
      · split <;> exact Nat.le_succ _

theorem afterCall_startOk {l : Locals} (r : Result (Nat × JSON)) (f : Nat → JSON → Locals)
    (hf : ∀ p v, (f p v).start ≤ l.start + 1) :
    (afterCall r fun p v => .next (p - 1) (f p v)).startOk l := by
  unfold afterCall
  split
  · exact hf _ _
  · trivial
  · trivial
  · trivial

/-- A loop pass moves the start of the token by one position at most. -/
theorem step_startOk (loc : Locale) (inp : List Nat) (call : Nat → Result (Nat × JSON))
    (pos c : Nat) (l : Locals) : (step loc inp call pos c l).startOk l := by
  obtain ⟨st, start, str, arr, obj, key⟩ := l
  cases st
  all_goals simp only [step]
  all_goals repeat' with_reducible apply Step.startOk_ite
  all_goals first
    | trivial
    | exact Nat.le_succ _
    | exact Nat.le_refl _
    | exact stepU_startOk _ _ _ _
    | exact afterCall_startOk _ _ (fun _ _ => Nat.le_succ _)
    | skip
  · split
    · exact afterCall_startOk _ _ (fun _ _ => Nat.le_succ _)
    · trivial

/-- The start of the token is never after the position of the loop. -/
theorem Reaches.start_le {loc : Locale} {inp : List Nat} {pos : Nat} {l : Locals}
    (h : Reaches loc inp pos l) : l.start ≤ pos := by
  induction h with
  | start => exact Nat.le_refl _
  | @pass pos c p l l2 hr hc hs ih =>
    have hpos := getElem?_lt hc
    have hb := step_bound loc inp (json_decode_at loc inp) pos c l hpos (fun q v hq => by
      have := decodeLoop_bound loc inp _ pos _ q v hq
      exact ⟨this.2.2 rfl, this.2.1⟩)
    have hst := step_startOk loc inp (json_decode_at loc inp) pos c l
    rw [hs] at hb hst
    have h1 : l2.start ≤ l.start + 1 := hst
    have h2 := hb.1
    omega
  | call _ _ _ ih => exact Nat.le_refl _

/-- Where the offset of a syntax error of the top-level call comes from. -/
theorem json_decode_errorSite {loc : Locale} {inp : List Nat} {off : Nat} {msg : String}
    (h : json_decode loc inp = .throw (.syntaxAt off msg)) : errorSite loc inp off msg := by
  unfold json_decode json_decode_into at h
  cases hat : json_decode_at loc inp 0 with
  | ok x =>
    obtain ⟨e, v⟩ := x
    rw [hat] at h
    simp only at h
    have hb := (decodeLoop_bound loc inp _ 0 _ e v hat).2.1
    have ht := trailing_eq inp (inp.drop e) e rfl
    rw [List.length_drop] at ht
    rw [ht] at h
    by_cases hws : ∀ c ∈ inp.drop e, isWs c = true
    · rw [if_pos hws] at h
      cases h
    · rw [if_neg hws] at h
      simp only [Result.throw.injEq, Exn.syntaxAt.injEq] at h
      refine Or.inr (Or.inr (Or.inr ⟨h.2.symm, ?_, e, v, hat, h.1.symm⟩))
      rw [← h.1]
      have hlt : ((inp.drop e).takeWhile isWs).length < (inp.drop e).length := by
        by_contra hge
        apply hws
        intro c hc
        have hall : (inp.drop e).takeWhile isWs = inp.drop e := by
          apply List.IsPrefix.eq_of_length_le (List.takeWhile_prefix _)
          omega
        rw [← hall] at hc
        exact List.mem_takeWhile_imp hc
      rw [List.length_drop] at hlt
      omega
  | throw e =>
    rw [hat] at h
    simp only [Result.throw.injEq] at h
    subst h
    rw [json_decode_at_eq] at hat
    rcases Reaches.raisedAt _ 0 (Locals.init 0) (Nat.le_refl _) Reaches.start hat with
      h | h | h
    · obtain ⟨pos, c, l, hr, hc, hcall, hs⟩ := h
      exact Or.inl ⟨pos, c, l, hr, hc, hcall, hs, step_throw_offset hcall hs⟩
    · obtain ⟨l, _, he⟩ := h
      simp only [Exn.syntaxAt.injEq] at he
      exact Or.inr (Or.inl he)
    · obtain ⟨pos, l, hr, he⟩ := h
      simp only [Exn.syntaxAt.injEq] at he
      exact Or.inr (Or.inr (Or.inl ⟨he.2, pos, l, hr, he.1⟩))
  | undefined => rw [hat] at h; cases h
  | outOfFuel => rw [hat] at h; cases h

/-- The offset of a syntax error of the top-level call is a position of the buffer, or its
length. -/
theorem errorSite_le {loc : Locale} {inp : List Nat} {off : Nat} {msg : String}
    (h : errorSite loc inp off msg) : off ≤ inp.length := by
  rcases h with h | h | h | h
  · obtain ⟨pos, c, l, _, hc, _, _, ho⟩ := h
    have := getElem?_lt hc
    omega
  · omega
  · obtain ⟨_, pos, l, hr, ho⟩ := h
    have := hr.start_le
    have := hr.le
    omega
  · omega

/-- For an offset below `2 ^ 31` the conversion `%d` prints the offset. -/
theorem fmt_d_small {v : Nat} (h : v < 2 ^ 31) : fmt_d v = decNat v := by
  unfold fmt_d
  have h1 : v % 2 ^ 32 = v := Nat.mod_eq_of_lt (by omega)
  simp only [h1]
  rw [if_pos h]

theorem fmt_d_known_values :
    fmt_d 0 = ascii "0" ∧
    fmt_d 3 = ascii "3" ∧
    fmt_d 2147483647 = ascii "2147483647" ∧
    fmt_d 2147483648 = ascii "-2147483648" ∧
    fmt_d 3000000000 = ascii "-1294967296" ∧
    fmt_d 4294967301 = ascii "5" := by
  decide!

/-! ## The buffered decoder on a call stack of a given size -/

theorem digitsVal_foldl (l : List Nat) (a : Nat) :
    l.foldl (fun a c => 10 * a + (c - 48)) a = a * 10 ^ l.length + digitsVal l := by
  unfold digitsVal
  induction l generalizing a with
  | nil => simp
  | cons c t ih =>
    simp only [List.foldl_cons, List.length_cons]
    rw [ih (10 * a + (c - 48)), ih (10 * 0 + (c - 48))]
    ring

theorem digitsVal_decNatFrom (k : Nat) :
    ∀ (m : Nat) (acc : List Nat), m < k →
      digitsVal (decNatFrom k m acc) = m * 10 ^ acc.length + digitsVal acc := by
  induction k with
  | zero => intro m acc h; omega
  | succ k ih =>
    intro m acc h
    simp only [decNatFrom]
    split
    · rename_i hm
      have := digitsVal_foldl acc (10 * 0 + (48 + m - 48))
      simp only [digitsVal, List.foldl_cons] at this ⊢
      rw [this]
      simp
    · rename_i hm
      rw [ih (m / 10) _ (by omega)]
      have := digitsVal_foldl acc (10 * 0 + (48 + m % 10 - 48))
      simp only [digitsVal, List.foldl_cons, List.length_cons] at this ⊢
      rw [this]
      simp only [Nat.mul_zero, Nat.zero_add, Nat.add_sub_cancel_left]
      have hm2 : m = 10 * (m / 10) + m % 10 := (Nat.div_add_mod m 10).symm
      generalize m / 10 = q at hm2 ⊢
      generalize m % 10 = r at hm2 ⊢
      subst hm2
      ring

/-- The digits `decNat` writes are those of the number. -/
theorem digitsVal_decNat (m : Nat) : digitsVal (decNat m) = m := by
  have := digitsVal_decNatFrom (m + 1) m [] (Nat.lt_succ_self m)
  simpa [decNat, digitsVal] using this

theorem decodeLoopS_succ (loc : Locale) (inp : List Nat) (frames fuel pos : Nat) (l : Locals) :
    decodeLoopS loc inp frames (fuel + 1) pos l
      = if pos = inp.length then some (finish inp pos l)
        else
          match inp[pos]? with
          | none => some .undefined
          | some c =>
            if callsAt c l then
              match frames with
              | 0 => none
              | k + 1 =>
                match decodeLoopS loc inp k fuel pos (Locals.init pos) with
                | none => none
                | some r =>
                  match step loc inp (fun _ => r) pos c l with
                  | .next pos l => decodeLoopS loc inp (k + 1) fuel (pos + 1) l
                  | .goto lbl pos l => some (accept inp lbl pos l)
                  | .throw e => some (.throw e)
                  | .undefined => some .undefined
                  | .outOfFuel => some .outOfFuel
            else
              match step loc inp (fun _ => .outOfFuel) pos c l with
              | .next pos l => decodeLoopS loc inp frames fuel (pos + 1) l
              | .goto lbl pos l => some (accept inp lbl pos l)
              | .throw e => some (.throw e)
              | .undefined => some .undefined
              | .outOfFuel => some .outOfFuel := by
  cases frames <;> rfl

/-- When the stack has room, the loop on the stack does what the loop does. -/
theorem decodeLoopS_eq (loc : Locale) (inp : List Nat) (fuel : Nat) :
    ∀ (frames pos : Nat) (l : Locals) (r : Result (Nat × JSON)),
      decodeLoopS loc inp frames fuel pos l = some r → decodeLoop loc inp fuel pos l = r := by
  induction fuel with
  | zero =>
    intro frames pos l r h
    cases frames <;> (simp only [decodeLoopS, Option.some.injEq] at h; rw [← h]; rfl)
  | succ fuel ih =>
    intro frames pos l r h
    rw [decodeLoopS_succ] at h
    rw [decodeLoop_succ]
    by_cases hend : pos = inp.length
    · rw [if_pos hend] at h ⊢
      exact Option.some.inj h
    · rw [if_neg hend] at h ⊢
      cases hc : inp[pos]? with
      | none =>
        rw [hc] at h
        exact Option.some.inj h
      | some c =>
        rw [hc] at h
        simp only at h ⊢
        by_cases hcall : callsAt c l = true
        · rw [if_pos hcall] at h
          cases frames with
          | zero => cases h
          | succ k =>
            simp only at h
            cases hn : decodeLoopS loc inp k fuel pos (Locals.init pos) with
            | none => rw [hn] at h; cases h
            | some r0 =>
              rw [hn] at h
              simp only at h
              have hr0 := ih k pos (Locals.init pos) r0 hn
              have hstep : step loc inp (fun p => decodeLoop loc inp fuel p (Locals.init p))
                  pos c l = step loc inp (fun _ => r0) pos c l :=
                step_congr loc inp _ _ pos c l hr0
              rw [hstep]
              cases hs : step loc inp (fun _ => r0) pos c l with
              | next p l2 => rw [hs] at h; exact ih _ _ _ _ h
              | goto lbl p l2 => rw [hs] at h; exact Option.some.inj h
              | throw e => rw [hs] at h; exact Option.some.inj h
              | undefined => rw [hs] at h; exact Option.some.inj h
              | outOfFuel => rw [hs] at h; exact Option.some.inj h
        · rw [if_neg hcall] at h
          have hcall2 : callsAt c l = false := by simpa using hcall
          have hstep := step_of_not_callsAt loc inp
            (fun p => decodeLoop loc inp fuel p (Locals.init p)) (fun _ => .outOfFuel) pos c l
            hcall2
          rw [hstep]
          cases hs : step loc inp (fun _ => .outOfFuel) pos c l with
          | next p l2 => rw [hs] at h; exact ih _ _ _ _ h
          | goto lbl p l2 => rw [hs] at h; exact Option.some.inj h
          | throw e => rw [hs] at h; exact Option.some.inj h
          | undefined => rw [hs] at h; exact Option.some.inj h
          | outOfFuel => rw [hs] at h; exact Option.some.inj h

/-- A stack with room for as many nested calls as characters are left, and one more when
the loop is inside a value, does not overflow. -/
theorem decodeLoopS_enough (loc : Locale) (inp : List Nat) (fuel : Nat) :
    ∀ (frames pos : Nat) (l : Locals),
      (inp.length - pos) + (if l.state = .s0 then 0 else 1) ≤ frames →
      decodeLoopS loc inp frames fuel pos l = some (decodeLoop loc inp fuel pos l) := by
  induction fuel with
  | zero =>
    intro frames pos l _
    cases frames <;> rfl
  | succ fuel ih =>
    intro frames pos l hf
    rw [decodeLoopS_succ, decodeLoop_succ]
    by_cases hend : pos = inp.length
    · rw [if_pos hend, if_pos hend]
    · rw [if_neg hend, if_neg hend]
      cases hc : inp[pos]? with
      | none => rfl
      | some c =>
        have hpos := getElem?_lt hc
        simp only
        have hb := step_bound loc inp (fun p => decodeLoop loc inp fuel p (Locals.init p))
          pos c l hpos (fun q v hq => by
            have := decodeLoop_bound loc inp _ pos _ q v hq
            exact ⟨this.2.2 rfl, this.2.1⟩)
        by_cases hcall : callsAt c l = true
        · rw [if_pos hcall]
          have hl0 : l.state ≠ .s0 := by
            intro h0
            simp [callsAt, h0] at hcall
          rw [if_neg hl0] at hf
          obtain ⟨k, rfl⟩ : ∃ k, frames = k + 1 := ⟨frames - 1, by omega⟩
          simp only
          rw [ih k pos (Locals.init pos) (by simp only [Locals.init, if_true]; omega)]
          simp only
          have hstep : step loc inp (fun _ => decodeLoop loc inp fuel pos (Locals.init pos))
              pos c l = step loc inp (fun p => decodeLoop loc inp fuel p (Locals.init p))
              pos c l := step_congr loc inp _ _ pos c l rfl
          rw [hstep]
          cases hs : step loc inp (fun p => decodeLoop loc inp fuel p (Locals.init p)) pos c l with
          | next p l2 =>
            rw [hs] at hb
            simp only
            exact ih _ _ _ (by have := hb.1; have := hb.2; split <;> omega)
          | goto lbl p l2 => rfl
          | throw e => rfl
          | undefined => rfl
          | outOfFuel => rfl
        · rw [if_neg hcall]
          have hcall2 : callsAt c l = false := by simpa using hcall
          have hstep := step_of_not_callsAt loc inp
            (fun p => decodeLoop loc inp fuel p (Locals.init p)) (fun _ => .outOfFuel) pos c l
            hcall2
          rw [← hstep]
          cases hs : step loc inp (fun p => decodeLoop loc inp fuel p (Locals.init p)) pos c l with
          | next p l2 =>
            rw [hs] at hb
            simp only
            exact ih _ _ _ (by have := hb.1; have := hb.2; split <;> split at hf <;> omega)
          | goto lbl p l2 => rfl
          | throw e => rfl
          | undefined => rfl
          | outOfFuel => rfl

/-- What the top-level call on a stack returns is what the top-level call returns. -/
theorem json_decode_stack_eq (loc : Locale) (frames : Nat) (inp : List Nat) (r : Result JSON)
    (h : json_decode_stack loc frames inp = some r) : json_decode loc inp = r := by
  unfold json_decode_stack at h
  rw [json_decode_cases]
  cases hs : decodeLoopS loc inp frames (2 * (inp.length - 0) + 2) 0 (Locals.init 0) with
  | none => rw [hs] at h; cases h
  | some r0 =>
    have hat : json_decode_at loc inp 0 = r0 := decodeLoopS_eq loc inp _ _ _ _ _ hs
    rw [hs] at h
    rw [hat]
    cases r0 with
    | ok x =>
      obtain ⟨p, v⟩ := x
      simp only at h ⊢
      cases ht : trailing inp (inp.length - p) p with
      | none => rw [ht] at h; exact Option.some.inj h
      | some e => rw [ht] at h; exact Option.some.inj h
    | throw e => exact Option.some.inj h
    | undefined => exact Option.some.inj h
    | outOfFuel => exact Option.some.inj h

/-- A stack with room for as many nested calls as the buffer has characters does not
overflow. -/
theorem json_decode_stack_enough (loc : Locale) (frames : Nat) (inp : List Nat)
    (h : inp.length ≤ frames) : json_decode_stack loc frames inp = some (json_decode loc inp) := by
  have hs := decodeLoopS_enough loc inp (2 * (inp.length - 0) + 2) frames 0 (Locals.init 0)
    (by simp only [Locals.init, if_true]; omega)
  unfold json_decode_stack
  rw [hs, json_decode_cases]
  have hat : json_decode_at loc inp 0
      = decodeLoop loc inp (2 * (inp.length - 0) + 2) 0 (Locals.init 0) := rfl
  rw [← hat]
  cases json_decode_at loc inp 0 with
  | ok x =>
    obtain ⟨p, v⟩ := x
    simp only
    cases trailing inp (inp.length - p) p <;> rfl
  | throw e => rfl
  | undefined => rfl
  | outOfFuel => rfl

theorem nestText_length (n : Nat) : (nestText n).length = 2 * n := by
  simp [nestText]
  omega

theorem nestText_open {n j : Nat} (h : j < n) : (nestText n)[j]? = some 91 := by
  unfold nestText
  rw [List.getElem?_append_left (by simpa using h)]
  simp [List.getElem?_replicate, h]

theorem nestText_close {n j : Nat} (h1 : n ≤ j) (h2 : j < 2 * n) :
    (nestText n)[j]? = some 93 := by
  unfold nestText
  rw [List.getElem?_append_right (by simpa using h1)]
  simp only [List.length_replicate, List.getElem?_replicate]
  rw [if_pos (by omega)]

/-- A loop pass that makes no nested call, on a stack. -/
theorem decodeLoopS_pass (loc : Locale) (inp : List Nat) (frames fuel pos c : Nat)
    (l : Locals) (hc : inp[pos]? = some c) (hcall : callsAt c l = false) :
    decodeLoopS loc inp frames (fuel + 1) pos l
      = match step loc inp (fun _ => .outOfFuel) pos c l with
        | .next pos l => decodeLoopS loc inp frames fuel (pos + 1) l
        | .goto lbl pos l => some (accept inp lbl pos l)
        | .throw e => some (.throw e)
        | .undefined => some .undefined
        | .outOfFuel => some .outOfFuel := by
  have hpos := getElem?_lt hc
  rw [decodeLoopS_succ, if_neg (by omega), hc]
  simp only [hcall, Bool.false_eq_true, if_false]

/-- The brackets of `n + 1` nested arrays, read from the `i`-th opening bracket on a stack
with room for `frames` nested calls: the `d = n - i` arrays inside need `d` frames. -/
theorem decodeLoopS_nest (loc : Locale) (n : Nat) :
    ∀ (d i frames fuel : Nat), i + d = n → 2 * d + 2 ≤ fuel →
      decodeLoopS loc (nestText (n + 1)) frames fuel i (Locals.init i)
        = if d ≤ frames then some (.ok (2 * n + 2 - i, nest d)) else none := by
  intro d
  induction d with
  | zero =>
    intro i frames fuel hi hf
    have hin : i = n := by omega
    subst hin
    obtain ⟨f, rfl⟩ : ∃ f, fuel = f + 1 + 1 := ⟨fuel - 2, by omega⟩
    have h1 : (nestText (i + 1))[i]? = some 91 := nestText_open (by omega)
    have h2 : (nestText (i + 1))[i + 1]? = some 93 := nestText_close (by omega) (by omega)
    rw [decodeLoopS_pass loc _ frames (f + 1) i 91 (Locals.init i) h1 (by simp [callsAt, Locals.init])]
    have hs1 : step loc (nestText (i + 1)) (fun _ => .outOfFuel) i 91 (Locals.init i)
        = .next i { Locals.init i with array := [], state := .s15 } := by
      simp [step, Locals.init, isWs, isDigit19]
    rw [hs1]
    simp only
    rw [decodeLoopS_pass loc _ frames f (i + 1) 93 _ h2 (by simp [callsAt])]
    have hs2 : step loc (nestText (i + 1)) (fun _ => .outOfFuel) (i + 1) 93
        { Locals.init i with array := [], state := .s15 }
        = .goto .accept_array (i + 1 + 1) { Locals.init i with array := [], state := .s15 } := by
      simp [step, Locals.init, isWs]
    rw [hs2]
    simp only [accept, Locals.init, nest, Nat.zero_le, if_true]
    congr 3
    omega
  | succ d ih =>
    intro i frames fuel hi hf
    obtain ⟨f, rfl⟩ : ∃ f, fuel = f + 1 + 1 := ⟨fuel - 2, by omega⟩
    have h1 : (nestText (n + 1))[i]? = some 91 := nestText_open (by omega)
    have h2 : (nestText (n + 1))[i + 1]? = some 91 := nestText_open (by omega)
    have hlen := nestText_length (n + 1)
    rw [decodeLoopS_pass loc _ frames (f + 1) i 91 (Locals.init i) h1 (by simp [callsAt, Locals.init])]
    have hs1 : step loc (nestText (n + 1)) (fun _ => .outOfFuel) i 91 (Locals.init i)
        = .next i { Locals.init i with array := [], state := .s15 } := by
      simp [step, Locals.init, isWs, isDigit19]
    rw [hs1]
    simp only
    have hcall : callsAt 91 { Locals.init i with array := [], state := .s15 } = true := by
      simp [callsAt, isWs]
    rw [decodeLoopS_succ, if_neg (by omega), h2]
    simp only [hcall, if_true]
    cases frames with
    | zero => simp
    | succ k =>
      simp only
      rw [ih (i + 1) k f (by omega) (by omega)]
      by_cases hd : d ≤ k
      · rw [if_pos hd, if_pos (by omega)]
        simp only
        have hs2 : step loc (nestText (n + 1))
            (fun _ => Result.ok (2 * n + 2 - (i + 1), nest d)) (i + 1) 91
            { Locals.init i with array := [], state := .s15 }
            = .next (2 * n + 2 - (i + 1) - 1)
                { Locals.init i with array := [nest d], state := .s17 } := by
          simp [step, Locals.init, isWs, afterCall]
        rw [hs2]
        simp only
        obtain ⟨g, rfl⟩ : ∃ g, f = g + 1 := ⟨f - 1, by omega⟩
        have h3 : (nestText (n + 1))[2 * n + 2 - (i + 1) - 1 + 1]? = some 93 :=
          nestText_close (by omega) (by omega)
        rw [decodeLoopS_pass loc _ (k + 1) g _ 93 _ h3 (by simp [callsAt])]
        have hs3 : step loc (nestText (n + 1)) (fun _ => .outOfFuel)
            (2 * n + 2 - (i + 1) - 1 + 1) 93
            { Locals.init i with array := [nest d], state := .s17 }
            = .goto .accept_array (2 * n + 2 - (i + 1) - 1 + 1 + 1)
                { Locals.init i with array := [nest d], state := .s17 } := by
          simp [step, Locals.init, isWs]
        rw [hs3]
        simp only [accept, Locals.init, nest]
        congr 3
        omega
      · rw [if_neg hd, if_neg (by omega)]

/-- The text of `n + 1` pairs of brackets on a stack with room for `frames` nested calls:
accepted when `n ≤ frames`, and a stack overflow otherwise. -/
theorem json_decode_stack_nest (loc : Locale) (n frames : Nat) :
    json_decode_stack loc frames (nestText (n + 1))
      = if n ≤ frames then some (.ok (nest n)) else none := by
  have h := decodeLoopS_nest loc n n 0 frames (2 * ((nestText (n + 1)).length - 0) + 2)
    (by omega) (by rw [nestText_length]; omega)
  unfold json_decode_stack
  rw [h]
  by_cases hn : n ≤ frames
  · rw [if_pos hn, if_pos hn]
    simp only
    have hl : (nestText (n + 1)).length - (2 * n + 2 - 0) = 0 := by
      rw [nestText_length]
      omega
    rw [hl]
    rfl
  · rw [if_neg hn, if_neg hn]

theorem json_encode_nest (n : Nat) : json_encode (nest n) = nestText (n + 1) := by
  induction n with
  | zero => decide
  | succ m ih =>
    rw [nestText_succ (m + 1), ← ih]
    simp [nest, json_encode, json_encode_elements]

theorem strtod_nan_known_values :
    strtod (ascii "nan") = (⟨false, 2047, 2 ^ 51⟩, 3) ∧
    strtod (ascii "nan(1)") = (⟨false, 2047, 2 ^ 51 + 1⟩, 6) ∧
    strtod (ascii "-NaN(1)") = (⟨true, 2047, 2 ^ 51 + 1⟩, 7) ∧
    strtod (ascii "nan()") = (⟨false, 2047, 2 ^ 51⟩, 5) ∧
    strtod (ascii "nan(abc)") = (⟨false, 2047, 2 ^ 51⟩, 8) ∧
    strtod (ascii "nan(0x10)") = (⟨false, 2047, 2 ^ 51 + 16⟩, 9) ∧
    strtod (ascii "nan(010)") = (⟨false, 2047, 2 ^ 51 + 8⟩, 8) ∧
    strtod (ascii "nan(08)") = (⟨false, 2047, 2 ^ 51⟩, 7) ∧
    strtod (ascii "nan(0x)") = (⟨false, 2047, 2 ^ 51⟩, 7) ∧
    strtod (ascii "nan(1") = (⟨false, 2047, 2 ^ 51⟩, 3) ∧
    strtod (ascii "nan(1 )") = (⟨false, 2047, 2 ^ 51⟩, 3) ∧
    strtod (ascii "nan(1_)") = (⟨false, 2047, 2 ^ 51⟩, 7) ∧
    strtod (ascii "nan(18446744073709551615)") = (⟨false, 2047, 2 ^ 52 - 1⟩, 25) ∧
    strtod (ascii "nan(12345678901234567890123)") = (⟨false, 2047, 2 ^ 52 - 1⟩, 28) ∧
    strtod (ascii "nan(2251799813685248)") = (⟨false, 2047, 2 ^ 51⟩, 21) ∧
    strtod (ascii "nan(1)x") = (⟨false, 2047, 2 ^ 51 + 1⟩, 6) ∧
    strtod (ascii "infinit") = (⟨false, 2047, 0⟩, 3) := by
  decide!

/-! ## Results -/

/-- C1, defect of the code: the three-byte text quote, 0x00, quote is accepted and decodes
to the one-byte String 0x00; the encoder writes that String as `"\u0000"`; the decoder
accepts this text but appends nothing for `\u0000`, so the second decoding gives the
empty String, which `operator==` tells apart from the first value.  Likewise the text
`1e999` is accepted and decodes to the Number infinity, whose encoding `inf` is
rejected. -/
theorem C1_round_trip_fails (loc : Locale) :
    json_decode loc [34, 0, 34] = .ok (.string [0]) ∧
    json_encode (.string [0]) = ascii "\"\\u0000\"" ∧
    json_decode loc (json_encode (.string [0])) = .ok (.string []) ∧
    JSON.eq (.string []) (.string [0]) = false ∧
    json_decode loc (ascii "1e999") = .ok (.number Double.inf) ∧
    json_encode (.number Double.inf) = ascii "inf" ∧
    json_decode loc (json_encode (.number Double.inf))
      = .throw (.syntaxAt 0 "JSON syntax error: invalid token") := by
  cases loc <;> decide!

/-- C2, defect of the code: the finite double 0.30000000000000004 (the sum 0.1 + 0.2,
fraction field 0x3333333333334 with exponent field 1021) is formatted by `%.15g` as
`0.3`, and decoding `0.3` gives the neighbouring double with fraction field
0x3333333333333, which `==` tells apart from the original. -/
theorem C2_fifteen_digits_do_not_round_trip (loc : Locale) :
    Double.isFinite ⟨false, 1021, 0x3333333333334⟩ = true ∧
    json_encode (.number ⟨false, 1021, 0x3333333333334⟩) = ascii "0.3" ∧
    json_decode loc (json_encode (.number ⟨false, 1021, 0x3333333333334⟩))
      = .ok (.number ⟨false, 1021, 0x3333333333333⟩) ∧
    Double.eq ⟨false, 1021, 0x3333333333333⟩ ⟨false, 1021, 0x3333333333334⟩ = false := by
  cases loc <;> decide!

/-- C3, defect of the code: the String holding the single byte 0x00 is encoded as
`"\u0000"` and that text decodes to the empty String; every String whose bytes are
control characters 0x01..0x1F, double quotes and backslashes is given back by
decoding its encoding. -/
theorem C3_nul_byte_is_lost (loc : Locale) (s : List Nat) :
    json_encode (.string [0]) = [34, 92, 117, 48, 48, 48, 48, 34] ∧
    json_decode loc (json_encode (.string [0])) = .ok (.string []) ∧
    (JSON.string [] : JSON) ≠ .string [0] ∧
    ((∀ c ∈ s, (0 < c ∧ c < 32) ∨ c = 34 ∨ c = 92) →
      json_decode loc (json_encode (.string s)) = .ok (.string s)) := by
  refine ⟨by decide!, by cases loc <;> decide!, by decide!, fun h => ?_⟩
  apply json_decode_encode_string
  intro c hc
  rcases h c hc with h | h | h <;> omega

/-- C4, defect of the code: on the text quote, backslash, `u12x`, quote the buffered
decoder skips the `x` that ends the hexadecimal digits and returns the String made of
the conversion of the wide character 0x120 alone, while the streamed decoder puts the
`x` back, reads the whole text and returns that String followed by `x`. -/
theorem C4_decoders_differ_after_short_escape (loc : Locale) :
    json_decode loc (ascii "\"\\u12x\"") = .ok (.string ((wcstombs loc 0x120).getD [])) ∧
    (json_decode_stream loc (.ofText (ascii "\"\\u12x\""))).1
      = .ok (.string ((wcstombs loc 0x120).getD [] ++ [120])) ∧
    (json_decode_stream loc (.ofText (ascii "\"\\u12x\""))).2.unread = [] ∧
    JSON.eq (.string ((wcstombs loc 0x120).getD [] ++ [120]))
      (.string ((wcstombs loc 0x120).getD [])) = false := by
  cases loc <;> decide!

/-- C5, defect of the code: for the String holding the single byte 0x01 the in-memory
encoder returns `"\u0001"` while the stream encoder writes `"0001"` to a fresh
stream, without the backslash and the `u`.  The two encoders give the same text for
every Value whose Strings and keys hold only bytes that have a named escape or are
not below 32 as a `char`. -/
theorem C5_stream_encoder_omits_escape_prefix (v : JSON) :
    json_encode (.string [1]) = ascii "\"\\u0001\"" ∧
    (json_encode_os (.string [1]) OStream.fresh).text = ascii "\"0001\"" ∧
    (v.sameBranch → (json_encode_os v OStream.fresh).text = json_encode v) := by
  refine ⟨by decide!, by decide!, fun h => ?_⟩
  simpa [OStream.fresh] using (json_encode_os_eq v h OStream.fresh rfl).2

/-- C6, the claim as stated fails: the pairs ("a", NaN) and ("b", null) stored in the two
possible orders give objects with the same entries, yet `operator==` answers false,
because a NaN Number is not equal to itself. -/
theorem C6_nan_member_is_not_equal_to_itself :
    JSONObject.ofStores [(ascii "a", .number Double.nan), (ascii "b", .null)]
      = JSONObject.ofStores [(ascii "b", .null), (ascii "a", .number Double.nan)] ∧
    JSON.eq
      (.object (JSONObject.ofStores [(ascii "a", .number Double.nan), (ascii "b", .null)]))
      (.object (JSONObject.ofStores [(ascii "b", .null), (ascii "a", .number Double.nan)]))
      = false := by
  decide!

/-- C6, amended: two lists of key/value pairs with distinct keys that are permutations of
each other, stored into an empty object with `o[k] = v` in their respective orders,
give objects with the same entries in the same order, hence the same `json_encode`
text; and `operator==` answers true for the two objects when no value of the pairs
holds a NaN Number. -/
theorem C6_order_independence (l₁ l₂ : List (List Nat × JSON)) (hp : l₁.Perm l₂)
    (hk : (l₁.map Prod.fst).Nodup) :
    JSONObject.ofStores l₁ = JSONObject.ofStores l₂ ∧
    json_encode (.object (JSONObject.ofStores l₁))
      = json_encode (.object (JSONObject.ofStores l₂)) ∧
    ((∀ kv ∈ l₁, kv.2.hasNaN = false) →
      JSON.eq (.object (JSONObject.ofStores l₁)) (.object (JSONObject.ofStores l₂)) = true) := by
  have he := JSONObject.ofStores_eq_of_perm hp hk
  refine ⟨he, by rw [he], fun hn => ?_⟩
  rw [← he]
  apply JSON.eq_self
  simp only [JSON.hasNaN]
  apply JSON.anyNaNMember_eq_false
  intro kv hkv
  exact hn kv ((JSONObject.ofStores_perm l₁ hk).subset hkv)

/-- C6, an instance: the pairs ("b", 1) and ("a", [true]) stored in either order. -/
theorem C6_order_independence_witness :
    [(ascii "b", JSON.number (Double.ofNat 1)), (ascii "a", JSON.array [.boolean true])].Perm
      [(ascii "a", JSON.array [.boolean true]), (ascii "b", JSON.number (Double.ofNat 1))] ∧
    ([(ascii "b", JSON.number (Double.ofNat 1)),
      (ascii "a", JSON.array [.boolean true])].map Prod.fst).Nodup ∧
    JSONObject.ofStores
        [(ascii "b", JSON.number (Double.ofNat 1)), (ascii "a", JSON.array [.boolean true])]
      = JSONObject.ofStores
        [(ascii "a", JSON.array [.boolean true]), (ascii "b", JSON.number (Double.ofNat 1))] :=
  ⟨List.Perm.swap _ _ _, by decide,
    (C6_order_independence _ _ (List.Perm.swap _ _ _) (by decide)).1⟩

/-- C7: for every Object the buffered decoder returns, and every Object built from an
empty one by statements `o[k] = v`, the encoder emits the members in the order of the
entries, which is strictly ascending in the byte-wise order of the keys, so that
each key occurs once; the text with members `b` then `a` decodes to a value whose
encoding lists `a` then `b`. -/
theorem C7_members_in_key_order (loc : Locale) (inp : List Nat) (o : JSONObject)
    (h : json_decode loc inp = .ok (.object o) ∨ ∃ l, o = JSONObject.ofStores l) :
    json_encode (.object o) = [123] ++ List.intercalate [44]
        (o.map fun kv => json_encode_string kv.1 ++ [58] ++ json_encode kv.2) ++ [125] ∧
    (o.map Prod.fst).Pairwise (fun a b => string_lt a b = true) ∧
    (o.map Prod.fst).Nodup ∧
    ∃ v, json_decode loc (ascii "\x7b\"b\":1,\"a\":2\x7d") = .ok v ∧
      json_encode v = ascii "\x7b\"a\":2,\"b\":1\x7d" := by
  have hs : JSONObject.sorted o := by
    rcases h with h | ⟨l, h⟩
    · have := json_decode_wf loc inp _ h
      simp only [JSON.wf] at this
      exact this.1
    · rw [h]; exact JSONObject.ofStores_sorted l
  have hk := (JSONObject.sorted_iff_keys o).mp hs
  refine ⟨by simp only [json_encode, json_encode_members_true], hk, ?_, ?_⟩
  · refine hk.imp ?_
    intro a b hab e
    rw [e, string_lt_irrefl] at hab
    exact Bool.false_ne_true hab
  · refine ⟨.object [(ascii "a", .number ⟨false, 1024, 0⟩), (ascii "b", .number ⟨false, 1023, 0⟩)],
      ?_, by decide!⟩
    cases loc <;> decide!

/-- C7, an instance: the object decoded from the text with members `b` then `a`. -/
theorem C7_members_in_key_order_witness :
    json_decode .C (ascii "\x7b\"b\":1,\"a\":2\x7d")
      = .ok (.object [(ascii "a", .number ⟨false, 1024, 0⟩), (ascii "b", .number ⟨false, 1023, 0⟩)]) ∧
    json_encode (.object [(ascii "a", .number ⟨false, 1024, 0⟩), (ascii "b", .number ⟨false, 1023, 0⟩)])
      = [123] ++ List.intercalate [44]
        ([(ascii "a", JSON.number ⟨false, 1024, 0⟩), (ascii "b", JSON.number ⟨false, 1023, 0⟩)].map
          fun kv => json_encode_string kv.1 ++ [58] ++ json_encode kv.2) ++ [125] :=
  ⟨by decide!, (C7_members_in_key_order .C (ascii "\x7b\"b\":1,\"a\":2\x7d") _
    (Or.inl (by decide!))).1⟩

/-- C8: the encoding of a String is a double quote, the per-byte texts in order, and a
double quote; the per-byte text is the two-character escape for the double quote, the
backslash, backspace, formfeed, newline, CR and tab, and for every other byte below
0x20 it is backslash, `u`, `0`, `0` and the two lower-case hexadecimal digits of the
byte. -/
theorem C8_string_escapes (s : List Nat) :
    json_encode (.string s) = [34] ++ s.flatMap json_encode_char ++ [34] ∧
    json_encode_char 34 = [92, 34] ∧
    json_encode_char 92 = [92, 92] ∧
    json_encode_char 8 = [92, 98] ∧
    json_encode_char 12 = [92, 102] ∧
    json_encode_char 10 = [92, 110] ∧
    json_encode_char 13 = [92, 114] ∧
    json_encode_char 9 = [92, 116] ∧
    ∀ c : Fin 32, c.val ∉ [8, 12, 10, 13, 9] →
      json_encode_char c.val = [92, 117, 48, 48, hexChar (c.val / 16), hexChar (c.val % 16)] := by
  refine ⟨by simp [json_encode, json_encode_string], by decide!, by decide!, by decide!,
    by decide!, by decide!, by decide!, by decide!, ?_⟩
  decide!

/-- C9, defect of the code: the two bytes 0xC3 0xA9 of the UTF-8 text "é" are not
passed through; each is replaced by a six-character escape, because a `char` with the
high bit set is negative and so below 32.  Bytes 0x20..0x7F other than the quote and the
backslash are passed through. -/
theorem C9_high_bytes_are_escaped :
    json_encode (.string [195, 169]) = ascii "\"\\u00c3\\u00a9\"" ∧
    (∀ c, 32 ≤ c → c < 128 → c ≠ 34 → c ≠ 92 → json_encode_char c = [c]) ∧
    (∀ c, 128 ≤ c → c < 256 → json_encode_char c ≠ [c]) := by
  refine ⟨by decide!, ?_, ?_⟩
  · intro c h1 h2 h3 h4
    have h5 : ¬ charValue c < 32 := by
      unfold charValue
      rw [if_pos h2]
      omega
    have : c ≠ 8 ∧ c ≠ 12 ∧ c ≠ 10 ∧ c ≠ 13 ∧ c ≠ 9 := by omega
    simp [json_encode_char, h3, h4, h5, this]
  · intro c h1 h2
    have h5 : charValue c < 32 := by
      unfold charValue
      rw [if_neg (by omega)]
      omega
    have : c ≠ 34 ∧ c ≠ 92 ∧ c ≠ 8 ∧ c ≠ 12 ∧ c ≠ 10 ∧ c ≠ 13 ∧ c ≠ 9 := by omega
    simp [json_encode_char, h5, this]

/-- C10: the encoder is a structural recursion that inserts no character: `null`, `true`
and `false` for Null and Bool, the elements of an Array joined by commas between
brackets, the `"key":value` pairs of an Object joined by commas between braces, `[]`
and the empty braces for empty containers; and a scan of the text of any Value meets
no white space outside a string literal and ends outside a string literal. -/
theorem C10_canonical_text (v : JSON) :
    json_encode .null = ascii "null" ∧
    json_encode (.boolean true) = ascii "true" ∧
    json_encode (.boolean false) = ascii "false" ∧
    (∀ a, json_encode (.array a) = [91] ++ List.intercalate [44] (a.map json_encode) ++ [93]) ∧
    (∀ o, json_encode (.object o) = [123] ++ List.intercalate [44]
        (o.map fun kv => json_encode_string kv.1 ++ [58] ++ json_encode kv.2) ++ [125]) ∧
    json_encode (.array []) = ascii "[]" ∧
    json_encode (.object []) = ascii "\x7b\x7d" ∧
    scan .outside (json_encode v) = some .outside := by
  refine ⟨by decide!, by decide!, by decide!, ?_, ?_, by decide!, by decide!,
    scan_json_encode v⟩
  · intro a
    simp only [json_encode, json_encode_elements_true]
  · intro o
    simp only [json_encode, json_encode_members_true]

/-- C11: for a text made only of the characters `0`-`9`, `-`, `+`, `.`, `e` and `E`, the
top-level buffered decoder accepts the text when it matches the number grammar
`'-'? ('0' | [1-9][0-9]*) ('.' [0-9]+)? ([eE][+-]?[0-9]+)?`, and it then returns the Number
that `strtod` converts from the whole of the text; when the text does not match the
grammar, the decoder throws a syntax error. -/
theorem C11_number_grammar (loc : Locale) (t : List Nat) (ht : ∀ c ∈ t, numberByte c = true) :
    (specNumber t →
      json_decode loc t = .ok (.number (strtod t).1) ∧ (strtod t).2 = t.length) ∧
    (¬ specNumber t → ∃ off msg, json_decode loc t = .throw (.syntaxAt off msg)) := by
  have hout := decodeFrom_number loc t 0 (Locals.init 0) t (List.drop_zero t) (Nat.zero_le _) rfl
    (fun c hc => ht c (List.mem_of_mem_head? hc))
  rw [← json_decode_at_eq] at hout
  constructor
  · intro hs
    have hlen := strtod_length t hs
    have hne : t.length ≠ 0 := by
      obtain ⟨sg, ip, fp, ep, rfl, _, hip, _, _⟩ := hs
      rcases hip with rfl | ⟨d, ds, rfl, _⟩ <;> simp
    rw [(specNumber_iff t).mp hs] at hout
    obtain ⟨p, hp, hd, hres⟩ := hout
    have hpl : p = t.length := by
      have := length_of_drop hd
      simp only [List.length_nil] at this
      omega
    subst hpl
    refine ⟨?_, hlen⟩
    simp only [json_decode, json_decode_into, hres, accept, Locals.init, List.drop_zero,
      Nat.sub_zero, List.take_length, hlen, hne, if_false, Nat.sub_self, trailing]
  · intro hs
    have hne : afterNumber t ≠ some [] := fun h => hs ((specNumber_iff t).mpr h)
    cases ha : afterNumber t with
    | none =>
      rw [ha] at hout
      obtain ⟨off, msg, h⟩ := hout
      exact ⟨off, msg, json_decode_of_throw h⟩
    | some tail =>
      rw [ha] at hout hne
      obtain ⟨p, hp, hd, hres⟩ := hout
      cases tail with
      | nil => exact absurd rfl hne
      | cons c r =>
        have hc : t[p]? = some c := by simpa using at_drop hd 0
        have hcw : isWs c = false := by
          apply isWs_of_numberByte
          apply ht
          rw [← List.take_append_drop p t, hd]
          simp
        have hlt := drop_le_length hd
        obtain ⟨n, hn⟩ : ∃ n, t.length - p = n + 1 := ⟨t.length - p - 1, by omega⟩
        cases hacc : accept t .accept_number p (Locals.init (Locals.init 0).start) with
        | ok x =>
          obtain ⟨q, v⟩ := x
          have hq := accept_pos hacc
          subst hq
          rw [hacc] at hres
          exact ⟨q, "JSON syntax error", by
            simp only [json_decode, json_decode_into, hres, hn, trailing, hc, hcw]
            rfl⟩
        | throw e =>
          rw [hacc] at hres
          simp only [accept] at hacc
          split at hacc
          · cases hacc
            exact ⟨_, _, json_decode_of_throw hres⟩
          · cases hacc
        | undefined =>
          simp only [accept] at hacc
          split at hacc <;> cases hacc
        | outOfFuel => exact absurd hacc (accept_ne_outOfFuel _ _ _ _)

/-- C11, an instance: the text `-3e2` matches the grammar and decodes to the Number -300,
converted from its four characters. -/
theorem C11_number_grammar_witness :
    (∀ c ∈ ascii "-3e2", numberByte c = true) ∧ specNumber (ascii "-3e2") ∧
    json_decode .C (ascii "-3e2") = .ok (.number (strtod (ascii "-3e2")).1) ∧
    (strtod (ascii "-3e2")).2 = 4 ∧
    (strtod (ascii "-3e2")).1 = ⟨true, 1031, 774056185954304⟩ :=
  have hs : specNumber (ascii "-3e2") :=
    ⟨[45], [51], [], [101, 50], by decide, Or.inr rfl, Or.inr ⟨51, [], rfl, by decide, by simp⟩,
      Or.inl rfl, Or.inr ⟨101, [], 50, [], rfl, Or.inr rfl, Or.inl rfl, by decide⟩⟩
  ⟨by decide, hs, ((C11_number_grammar .C (ascii "-3e2") (by decide)).1 hs).1,
    ((C11_number_grammar .C (ascii "-3e2") (by decide)).1 hs).2, by decide!⟩

/-- C12 (as stated): in the "C" locale, the one a program starts in, the buffered decoder
makes the empty String of the literal `"\u00e9"`, not the bytes C3 A9 that are the UTF-8
encoding of U+00E9. -/
theorem C12_escape_is_dropped_in_the_C_locale :
    json_decode .C (ascii "\"\\u00e9\"") = .ok (.string []) ∧
    utf8Encoding 233 = [195, 169] := by
  decide!

/-- C12 (amended): a string literal holding encoded bytes of the ASCII range, an escape
`\uXXXX` of four hexadecimal digits of either case that is not `\u0000`, and further
encoded bytes.  In a UTF-8 locale the buffered decoder puts the UTF-8 encoding of the code
point between the two runs of bytes, and nothing for a surrogate (D800..DFFF); in the "C"
locale it puts the code point itself when it is below 128 and nothing otherwise. -/
theorem C12_unicode_escape (loc : Locale) (s1 s2 : List Nat) (a b c d va vb vc vd : Nat)
    (hs1 : ∀ x ∈ s1, 0 < x ∧ x < 128) (hs2 : ∀ x ∈ s2, 0 < x ∧ x < 128)
    (ha : hexVal a = some va) (hb : hexVal b = some vb) (hc : hexVal c = some vc)
    (hd : hexVal d = some vd) (h0 : codePoint va vb vc vd ≠ 0) :
    (loc = .UTF8 → ¬ (55296 ≤ codePoint va vb vc vd ∧ codePoint va vb vc vd < 57344) →
      json_decode loc (34 :: (s1.flatMap json_encode_char ++
          92 :: 117 :: a :: b :: c :: d :: (s2.flatMap json_encode_char ++ [34])))
        = .ok (.string (s1 ++ utf8Encoding (codePoint va vb vc vd) ++ s2))) ∧
    (loc = .UTF8 → 55296 ≤ codePoint va vb vc vd ∧ codePoint va vb vc vd < 57344 →
      json_decode loc (34 :: (s1.flatMap json_encode_char ++
          92 :: 117 :: a :: b :: c :: d :: (s2.flatMap json_encode_char ++ [34])))
        = .ok (.string (s1 ++ s2))) ∧
    (loc = .C → codePoint va vb vc vd < 128 →
      json_decode loc (34 :: (s1.flatMap json_encode_char ++
          92 :: 117 :: a :: b :: c :: d :: (s2.flatMap json_encode_char ++ [34])))
        = .ok (.string (s1 ++ [codePoint va vb vc vd] ++ s2))) ∧
    (loc = .C → 128 ≤ codePoint va vb vc vd →
      json_decode loc (34 :: (s1.flatMap json_encode_char ++
          92 :: 117 :: a :: b :: c :: d :: (s2.flatMap json_encode_char ++ [34])))
        = .ok (.string (s1 ++ s2))) := by
  have hlt := codePoint_lt ha hb hc hd
  have key := json_decode_unicode loc s1 s2 a b c d va vb vc vd hs1 hs2 ha hb hc hd
  refine ⟨?_, ?_, ?_, ?_⟩
  · rintro rfl hs
    rw [key, wcstombs_utf8 _ h0 hs hlt]
    rfl
  · rintro rfl hs
    rw [key]
    have : wcstombs .UTF8 (codePoint va vb vc vd) = none := by
      unfold wcstombs
      rw [if_neg h0, if_neg (by omega)]
      simp only
      rw [if_neg (by omega), if_pos hs]
    rw [this]
    simp
  · rintro rfl h128
    rw [key, wcstombs_ascii _ _ (by omega) h128]
    rfl
  · rintro rfl h128
    rw [key]
    have : wcstombs .C (codePoint va vb vc vd) = none := by
      unfold wcstombs
      rw [if_neg h0, if_neg (by omega)]
    rw [this]
    simp

/-- C12, an instance: in a UTF-8 locale the literal `"\u00e9"` decodes to the String of the
bytes C3 A9. -/
theorem C12_unicode_escape_witness :
    hexVal 48 = some 0 ∧ hexVal 101 = some 14 ∧ hexVal 57 = some 9 ∧ codePoint 0 0 14 9 ≠ 0 ∧
    json_decode .UTF8 (ascii "\"\\u00e9\"") = .ok (.string [195, 169]) :=
  ⟨by decide, by decide, by decide, by decide,
    (C12_unicode_escape .UTF8 [] [] 48 48 101 57 0 0 14 9 (by simp) (by simp) (by decide)
      (by decide) (by decide) (by decide) (by decide)).1 rfl (by decide)⟩

/-- C13 (as stated): the buffered decoder accepts the literal `"\u12x"`, in which two
hexadecimal digits follow `\u`: it returns a String (empty in the "C" locale, the two bytes
of U+0120 in a UTF-8 locale) and throws no syntax error; likewise for one digit.  It throws
one when no hexadecimal digit follows `\u`, and when fewer than three characters follow
the `u` in the buffer. -/
theorem C13_short_escape_is_accepted :
    json_decode .C (ascii "\"\\u12x\"") = .ok (.string []) ∧
    json_decode .UTF8 (ascii "\"\\u12x\"") = .ok (.string [196, 160]) ∧
    json_decode .C (ascii "\"\\u1xyz\"") = .ok (.string [16, 121, 122]) ∧
    json_decode .C (ascii "\"\\uxyzw\"")
      = .throw (.syntaxAt 3 "JSON syntax error: no hex digits follow '\\u'") ∧
    json_decode .C (ascii "\"\\u12")
      = .throw (.syntaxAt 2 "JSON syntax error: expected at least 4 characters after '\\u'") := by
  decide!

/-- C13 (amended): when the loop of the outermost call or of a nested call stands inside a
string literal after a backslash (state 14) at a `u` that is followed by fewer than three
characters up to the end of the buffer, or by a character that is not a hexadecimal digit,
the top-level buffered decoder throws a syntax error. -/
theorem C13_escape_without_digit (loc : Locale) (inp rest : List Nat) (pos : Nat) (l : Locals)
    (hr : Reaches loc inp pos l) (hl : l.state = .s14) (hd : inp.drop pos = 117 :: rest)
    (h : rest.length < 3 ∨ ∃ c r, rest = c :: r ∧ hexVal c = none) :
    ∃ off msg, json_decode loc inp = .throw (.syntaxAt off msg) := by
  suffices hs : ∃ off msg, decodeFrom loc inp pos l = .throw (.syntaxAt off msg) by
    obtain ⟨off, msg, hs⟩ := hs
    exact ⟨off, msg, hr.throw _ hs⟩
  have hlen := length_of_drop hd
  simp only [List.length_cons] at hlen
  have hstep : step loc inp (json_decode_at loc inp) pos 117 l = stepU loc inp pos l := by
    obtain ⟨st, start, str, arr, obj, key⟩ := l
    simp only at hl
    subst hl
    simp [step]
  rw [decodeFrom_cons loc hd, hstep]
  unfold stepU
  by_cases h4 : inp.length - pos < 4
  · rw [if_pos h4]
    exact ⟨_, _, rfl⟩
  · rw [if_neg h4]
    rcases h with h | ⟨c, r, rfl, hc⟩
    · omega
    · have e1 : inp[pos + 1]? = some c := by simpa using at_drop hd 1
      have hloop : hexLoop inp 4 pos 0 0 = some (pos + 1, 0, 0) := by
        simp [hexLoop, e1, hc]
      rw [hloop]
      exact ⟨_, _, rfl⟩

/-- C13, an instance: in the literal `"\uxyzw"` no hexadecimal digit follows the `u`. -/
theorem C13_escape_without_digit_witness :
    Reaches .C (ascii "\"\\uxyzw\"") 2 ⟨.s14, 0, [], [], [], .null⟩ ∧
    (ascii "\"\\uxyzw\"").drop 2 = 117 :: ascii "xyzw\"" ∧
    ∃ off msg, json_decode .C (ascii "\"\\uxyzw\"") = .throw (.syntaxAt off msg) :=
  ⟨reaches_after_backslash, by decide,
    C13_escape_without_digit .C (ascii "\"\\uxyzw\"") (ascii "xyzw\"") 2 _
      reaches_after_backslash rfl (by decide) (Or.inr ⟨120, ascii "yzw\"", by decide, by decide⟩)⟩

/-- C14: for the buffer `"\u123`, which ends inside the hexadecimal digits of an escape,
the buffered decoder raises no syntax error: it reads the character at `in.end()`, which is
undefined behaviour.  Buffers that end inside the content of a literal, right after a
backslash, or within two characters after `\u` do give a syntax error; and for every
buffer made of a quote and of characters none of which is a quote, the decoder either
throws a syntax error or reads outside the buffer, so that it never returns a String. -/
theorem C14_end_inside_hex_digits_is_undefined :
    (∀ loc, json_decode loc (ascii "\"\\u123") = .undefined) ∧
    (∀ loc, json_decode loc (ascii "\"abc")
      = .throw (.syntaxAt 4 "JSON invalid end of input")) ∧
    (∀ loc, json_decode loc (ascii "\"ab\\")
      = .throw (.syntaxAt 4 "JSON invalid end of input")) ∧
    (∀ loc, json_decode loc (ascii "\"\\u12")
      = .throw (.syntaxAt 2 "JSON syntax error: expected at least 4 characters after '\\u'")) ∧
    (∀ loc body, (∀ c ∈ body, c ≠ 34) →
      (∃ off msg, json_decode loc (34 :: body) = .throw (.syntaxAt off msg)) ∨
        json_decode loc (34 :: body) = .undefined) := by
  refine ⟨fun loc => by cases loc <;> decide!, fun loc => by cases loc <;> decide!,
    fun loc => by cases loc <;> decide!, fun loc => by cases loc <;> decide!, ?_⟩
  intro loc body hb
  have h0 : (34 :: body).drop 0 = 34 :: body := rfl
  have hrun : json_decode_at loc (34 :: body) 0
      = decodeFrom loc (34 :: body) 1 ((Locals.init 0).inStr []) := by
    rw [json_decode_at_eq, decodeFrom_cons loc h0]
    simp [step, Locals.init, Locals.inStr, isWs, isDigit19]
  rcases decodeFrom_unterminated loc (34 :: body) _ 1 ((Locals.init 0).inStr []) (le_refl _)
    (Or.inl rfl) (by simpa using hb) with ⟨off, msg, h⟩ | h
  · exact Or.inl ⟨off, msg, json_decode_of_throw (by rw [hrun, h])⟩
  · exact Or.inr (json_decode_of_undefined (by rw [hrun, h]))

/-- C15: when the loop of the outermost call or of a nested call stands after an array
element (state 17) or after the value of an object member (state 23) at a `,` that is
followed, after white space, by the end of the input, or by `]` in the array and by the
right brace in the object, the top-level buffered decoder throws a syntax error. -/
theorem C15_trailing_comma (loc : Locale) (inp ws rest : List Nat) (pos : Nat) (l : Locals)
    (hr : Reaches loc inp pos l) (hd : inp.drop pos = 44 :: (ws ++ rest))
    (hws : ∀ x ∈ ws, isWs x = true)
    (hl : (l.state = .s17 ∧ (rest = [] ∨ ∃ r, rest = 93 :: r)) ∨
      (l.state = .s23 ∧ (rest = [] ∨ ∃ r, rest = 125 :: r))) :
    ∃ off msg, json_decode loc inp = .throw (.syntaxAt off msg) := by
  have hd1 : inp.drop (pos + 1) = ws ++ rest := drop_add (a := [44]) hd
  have hlen := length_of_drop hd
  simp only [List.length_cons, List.length_append] at hlen
  suffices h : ∃ off msg, decodeFrom loc inp pos l = .throw (.syntaxAt off msg) by
    obtain ⟨off, msg, h⟩ := h
    exact ⟨off, msg, hr.throw _ h⟩
  obtain ⟨st, start, str, arr, obj, key⟩ := l
  rw [decodeFrom_cons loc hd]
  rcases hl with ⟨hst, hrest⟩ | ⟨hst, hrest⟩
  · simp only at hst
    subst hst
    simp only [step, show isWs 44 = false by decide, if_true, if_false, Bool.false_eq_true]
    cases hwr : ws ++ rest with
    | nil =>
      rw [hwr] at hd1
      rw [decodeFrom_nil loc (by omega) hd1]
      exact ⟨_, _, rfl⟩
    | cons c r =>
      obtain ⟨off, msg, hv⟩ := json_decode_at_no_value loc inp ws rest (pos + 1) hd1 (by omega)
        hws (by
          rcases hrest with h | ⟨r, h⟩
          · exact Or.inl h
          · exact Or.inr ⟨93, r, h, Or.inl rfl⟩)
      rw [hwr] at hd1
      rw [decodeFrom_cons loc hd1]
      exact ⟨off, msg, by simp only [step, hv, afterCall]⟩
  · simp only at hst
    subst hst
    simp only [step, show isWs 44 = false by decide, if_true, if_false, Bool.false_eq_true]
    rw [decodeFrom_skip loc inp ws rest (pos + 1) ⟨.s24, start, str, arr, obj, key⟩ hd1 hws rfl]
    have hd2 : inp.drop (pos + 1 + ws.length) = rest := drop_add hd1
    rcases hrest with rfl | ⟨r, rfl⟩
    · rw [decodeFrom_nil loc (by simp at hlen; omega) hd2]
      exact ⟨_, _, rfl⟩
    · rw [decodeFrom_cons loc hd2]
      exact ⟨pos + 1 + ws.length, "JSON syntax error: expected '\"' after comma in object",
        by simp [step, isWs]⟩

/-- C15, an instance: in the text `[1,]` the loop stands at the `,` after the element `1`,
and `]` follows. -/
theorem C15_trailing_comma_witness :
    Reaches .C (ascii "[1,]") 2 ⟨.s17, 0, [], [.number ⟨false, 1023, 0⟩], [], .null⟩ ∧
    (ascii "[1,]").drop 2 = 44 :: ([] ++ [93]) ∧
    ∃ off msg, json_decode .C (ascii "[1,]") = .throw (.syntaxAt off msg) :=
  ⟨reaches_after_element, by decide,
    C15_trailing_comma .C (ascii "[1,]") [] [93] 2 _ reaches_after_element (by decide)
      (by simp) (Or.inl ⟨rfl, Or.inr ⟨[], rfl⟩⟩)⟩

/-- C16: when the loop of the outermost call or of a nested call stands at the start of a
value (state 0: the top-level value, an array element or the value of an object member)
at a `0`, or at a `-` and a `0`, followed by a digit, the top-level buffered decoder throws
a syntax error. -/
theorem C16_leading_zero (loc : Locale) (inp sign r : List Nat) (pos d : Nat) (l : Locals)
    (hr : Reaches loc inp pos l) (hl : l.state = .s0) (hsign : sign = [] ∨ sign = [45])
    (hd : inp.drop pos = sign ++ 48 :: d :: r) (hdig : isDigit d = true) :
    ∃ off msg, json_decode loc inp = .throw (.syntaxAt off msg) := by
  have hd1 : inp.drop (pos + sign.length) = 48 :: d :: r := drop_add hd
  have hd2 : inp.drop (pos + sign.length + 1) = d :: r := drop_add (a := [48]) hd1
  have hdq : inp[pos + sign.length + 1]? = some d := by simpa using at_drop hd2 0
  have hdn : isWs d = false ∧ d ≠ 44 ∧ d ≠ 58 ∧ d ≠ 93 ∧ d ≠ 125 ∧ d ≠ 46 ∧ d ≠ 69 ∧ d ≠ 101 := by
    simp only [isDigit, Bool.decide_and, Bool.and_eq_true, decide_eq_true_eq] at hdig
    simp only [isWs, Bool.decide_or, Bool.or_eq_false_iff, decide_eq_false_iff_not]
    omega
  obtain ⟨st, start, str, arr, obj, key⟩ := l
  simp only at hl
  subst hl
  have hrun : ∃ l2, decodeFrom loc inp pos ⟨.s0, start, str, arr, obj, key⟩
      = accept inp .accept_number (pos + sign.length + 1) l2 := by
    rcases hsign with rfl | rfl
    · simp only [List.length_nil, Nat.add_zero] at hd1 hd2 ⊢
      rw [decodeFrom_cons loc hd1]
      simp [step, isWs, isDigit19]
      rw [decodeFrom_cons loc hd2]
      simp only [step, hdn.2.2.2.2.2.1, hdn.2.2.2.2.2.2.1, hdn.2.2.2.2.2.2.2, or_self, if_false]
      exact ⟨_, rfl⟩
    · simp only [List.length_cons, List.length_nil, Nat.zero_add] at hd1 hd2 ⊢
      have hd0 : inp.drop pos = 45 :: 48 :: d :: r := hd
      rw [decodeFrom_cons loc hd0]
      simp [step, isWs, isDigit19]
      rw [decodeFrom_cons loc hd1]
      simp [step, isDigit19]
      rw [decodeFrom_cons loc hd2]
      simp only [step, hdn.2.2.2.2.2.1, hdn.2.2.2.2.2.2.1, hdn.2.2.2.2.2.2.2, or_self, if_false]
      exact ⟨_, rfl⟩
  obtain ⟨l2, hrun⟩ := hrun
  cases hacc : accept inp .accept_number (pos + sign.length + 1) l2 with
  | ok r =>
    obtain ⟨q, v⟩ := r
    have hq := accept_pos hacc
    subst hq
    exact hr.ok_before _ v d (by rw [hrun, hacc]) hdq hdn.1 hdn.2.1 hdn.2.2.1 hdn.2.2.2.1
      hdn.2.2.2.2.1
  | throw e =>
    simp only [accept] at hacc
    split at hacc
    · cases hacc
      exact ⟨_, _, hr.throw _ (by rw [hrun]; simp only [accept, *]; rfl)⟩
    · cases hacc
  | undefined =>
    simp only [accept] at hacc
    split at hacc <;> cases hacc
  | outOfFuel => exact absurd hacc (accept_ne_outOfFuel _ _ _ _)

/-- C16, an instance: in the text `[01]` the nested call for the first element starts at
the `0`, which the digit `1` follows. -/
theorem C16_leading_zero_witness :
    Reaches .C (ascii "[01]") 1 (Locals.init 1) ∧
    (ascii "[01]").drop 1 = [] ++ 48 :: 49 :: [93] ∧
    ∃ off msg, json_decode .C (ascii "[01]") = .throw (.syntaxAt off msg) :=
  ⟨reaches_first_element, by decide,
    C16_leading_zero .C (ascii "[01]") [] [93] 1 49 _ reaches_first_element rfl (Or.inl rfl)
      (by decide) (by decide)⟩

/-- C17: when the loop of the outermost call or of a nested call stands after the left
brace of an object (state 19), after the `,` between two members (state 24) or after a key
(state 21), and the first character that is not white space is, respectively, neither a
quote nor the right brace, not a quote, not a colon, the top-level buffered decoder throws
a syntax error whose offset is the one of that character. -/
theorem C17_object_syntax (loc : Locale) (inp ws r : List Nat) (pos c : Nat) (l : Locals)
    (hr : Reaches loc inp pos l) (hd : inp.drop pos = ws ++ c :: r)
    (hws : ∀ x ∈ ws, isWs x = true) (hc : isWs c = false)
    (hl : (l.state = .s19 ∧ c ≠ 34 ∧ c ≠ 125) ∨ (l.state = .s24 ∧ c ≠ 34) ∨
      (l.state = .s21 ∧ c ≠ 58)) :
    ∃ msg, json_decode loc inp = .throw (.syntaxAt (pos + ws.length) msg) := by
  have hd1 : inp.drop (pos + ws.length) = c :: r := drop_add hd
  suffices h : ∃ msg, decodeFrom loc inp pos l = .throw (.syntaxAt (pos + ws.length) msg) by
    obtain ⟨msg, h⟩ := h
    exact ⟨msg, hr.throw _ h⟩
  have hskip : skipsWs l.state = true := by
    rcases hl with h | h | h <;> rw [h.1] <;> decide
  rw [decodeFrom_skip loc inp ws (c :: r) pos l hd hws hskip, decodeFrom_cons loc hd1]
  obtain ⟨st, start, str, arr, obj, key⟩ := l
  rcases hl with ⟨hst, h1, h2⟩ | ⟨hst, h1⟩ | ⟨hst, h1⟩ <;> simp only at hst <;> subst hst
  · exact ⟨_, by simp only [step, hc, h1, h2, if_false, Bool.false_eq_true]; rfl⟩
  · exact ⟨_, by simp only [step, hc, h1, if_false, Bool.false_eq_true]; rfl⟩
  · exact ⟨_, by simp only [step, hc, h1, if_false, Bool.false_eq_true]; rfl⟩

/-- C17, an instance: in the text `{a:1}` the loop stands after the left brace at the
character `a`. -/
theorem C17_object_syntax_witness :
    Reaches .C (ascii "\x7ba:1\x7d") 1 ⟨.s19, 0, [], [], [], .null⟩ ∧
    (ascii "\x7ba:1\x7d").drop 1 = [] ++ 97 :: ascii ":1\x7d" ∧
    ∃ msg, json_decode .C (ascii "\x7ba:1\x7d") = .throw (.syntaxAt (1 + 0) msg) :=
  ⟨reaches_after_brace, by decide,
    C17_object_syntax .C (ascii "\x7ba:1\x7d") [] (ascii ":1\x7d") 1 97 _ reaches_after_brace
      (by decide) (by simp) (by decide) (Or.inl ⟨rfl, by decide, by decide⟩)⟩

/-- C18: when the first character of the buffer, from `start` on, that is not white space
is `n`, `t` or `f`, the buffered decoder returns Null, true or false, and the position
right after the literal, if the characters from there on spell `null`, `true` or `false`;
otherwise, also when the buffer ends inside the literal, it throws the syntax error that
names the literal, at the offset of that first character. -/
theorem C18_literals (loc : Locale) (inp ws rest : List Nat) (start c : Nat)
    (hd : inp.drop start = ws ++ c :: rest) (hws : ∀ x ∈ ws, isWs x = true) :
    (c = 110 → json_decode_at loc inp start
      = if (c :: rest).take 4 = ascii "null" then .ok (start + ws.length + 4, .null)
        else .throw (.syntaxAt (start + ws.length) "JSON syntax error: expected \"null\"")) ∧
    (c = 116 → json_decode_at loc inp start
      = if (c :: rest).take 4 = ascii "true" then .ok (start + ws.length + 4, .boolean true)
        else .throw (.syntaxAt (start + ws.length) "JSON syntax error: expected \"true\"")) ∧
    (c = 102 → json_decode_at loc inp start
      = if (c :: rest).take 5 = ascii "false" then .ok (start + ws.length + 5, .boolean false)
        else .throw (.syntaxAt (start + ws.length) "JSON syntax error: expected \"false\"")) := by
  have hlen := length_of_drop hd
  simp only [List.length_append, List.length_cons] at hlen
  have hd' : inp.drop (start + ws.length) = c :: rest := drop_add hd
  have hrun : json_decode_at loc inp start
      = decodeLoop loc inp (ws.length + 2 * rest.length + 3 + 1) (start + ws.length)
          { Locals.init start with start := start + ws.length } := by
    unfold json_decode_at
    rw [show 2 * (inp.length - start) + 2
      = (ws.length + 2 * rest.length + 3 + 1) + ws.length by omega,
      decodeLoop_ws loc inp ws (c :: rest) _ start _ hd hws rfl]
    rfl
  have hnull : ascii "null" = [110, 117, 108, 108] := by decide
  have htrue : ascii "true" = [116, 114, 117, 101] := by decide
  have hfalse : ascii "false" = [102, 97, 108, 115, 101] := by decide
  rw [hrun, decodeLoop_at hd', hnull, htrue, hfalse]
  refine ⟨?_, ?_, ?_⟩ <;> rintro rfl
  · by_cases hl : rest.take 3 = [117, 108, 108]
    · simp [step, Locals.init, litAt_cons hd', isWs, hl, accept]
    · simp [step, Locals.init, litAt_cons hd', isWs, hl, accept]
  · by_cases hl : rest.take 3 = [114, 117, 101]
    · simp [step, Locals.init, litAt_cons hd', isWs, hl, accept]
    · simp [step, Locals.init, litAt_cons hd', isWs, hl, accept]
  · by_cases hl : rest.take 4 = [97, 108, 115, 101]
    · simp [step, Locals.init, litAt_cons hd', isWs, hl, accept]
    · simp [step, Locals.init, litAt_cons hd', isWs, hl, accept]

/-- C18, an instance: the buffer ` true`, decoded from position 0. -/
theorem C18_literals_witness :
    (ascii " true").drop 0 = [32] ++ 116 :: ascii "rue" ∧ (∀ x ∈ [32], isWs x = true) ∧
    json_decode_at .C (ascii " true") 0
      = if (116 :: ascii "rue").take 4 = ascii "true" then .ok (0 + [32].length + 4, .boolean true)
        else .throw (.syntaxAt (0 + [32].length) "JSON syntax error: expected \"true\"") :=
  ⟨by decide, by decide,
    (C18_literals .C (ascii " true") [32] (ascii "rue") 0 116 (by decide) (by decide)).2.1 rfl⟩

/-- C20: when the top-level buffered decoder accepts each of the texts `t1`, ..., `tn`
(`n` may be 0) with the values `v1`, ..., `vn`, it accepts the text made of `[`, the texts
separated by `,`, and `]`, and returns the Array of `v1`, ..., `vn` in this order; the text
`[]` gives the empty Array. -/
theorem C20_array_compositional (loc : Locale) (ts : List (List Nat)) (vs : List JSON)
    (h : List.Forall₂ (fun t v => json_decode loc t = .ok v) ts vs) :
    json_decode loc (91 :: (List.intercalate [44] ts ++ [93])) = .ok (.array vs) :=
  json_decode_array loc ts vs h

/-- C20, an instance: the texts `1` and ` [true] ` give the text `[1, [true] ]`. -/
theorem C20_array_compositional_witness :
    List.Forall₂ (fun t v => json_decode .C t = .ok v) [ascii "1", ascii " [true] "]
      [.number ⟨false, 1023, 0⟩, .array [.boolean true]] ∧
    json_decode .C (ascii "[1, [true] ]")
      = .ok (.array [.number ⟨false, 1023, 0⟩, .array [.boolean true]]) :=
  have h : List.Forall₂ (fun t v => json_decode .C t = .ok v) [ascii "1", ascii " [true] "]
      [.number ⟨false, 1023, 0⟩, .array [.boolean true]] :=
    .cons (by decide!) (.cons (by decide!) .nil)
  ⟨h, C20_array_compositional .C _ _ h⟩

/-- C21: when the top-level buffered decoder accepts the texts of the keys with Strings and
the texts of the values, it accepts the object text made of the members `key:value`
separated by `,` between braces, and returns the object that results from storing each
value under its key in the order of the text.  The object lists its keys in strictly
ascending order, so each key once; looking a key up finds the value of the key's last
occurrence in the text, and that entry is the only one with the key. -/
theorem C21_duplicate_keys (loc : Locale) (ms : List (List Nat × List Nat))
    (kvs : List (List Nat × JSON))
    (h : List.Forall₂ (fun m kv => json_decode loc m.1 = .ok (.string kv.1) ∧
      json_decode loc m.2 = .ok kv.2) ms kvs) :
    json_decode loc (123 :: (List.intercalate [44] (ms.map memberText) ++ [125]))
      = .ok (.object (JSONObject.ofStores kvs)) ∧
    JSONObject.sorted (JSONObject.ofStores kvs) ∧
    ∀ k v, kvs.reverse.lookup k = some v →
      (JSONObject.ofStores kvs).lookup k = some v ∧
      (JSONObject.ofStores kvs).filter (fun e => e.1 = k) = [(k, v)] := by
  refine ⟨json_decode_object loc ms kvs h, JSONObject.ofStores_sorted kvs, ?_⟩
  intro k v hkv
  have hl : (JSONObject.ofStores kvs).lookup k = some v := by
    rw [JSONObject.lookup_ofStores, hkv]
  exact ⟨hl, JSONObject.filter_of_lookup (JSONObject.ofStores_sorted kvs) hl⟩

/-- C21, an instance: the members `"a":1` and `"a":[2]` give the text `{"a":1,"a":[2]}`, which
is decoded to the object with the single entry `"a"`, holding the Array of 2, as the text
`{"a":[2]}` is. -/
theorem C21_duplicate_keys_witness :
    List.Forall₂ (fun m kv => json_decode .C m.1 = .ok (.string kv.1) ∧
        json_decode .C m.2 = .ok kv.2)
      [(ascii "\"a\"", ascii "1"), (ascii "\"a\"", ascii "[2]")]
      [(ascii "a", .number ⟨false, 1023, 0⟩), (ascii "a", .array [.number ⟨false, 1024, 0⟩])] ∧
    (json_decode .C (ascii "\x7b\"a\":1,\"a\":[2]\x7d")
        = .ok (.object [(ascii "a", .array [.number ⟨false, 1024, 0⟩])]) ∧
      json_decode .C (ascii "\x7b\"a\":[2]\x7d")
        = .ok (.object [(ascii "a", .array [.number ⟨false, 1024, 0⟩])])) ∧
    ([(ascii "a", JSON.number ⟨false, 1023, 0⟩),
        (ascii "a", JSON.array [.number ⟨false, 1024, 0⟩])].reverse.lookup (ascii "a")
        = some (.array [.number ⟨false, 1024, 0⟩]) ∧
      (JSONObject.ofStores [(ascii "a", .number ⟨false, 1023, 0⟩),
        (ascii "a", .array [.number ⟨false, 1024, 0⟩])]).filter (fun e => e.1 = ascii "a")
        = [(ascii "a", .array [.number ⟨false, 1024, 0⟩])]) :=
  have h : List.Forall₂ (fun m kv => json_decode .C m.1 = .ok (.string kv.1) ∧
        json_decode .C m.2 = .ok kv.2)
      [(ascii "\"a\"", ascii "1"), (ascii "\"a\"", ascii "[2]")]
      [(ascii "a", .number ⟨false, 1023, 0⟩), (ascii "a", .array [.number ⟨false, 1024, 0⟩])] :=
    .cons ⟨by decide!, by decide!⟩ (.cons ⟨by decide!, by decide!⟩ .nil)
  have hl : [(ascii "a", JSON.number ⟨false, 1023, 0⟩),
      (ascii "a", JSON.array [.number ⟨false, 1024, 0⟩])].reverse.lookup (ascii "a")
      = some (.array [.number ⟨false, 1024, 0⟩]) := by decide!
  ⟨h, ⟨(C21_duplicate_keys .C _ _ h).1, by decide!⟩,
    hl, ((C21_duplicate_keys .C _ _ h).2.2 _ _ hl).2⟩

/-- C22: when the top-level buffered decoder accepts a text with the value `v`, it accepts
with the same value every text obtained from it by inserting white space (space, tab, CR,
LF) before or after the value or before or after a `[`, `]`, `\x7b`, `\x7d`, `,` or `:`
that separates values (the relation `Spaced`). -/
theorem C22_whitespace_insensitive (loc : Locale) (t t2 : List Nat) (v : JSON)
    (hs : Spaced loc t t2) (hv : json_decode loc t = .ok v) : json_decode loc t2 = .ok v :=
  hs.json_decode v hv

/-- C22, an instance: white space around every bracket, brace, comma and colon of
`{"a":[1,2]}`. -/
theorem C22_whitespace_insensitive_witness :
    Spaced .C (ascii "\x7b\"a\":[1,2]\x7d") (ascii " \x7b \"a\" : [ 1 , 2 ] \x7d\n") ∧
    json_decode .C (ascii "\x7b\"a\":[1,2]\x7d")
      = .ok (.object [(ascii "a", .array [.number ⟨false, 1023, 0⟩, .number ⟨false, 1024, 0⟩])]) ∧
    json_decode .C (ascii " \x7b \"a\" : [ 1 , 2 ] \x7d\n")
      = .ok (.object [(ascii "a", .array [.number ⟨false, 1023, 0⟩, .number ⟨false, 1024, 0⟩])]) :=
  have ws1 : ∀ x ∈ [32], isWs x = true := by decide
  have ws2 : ∀ x ∈ [10], isWs x = true := by decide
  have h1 : json_decode .C (ascii "1") = .ok (.number ⟨false, 1023, 0⟩) := by decide!
  have h2 : json_decode .C (ascii "2") = .ok (.number ⟨false, 1024, 0⟩) := by decide!
  have h1s : json_decode .C (ascii " 1 ") = .ok (.number ⟨false, 1023, 0⟩) := by decide!
  have hk : json_decode .C (ascii "\"a\"") = .ok (.string (ascii "a")) := by decide!
  have ha : json_decode .C (ascii "[1,2]")
      = .ok (.array [.number ⟨false, 1023, 0⟩, .number ⟨false, 1024, 0⟩]) := by decide!
  have ha2 : json_decode .C (ascii " [ 1 , 2 ] ")
      = .ok (.array [.number ⟨false, 1023, 0⟩, .number ⟨false, 1024, 0⟩]) := by decide!
  have e1 : Spaced .C (ascii "[1,2]") (ascii "[ 1 ,2]") :=
    .element [] [ascii "2"] [] [.number ⟨false, 1024, 0⟩] (ascii "1") (ascii " 1 ") _
      .nil (.cons h2 .nil) h1 (.pad _ [32] [32] ws1 ws1)
  have e2 : Spaced .C (ascii "[ 1 ,2]") (ascii "[ 1 , 2 ]") :=
    .element [ascii " 1 "] [] [.number ⟨false, 1023, 0⟩] [] (ascii "2") (ascii " 2 ") _
      (.cons h1s .nil) .nil h2 (.pad _ [32] [32] ws1 ws1)
  have e3 : Spaced .C (ascii "[1,2]") (ascii " [ 1 , 2 ] ") :=
    .trans (.trans e1 e2) (.pad _ [32] [32] ws1 ws1)
  have e4 : Spaced .C (ascii "\x7b\"a\":[1,2]\x7d") (ascii "\x7b\"a\": [ 1 , 2 ] \x7d") :=
    .value [] [] [] [] (ascii "\"a\"") (ascii "[1,2]") (ascii " [ 1 , 2 ] ") _ _ .nil .nil hk ha e3
  have e5 : Spaced .C (ascii "\x7b\"a\": [ 1 , 2 ] \x7d") (ascii "\x7b \"a\" : [ 1 , 2 ] \x7d") :=
    .key [] [] [] [] (ascii "\"a\"") (ascii " \"a\" ") (ascii " [ 1 , 2 ] ") _ _ .nil .nil hk ha2
      (.pad _ [32] [32] ws1 ws1)
  have e6 : Spaced .C (ascii "\x7b\"a\":[1,2]\x7d") (ascii " \x7b \"a\" : [ 1 , 2 ] \x7d\n") :=
    .trans (.trans e4 e5) (.pad _ [32] [10] ws1 ws2)
  have hv : json_decode .C (ascii "\x7b\"a\":[1,2]\x7d")
      = .ok (.object [(ascii "a", .array [.number ⟨false, 1023, 0⟩, .number ⟨false, 1024, 0⟩])]) := by
    decide!
  ⟨e6, hv, C22_whitespace_insensitive .C _ _ _ e6 hv⟩

/-- C23: when `json_decode(in, start, out)` returns the position `e` and stores `v`, then
`start < e`, `e` is at most the length of the buffer, and the top-level decoder, given the
characters `start .. e - 1` of the buffer alone, accepts them and returns `v`. -/
theorem C23_consumes_one_value (loc : Locale) (inp : List Nat) (start e : Nat) (v : JSON)
    (h : json_decode_at loc inp start = .ok (e, v)) :
    start < e ∧ e ≤ inp.length ∧
      json_decode loc ((inp.drop start).take (e - start)) = .ok v := by
  have hb := decodeLoop_bound loc inp _ start _ e v h
  refine ⟨hb.2.2 rfl, hb.2.1, ?_⟩
  have hlen : ((inp.drop start).take (e - start)).length = e - start := by
    rw [List.length_take, List.length_drop]
    have := hb.2.1
    omega
  simp only [json_decode, json_decode_into, json_decode_at_span h, hlen, Nat.sub_self, trailing]

/-- C23, an instance: in the buffer `x [1,2]3` the value decoded from position 1 ends at
position 7, and the characters ` [1,2]` alone give the same value. -/
theorem C23_consumes_one_value_witness :
    json_decode_at .C (ascii "x [1,2]3") 1
      = .ok (7, .array [.number ⟨false, 1023, 0⟩, .number ⟨false, 1024, 0⟩]) ∧
    (1 < 7 ∧ 7 ≤ (ascii "x [1,2]3").length ∧
      json_decode .C (((ascii "x [1,2]3").drop 1).take (7 - 1))
        = .ok (.array [.number ⟨false, 1023, 0⟩, .number ⟨false, 1024, 0⟩])) :=
  ⟨by decide!, C23_consumes_one_value .C _ 1 7 _ (by decide!)⟩

/-- C24, the claim fails on a text with a short escape: the buffered decoder accepts the
6-byte text `"\u1x"` and returns the String of the byte 0x10, while the streamed decoder,
given this text followed by `,2`, returns the String of the bytes 0x10 and `x`
(it leaves `,2` unread).  On the texts `12`, `[1,2]` and `null` the streamed decoder
returns what the buffered one does and leaves the suffix unread. -/
theorem C24_streamed_value_differs_after_short_escape (loc : Locale) :
    json_decode loc (ascii "\"\\u1x\"") = .ok (.string [16]) ∧
    json_decode_stream loc (.ofText (ascii "\"\\u1x\"" ++ ascii ",2"))
      = (.ok (.string [16, 120]), ⟨ascii "\"\\u1x\"" ++ ascii ",2", 6, true⟩) ∧
    JSON.eq (.string [16, 120]) (.string [16]) = false ∧
    (json_decode loc (ascii "12") = .ok (.number (Double.ofNat 12)) ∧
      json_decode_stream loc (.ofText (ascii "12" ++ ascii " 3"))
        = (.ok (.number (Double.ofNat 12)), ⟨ascii "12" ++ ascii " 3", 2, true⟩)) ∧
    (json_decode loc (ascii "[1,2]") = .ok (.array [.number (Double.ofNat 1), .number (Double.ofNat 2)]) ∧
      json_decode_stream loc (.ofText (ascii "[1,2]" ++ ascii "[3]"))
        = (.ok (.array [.number (Double.ofNat 1), .number (Double.ofNat 2)]),
            ⟨ascii "[1,2]" ++ ascii "[3]", 5, true⟩)) ∧
    (json_decode loc (ascii "null") = .ok .null ∧
      json_decode_stream loc (.ofText (ascii "null" ++ ascii "1"))
        = (.ok .null, ⟨ascii "null" ++ ascii "1", 4, true⟩)) := by
  cases loc <;> decide!

/-- C25, the claim fails on the text `01`: the call `json_decode(in, out)` throws the syntax
error for the `1` that follows the value, and `out`, whatever it held, holds the Number 0
afterwards.  When the error is raised while the value is being decoded, `out` keeps what it
held. -/
theorem C25_out_is_overwritten_before_the_error (loc : Locale) (out : JSON) :
    json_decode_into loc (ascii "01") out
      = (.throw (.syntaxAt 1 "JSON syntax error"), .number ⟨false, 0, 0⟩) ∧
    (json_decode_into loc (ascii "01") (.string [97])).2 ≠ .string [97] ∧
    ∀ inp e, json_decode_at loc inp 0 = .throw e → json_decode_into loc inp out = (.throw e, out) := by
  have h : json_decode_at loc (ascii "01") 0 = .ok (1, .number ⟨false, 0, 0⟩) := by
    cases loc <;> decide!
  refine ⟨?_, ?_, ?_⟩
  · simp only [json_decode_into, h]
    decide
  · simp only [json_decode_into, h]
    decide
  · intro inp e he
    simp only [json_decode_into, he]

/-- C26, amended: a syntax error of the top-level buffered decoder is made with an offset
counted from the start of the whole buffer, also when it is raised in a nested call: the
position of the loop pass that threw it (for `\u` with no hexadecimal digit, the next
one), the length of the buffer when the buffer ends inside a value, the position of the
first character that is not white space after a complete value, or the start of a number
token that does not convert.  The offset is at most the length of the buffer.  The text of
the error starts with what `%d` prints for the offset, which is the offset in decimal when
the buffer is shorter than `2 ^ 31` bytes. -/
theorem C26_error_offsets (loc : Locale) (inp : List Nat) (off : Nat) (msg : String)
    (h : json_decode loc inp = .throw (.syntaxAt off msg)) :
    errorSite loc inp off msg ∧ off ≤ inp.length ∧
    (Exn.syntaxAt off msg).what = some (fmt_d off ++ ascii ": " ++ ascii msg) ∧
    (inp.length < 2 ^ 31 →
      (Exn.syntaxAt off msg).what = some (decNat off ++ ascii ": " ++ ascii msg) ∧
        digitsVal (decNat off) = off) := by
  have hsite := json_decode_errorSite h
  have hle := errorSite_le hsite
  refine ⟨hsite, hle, rfl, fun hlen => ⟨?_, digitsVal_decNat off⟩⟩
  simp only [Exn.what, fmt_d_small (Nat.lt_of_le_of_lt hle hlen)]

/-- C26, an instance: in `[1,nulx]` the error for the misspelt literal carries the offset 3 of
its first character, counted from the start of the buffer. -/
theorem C26_error_offsets_witness :
    json_decode .C (ascii "[1,nulx]")
      = .throw (.syntaxAt 3 "JSON syntax error: expected \"null\"") ∧
    (errorSite .C (ascii "[1,nulx]") 3 "JSON syntax error: expected \"null\"" ∧
      3 ≤ (ascii "[1,nulx]").length ∧
      (Exn.syntaxAt 3 "JSON syntax error: expected \"null\"").what
        = some (fmt_d 3 ++ ascii ": " ++ ascii "JSON syntax error: expected \"null\"") ∧
      ((ascii "[1,nulx]").length < 2 ^ 31 →
        (Exn.syntaxAt 3 "JSON syntax error: expected \"null\"").what
            = some (decNat 3 ++ ascii ": " ++ ascii "JSON syntax error: expected \"null\"") ∧
          digitsVal (decNat 3) = 3)) :=
  ⟨by decide!, C26_error_offsets .C _ _ _ (by decide!)⟩

/-- C26, the claim fails on its own example: for the text `nulx` the offset is 0, that of the
first character of the literal, not 3; and for the 5-byte text `"\u12`, which ends too
early, it is 2, the index of the `u`, not the length 5. -/
theorem C26_misspelt_literal_reports_its_start :
    json_decode .C (ascii "nulx")
      = .throw (.syntaxAt 0 "JSON syntax error: expected \"null\"") ∧
    json_decode .UTF8 (ascii "nulx")
      = .throw (.syntaxAt 0 "JSON syntax error: expected \"null\"") ∧
    json_decode .C (ascii "[1,nulx]")
      = .throw (.syntaxAt 3 "JSON syntax error: expected \"null\"") ∧
    json_decode .C (ascii "\"\\u12")
      = .throw (.syntaxAt 2 "JSON syntax error: expected at least 4 characters after '\\u'") := by
  decide!

/-- C27: each of the accessors `boolean()`, `number()`, `string()`, `array()` and
`object()` throws `json_type_error` exactly when `type()` is not the accessor's kind,
and returns the payload of the value otherwise; `type()`, which always returns, gives
`JSON_NULL` for the null handle and for it alone. -/
theorem C27_accessors (v : JSON) :
    ((v.getBoolean = .throw (.typeError "not a JSON boolean") ↔ v.type ≠ .JSON_BOOLEAN) ∧
      (v.type = .JSON_BOOLEAN ↔ ∃ x, v = .boolean x ∧ v.getBoolean = .ok x)) ∧
    ((v.getNumber = .throw (.typeError "not a JSON number") ↔ v.type ≠ .JSON_NUMBER) ∧
      (v.type = .JSON_NUMBER ↔ ∃ x, v = .number x ∧ v.getNumber = .ok x)) ∧
    ((v.getString = .throw (.typeError "not a JSON string") ↔ v.type ≠ .JSON_STRING) ∧
      (v.type = .JSON_STRING ↔ ∃ x, v = .string x ∧ v.getString = .ok x)) ∧
    ((v.getArray = .throw (.typeError "not a JSON array") ↔ v.type ≠ .JSON_ARRAY) ∧
      (v.type = .JSON_ARRAY ↔ ∃ x, v = .array x ∧ v.getArray = .ok x)) ∧
    ((v.getObject = .throw (.typeError "not a JSON object") ↔ v.type ≠ .JSON_OBJECT) ∧
      (v.type = .JSON_OBJECT ↔ ∃ x, v = .object x ∧ v.getObject = .ok x)) ∧
    (v.type = .JSON_NULL ↔ v = .null) := by
  cases v <;>
    simp [JSON.getBoolean, JSON.getNumber, JSON.getString, JSON.getArray, JSON.getObject,
      JSON.type]

/-- C28, the claim as stated fails: converting the empty String to `double` throws
`std::invalid_argument`, not `json_type_error`. -/
theorem C28_empty_string_throws_invalid_argument :
    JSON.toDouble (.string []) =
      .throw (.invalidArgument (ascii "invalid floating-point value: ")) ∧
    JSON.toDouble (.string (ascii "12x")) =
      .throw (.invalidArgument (ascii "invalid floating-point value: 12x")) ∧
    ∀ w, JSON.toDouble (.string []) ≠ .throw (.typeError w) := by
  refine ⟨by decide!, by decide!, ?_⟩
  intro w h
  have h2 : JSON.toDouble (.string []) =
      .throw (.invalidArgument (ascii "invalid floating-point value: ")) := by decide!
  rw [h2] at h
  cases h

/-- C28, amended: the conversion to `double` gives 0.0 for Null, 1.0 or 0.0 for a Bool,
the stored value for a Number, and throws `json_type_error` for an Array and for an
Object.  For a String it works on the bytes before the first NUL: it throws
`std::invalid_argument` exactly when `strtod` converts nothing at their head or a
character that is not white space follows what it converted, and otherwise returns the
value `strtod` converted.  What `strtod` converts includes the hexadecimal forms and
`inf`, `nan` and `nan(n-char-sequence)`: the String `nan(1)` gives the NaN with the
payload 1, and `nan(1`, in which `strtod` converts `nan` alone, makes it throw. -/
theorem C28_conversion_to_double :
    JSON.toDouble .null = .ok ⟨false, 0, 0⟩ ∧
    JSON.toDouble (.boolean true) = .ok ⟨false, 1023, 0⟩ ∧
    JSON.toDouble (.boolean false) = .ok ⟨false, 0, 0⟩ ∧
    (∀ d, JSON.toDouble (.number d) = .ok d) ∧
    (∀ a, JSON.toDouble (.array a) =
      .throw (.typeError "JSON array cannot be converted to type double")) ∧
    (∀ o, JSON.toDouble (.object o) =
      .throw (.typeError "JSON object cannot be converted to type double")) ∧
    (∀ s : List Nat,
      (JSON.toDouble (.string s) =
          .throw (.invalidArgument (ascii "invalid floating-point value: " ++ c_str s)) ↔
        (strtod (c_str s)).2 = 0 ∨
          ∃ c ∈ (c_str s).drop (strtod (c_str s)).2, isspace c = false) ∧
      (JSON.toDouble (.string s) = .ok (strtod (c_str s)).1 ↔
        (strtod (c_str s)).2 ≠ 0 ∧
          ∀ c ∈ (c_str s).drop (strtod (c_str s)).2, isspace c = true)) ∧
    JSON.toDouble (.string (ascii "nan(1)")) = .ok ⟨false, 2047, 2 ^ 51 + 1⟩ ∧
    JSON.toDouble (.string (ascii "-NAN(0x10) ")) = .ok ⟨true, 2047, 2 ^ 51 + 16⟩ ∧
    JSON.toDouble (.string (ascii "nan(1")) =
      .throw (.invalidArgument (ascii "invalid floating-point value: nan(1")) ∧
    JSON.toDouble (.string (ascii " 0x1p-2 ")) = .ok ⟨false, 1021, 0⟩ ∧
    JSON.toDouble (.string (ascii "inf")) = .ok ⟨false, 2047, 0⟩ := by
  refine ⟨rfl, rfl, rfl, fun _ => rfl, fun _ => rfl, fun _ => rfl, ?_, by decide!, by decide!,
    by decide!, by decide!, by decide!⟩
  intro s
  have hsp : ∀ r : List Nat, onlySpace r = true ↔ ∀ c ∈ r, isspace c = true := by
    intro r
    induction r with
    | nil => simp [onlySpace]
    | cons c r ih =>
      simp only [onlySpace, List.mem_cons, forall_eq_or_imp]
      cases hc : isspace c <;> simp [ih]
  simp only [JSON.toDouble, json_strtod]
  by_cases h0 : (strtod (c_str s)).2 = 0
  · simp [h0]
  · by_cases h1 : onlySpace ((c_str s).drop (strtod (c_str s)).2) = true
    · have h2 := (hsp _).1 h1
      simp only [h0, h1, if_false, if_true, false_or, reduceCtorEq, false_iff, not_exists,
        not_and, Bool.not_eq_false, ne_eq, not_false_eq_true, true_and, true_iff]
      exact ⟨h2, h2⟩
    · have h2 : ¬ ∀ c ∈ (c_str s).drop (strtod (c_str s)).2, isspace c = true :=
        fun h => h1 ((hsp _).2 h)
      simp only [h0, h1, if_false, false_or, true_iff, reduceCtorEq, false_iff, ne_eq,
        not_false_eq_true, true_and, Bool.false_eq_true]
      refine ⟨?_, h2⟩
      by_contra h3
      apply h2
      intro c hc
      by_contra h4
      exact h3 ⟨c, hc, by simpa using h4⟩

/-- C29: the conversion to `bool` gives false for Null, the stored value for a Bool,
`value != 0.0` for a Number (false for the two zeros, true for every other double,
NaNs included), `length != 0` for a String, and throws `json_type_error` for an Array
and an Object and in no other case. -/
theorem C29_conversion_to_bool :
    JSON.toBool .null = .ok false ∧
    (∀ b, JSON.toBool (.boolean b) = .ok b) ∧
    (∀ d, JSON.toBool (.number d) = .ok (!Double.eq d ⟨false, 0, 0⟩) ∧
      JSON.toBool (.number d) = .ok (!d.isZero)) ∧
    (∀ s, JSON.toBool (.string s) = .ok (s.length != 0)) ∧
    (∀ a, JSON.toBool (.array a) =
      .throw (.typeError "JSON array cannot be converted to type bool")) ∧
    (∀ o, JSON.toBool (.object o) =
      .throw (.typeError "JSON object cannot be converted to type bool")) ∧
    (∀ v e, JSON.toBool v = .throw e → v.type = .JSON_ARRAY ∨ v.type = .JSON_OBJECT) ∧
    (∀ v, v.type ≠ .JSON_ARRAY → v.type ≠ .JSON_OBJECT → ∃ b, JSON.toBool v = .ok b) := by
  refine ⟨rfl, fun _ => rfl, fun d => ⟨rfl, ?_⟩, fun _ => rfl, fun _ => rfl, fun _ => rfl, ?_, ?_⟩
  · simp only [JSON.toBool, Double.eq_zero]
  · intro v e h
    cases v <;> simp [JSON.toBool, JSON.type] at h ⊢
  · intro v h1 h2
    cases v <;> simp [JSON.toBool, JSON.type] at h1 h2 ⊢

/-- C30, the claim as stated fails: with a NaN stored in `a`, `a <= b` and `a >= b`
return true, while the comparisons `<=` and `>=` of the payloads are false. -/
theorem C30_nan_is_less_or_equal :
    JSON.le (.number Double.nan) (.number (Double.ofNat 1)) = .ok true ∧
    JSON.ge (.number Double.nan) (.number (Double.ofNat 1)) = .ok true ∧
    Double.le Double.nan (Double.ofNat 1) = false ∧
    Double.le (Double.ofNat 1) Double.nan = false := by
  decide!

/-- C30, amended: for two values of different kinds `==` returns false and `!=` true, and
`<`, `>`, `<=`, `>=` throw `json_type_error`.  For two values of the same scalar kind
`==`, `!=`, `<` and `>` return the comparison of the payloads (Null equals Null and is
not less than Null); `a <= b` returns the negation of `b < a` and `a >= b` that of
`a < b`, which is the comparison `<=` or `>=` of the payloads for Bools, Strings and
Numbers that are not NaNs, and is true when one of two Numbers is a NaN. -/
theorem C30_comparisons :
    (∀ a b : JSON, a.type ≠ b.type →
      JSON.eq a b = false ∧ JSON.ne a b = true ∧
      JSON.lt a b = .throw (.typeError "incompatible JSONBase types in comparison") ∧
      JSON.gt a b = .throw (.typeError "incompatible JSONBase types in comparison") ∧
      JSON.le a b = .throw (.typeError "incompatible JSONBase types in comparison") ∧
      JSON.ge a b = .throw (.typeError "incompatible JSONBase types in comparison")) ∧
    (JSON.eq .null .null = true ∧ JSON.ne .null .null = false ∧
      JSON.lt .null .null = .ok false ∧ JSON.gt .null .null = .ok false ∧
      JSON.le .null .null = .ok true ∧ JSON.ge .null .null = .ok true) ∧
    (∀ x y : Bool,
      JSON.eq (.boolean x) (.boolean y) = (x == y) ∧
      JSON.ne (.boolean x) (.boolean y) = (x != y) ∧
      JSON.lt (.boolean x) (.boolean y) = .ok (!x && y) ∧
      JSON.gt (.boolean x) (.boolean y) = .ok (x && !y) ∧
      JSON.le (.boolean x) (.boolean y) = .ok (!x || y) ∧
      JSON.ge (.boolean x) (.boolean y) = .ok (x || !y)) ∧
    (∀ x y : Double,
      JSON.eq (.number x) (.number y) = Double.eq x y ∧
      JSON.ne (.number x) (.number y) = !Double.eq x y ∧
      JSON.lt (.number x) (.number y) = .ok (Double.lt x y) ∧
      JSON.gt (.number x) (.number y) = .ok (Double.lt y x) ∧
      JSON.le (.number x) (.number y) = .ok (!Double.lt y x) ∧
      JSON.ge (.number x) (.number y) = .ok (!Double.lt x y) ∧
      (x.isNaN = false → y.isNaN = false →
        JSON.le (.number x) (.number y) = .ok (Double.le x y) ∧
        JSON.ge (.number x) (.number y) = .ok (Double.le y x)) ∧
      (x.isNaN = true ∨ y.isNaN = true →
        JSON.le (.number x) (.number y) = .ok true ∧
        JSON.ge (.number x) (.number y) = .ok true)) ∧
    (∀ x y : List Nat,
      JSON.eq (.string x) (.string y) = (x == y) ∧
      JSON.ne (.string x) (.string y) = (x != y) ∧
      JSON.lt (.string x) (.string y) = .ok (string_lt x y) ∧
      JSON.gt (.string x) (.string y) = .ok (string_lt y x) ∧
      JSON.le (.string x) (.string y) = .ok (string_lt x y || x == y) ∧
      JSON.ge (.string x) (.string y) = .ok (string_lt y x || x == y)) := by
  refine ⟨?_, ?_, ?_, ?_, ?_⟩
  · intro a b h
    cases a <;> cases b <;>
      simp [JSON.type, JSON.eq, JSON.ne, JSON.lt, JSON.gt, JSON.le, JSON.ge, Result.not] at h ⊢
  · simp [JSON.eq, JSON.ne, JSON.lt, JSON.gt, JSON.le, JSON.ge, Result.not]
  · intro x y
    cases x <;> cases y <;>
      simp [JSON.eq, JSON.ne, JSON.lt, JSON.gt, JSON.le, JSON.ge, Result.not]
  · intro x y
    have hlt : ∀ u w : Double, JSON.lt (.number u) (.number w) = .ok (Double.lt u w) := by
      intro u w
      simp only [JSON.lt]
    refine ⟨by simp only [JSON.eq], by simp only [JSON.ne, JSON.eq], hlt x y,
      by simp only [JSON.gt], by simp only [JSON.le, hlt, Result.not],
      by simp only [JSON.ge, hlt, Result.not], ?_, ?_⟩
    · intro hx hy
      simp only [JSON.le, JSON.ge, hlt, Result.not, Double.not_lt x y hx hy,
        Double.not_lt y x hy hx, and_self]
    · intro h
      have h1 : Double.lt x y = false := by
        rcases h with h | h <;> simp [Double.lt, h]
      have h2 : Double.lt y x = false := by
        rcases h with h | h <;> simp [Double.lt, h]
      simp [JSON.le, JSON.ge, hlt, Result.not, h1, h2]
  · intro x y
    have hlt : ∀ u w : List Nat, JSON.lt (.string u) (.string w) = .ok (string_lt u w) := by
      intro u w
      simp only [JSON.lt]
    refine ⟨by simp only [JSON.eq], by simp only [JSON.ne, JSON.eq, bne], hlt x y,
      by simp only [JSON.gt], ?_, ?_⟩
    · simp only [JSON.le, hlt, Result.not, string_not_lt x y]
    · simp only [JSON.ge, hlt, Result.not, string_not_lt y x]
      congr 2
      rw [Bool.eq_iff_iff]
      simp only [beq_iff_eq]
      exact eq_comm

/-- C31: keyed access with `operator[]`.  For a `JSONObject` `o` (its entries in
ascending order of key, as in a `std::map`) and a key `k`: if `o` has no entry with the
key, `o[k]` refers to a null value and `o` afterwards holds its former entries, unchanged
and in their order, and the entry of `k` with a null value, one entry more, still in
ascending order; if `o` has the key, `o[k]` refers to the value stored and `o` is
unchanged.  On a `JSON` that owns the object the operator does the same; on a `JSON` of
another type it throws `json_type_error` and the value is what it was. -/
theorem C31_first_touch_keyed_access (o : JSONObject) (k : List Nat)
    (ho : JSONObject.sorted o) :
    (o.lookup k = none →
        (JSONObject.subscript o k).1 = JSON.null
        ∧ (JSONObject.subscript o k).2.Perm ((k, JSON.null) :: o)
        ∧ o.Sublist (JSONObject.subscript o k).2
        ∧ (JSONObject.subscript o k).2.length = o.length + 1
        ∧ JSONObject.sorted (JSONObject.subscript o k).2)
    ∧ (∀ v, o.lookup k = some v → JSONObject.subscript o k = (v, o))
    ∧ JSON.subscript (.object o) k
        = (.ok (JSONObject.subscript o k).1, .object (JSONObject.subscript o k).2)
    ∧ (∀ j : JSON, j.type ≠ .JSON_OBJECT →
        JSON.subscript j k = (.throw (.typeError "not a JSON object"), j)) := by
  refine ⟨?_, ?_, ?_, ?_⟩
  · intro h
    obtain ⟨h1, h2, h3⟩ := JSONObject.touch_absent o k h
    refine ⟨?_, h1, h2, ?_, JSONObject.touch_sorted k ho⟩
    · simp [JSONObject.subscript, h3]
    · simpa using h1.length_eq
  · intro v h
    simp [JSONObject.subscript, JSONObject.touch_present ho h, h]
  · simp [JSON.subscript, JSON.getObject, JSON.type]
  · intro j hj
    simp [JSON.subscript, JSON.getObject, hj]

/-- C31, an instance: the key `b` in the object that holds `a`. -/
theorem C31_first_touch_keyed_access_witness :
    JSONObject.sorted [(ascii "a", JSON.boolean true)]
    ∧ (([(ascii "a", JSON.boolean true)] : JSONObject).lookup (ascii "b") = none →
        (JSONObject.subscript [(ascii "a", JSON.boolean true)] (ascii "b")).1 = JSON.null
        ∧ (JSONObject.subscript [(ascii "a", JSON.boolean true)] (ascii "b")).2.Perm
            ((ascii "b", JSON.null) :: [(ascii "a", JSON.boolean true)])
        ∧ List.Sublist [(ascii "a", JSON.boolean true)]
            (JSONObject.subscript [(ascii "a", JSON.boolean true)] (ascii "b")).2
        ∧ (JSONObject.subscript [(ascii "a", JSON.boolean true)] (ascii "b")).2.length
            = ([(ascii "a", JSON.boolean true)] : JSONObject).length + 1
        ∧ JSONObject.sorted
            (JSONObject.subscript [(ascii "a", JSON.boolean true)] (ascii "b")).2)
    ∧ (∀ v, ([(ascii "a", JSON.boolean true)] : JSONObject).lookup (ascii "b") = some v →
        JSONObject.subscript [(ascii "a", JSON.boolean true)] (ascii "b")
          = (v, [(ascii "a", JSON.boolean true)]))
    ∧ JSON.subscript (.object [(ascii "a", JSON.boolean true)]) (ascii "b")
        = (.ok (JSONObject.subscript [(ascii "a", JSON.boolean true)] (ascii "b")).1,
           .object (JSONObject.subscript [(ascii "a", JSON.boolean true)] (ascii "b")).2)
    ∧ (∀ j : JSON, j.type ≠ .JSON_OBJECT →
        JSON.subscript j (ascii "b") = (.throw (.typeError "not a JSON object"), j)) :=
  ⟨by simp [JSONObject.sorted],
    C31_first_touch_keyed_access [(ascii "a", JSON.boolean true)] (ascii "b")
      (by simp [JSONObject.sorted])⟩

/-- C32: the checked accessors `get` and `has`.  For an array `a` of fewer than
2^63 elements and an `int` `i`, `JSON::get(int)` throws `std::out_of_range` exactly when
`i` is negative or not below the size and returns element `i` otherwise, and
`JSON::has(int)` is true exactly when it returns; the same holds for the overloads
taking a `size_t`, with no bound on the array.  For an object `o` and a key `k`,
`get` throws `std::out_of_range` exactly when `o` has no entry with the key and returns
the value stored otherwise, and `has` is true exactly when it returns, for `JSONObject`
and for a `JSON` owning the object.  The functions compute their result from the
container and store nothing. -/
theorem C32_checked_access (a : JSONArray) (i : Int) (o : JSONObject) (k : List Nat)
    (n : Nat) (hi : -2147483648 ≤ i ∧ i ≤ 2147483647)
    (ha : a.length < 9223372036854775808) :
    (JSON.getIndex (.array a) i = .throw (.outOfRange none) ↔ (i < 0 ∨ (a.length : Int) ≤ i))
    ∧ (0 ≤ i → i < a.length →
        ∃ x, a[i.toNat]? = some x ∧ JSON.getIndex (.array a) i = .ok x)
    ∧ (JSON.hasIndex (.array a) i = .ok true ↔ ∃ x, JSON.getIndex (.array a) i = .ok x)
    ∧ (JSON.hasIndex (.array a) i = .ok false
        ↔ JSON.getIndex (.array a) i = .throw (.outOfRange none))
    ∧ (JSON.getAt (.array a) n = .throw (.outOfRange none) ↔ a.length ≤ n)
    ∧ (n < a.length → ∃ x, a[n]? = some x ∧ JSON.getAt (.array a) n = .ok x)
    ∧ (JSON.hasAt (.array a) n = .ok true ↔ ∃ x, JSON.getAt (.array a) n = .ok x)
    ∧ (JSON.hasAt (.array a) n = .ok false
        ↔ JSON.getAt (.array a) n = .throw (.outOfRange none))
    ∧ ((∃ w, JSONObject.get o k = .throw (.outOfRange w)) ↔ o.lookup k = none)
    ∧ (∀ v, o.lookup k = some v → JSONObject.get o k = .ok v)
    ∧ (JSONObject.has o k = true ↔ ∃ v, JSONObject.get o k = .ok v)
    ∧ JSON.getKey (.object o) k = JSONObject.get o k
    ∧ JSON.hasKey (.object o) k = .ok (JSONObject.has o k) := by
  have hAt : ∀ m : Nat, (JSON.getAt (.array a) m = .throw (.outOfRange none) ↔ a.length ≤ m)
      ∧ (m < a.length → ∃ x, a[m]? = some x ∧ JSON.getAt (.array a) m = .ok x)
      ∧ (JSON.hasAt (.array a) m = .ok true ↔ ∃ x, JSON.getAt (.array a) m = .ok x)
      ∧ (JSON.hasAt (.array a) m = .ok false
          ↔ JSON.getAt (.array a) m = .throw (.outOfRange none)) := by
    intro m
    have hg : JSON.getAt (.array a) m = JSONArray.elemAt a m := by
      simp [JSON.getAt, JSON.getArray, JSON.type]
    have hh : JSON.hasAt (.array a) m = .ok (decide (a.length > m)) := by
      simp [JSON.hasAt, JSON.getArray, JSON.type]
    rw [hg, hh]
    unfold JSONArray.elemAt
    by_cases hm : a.length ≤ m
    · simp [hm]
    · have hm2 : m < a.length := by omega
      have hx : a[m]? = some a[m] := List.getElem?_eq_getElem hm2
      simp [hm, hx, hm2]
  refine ⟨?_, ?_, ?_, ?_, (hAt n).1, (hAt n).2.1, (hAt n).2.2.1, (hAt n).2.2.2, ?_, ?_,
    JSONObject.has_iff o k, ?_, ?_⟩
  · unfold JSON.getIndex
    rw [(hAt _).1]
    unfold toSizeT
    omega
  · intro h0 h1
    unfold JSON.getIndex
    have ht : toSizeT i = i.toNat := by
      unfold toSizeT
      omega
    rw [ht]
    exact (hAt _).2.1 (by omega)
  · unfold JSON.hasIndex JSON.getIndex
    by_cases h0 : 0 ≤ i
    · rw [if_pos h0]
      exact (hAt _).2.2.1
    · rw [if_neg h0]
      have hl : a.length ≤ toSizeT i := by
        unfold toSizeT
        omega
      rw [(hAt _).1.mpr hl]
      simp
  · unfold JSON.hasIndex JSON.getIndex
    by_cases h0 : 0 ≤ i
    · rw [if_pos h0]
      exact (hAt _).2.2.2
    · rw [if_neg h0]
      have hl : a.length ≤ toSizeT i := by
        unfold toSizeT
        omega
      rw [(hAt _).1.mpr hl]
      simp
  · unfold JSONObject.get
    cases o.lookup k <;> simp
  · intro v h
    simp [JSONObject.get, h]
  · simp [JSON.getKey, JSON.getObject, JSON.type]
  · simp [JSON.hasKey, JSON.getObject, JSON.type]

/-- C32, an instance: index 1 in an array of one element, index 0 as a `size_t`, and
the key `b` in the object that holds `a`. -/
theorem C32_checked_access_witness :
    ((-2147483648 : Int) ≤ 1 ∧ (1 : Int) ≤ 2147483647)
    ∧ ([JSON.null] : JSONArray).length < 9223372036854775808
    ∧ ((JSON.getIndex (.array [JSON.null]) 1 = .throw (.outOfRange none)
          ↔ ((1 : Int) < 0 ∨ (([JSON.null] : JSONArray).length : Int) ≤ 1))
      ∧ ((0 : Int) ≤ 1 → (1 : Int) < ([JSON.null] : JSONArray).length →
          ∃ x, ([JSON.null] : JSONArray)[(1 : Int).toNat]? = some x
            ∧ JSON.getIndex (.array [JSON.null]) 1 = .ok x)
      ∧ (JSON.hasIndex (.array [JSON.null]) 1 = .ok true
          ↔ ∃ x, JSON.getIndex (.array [JSON.null]) 1 = .ok x)
      ∧ (JSON.hasIndex (.array [JSON.null]) 1 = .ok false
          ↔ JSON.getIndex (.array [JSON.null]) 1 = .throw (.outOfRange none))
      ∧ (JSON.getAt (.array [JSON.null]) 0 = .throw (.outOfRange none)
          ↔ ([JSON.null] : JSONArray).length ≤ 0)
      ∧ (0 < ([JSON.null] : JSONArray).length →
          ∃ x, ([JSON.null] : JSONArray)[0]? = some x
            ∧ JSON.getAt (.array [JSON.null]) 0 = .ok x)
      ∧ (JSON.hasAt (.array [JSON.null]) 0 = .ok true
          ↔ ∃ x, JSON.getAt (.array [JSON.null]) 0 = .ok x)
      ∧ (JSON.hasAt (.array [JSON.null]) 0 = .ok false
          ↔ JSON.getAt (.array [JSON.null]) 0 = .throw (.outOfRange none))
      ∧ ((∃ w, JSONObject.get [(ascii "a", JSON.null)] (ascii "b") = .throw (.outOfRange w))
          ↔ ([(ascii "a", JSON.null)] : JSONObject).lookup (ascii "b") = none)
      ∧ (∀ v, ([(ascii "a", JSON.null)] : JSONObject).lookup (ascii "b") = some v →
          JSONObject.get [(ascii "a", JSON.null)] (ascii "b") = .ok v)
      ∧ (JSONObject.has [(ascii "a", JSON.null)] (ascii "b") = true
          ↔ ∃ v, JSONObject.get [(ascii "a", JSON.null)] (ascii "b") = .ok v)
      ∧ JSON.getKey (.object [(ascii "a", JSON.null)]) (ascii "b")
          = JSONObject.get [(ascii "a", JSON.null)] (ascii "b")
      ∧ JSON.hasKey (.object [(ascii "a", JSON.null)]) (ascii "b")
          = .ok (JSONObject.has [(ascii "a", JSON.null)] (ascii "b"))) :=
  ⟨by decide, by decide,
    C32_checked_access [JSON.null] 1 [(ascii "a", JSON.null)] (ascii "b") 0 (by decide)
      (by decide)⟩

/-- C33: the function `JSONObject::equal_range` calls itself, so that however many
calls are followed it has not returned; the pair of `lower_bound(k)` and
`upper_bound(k)`, which `std::map::equal_range` returns, is not its result. -/
theorem C33_equal_range_does_not_return (fuel : Nat) (o : JSONObject) (k : List Nat) :
    JSONObject.equal_range fuel o k = .outOfFuel
    ∧ JSONObject.equal_range fuel o k
        ≠ .ok (JSONObject.lower_bound o k, JSONObject.upper_bound o k) := by
  have h : JSONObject.equal_range fuel o k = .outOfFuel := by
    induction fuel with
    | zero => rfl
    | succ m ih => exact ih
  rw [h]
  exact ⟨rfl, fun e => by cases e⟩

/-- C34: the round trip from a value.  For a value whose objects are maps (entries
in ascending order of key, as in every `JSONObject`), whose Strings and keys hold only
bytes 0x01 to 0x7F and whose Numbers are integers of magnitude below ten to the
fifteenth, the buffered decoder, in either locale, accepts the text `json_encode`
returns and gives the value back: the same value, which `operator==` finds equal to
itself.  Hence two such values with the same encoding are the same. -/
theorem C34_value_round_trip (loc : Locale) (v w : JSON) (hv : v.wf) (hp : v.plain)
    (hw : w.wf) (hq : w.plain) :
    json_decode loc (json_encode v) = .ok v
    ∧ JSON.eq v v = true
    ∧ (json_encode v = json_encode w → v = w) := by
  refine ⟨json_decode_encode_plain loc v hv hp, JSON.eq_self v (JSON.plain_hasNaN v hp), ?_⟩
  intro h
  have h1 := json_decode_encode_plain loc v hv hp
  have h2 := json_decode_encode_plain loc w hw hq
  rw [h, h2] at h1
  simp only [Result.ok.injEq] at h1
  exact h1.symm

/-- C34, an instance: the object that holds the array of -42 and the String `x`
under the key `a`, and the empty array. -/
theorem C34_value_round_trip_witness :
    (JSON.object [(ascii "a", .array [.number (Double.ofInt true 42), .string (ascii "x")])]).wf
    ∧ (JSON.object
        [(ascii "a", .array [.number (Double.ofInt true 42), .string (ascii "x")])]).plain
    ∧ (JSON.array []).wf
    ∧ (JSON.array []).plain
    ∧ (json_decode .C (json_encode
          (.object [(ascii "a", .array [.number (Double.ofInt true 42), .string (ascii "x")])]))
        = .ok (.object
          [(ascii "a", .array [.number (Double.ofInt true 42), .string (ascii "x")])])
      ∧ JSON.eq
          (.object [(ascii "a", .array [.number (Double.ofInt true 42), .string (ascii "x")])])
          (.object [(ascii "a", .array [.number (Double.ofInt true 42), .string (ascii "x")])])
        = true
      ∧ (json_encode
            (.object [(ascii "a", .array [.number (Double.ofInt true 42), .string (ascii "x")])])
          = json_encode (.array []) →
        JSON.object [(ascii "a", .array [.number (Double.ofInt true 42), .string (ascii "x")])]
          = JSON.array [])) :=
  have hw : (JSON.object
      [(ascii "a", .array [.number (Double.ofInt true 42), .string (ascii "x")])]).wf := by
    simp [JSON.wf, JSON.wfMember, JSON.wfArray, JSONObject.sorted]
  have hp : (JSON.object
      [(ascii "a", .array [.number (Double.ofInt true 42), .string (ascii "x")])]).plain := by
    simp only [JSON.plain, JSON.plainMember, JSON.plainArray, and_true]
    exact ⟨by unfold plainString; decide, ⟨42, by decide, rfl⟩, by unfold plainString; decide⟩
  have hw2 : (JSON.array []).wf := by simp [JSON.wf, JSON.wfArray]
  have hp2 : (JSON.array []).plain := by simp [JSON.plain, JSON.plainArray]
  ⟨hw, hp, hw2, hp2, C34_value_round_trip .C _ _ hw hp hw2 hp2⟩

/-- C35: where the buffered decoder reads outside the buffer.  Every position at
which the loop of a call, at any nesting depth, tests `pos` is at most the length of the
buffer.  The decoder reads at the end of the buffer or beyond it exactly when it reaches,
right after a backslash, a `u` followed by three hexadecimal digits and the end of the
buffer: the test made before the digits are read lets the fourth read through at
`in.end()`.  This happens for the 6-character text `"\u123`, at its `u`. -/
theorem C35_reads_outside_after_three_hex_digits (loc : Locale) (inp : List Nat) :
    (∀ pos l, Reaches loc inp pos l → pos ≤ inp.length)
    ∧ (json_decode loc inp = .undefined
        ↔ ∃ pos l, Reaches loc inp pos l ∧ endsInHex inp pos l)
    ∧ (∀ pos l, Reaches loc inp pos l → endsInHex inp pos l →
        pos + 4 = inp.length ∧ hexLoop inp 4 pos 0 0 = none)
    ∧ (Reaches loc (ascii "\"\\u123") 2 ⟨.s14, 0, [], [], [], .null⟩
        ∧ endsInHex (ascii "\"\\u123") 2 ⟨.s14, 0, [], [], [], .null⟩
        ∧ (ascii "\"\\u123").length = 6) := by
  refine ⟨fun pos l h => h.le, json_decode_undefined_iff loc inp, ?_, ?_, ?_, rfl⟩
  · rintro pos l hr ⟨hs, a, b, d, hdrop, ha, hb, hd⟩
    have hlen := length_of_drop hdrop
    have hp := hr.le
    simp only [List.length_cons, List.length_nil] at hlen
    have h1 : inp[pos + 1]? = some a := by simpa using at_drop hdrop 1
    have h2 : inp[pos + 1 + 1]? = some b := by simpa using at_drop hdrop 2
    have h3 : inp[pos + 1 + 1 + 1]? = some d := by simpa using at_drop hdrop 3
    have h4 : inp[pos + 1 + 1 + 1 + 1]? = none := by simpa using at_drop hdrop 4
    obtain ⟨va, hva⟩ := Option.isSome_iff_exists.mp ha
    obtain ⟨vb, hvb⟩ := Option.isSome_iff_exists.mp hb
    obtain ⟨vd, hvd⟩ := Option.isSome_iff_exists.mp hd
    refine ⟨by omega, ?_⟩
    simp only [hexLoop, h1, h2, h3, h4, hva, hvb, hvd]
  · exact @Reaches.pass loc (ascii "\"\\u123") 1 92 1 ⟨.s12, 0, [], [], [], .null⟩ _
      (@Reaches.pass loc (ascii "\"\\u123") 0 34 0 (Locals.init 0) _ Reaches.start
        (by decide) (by cases loc <;> decide!))
      (by decide) (by cases loc <;> decide!)
  · exact ⟨rfl, 49, 50, 51, by decide, by decide, by decide, by decide⟩

/-- C36: how the top-level call of the buffered decoder ends.  The fuel the call
supplies to the loop always suffices, and so does the fuel of every nested call: the
loop ends.  The call returns a value, throws a syntax error, or reads outside the buffer,
and it does the last only when it reaches, right after a backslash, a `u` followed by
three hexadecimal digits and the end of the buffer; the text `["\u00e` is such an input.
A loop pass that ends with `break` at the position `p` has `pos ≤ p`, so that the loop
goes on at `p + 1`, after `pos` and inside the buffer or at its end; a nested call
entered at `pos` returns a position after `pos`. -/
theorem C36_ends_with_value_or_syntax_error_or_reads_outside (loc : Locale)
    (inp : List Nat) :
    json_decode loc inp ≠ .outOfFuel
    ∧ (∀ pos, json_decode_at loc inp pos ≠ .outOfFuel)
    ∧ ((∃ v, json_decode loc inp = .ok v)
        ∨ (∃ off msg, json_decode loc inp = .throw (.syntaxAt off msg))
        ∨ json_decode loc inp = .undefined)
    ∧ ((¬ ∃ pos l, Reaches loc inp pos l ∧ endsInHex inp pos l) →
        (∃ v, json_decode loc inp = .ok v)
          ∨ (∃ off msg, json_decode loc inp = .throw (.syntaxAt off msg)))
    ∧ (∀ pos c l p l2, Reaches loc inp pos l → inp[pos]? = some c →
        step loc inp (json_decode_at loc inp) pos c l = .next p l2 →
        pos < p + 1 ∧ p + 1 ≤ inp.length)
    ∧ (∀ pos q v, json_decode_at loc inp pos = .ok (q, v) → pos < q ∧ q ≤ inp.length)
    ∧ json_decode loc (ascii "[\"\\u00e") = .undefined := by
  have hcases : (∃ v, json_decode loc inp = .ok v)
      ∨ (∃ off msg, json_decode loc inp = .throw (.syntaxAt off msg))
      ∨ json_decode loc inp = .undefined := by
    cases h : json_decode loc inp with
    | ok v => exact Or.inl ⟨v, rfl⟩
    | throw e =>
      obtain ⟨off, msg, he⟩ := json_decode_throw_syntax h
      exact Or.inr (Or.inl ⟨off, msg, by rw [he]⟩)
    | undefined => exact Or.inr (Or.inr rfl)
    | outOfFuel => exact absurd h (json_decode_ne_outOfFuel loc inp)
  refine ⟨json_decode_ne_outOfFuel loc inp, json_decode_at_ne_outOfFuel loc inp, hcases, ?_,
    ?_, ?_, by cases loc <;> decide!⟩
  · intro hno
    rcases hcases with h | h | h
    · exact Or.inl h
    · exact Or.inr h
    · exact absurd ((json_decode_undefined_iff loc inp).mp h) hno
  · intro pos c l p l2 hr hc hs
    have hpos := getElem?_lt hc
    have hb := step_bound loc inp (json_decode_at loc inp) pos c l hpos (fun q v hq => by
      have := decodeLoop_bound loc inp _ pos _ q v hq
      exact ⟨this.2.2 rfl, this.2.1⟩)
    rw [hs] at hb
    exact ⟨by have := hb.1; omega, hb.2⟩
  · intro pos q v hq
    have := decodeLoop_bound loc inp _ pos _ q v hq
    exact ⟨this.2.2 rfl, this.2.1⟩

/-- C37, the claim as stated fails: the arrays `[1]` and `["a"]` are of the same type,
and `[1] < ["a"]` throws `json_type_error`: the comparison of the vectors compares the
elements, a Number and a String. -/
theorem C37_array_comparison_throws :
    (JSON.array [.number (Double.ofNat 1)]).type = (JSON.array [.string (ascii "a")]).type
    ∧ JSON.lt (.array [.number (Double.ofNat 1)]) (.array [.string (ascii "a")])
        = .throw (.typeError "incompatible JSONBase types in comparison")
    ∧ JSON.lt (.object [(ascii "k", .null)]) (.object [(ascii "k", .boolean true)])
        = .throw (.typeError "incompatible JSONBase types in comparison") := by
  decide!

/-- C37, amended: the comparison `a < b` returns a boolean or throws the
`json_type_error` for incompatible types, and does nothing else.  It throws when `a` and
`b` are of different types.  It returns a boolean when they are of the same type and
neither arrays nor objects, and when they are arrays or objects alike in their elements:
at equal positions the elements, or member values, are of the same type, and alike in
turn.  It throws when the first elements of two arrays, or the values of the first
members of two objects under equal keys, are of different types. -/
theorem C37_ordering_within_one_kind (a b : JSON) :
    ltOutcome (JSON.lt a b)
    ∧ (a.type ≠ b.type →
        JSON.lt a b = .throw (.typeError "incompatible JSONBase types in comparison"))
    ∧ (a.type = b.type → a.type ≠ .JSON_ARRAY → a.type ≠ .JSON_OBJECT →
        returnsBool (JSON.lt a b))
    ∧ (JSON.alike a b = true → returnsBool (JSON.lt a b))
    ∧ (∀ x y xs ys, a = .array (x :: xs) → b = .array (y :: ys) → x.type ≠ y.type →
        JSON.lt a b = .throw (.typeError "incompatible JSONBase types in comparison"))
    ∧ (∀ k x y xs ys, a = .object ((k, x) :: xs) → b = .object ((k, y) :: ys) →
        x.type ≠ y.type →
        JSON.lt a b = .throw (.typeError "incompatible JSONBase types in comparison")) := by
  refine ⟨(JSON.lt_outcome a b).1, JSON.lt_of_type_ne, ?_, fun h => (JSON.lt_alike a b h).1,
    ?_, ?_⟩
  · intro h h1 h2
    apply (JSON.lt_alike a b _).1
    cases a <;> cases b <;>
      first | rfl | exact absurd rfl h1 | exact absurd rfl h2 | simp [JSON.type] at h
  · rintro x y xs ys rfl rfl h
    simp only [JSON.lt, JSON.ltArray, JSON.lt_of_type_ne h]
  · rintro k x y xs ys rfl rfl h
    simp only [JSON.lt, JSON.ltObject, JSON.lt_of_type_ne h, string_lt_irrefl]
    simp

/-- C38, the claim as stated fails: on a call stack with room for three nested calls of
the decoder the text `[[[[[]]]]]` is not accepted, the stack overflows; and whatever
room the stack has, it overflows for a text with two pairs of brackets more. -/
theorem C38_deep_nesting_overflows_the_stack :
    json_decode_stack .C 3 (nestText 5) = none ∧
    json_decode_stack .UTF8 3 (nestText 5) = none ∧
    nestText 5 = ascii "[[[[[]]]]]" ∧
    (∀ loc frames, json_decode_stack loc frames (nestText (frames + 2)) = none) := by
  refine ⟨by decide!, by decide!, by decide, fun loc frames => ?_⟩
  rw [json_decode_stack_nest, if_neg (by omega)]

/-- C38, amended: the decoder has no limit on the nesting depth other than the call stack.
For every `n`, the text of `n + 1` characters `[` followed by `n + 1` characters `]` needs
`n` nested calls, one inside the other: on a stack with room for `frames` nested calls it
is decoded, in either locale, to `n + 1` arrays nested in one another, the innermost
empty, when `n ≤ frames`, and the stack overflows otherwise.  `json_encode` of that value
is the text.  For every buffer, what the decoder returns on a stack is what `json_decode`
returns, and a stack with room for as many nested calls as the buffer has characters
does not overflow. -/
theorem C38_nesting_depth_is_stack_depth (loc : Locale) (n frames : Nat) :
    json_decode_stack loc frames (nestText (n + 1))
        = (if n ≤ frames then some (.ok (nest n)) else none)
    ∧ json_decode loc (nestText (n + 1)) = .ok (nest n)
    ∧ json_encode (nest n) = nestText (n + 1)
    ∧ (∀ inp r, json_decode_stack loc frames inp = some r → json_decode loc inp = r)
    ∧ (∀ inp : List Nat, inp.length ≤ frames →
        json_decode_stack loc frames inp = some (json_decode loc inp)) := by
  refine ⟨json_decode_stack_nest loc n frames, ?_, json_encode_nest n,
    fun inp r h => json_decode_stack_eq loc frames inp r h,
    fun inp h => json_decode_stack_enough loc frames inp h⟩
  apply json_decode_stack_eq loc n
  rw [json_decode_stack_nest, if_pos (Nat.le_refl n)]

end Stajson
